import Mathlib

/-! Extremely Random Trees: a shallow embedding of `nextratrees.hpp` and
`ndectree.hpp`, and a verification of the split scorer and the tree builder.

Conventions of the embedding.

* `attr_t` (C++ `float`) is an arbitrary linearly ordered type `α` with a zero
  (the literal `0.0` that initialises `bestsplit`).  Only `<`, `>` and `>=` on
  attribute values are used by the code.
* `double` is an arbitrary type `R` carrying the operations the code uses
  (`+ - * /`, unary minus, conversion from `size_t`, `<`), and `log2` is a
  parameter.  Theorems about exact real arithmetic instantiate `R := ℝ` and
  `log2 := Real.logb 2`.
* `size_t` values are natural numbers (no counter in the code can wrap for
  vectors that fit in memory).  The conversion `label_t label = labels[i]` in
  `score` is the identity on label indices below `numclasses`, the only ones
  for which the subscript `numclass[label]` is in range (`numclass` is a stack
  array, so `numclasses` is far below `2^31`).
* `std::vector` is `List`; an out-of-range subscript, a read of an
  uninitialised array cell and `% 0` are undefined behaviour in C++ and make
  the embedded function return `none`.
* The global generator `twister` is an explicit state `g : G` threaded through
  the code, with the two distributions of the program as operations on it.
* Recursion of `build_an_extra_tree` is bounded by a `fuel` argument; `none`
  at fuel `0`.
-/

namespace ndectree

/-- The tagged union `dectree_t` of `ndectree.hpp`: a leaf holding `classfreqs`,
or a branch holding `attrindex`, `splitvalue`, `left`, `right`. -/
inductive dectree_t (α : Type) where
  | leaf (classfreqs : List Nat) : dectree_t α
  | branch (attrindex : Nat) (splitvalue : α) (left right : dectree_t α) : dectree_t α
  deriving Repr, DecidableEq

/-- The struct `forest_t`: the trees and the index-to-label table. -/
structure forest_t (α : Type) where
  trees : List (dectree_t α)
  indextolabel : List Int
  deriving Repr, DecidableEq

namespace dectree_t

/-- Number of branch nodes on the longest root-to-leaf path. -/
def depth {α : Type} : dectree_t α → Nat
  | leaf _ => 0
  | branch _ _ l r => Nat.max (depth l) (depth r) + 1

/-- The histogram stored at the leaf found by following `path` from the root
(`false` = `left`, `true` = `right`); `none` when `path` does not end exactly
at a leaf. -/
def leaf_at {α : Type} : dectree_t α → List Bool → Option (List Nat)
  | leaf classfreqs, [] => some classfreqs
  | leaf _, _ :: _ => none
  | branch _ _ _ _, [] => none
  | branch _ _ l _, false :: path => leaf_at l path
  | branch _ _ _ r, true :: path => leaf_at r path

/-- The walk of `forest_t::classify` / `classify_from_tree`:
`while( !pt->isleaf ) { a = featurevector[ pt->attrindex ];
pt = a < pt->splitvalue ? pt->left : pt->right; }`.
Returns the path taken and the `classfreqs` of the leaf reached. -/
def walk {α : Type} [LinearOrder α] :
    dectree_t α → List α → Option (List Bool × List Nat)
  | leaf classfreqs, _ => some ([], classfreqs)
  | branch attrindex splitvalue l r, featurevector =>
    match featurevector[attrindex]? with
    | none => none
    | some a =>
      if a < splitvalue then
        (walk l featurevector).map (fun pc => (false :: pc.1, pc.2))
      else
        (walk r featurevector).map (fun pc => (true :: pc.1, pc.2))

end dectree_t

end ndectree

namespace nextratrees

open ndectree

/-- The struct `exampleset_t`: the column-form example set. -/
structure exampleset_t (α : Type) where
  attrnames : List String
  attrs : List (List α)
  labelvalues : List Int
  labels : List Nat
  numclasses : Nat
  deriving Repr, DecidableEq

/-- The generator `twister` with the two distributions the program draws from:
`urand_sizet( twister )` and `uniform_real_distribution< attr_t >( min, max )( twister )`.
Each returns the value drawn and the advanced generator state. -/
structure twister_t (G α : Type) where
  urand_sizet : G → Nat × G
  urand : α → α → G → α × G

/-- The feature vector of example `i` of a column-form set:
`featurevector[j] = attrs[j][i]`. -/
def exampleset_t.featurevector {α : Type} [Zero α] (exampleset : exampleset_t α)
    (i : Nat) : List α :=
  exampleset.attrs.map (fun attr => attr.getD i 0)

section score

variable {α : Type} [LinearOrder α]
variable {R : Type} [NatCast R] [Zero R] [One R] [Add R] [Sub R] [Mul R] [Div R] [Neg R]
  [LT R] [DecidableRel (fun a b : R => a < b)]

/-- One cell pair `c[isright]++` of `numsplit` / `numclass[label]`. -/
def incr (c : Nat × Nat) (isright : Bool) : Nat × Nat :=
  if isright then (c.1, c.2 + 1) else (c.1 + 1, c.2)

/-- Body of the counting loop of `score`:
`isright = attr[i] >= split; label = labels[i]; numsplit[isright]++;
numclass[label][isright]++`.  The state is `(numsplit, numclass)`.  A label
index outside the table (`label >= numclasses`) is an out-of-range subscript. -/
def score_count_step (attr : List α) (labels : List Nat) (split : α)
    (st : (Nat × Nat) × List (Nat × Nat)) (i : Nat) :
    Option ((Nat × Nat) × List (Nat × Nat)) :=
  match attr[i]?, labels[i]? with
  | some a, some label =>
    match st.2[label]? with
    | some ci =>
      some (incr st.1 (decide (a ≥ split)), st.2.set label (incr ci (decide (a ≥ split))))
    | none => none
  | _, _ => none

/-- The counting loop of `score` over `indices`, from all-zero tables. -/
def score_count (attr : List α) (labels : List Nat) (numclasses : Nat)
    (indices : List Nat) (split : α) : Option ((Nat × Nat) × List (Nat × Nat)) :=
  indices.foldlM (score_count_step attr labels split)
    ((0, 0), List.replicate numclasses (0, 0))

/-- Body of the loop `for( auto &ci : numclass )` of `score`; the state is
`(mutualinf, classent)`. -/
def score_class_step (log2 : R → R) (numsplit : Nat × Nat) (rsize : R)
    (st : R × R) (ci : Nat × Nat) : R × R :=
  if ci.1 ≠ 0 ∨ ci.2 ≠ 0 then
    let p_ci : R := ((ci.1 + ci.2 : Nat) : R) * rsize
    let classent := st.2 - p_ci * log2 p_ci
    let mutualinf1 :=
      if ci.1 ≠ 0 then
        st.1 - ((ci.1 : R) * rsize) * log2 (p_ci / ((ci.1 : R) / (numsplit.1 : R)))
      else st.1
    let mutualinf2 :=
      if ci.2 ≠ 0 then
        mutualinf1 - ((ci.2 : R) * rsize) * log2 (p_ci / ((ci.2 : R) / (numsplit.2 : R)))
      else mutualinf1
    (mutualinf2, classent)
  else st

/-- The block computing `splitent` in `score`. -/
def score_splitent (log2 : R → R) (numsplit : Nat × Nat) (rsize : R) : R :=
  let p_left : R := (numsplit.1 : R) * rsize
  let p_right : R := (numsplit.2 : R) * rsize
  let splitent : R := (-p_left) * log2 p_left - p_right * log2 p_right
  splitent

/-- The part of `score` after the counting loop, given the tables
`numsplit`, `numclass` and `indices.size()`. -/
def score_of_counts (log2 : R → R) (numsplit : Nat × Nat) (numclass : List (Nat × Nat))
    (size : Nat) : R :=
  if numsplit.1 = 0 ∨ numsplit.2 = 0 then 0
  else
    let rsize : R := 1 / (size : R)
    let mc := numclass.foldl (score_class_step log2 numsplit rsize) (0, 0)
    let splitent := score_splitent log2 numsplit rsize
    (2 : R) * mc.1 / (splitent + mc.2)

/-- The function `score` of `nextratrees.hpp`. -/
def score (log2 : R → R) (attr : List α) (labels : List Nat) (numclasses : Nat)
    (indices : List Nat) (split : α) : Option R :=
  (score_count attr labels numclasses indices split).map
    (fun cnt => score_of_counts log2 cnt.1 cnt.2 indices.length)

/-- Whether example `i` falls on the side `isright` of the split
(`attr[i] >= split` is the right side); `false` when `i` is out of range. -/
def on_side (attr : List α) (split : α) (isright : Bool) (i : Nat) : Bool :=
  match attr[i]? with
  | some a => decide (a ≥ split) == isright
  | none => false

/-- Whether example `i` has label index `c`. -/
def has_label (labels : List Nat) (c : Nat) (i : Nat) : Bool :=
  decide (labels[i]? = some c)

/-- The count `nL` (`isright = false`) or `nR` (`isright = true`): the number of
entries of `indices` on that side of the split. -/
def nside (attr : List α) (indices : List Nat) (split : α) (isright : Bool) : Nat :=
  indices.countP (on_side attr split isright)

/-- The count `nLc` or `nRc`: the number of entries of `indices` with label
index `c` on the given side of the split. -/
def nclass_side (attr : List α) (labels : List Nat) (indices : List Nat) (split : α)
    (c : Nat) (isright : Bool) : Nat :=
  indices.countP (fun i => has_label labels c i && on_side attr split isright i)

/-- The amount subtracted from `classent` by one pass of the loop over
`numclass`: `p_ci * log2( p_ci )`. -/
def classent_term (log2 : R → R) (rsize : R) (ci : Nat × Nat) : R :=
  ((ci.1 + ci.2 : Nat) : R) * rsize * log2 (((ci.1 + ci.2 : Nat) : R) * rsize)

/-- The amount subtracted from `mutualinf` by one pass of the loop over
`numclass` for one side (`nsc` of the `ns` examples on that side have the
class): `p_ci_and_side * log2( p_ci / p_ci_given_side )`, nothing when
`nsc = 0`. -/
def mutualinf_term (log2 : R → R) (rsize : R) (ci : Nat × Nat) (nsc ns : Nat) : R :=
  if nsc ≠ 0 then
    ((nsc : R) * rsize) * log2 ((((ci.1 + ci.2 : Nat) : R) * rsize) / ((nsc : R) / (ns : R)))
  else 0

end score

section spec_score

/-! The score as the specification words it (section 4.C).
These definitions follow the text of the specification, not the code; they are
compared with `score` in the theorems below. -/

variable {α : Type} [LinearOrder α]
variable {R : Type} [NatCast R] [Zero R] [One R] [Add R] [Sub R] [Mul R] [Div R] [Neg R]

/-- Specification: `nL = |{i ∈ I : attr[i] < s}|`. -/
def spec_nL (attr : List α) (indices : List Nat) (s : α) : Nat :=
  indices.countP (fun i =>
    match attr[i]? with
    | some a => decide (a < s)
    | none => false)

/-- Specification: `nR = |I| − nL`. -/
def spec_nR (attr : List α) (indices : List Nat) (s : α) : Nat :=
  indices.length - spec_nL attr indices s

/-- Specification: `nLc`, the count of class `c` on the left side. -/
def spec_nLc (attr : List α) (labels : List Nat) (indices : List Nat) (s : α) (c : Nat) : Nat :=
  indices.countP (fun i =>
    decide (labels[i]? = some c) &&
      match attr[i]? with
      | some a => decide (a < s)
      | none => false)

/-- Specification: `nRc`, the count of class `c` on the right side. -/
def spec_nRc (attr : List α) (labels : List Nat) (indices : List Nat) (s : α) (c : Nat) : Nat :=
  indices.countP (fun i =>
    decide (labels[i]? = some c) &&
      match attr[i]? with
      | some a => !decide (a < s)
      | none => false)

/-- Specification: class entropy `H_C = −Σ_c (nc/n)·log2(nc/n)`, summed over
the classes with `nc > 0`, where `nc = nLc + nRc` and `n = |I|`. -/
def spec_class_entropy (log2 : R → R) (attr : List α) (labels : List Nat) (numclasses : Nat)
    (indices : List Nat) (s : α) : R :=
  -((List.range numclasses).map (fun c =>
      let nc := spec_nLc attr labels indices s c + spec_nRc attr labels indices s c
      if nc > 0 then ((nc : R) / (indices.length : R)) * log2 ((nc : R) / (indices.length : R))
      else 0)).sum

/-- Specification: split entropy `H_S = −(nL/n)log2(nL/n) − (nR/n)log2(nR/n)`. -/
def spec_split_entropy (log2 : R → R) (attr : List α) (indices : List Nat) (s : α) : R :=
  -(((spec_nL attr indices s : R) / (indices.length : R)) *
      log2 ((spec_nL attr indices s : R) / (indices.length : R))) -
    ((spec_nR attr indices s : R) / (indices.length : R)) *
      log2 ((spec_nR attr indices s : R) / (indices.length : R))

/-- Specification: one term `(nsc/n)·log2( (nsc/n) / ( (nc/n)·(ns/n) ) )` of the
mutual information, present only when `nsc > 0`. -/
def spec_mi_term (log2 : R → R) (nsc nc ns n : Nat) : R :=
  if nsc > 0 then
    ((nsc : R) / (n : R)) *
      log2 (((nsc : R) / (n : R)) / (((nc : R) / (n : R)) * ((ns : R) / (n : R))))
  else 0

/-- Specification: mutual information `I(C;S)`, the sum of `spec_mi_term` over
the classes and the two sides. -/
def spec_mutual_information (log2 : R → R) (attr : List α) (labels : List Nat)
    (numclasses : Nat) (indices : List Nat) (s : α) : R :=
  ((List.range numclasses).map (fun c =>
      let nc := spec_nLc attr labels indices s c + spec_nRc attr labels indices s c
      spec_mi_term log2 (spec_nLc attr labels indices s c) nc (spec_nL attr indices s)
          indices.length +
        spec_mi_term log2 (spec_nRc attr labels indices s c) nc (spec_nR attr indices s)
          indices.length)).sum

/-- Renaming of label indices by a permutation `π` of the class indices
`[0, K)`; indices outside `[0, K)` are left alone. -/
def relabel {K : Nat} (π : Equiv.Perm (Fin K)) (l : Nat) : Nat :=
  if h : l < K then (π ⟨l, h⟩).val else l

end spec_score

section build

variable {α : Type} [LinearOrder α] [Zero α]
variable {R : Type} [NatCast R] [Zero R] [One R] [Add R] [Sub R] [Mul R] [Div R] [Neg R]
  [LT R] [DecidableRel (fun a b : R => a < b)]
variable {G : Type}

/-- Body of the loop "count class frequencies": `ci = labels[ i ];
classfreqs[ ci ]++`. -/
def count_classfreqs_step (labels : List Nat) (classfreqs : List Nat) (i : Nat) :
    Option (List Nat) :=
  match labels[i]? with
  | none => none
  | some ci =>
    match classfreqs[ci]? with
    | none => none
    | some f => some (classfreqs.set ci (f + 1))

/-- The loop "count class frequencies" of `build_an_extra_tree`:
`classfreqs( numclasses, 0 ); for( i : indices ) classfreqs[ labels[ i ] ]++`. -/
def count_classfreqs (exampleset : exampleset_t α) (indices : List Nat) : Option (List Nat) :=
  indices.foldlM (count_classfreqs_step exampleset.labels)
    (List.replicate exampleset.numclasses 0)

/-- The loop `for( auto &c : classfreqs ) numclassesnonzero += c != 0`. -/
def numclassesnonzero (classfreqs : List Nat) : Nat :=
  classfreqs.foldl (fun n c => n + (if c ≠ 0 then 1 else 0)) 0

/-- Body of the inner loop over `i = 1 ..`: `a = attr[ indices[i] ];
if( a < min ) min = a; else if( a > max ) max = a`.  The state is `(min, max)`. -/
def attr_minmax_step (attr : List α) (mm : α × α) (i : Nat) : Option (α × α) :=
  match attr[i]? with
  | none => none
  | some a => some (if a < mm.1 then (a, mm.2) else if a > mm.2 then (mm.1, a) else mm)

/-- The computation of `min` and `max` of one attribute column over `indices`:
`min = max = attr[ indices[0] ]`, then the inner loop over the other entries. -/
def attr_minmax (attr : List α) (indices : List Nat) : Option (α × α) :=
  match indices with
  | [] => none
  | i0 :: rest =>
    match attr[i0]? with
    | none => none
    | some a0 => rest.foldlM (attr_minmax_step attr) (a0, a0)

/-- Body of the loop `for( auto &ai : attrindices )`: the state is
`(mins, maxs, attrcandidates)`. -/
def collect_candidates_step (exampleset : exampleset_t α) (indices : List Nat)
    (st : List (Option α) × List (Option α) × List Nat) (ai : Nat) :
    Option (List (Option α) × List (Option α) × List Nat) :=
  match exampleset.attrs[ai]? with
  | none => none
  | some attr =>
    match attr_minmax attr indices with
    | none => none
    | some mm =>
      some (st.1.set ai (some mm.1), st.2.1.set ai (some mm.2),
        if mm.1 < mm.2 then st.2.2 ++ [ai] else st.2.2)

/-- The loop over `attrindices` filling the arrays `mins`, `maxs` (one cell per
column of `exampleset.attrs`, uninitialised = `none`) and collecting
`attrcandidates`. -/
def collect_candidates (exampleset : exampleset_t α) (attrindices indices : List Nat) :
    Option (List (Option α) × List (Option α) × List Nat) :=
  attrindices.foldlM (collect_candidates_step exampleset indices)
    (List.replicate exampleset.attrs.length none,
      List.replicate exampleset.attrs.length none, [])

/-- The swap-pop loop `for( k = 0; k < numattr; k++ )`:
`target = urand_sizet( twister ) % attrcandidates.size();
attrs.push_back( attrcandidates[ target ] );
swap( attrcandidates[ target ], attrcandidates.back() ); attrcandidates.pop_back()`. -/
def pick_loop (rng : twister_t G α) :
    Nat → List Nat → List Nat → G → Option (List Nat × G)
  | 0, _, attrs, g => some (attrs, g)
  | k + 1, attrcandidates, attrs, g =>
    if attrcandidates.length = 0 then none
    else
      let target := (rng.urand_sizet g).1 % attrcandidates.length
      match attrcandidates[target]?, attrcandidates.getLast? with
      | some c, some back =>
        pick_loop rng k
          (((attrcandidates.set target back).set (attrcandidates.length - 1) c).dropLast)
          (attrs ++ [c]) (rng.urand_sizet g).2
      | _, _ => none

/-- The block "randomly pick (without replacement) numattr attributes". -/
def pick_attrs (rng : twister_t G α) (attrcandidates : List Nat) (numattr : Nat) (g : G) :
    Option (List Nat × G) :=
  if attrcandidates.length = 1 ∨ attrcandidates.length ≤ numattr then some (attrcandidates, g)
  else pick_loop rng numattr attrcandidates [] g

/-- Body of the loop `for( auto &ai : attrs )` choosing the best split; the
state is `((bestattr, bestsplit, bestscore), twister)`. -/
def choose_split_step (log2 : R → R) (rng : twister_t G α) (exampleset : exampleset_t α)
    (indices : List Nat) (mins maxs : List (Option α))
    (st : (Nat × α × R) × G) (ai : Nat) : Option ((Nat × α × R) × G) :=
  match mins[ai]?, maxs[ai]?, exampleset.attrs[ai]? with
  | some (some min), some (some max), some attr =>
    let split := (rng.urand min max st.2).1
    match score log2 attr exampleset.labels exampleset.numclasses indices split with
    | none => none
    | some scr =>
      if scr > st.1.2.2 then some ((ai, split, scr), (rng.urand min max st.2).2)
      else some (st.1, (rng.urand min max st.2).2)
  | _, _, _ => none

/-- The block "randomly split among selected attributes, choose that split with
the highest score": `bestattr = attrs[0]; bestsplit = 0.0; bestscore = -1.0`,
then the loop. -/
def choose_split (log2 : R → R) (rng : twister_t G α) (exampleset : exampleset_t α)
    (indices : List Nat) (mins maxs : List (Option α)) (attrs : List Nat) (g : G) :
    Option ((Nat × α × R) × G) :=
  match attrs[0]? with
  | none => none
  | some a0 =>
    attrs.foldlM (choose_split_step log2 rng exampleset indices mins maxs)
      ((a0, 0, -1), g)

/-- Body of the loop "split indices in two":
`if( attr[ i ] < bestsplit ) leftindices.push_back( i ); else rightindices.push_back( i )`. -/
def split_indices_step (attr : List α) (bestsplit : α) (lr : List Nat × List Nat) (i : Nat) :
    Option (List Nat × List Nat) :=
  match attr[i]? with
  | none => none
  | some a => some (if a < bestsplit then (lr.1 ++ [i], lr.2) else (lr.1, lr.2 ++ [i]))

/-- The block "split indices in two" for the column `attr` of `bestattr`. -/
def split_indices (attr : List α) (bestsplit : α) (indices : List Nat) :
    Option (List Nat × List Nat) :=
  indices.foldlM (split_indices_step attr bestsplit) ([], [])

/-- The function `build_an_extra_tree` of `nextratrees.hpp`, with the generator
state threaded through (left subtree first) and the recursion bounded by
`fuel`. -/
def build_an_extra_tree (log2 : R → R) (rng : twister_t G α) :
    Nat → exampleset_t α → List Nat → List Nat → Nat → Nat → G → Option (dectree_t α × G)
  | 0, _, _, _, _, _, _ => none
  | fuel + 1, exampleset, attrindices, indices, nmin, numattr, g =>
    match count_classfreqs exampleset indices with
    | none => none
    | some classfreqs =>
      if indices.length < nmin then some (dectree_t.leaf classfreqs, g)
      else if numclassesnonzero classfreqs = 1 then some (dectree_t.leaf classfreqs, g)
      else
        match collect_candidates exampleset attrindices indices with
        | none => none
        | some (mins, maxs, attrcandidates) =>
          if attrcandidates.length < 1 then some (dectree_t.leaf classfreqs, g)
          else
            match pick_attrs rng attrcandidates numattr g with
            | none => none
            | some (attrs, g1) =>
              match choose_split log2 rng exampleset indices mins maxs attrs g1 with
              | none => none
              | some ((bestattr, bestsplit, _), g2) =>
                match exampleset.attrs[bestattr]? with
                | none => none
                | some attr =>
                  match split_indices attr bestsplit indices with
                  | none => none
                  | some (leftindices, rightindices) =>
                    match build_an_extra_tree log2 rng fuel exampleset attrs leftindices
                        nmin numattr g2 with
                    | none => none
                    | some (left, g3) =>
                      match build_an_extra_tree log2 rng fuel exampleset attrs rightindices
                          nmin numattr g3 with
                      | none => none
                      | some (right, g4) =>
                        some (dectree_t.branch bestattr bestsplit left right, g4)

/-- The K-bucket histogram of the label indices at `indices`: bucket `c` is the
number of entries `i` of `indices` with `labels[i] == c`. -/
def label_histogram (exampleset : exampleset_t α) (indices : List Nat) : List Nat :=
  (List.range exampleset.numclasses).map
    (fun c => indices.countP (has_label exampleset.labels c))

/-- Whether the classifier's walk through `t` with the feature vector of
example `i` ends at the leaf at `path`. -/
def routed_to (exampleset : exampleset_t α) (t : dectree_t α) (path : List Bool)
    (i : Nat) : Bool :=
  decide ((dectree_t.walk t (exampleset.featurevector i)).map Prod.fst = some path)

/-- The state of the best-split loop after at least one pass has taken a
split: the best attribute is one of `attrs`, the best split is a value drawn
for it from its `[min, max]`, and the best score is non-negative. -/
def choose_inv {R : Type} [Zero R] [LE R] (rng : twister_t G α) (mins maxs : List (Option α))
    (attrs : List Nat) (st : (Nat × α × R) × G) : Prop :=
  st.1.1 ∈ attrs ∧ 0 ≤ st.1.2.2 ∧
    ∃ mn mx gx, mins[st.1.1]? = some (some mn) ∧ maxs[st.1.1]? = some (some mx) ∧
      st.1.2.1 = (rng.urand mn mx gx).1

/-- Leaf histogram consistency of a tree `t` with respect to the training
subset `indices`: (1) every leaf holds, for every class `c`, the number of
entries of `indices` with label index `c` that the classifier's walk routes to
that leaf; (2) the sum of a leaf's histogram is the number of entries of
`indices` routed to it; (3) the walk of every entry `i` of `indices` ends at a
leaf whose bucket `labels[i]` is at least 1. -/
def tallies_consistent (exampleset : exampleset_t α) (indices : List Nat) (t : dectree_t α) :
    Prop :=
  (∀ path cf, dectree_t.leaf_at t path = some cf →
    cf = (List.range exampleset.numclasses).map (fun c =>
      indices.countP (fun i => has_label exampleset.labels c i &&
        routed_to exampleset t path i))) ∧
  (∀ path cf, dectree_t.leaf_at t path = some cf →
    cf.sum = indices.countP (routed_to exampleset t path)) ∧
  (∀ i ∈ indices, ∃ path cf l,
    dectree_t.walk t (exampleset.featurevector i) = some (path, cf) ∧
    dectree_t.leaf_at t path = some cf ∧
    exampleset.labels[i]? = some l ∧ 1 ≤ cf.getD l 0)

/-- The cells `mins[ai]`, `maxs[ai]` hold the minimum and maximum of column
`ai` over `indices`. -/
def minmax_cell_ok (exampleset : exampleset_t α) (indices : List Nat)
    (mins maxs : List (Option α)) (ai : Nat) : Prop :=
  ∃ attr mm, exampleset.attrs[ai]? = some attr ∧ attr_minmax attr indices = some mm ∧
    mins[ai]? = some (some mm.1) ∧ maxs[ai]? = some (some mm.2)

/-- Attribute `ai` is non-constant on `indices`: its column has `min < max`. -/
def is_candidate (exampleset : exampleset_t α) (indices : List Nat) (ai : Nat) : Prop :=
  ∃ attr mm, exampleset.attrs[ai]? = some attr ∧ attr_minmax attr indices = some mm ∧
    mm.1 < mm.2

end build

section ensemble

variable {α : Type} [LinearOrder α] [Zero α]
variable {R : Type} [NatCast R] [Zero R] [One R] [Add R] [Sub R] [Mul R] [Div R] [Neg R]
  [LT R] [DecidableRel (fun a b : R => a < b)]
variable {G : Type}

/-- The fields of `nexamples::cexampleset` read by `build_an_extra_ensemble`
(the row-form example set).  The `std::set< label_t > labelset` is the list of
its elements in iteration order, which is strictly ascending. -/
structure cexampleset (α : Type) where
  names : List String
  featurevectors : List (List α)
  labelname : String
  labels : List Int
  labelset : List Int
  deriving Repr, DecidableEq

/-- Body of the loop over one feature vector:
`exset.attrs[ i ].push_back( featurevector[ i ] )`. -/
def push_featurevector_step (featurevector : List α) (attrs : List (List α)) (i : Nat) :
    Option (List (List α)) :=
  match attrs[i]?, featurevector[i]? with
  | some attr, some a => some (attrs.set i (attr ++ [a]))
  | _, _ => none

/-- The loop `for( i = 0; i < featurevector.size(); i++ )
exset.attrs[ i ].push_back( featurevector[ i ] )` for one feature vector. -/
def push_featurevector (attrs : List (List α)) (featurevector : List α) :
    Option (List (List α)) :=
  (List.range featurevector.length).foldlM (push_featurevector_step featurevector) attrs

/-- The loop "copy all attribute values". -/
def copy_attrs (exampleset : cexampleset α) : Option (List (List α)) :=
  exampleset.featurevectors.foldlM push_featurevector
    (List.replicate exampleset.names.length [])

/-- Body of the loop filling `labeltoindex`: `index = labelvalues.size();
labelvalues.push_back( l ); labeltoindex.insert( make_pair( l, index ) )`.
The map is a list of pairs; `insert` keeps an existing key. -/
def make_labeltoindex_step (st : List Int × List (Int × Nat)) (l : Int) :
    List Int × List (Int × Nat) :=
  (st.1 ++ [l], if (st.2.lookup l).isSome then st.2 else st.2 ++ [(l, st.1.length)])

/-- The loop "copy label values and generate list of label indices and
label->index map" over `labelset`; returns `(labelvalues, labeltoindex)`. -/
def make_labeltoindex (labelset : List Int) : List Int × List (Int × Nat) :=
  labelset.foldl make_labeltoindex_step ([], [])

/-- The subscript `labeltoindex[ l ]` of a `std::map`: a missing key yields
the value-initialised `0`. -/
def labeltoindex_get (labeltoindex : List (Int × Nat)) (l : Int) : Nat :=
  (labeltoindex.lookup l).getD 0

/-- The part of `build_an_extra_ensemble` creating the `exampleset_t`. -/
def make_exset (exampleset : cexampleset α) : Option (exampleset_t α) :=
  match copy_attrs exampleset with
  | none => none
  | some attrs =>
    some
      { attrnames := exampleset.names
        attrs := attrs
        labelvalues := (make_labeltoindex exampleset.labelset).1
        labels := exampleset.labels.map
          (labeltoindex_get (make_labeltoindex exampleset.labelset).2)
        numclasses := exampleset.labelset.length }

/-- The loop "build decision trees": `numtrees` calls of `build_an_extra_tree`
on the same arguments, the generator state running through them. -/
def build_trees (log2 : R → R) (rng : twister_t G α) (fuel : Nat) (exset : exampleset_t α)
    (attrindices indices : List Nat) (nmin numattr : Nat) :
    Nat → List (dectree_t α) → G → Option (List (dectree_t α) × G)
  | 0, ensemble, g => some (ensemble, g)
  | k + 1, ensemble, g =>
    match build_an_extra_tree log2 rng fuel exset attrindices indices nmin numattr g with
    | none => none
    | some (ptree, g1) =>
      build_trees log2 rng fuel exset attrindices indices nmin numattr k
        (ensemble ++ [ptree]) g1

/-- The function `build_an_extra_ensemble` of `nextratrees.hpp`; `fuel` bounds
the recursion of each tree build. -/
def build_an_extra_ensemble (log2 : R → R) (rng : twister_t G α) (fuel : Nat)
    (exampleset : cexampleset α) (numtrees nmin numattr : Nat) (g : G) :
    Option (forest_t α × G) :=
  match make_exset exampleset with
  | none => none
  | some exset =>
    match build_trees log2 rng fuel exset (List.range exset.attrnames.length)
        (List.range exset.labels.length) nmin numattr numtrees [] g with
    | none => none
    | some (ensemble, g1) =>
      some ({ trees := ensemble, indextolabel := exampleset.labelset }, g1)

end ensemble

section scenarios

/-- Scenario S1 of the specification in column form: rows `(0,0,0)`, `(0,1,0)`,
`(1,0,1)`, `(1,1,1)`. -/
def scenario_S1 : exampleset_t Int :=
  { attrnames := ["x1", "x2"]
    attrs := [[0, 0, 1, 1], [0, 1, 0, 1]]
    labelvalues := [0, 1]
    labels := [0, 0, 1, 1]
    numclasses := 2 }

/-- A generator without state whose integer draws are `0` and whose real draws
from `[min, max]` are `max`. -/
def rng_max : twister_t Unit Int :=
  { urand_sizet := fun g => (0, g)
    urand := fun _ max g => (max, g) }

/-- A generator without state whose integer draws are `0` and whose real draws
from `[min, max]` are `min`. -/
def rng_min : twister_t Unit Int :=
  { urand_sizet := fun g => (0, g)
    urand := fun min _ g => (min, g) }

/-- Scenario S2 of the specification in row form: ten rows, all with label
`0`. -/
def scenario_S2 : cexampleset Int :=
  { names := ["x1"]
    featurevectors := [[0], [1], [2], [3], [4], [5], [6], [7], [8], [9]]
    labelname := "y"
    labels := [0, 0, 0, 0, 0, 0, 0, 0, 0, 0]
    labelset := [0] }

/-- Scenario S3 of the specification in row form: four identical feature
vectors with labels `[0, 1, 0, 1]`. -/
def scenario_S3 : cexampleset Int :=
  { names := ["x1", "x2"]
    featurevectors := [[5, 7], [5, 7], [5, 7], [5, 7]]
    labelname := "y"
    labels := [0, 1, 0, 1]
    labelset := [0, 1] }

end scenarios

end nextratrees

/-! The classifier: `classify_from_tree` and `forest_t::classify`. -/

namespace ndectree

/-- Body of the loop `for( size_t freq : pt->classfreqs )` (and of the loop over
`labelcounts`): `if( freq > maxfreq ) { maxfreq = freq; maxlabelindex = labelindex; }
labelindex++`.  The state is `(maxfreq, maxlabelindex, labelindex)`. -/
def maxlabelindex_step (st : Nat × Nat × Nat) (freq : Nat) : Nat × Nat × Nat :=
  if freq > st.1 then (freq, st.2.2, st.2.2 + 1) else (st.1, st.2.1, st.2.2 + 1)

/-- The value of `maxlabelindex` (resp. `maxcountindex`) after the loop over
`classfreqs` (resp. `labelcounts`), started from `maxfreq = 0`,
`maxlabelindex = 0`, `labelindex = 0`. -/
def maxlabelindex (classfreqs : List Nat) : Nat :=
  (classfreqs.foldl maxlabelindex_step (0, 0, 0)).2.1

/-- The index `m` is the smallest index at which `xs` attains its maximum
(`m = 0` for the empty list). -/
def lowest_max_index (xs : List Nat) (m : Nat) : Prop :=
  (∀ j, j < xs.length → xs.getD j 0 ≤ xs.getD m 0) ∧
    (∀ j, j < m → xs.getD j 0 < xs.getD m 0) ∧
    (m < xs.length ∨ (xs = [] ∧ m = 0))

namespace dectree_t

/-- The specification's walk, as a relation: from the root, at a branch go left
when `featurevector[attrindex] < splitvalue` and right otherwise (a value equal
to `splitvalue` goes right), until a leaf; `reaches t fv cf` says the leaf
reached holds the histogram `cf`. -/
inductive reaches {α : Type} [LinearOrder α] : dectree_t α → List α → List Nat → Prop where
  | leaf (classfreqs : List Nat) (featurevector : List α) :
      reaches (leaf classfreqs) featurevector classfreqs
  | left (attrindex : Nat) (splitvalue a : α) (l r : dectree_t α) (featurevector : List α)
      (cf : List Nat) (ha : featurevector[attrindex]? = some a) (hlt : a < splitvalue)
      (hl : reaches l featurevector cf) :
      reaches (branch attrindex splitvalue l r) featurevector cf
  | right (attrindex : Nat) (splitvalue a : α) (l r : dectree_t α) (featurevector : List α)
      (cf : List Nat) (ha : featurevector[attrindex]? = some a) (hge : splitvalue ≤ a)
      (hr : reaches r featurevector cf) :
      reaches (branch attrindex splitvalue l r) featurevector cf

/-- Every `attrindex` of the tree is below `F`. -/
def attrs_lt {α : Type} : dectree_t α → Nat → Prop
  | leaf _, _ => True
  | branch attrindex _ l r, F => attrindex < F ∧ attrs_lt l F ∧ attrs_lt r F

/-- Every leaf of the tree holds exactly `K` buckets. -/
def leaves_have {α : Type} : dectree_t α → Nat → Prop
  | leaf classfreqs, K => classfreqs.length = K
  | branch _ _ l r, K => leaves_have l K ∧ leaves_have r K

end dectree_t

/-- Body of the loop over the trees in `forest_t::classify`: the walk, the
per-tree `maxlabelindex`, and `labelcounts[ maxlabelindex ]++`. -/
def classify_step {α : Type} [LinearOrder α] (featurevector : List α)
    (labelcounts : List Nat) (pdectree : dectree_t α) : Option (List Nat) :=
  match dectree_t.walk pdectree featurevector with
  | none => none
  | some pc =>
    match labelcounts[maxlabelindex pc.2]? with
    | none => none
    | some count => some (labelcounts.set (maxlabelindex pc.2) (count + 1))

/-- The vector `labelcounts` of `forest_t::classify` after the loop over the
trees. -/
def forest_t.labelcounts {α : Type} [LinearOrder α] (forest : forest_t α)
    (featurevector : List α) : Option (List Nat) :=
  forest.trees.foldlM (classify_step featurevector)
    (List.replicate forest.indextolabel.length 0)

/-- The member function `forest_t::classify` of `ndectree.hpp`. -/
def forest_t.classify {α : Type} [LinearOrder α] (forest : forest_t α)
    (featurevector : List α) : Option Int :=
  match forest.labelcounts featurevector with
  | none => none
  | some labelcounts => forest.indextolabel[maxlabelindex labelcounts]?

/-- The index voted by one tree: the `maxlabelindex` of the leaf the walk
reaches (`0` when the walk is undefined). -/
def tree_vote {α : Type} [LinearOrder α] (featurevector : List α) (t : dectree_t α) : Nat :=
  match dectree_t.walk t featurevector with
  | none => 0
  | some pc => maxlabelindex pc.2

/-- The tally `votes[c]`: the number of trees whose vote is `c`, for `c < K`. -/
def vote_tally {α : Type} (K : Nat) (trees : List (dectree_t α)) (vote : dectree_t α → Nat) :
    List Nat :=
  (List.range K).map (fun c => trees.countP (fun t => decide (vote t = c)))

/-- Three stumps and a feature vector on which two of them vote for bucket 1. -/
def scenario_votes : forest_t Int :=
  { trees := [dectree_t.branch 0 5 (dectree_t.leaf [3, 0]) (dectree_t.leaf [1, 1]),
      dectree_t.branch 0 2 (dectree_t.leaf [1, 0]) (dectree_t.leaf [0, 4]),
      dectree_t.leaf [2, 3]],
    indextolabel := [10, 20] }

end ndectree

namespace nextratrees

open ndectree

/-- The function `classify_from_tree` of `nextratrees.hpp`. -/
def classify_from_tree {α : Type} [LinearOrder α] (pdectree : dectree_t α)
    (indextolabel : List Int) (featurevector : List α) : Option Int :=
  match dectree_t.walk pdectree featurevector with
  | none => none
  | some pc => indextolabel[maxlabelindex pc.2]?

/-- Scenario S4 of the specification in row form: the single row
`(3.14, 2.71, 7)`. -/
def scenario_S4 : cexampleset Rat :=
  { names := ["x1", "x2"]
    featurevectors := [[157 / 50, 271 / 100]]
    labelname := "y"
    labels := [7]
    labelset := [7] }

/-- A generator over the rationals without state whose integer draws are `0`
and whose real draws from `[min, max]` are `max`. -/
def rng_max_rat : twister_t Unit Rat :=
  { urand_sizet := fun g => (0, g)
    urand := fun _ max g => (max, g) }

/-- Scenario S1 of the specification in row form: rows `(0,0,0)`, `(0,1,0)`,
`(1,0,1)`, `(1,1,1)`. -/
def scenario_S1_rows : cexampleset Int :=
  { names := ["x1", "x2"]
    featurevectors := [[0, 0], [0, 1], [1, 0], [1, 1]]
    labelname := "y"
    labels := [0, 0, 1, 1]
    labelset := [0, 1] }

end nextratrees

/-! The train/test splitter `cexampleset::split` of `nexamples.hpp`. -/

namespace nexamples
open nextratrees

section split_defs
variable {α : Type} {G : Type}

/-- Body of the loop "shuffle the list of indices":
`target = i + urand_sizet( twister ) % (numexamples - i);
swap( indices[ i ], indices[ target ] )`.  The state is `(indices, twister)`. -/
def shuffle_step (rng : twister_t G α) (numexamples : Nat) (st : List Nat × G) (i : Nat) :
    Option (List Nat × G) :=
  match st.1[i]?, st.1[i + (rng.urand_sizet st.2).1 % (numexamples - i)]? with
  | some a, some b =>
    some ((st.1.set i b).set (i + (rng.urand_sizet st.2).1 % (numexamples - i)) a,
      (rng.urand_sizet st.2).2)
  | _, _ => none

/-- The loops "build ordered list of indices" and "shuffle the list of
indices": `for( i = 0; i + 1 < numexamples; i++ )` over the identity vector. -/
def shuffle_indices (rng : twister_t G α) (numexamples : Nat) (g : G) :
    Option (List Nat × G) :=
  (List.range (numexamples - 1)).foldlM (shuffle_step rng numexamples)
    (List.range numexamples, g)

/-- The clamp at the head of `split`:
`if( p < 0.0 ) p = 0.0; else if( p > 1.0 ) p = 1.0`. -/
def clamp_proportion {R : Type} [Zero R] [One R] [LT R] [DecidableRel (fun a b : R => a < b)]
    (proportionfortraining : R) : R :=
  if proportionfortraining < 0 then 0
  else if proportionfortraining > 1 then 1
  else proportionfortraining

/-- Body of the loops "fill subsets":
`subset.featurevectors.push_back( featurevectors[ indices[ i ] ] );
subset.labels.push_back( labels[ indices[ i ] ] )`. -/
def fill_step (exampleset : cexampleset α) (indices : List Nat)
    (st : List (List α) × List Int) (i : Nat) : Option (List (List α) × List Int) :=
  match indices[i]? with
  | none => none
  | some k =>
    match exampleset.featurevectors[k]?, exampleset.labels[k]? with
    | some fv, some l => some (st.1 ++ [fv], st.2 ++ [l])
    | _, _ => none

/-- One of the two loops "fill subsets", over the positions `positions` of the
shuffled index vector; the subset starts with `names` and `labelset` copied and
everything else default-constructed. -/
def fill_subset (exampleset : cexampleset α) (indices positions : List Nat) :
    Option (cexampleset α) :=
  match positions.foldlM (fill_step exampleset indices) ([], []) with
  | none => none
  | some st =>
    some { names := exampleset.names
           featurevectors := st.1
           labelname := ""
           labels := st.2
           labelset := exampleset.labelset }

/-- The member function `cexampleset::split` of `nexamples.hpp`.  The type `R`
stands for `double` and `to_size_t` for the conversion `(size_t)( ... )`. -/
def split {R : Type} [Zero R] [One R] [Mul R] [NatCast R] [LT R]
    [DecidableRel (fun a b : R => a < b)] (to_size_t : R → Nat) (rng : twister_t G α)
    (exampleset : cexampleset α) (proportionfortraining : R) (g : G) :
    Option (List (cexampleset α) × G) :=
  match shuffle_indices rng exampleset.labels.length g with
  | none => none
  | some (indices, g1) =>
    match fill_subset exampleset indices
        (List.range (to_size_t (clamp_proportion proportionfortraining *
          (exampleset.labels.length : R)))),
      fill_subset exampleset indices
        (List.range' (to_size_t (clamp_proportion proportionfortraining *
            (exampleset.labels.length : R)))
          (exampleset.labels.length - to_size_t (clamp_proportion proportionfortraining *
            (exampleset.labels.length : R)))) with
    | some s0, some s1 => some ([s0, s1], g1)
    | _, _ => none

/-- The `(feature vector, label)` pairs of an example set, in order. -/
def cexampleset_pairs (exampleset : cexampleset α) : List (List α × Int) :=
  exampleset.featurevectors.zip exampleset.labels

end split_defs

/-- Ten examples with labels `0 .. 9`. -/
def scenario_ten : cexampleset Int :=
  { names := ["x1"]
    featurevectors := [[0], [1], [2], [3], [4], [5], [6], [7], [8], [9]]
    labelname := "y"
    labels := [0, 1, 2, 3, 4, 5, 6, 7, 8, 9]
    labelset := [0, 1, 2, 3, 4, 5, 6, 7, 8, 9] }

end nexamples

/-! The model file: `storetostream`, `loadfromstream`, `storemodeltofile`,
`loadmodelfromfile`.  A file is the string of its characters.  The tree part
of a stream is read by extractions `in >> x` alone, which see the white-space
separated tokens of the characters left: there an output stream is the list of
its tokens and an input stream the list of the tokens left with the state of
`failbit`. -/

namespace nutil

/-- One call `getline( is, line )` of the standard library on a stream with
characters left: the line up to the next `'\n'`, and the characters after that
delimiter. -/
def getline_first (delim : Char) : List Char → List Char × List Char
  | [] => ([], [])
  | c :: rest =>
    if c = delim then ([], rest)
    else (c :: (getline_first delim rest).1, (getline_first delim rest).2)

/-- The function `nutil::getline`: `std::getline( is, line )`, then
`switch( line.back() )` erases a final `'\n'` or `'\r'`.  `none` stands for the
undefined `line.back()` of an empty line.  The result is the line and the
characters left in the stream. -/
def getline (is : List Char) : Option (String × List Char) :=
  match (getline_first '\n' is).1.getLast? with
  | none => none
  | some c =>
    if c = '\n' ∨ c = '\r' then
      some (String.mk (getline_first '\n' is).1.dropLast, (getline_first '\n' is).2)
    else some (String.mk (getline_first '\n' is).1, (getline_first '\n' is).2)

end nutil

namespace ndectree

/-- The constant `STR_LEAF`. -/
def STR_LEAF : String := "\\"

/-- The constant `STR_BRANCH`. -/
def STR_BRANCH : String := "+"

/-- The formatted insertions `out << x` and the conversions of the extractions
`in >> x` of the stream library for the three value types written to a model
file: `size_t`, `ATTR_T` and `LABEL_T`.  An insertion yields one token; a
conversion reads one token and fails (`none`) when the token is not of the
type. -/
structure stream_fmt (α : Type) where
  put_size : Nat → String
  get_size : String → Option Nat
  put_attr : α → String
  get_attr : String → Option α
  put_label : Int → String
  get_label : String → Option Int

/-- An input stream: the tokens not yet read, and whether `failbit` is set.
Nothing in the program clears the bit. -/
structure istream_t where
  tokens : List String
  fail : Bool
  deriving DecidableEq

/-- White space as an extraction `in >> x` skips it and ends a token at it:
the characters for which `isspace` holds in the default locale (blank, tab,
line feed, carriage return, vertical tab, form feed). -/
def is_space (c : Char) : Bool :=
  decide (c = ' ' ∨ c = '\t' ∨ c = '\n' ∨ c = '\r' ∨ c = Char.ofNat 11 ∨ c = Char.ofNat 12)

/-- The tokens that successive extractions `in >> str` find in the characters
left in a stream: the maximal runs of characters that are not white space, in
order.  The second argument holds the characters of the token being read. -/
def stream_tokens : List Char → List Char → List String
  | [], cur => if cur = [] then [] else [String.mk cur]
  | c :: rest, cur =>
    if is_space c = true then
      if cur = [] then stream_tokens rest [] else String.mk cur :: stream_tokens rest []
    else stream_tokens rest (cur ++ [c])

/-- A string that an extraction `in >> str` reads back whole when it is
followed by white space: it is not empty and holds no white space. -/
def is_token (s : String) : Prop :=
  s.data ≠ [] ∧ ∀ c ∈ s.data, is_space c = false

instance (s : String) : Decidable (is_token s) := by
  unfold is_token
  infer_instance

/-- The extraction `in >> str` into a fresh, empty `string`: the next token;
at the end of the input, or with `failbit` set, the string stays empty and
`failbit` is set. -/
def extract_str (s : istream_t) : String × istream_t :=
  if s.fail then ("", s)
  else
    match s.tokens with
    | [] => ("", { tokens := [], fail := true })
    | t :: ts => (t, { tokens := ts, fail := false })

/-- The extraction `in >> x` of a `size_t`: the value written to `x`, `none`
when `x` is not written.  At the end of the input, or with `failbit` set,
nothing is written; a token that does not convert writes 0 and sets
`failbit`. -/
def extract_size {α : Type} (fmt : stream_fmt α) (s : istream_t) : Option Nat × istream_t :=
  if s.fail then (none, s)
  else
    match s.tokens with
    | [] => (none, { tokens := [], fail := true })
    | t :: ts =>
      match fmt.get_size t with
      | some v => (some v, { tokens := ts, fail := false })
      | none => (some 0, { tokens := t :: ts, fail := true })

/-- The extraction `in >> x` of an `ATTR_T`, like `extract_size`. -/
def extract_attr {α : Type} [Zero α] (fmt : stream_fmt α) (s : istream_t) :
    Option α × istream_t :=
  if s.fail then (none, s)
  else
    match s.tokens with
    | [] => (none, { tokens := [], fail := true })
    | t :: ts =>
      match fmt.get_attr t with
      | some v => (some v, { tokens := ts, fail := false })
      | none => (some 0, { tokens := t :: ts, fail := true })

namespace dectree_t

/-- The member function `dectree_t::storetostream`, as the tokens written.
`classfreqs.back()` of an empty vector is undefined (`none`). -/
def storetostream {α : Type} (fmt : stream_fmt α) : dectree_t α → Option (List String)
  | leaf classfreqs =>
    match classfreqs.getLast? with
    | none => none
    | some back =>
      some (STR_LEAF :: (classfreqs.dropLast.map fmt.put_size ++ [fmt.put_size back]))
  | branch attrindex splitvalue l r =>
    match storetostream fmt l, storetostream fmt r with
    | some sl, some sr =>
      some (STR_BRANCH :: fmt.put_size attrindex :: fmt.put_attr splitvalue :: (sl ++ sr))
    | _, _ => none

/-- The member function `dectree_t::storetostream` once more, as the characters
written: the same insertions with the blanks and line ends between them. -/
def storetostream_text {α : Type} (fmt : stream_fmt α) : dectree_t α → Option (List Char)
  | leaf classfreqs =>
    match classfreqs.getLast? with
    | none => none
    | some back =>
      some (STR_LEAF.data ++ ' ' ::
        (classfreqs.dropLast.flatMap (fun freq => (fmt.put_size freq).data ++ [' ']) ++
          ((fmt.put_size back).data ++ ['\n'])))
  | branch attrindex splitvalue l r =>
    match storetostream_text fmt l, storetostream_text fmt r with
    | some sl, some sr =>
      some (STR_BRANCH.data ++ ' ' :: ((fmt.put_size attrindex).data ++ ' ' ::
        ((fmt.put_attr splitvalue).data ++ '\n' :: (sl ++ sr))))
    | _, _ => none

/-- The loop `for( c = 0; c < numclasses; c++ ) { in >> freq;
classfreqs.push_back( freq ); }`.  The state of the stream is not tested;
`none` stands for the push of a `freq` that no extraction has written. -/
def read_classfreqs {α : Type} (fmt : stream_fmt α) :
    Nat → istream_t → Option (List Nat × istream_t)
  | 0, s => some ([], s)
  | c + 1, s =>
    match (extract_size fmt s).1 with
    | none => none
    | some freq =>
      match read_classfreqs fmt c (extract_size fmt s).2 with
      | none => none
      | some p => some (freq :: p.1, p.2)

/-- The static member function `dectree_t::loadfromstream`: the pointer
returned (`none` is the null pointer) and the stream afterwards.  No exception
is enabled on the stream, so the handler `catch( ... )` is never entered.
Outer `none`: the recursion bound `fuel` is used up, or a value that no
extraction has written is used. -/
def loadfromstream {α : Type} [Zero α] (fmt : stream_fmt α) (numclasses : Nat) :
    Nat → istream_t → Option (Option (dectree_t α) × istream_t)
  | 0, _ => none
  | fuel + 1, s =>
    if (extract_str s).1 = STR_LEAF then
      match read_classfreqs fmt numclasses (extract_str s).2 with
      | none => none
      | some p => some (some (leaf p.1), p.2)
    else if (extract_str s).1 = STR_BRANCH then
      match loadfromstream fmt numclasses fuel
          (extract_attr fmt (extract_size fmt (extract_str s).2).2).2 with
      | none => none
      | some (none, s1) => some (none, s1)
      | some (some left, s1) =>
        match loadfromstream fmt numclasses fuel s1 with
        | none => none
        | some (none, s2) => some (none, s2)
        | some (some right, s2) =>
          match (extract_size fmt (extract_str s).2).1,
              (extract_attr fmt (extract_size fmt (extract_str s).2).2).1 with
          | some attrindex, some splitvalue =>
            some (some (branch attrindex splitvalue left right), s2)
          | _, _ => none
    else some (none, (extract_str s).2)

/-- The `size_t` values a tree holds: every `attrindex` and every bucket. -/
def sizes {α : Type} : dectree_t α → List Nat
  | leaf classfreqs => classfreqs
  | branch attrindex _ l r => attrindex :: (sizes l ++ sizes r)

/-- The split values a tree holds. -/
def splitvalues {α : Type} : dectree_t α → List α
  | leaf _ => []
  | branch _ splitvalue l r => splitvalue :: (splitvalues l ++ splitvalues r)

/-- The tree with every split value `s` replaced by `f s`. -/
def map_splits {α : Type} (f : α → α) : dectree_t α → dectree_t α
  | leaf classfreqs => leaf classfreqs
  | branch attrindex splitvalue l r =>
    branch attrindex (f splitvalue) (map_splits f l) (map_splits f r)

end dectree_t

/-- Body of the loop `for( const auto pt : forest.trees )
pt->storetostream( outfile )`. -/
def store_trees_step {α : Type} (fmt : stream_fmt α) (out : List String) (pt : dectree_t α) :
    Option (List String) :=
  match dectree_t.storetostream fmt pt with
  | none => none
  | some s => some (out ++ s)

/-- The loop writing the trees of a forest one after the other. -/
def store_trees {α : Type} (fmt : stream_fmt α) (trees : List (dectree_t α)) :
    Option (List String) :=
  trees.foldlM (store_trees_step fmt) []

/-- Body of the loop `for( const auto pt : forest.trees )
pt->storetostream( outfile )`, as the characters written. -/
def store_trees_text_step {α : Type} (fmt : stream_fmt α) (out : List Char)
    (pt : dectree_t α) : Option (List Char) :=
  match dectree_t.storetostream_text fmt pt with
  | none => none
  | some s => some (out ++ s)

/-- The loop writing the trees of a forest one after the other, as the
characters written. -/
def store_trees_text {α : Type} (fmt : stream_fmt α) (trees : List (dectree_t α)) :
    Option (List Char) :=
  trees.foldlM (store_trees_text_step fmt) []

/-- The loop `for( t = 0; t < numtrees; t++ )` of `loadmodelfromfile`: each
tree is read where the previous one ended; the result `none` is the return of
false at a null pointer (outer `none` as in `loadfromstream`). -/
def load_trees {α : Type} [Zero α] (fmt : stream_fmt α) (numclasses fuel : Nat) :
    Nat → istream_t → Option (Option (List (dectree_t α)) × istream_t)
  | 0, s => some (some [], s)
  | k + 1, s =>
    match dectree_t.loadfromstream fmt numclasses fuel s with
    | none => none
    | some (none, s1) => some (none, s1)
    | some (some pt, s1) =>
      match load_trees fmt numclasses fuel k s1 with
      | none => none
      | some (none, s2) => some (none, s2)
      | some (some trees, s2) => some (some (pt :: trees), s2)

end ndectree

namespace nextratrees
open ndectree

/-- The outputs of `loadmodelfromfile`. -/
structure model_t (α : Type) where
  labelname : String
  exnames : List String
  attrnames : List String
  forest : forest_t α
  nmin : Nat
  numattr : Nat
  optimizationlayers : Nat

/-- The loops writing `exampleset.exnames` and `exampleset.names`: each name,
followed by a blank unless it is the last. -/
def names_line : List String → List Char
  | [] => []
  | name :: rest =>
    match rest with
    | [] => name.data
    | _ :: _ => name.data ++ ' ' :: names_line rest

/-- The function `storemodeltofile` of `nextratrees.hpp`, as the characters of
the file written; `exnames` is the field `exampleset.exnames`.  Names are
written as they are, whatever characters they hold. -/
def storemodeltofile {α : Type} (fmt : stream_fmt α) (exampleset : cexampleset α)
    (exnames : List String) (forest : forest_t α) (nmin numattr optimizationlayers : Nat) :
    Option String :=
  match store_trees_text fmt forest.trees with
  | none => none
  | some body =>
    some (String.mk
      (exampleset.labelname.data ++
        (exampleset.labelset.flatMap (fun l => ' ' :: (fmt.put_label l).data) ++ '\n' ::
        (names_line exnames ++ '\n' ::
        (names_line exampleset.names ++ '\n' ::
        ((fmt.put_size forest.trees.length).data ++ ' ' ::
        ((fmt.put_size nmin).data ++ ' ' ::
        ((fmt.put_size numattr).data ++ ' ' ::
        ((fmt.put_size optimizationlayers).data ++ '\n' :: body)))))))))

/-- The loop `for( label_t label; linestream >> label; )`: labels are read
until an extraction fails. -/
def read_labels {α : Type} (fmt : stream_fmt α) : List String → List Int
  | [] => []
  | t :: ts =>
    match fmt.get_label t with
    | none => []
    | some label => label :: read_labels fmt ts

/-- The function `loadmodelfromfile` of `nextratrees.hpp` on a file that
opens, given by its characters: `some none` is the return value false,
`some (some m)` the return value true with the outputs `m`.  Each of the first
four lines is read with `nutil::getline` and then split into tokens by the
extractions from its `stringstream`; the trees are read from the characters
after the fourth line.  The output `dest_labelname` is taken to be empty at the
call, so it is empty when the first line holds no token.  The outer `none`
stands for undefined behaviour: the `line.back()` of an empty line inside
`nutil::getline`, or an undefined `loadfromstream`. -/
def loadmodelfromfile {α : Type} [Zero α] (fmt : stream_fmt α) (fuel : Nat) (infile : String) :
    Option (Option (model_t α)) :=
  match nutil.getline infile.data with
  | none => none
  | some (line1, in1) =>
    match nutil.getline in1 with
    | none => none
    | some (line2, in2) =>
      match nutil.getline in2 with
      | none => none
      | some (line3, in3) =>
        match nutil.getline in3 with
        | none => none
        | some (line4, in4) =>
          match stream_tokens line4.data [] with
          | a :: b :: c :: d :: _ =>
            match fmt.get_size a, fmt.get_size b, fmt.get_size c, fmt.get_size d with
            | some numtrees, some nmin, some numattr, some optimizationlayers =>
              match load_trees fmt (read_labels fmt (stream_tokens line1.data []).tail).length
                  fuel numtrees { tokens := stream_tokens in4 [], fail := false } with
              | none => none
              | some (none, _) => some none
              | some (some trees, _) =>
                some (some
                  { labelname := (stream_tokens line1.data []).head?.getD ""
                    exnames := stream_tokens line2.data []
                    attrnames := stream_tokens line3.data []
                    forest :=
                      { trees := trees
                        indextolabel := read_labels fmt (stream_tokens line1.data []).tail }
                    nmin := nmin
                    numattr := numattr
                    optimizationlayers := optimizationlayers })
            | _, _, _, _ => some none
          | _ => some none

end nextratrees

namespace ndectree

/-- One digit of the extraction of a decimal number. -/
def parse_digits_step (acc : Nat) (c : Char) : Option Nat :=
  if c.isDigit then some (10 * acc + (c.toNat - 48)) else none

/-- The value of a non-empty string of decimal digits. -/
def parse_digits (cs : List Char) : Option Nat :=
  if cs = [] then none else cs.foldlM parse_digits_step 0

/-- The insertion `out << l` of an `int`. -/
def put_int (z : Int) : String :=
  if z < 0 then String.mk ('-' :: (Nat.repr z.natAbs).data) else Nat.repr z.natAbs

/-- The extraction `in >> l` of an `int` from one token. -/
def get_int (s : String) : Option Int :=
  match s.data with
  | '-' :: ds => (parse_digits ds).map (fun n => -(n : Int))
  | cs => (parse_digits cs).map (fun n => (n : Int))

/-- Rounding of `n / scale` to the nearest integer, ties to even. -/
def round_half_even (n scale : Nat) : Nat :=
  if 2 * (n % scale) < scale then n / scale
  else if scale < 2 * (n % scale) then n / scale + 1
  else n / scale + (n / scale) % 2

/-- The digits of a fraction of five places without its trailing zeros. -/
def fraction_digits (n : Nat) : List Char :=
  ((List.replicate (5 - (Nat.repr n).length) '0' ++ (Nat.repr n).data).reverse.dropWhile
    (fun c => c = '0')).reverse

/-- The insertion `out << v` of a floating-point value holding the integer `n`
in the default formatting of the stream (six significant digits): up to six
digits are written as they are, a larger value as a mantissa rounded to six
digits, without trailing zeros, and an exponent of at least two digits. -/
def put_general_nat (n : Nat) : String :=
  if n < 1000000 then Nat.repr n
  else
    String.mk
      ((Nat.repr
          ((if round_half_even n (10 ^ ((Nat.repr n).length - 6)) = 1000000 then 100000
            else round_half_even n (10 ^ ((Nat.repr n).length - 6))) / 100000)).data ++
        (if fraction_digits
            ((if round_half_even n (10 ^ ((Nat.repr n).length - 6)) = 1000000 then 100000
              else round_half_even n (10 ^ ((Nat.repr n).length - 6))) % 100000) = [] then []
          else '.' :: fraction_digits
            ((if round_half_even n (10 ^ ((Nat.repr n).length - 6)) = 1000000 then 100000
              else round_half_even n (10 ^ ((Nat.repr n).length - 6))) % 100000)) ++
        ['e', '+'] ++
        (if (if round_half_even n (10 ^ ((Nat.repr n).length - 6)) = 1000000
              then (Nat.repr n).length else (Nat.repr n).length - 1) < 10
          then '0' :: (Nat.repr
            (if round_half_even n (10 ^ ((Nat.repr n).length - 6)) = 1000000
              then (Nat.repr n).length else (Nat.repr n).length - 1)).data
          else (Nat.repr
            (if round_half_even n (10 ^ ((Nat.repr n).length - 6)) = 1000000
              then (Nat.repr n).length else (Nat.repr n).length - 1)).data))

/-- The insertion `out << splitvalue` for an integer-valued split value. -/
def put_general (z : Int) : String :=
  if z < 0 then String.mk ('-' :: (put_general_nat z.natAbs).data) else put_general_nat z.natAbs

/-- The exponent part of a token: empty, or `e+` followed by digits. -/
def get_exponent (cs : List Char) : Option Nat :=
  match cs with
  | [] => some 0
  | 'e' :: '+' :: ds => parse_digits ds
  | _ => none

/-- The value of an unsigned token `digits[.digits][e+digits]` when it is an
integer. -/
def get_general_nat (cs : List Char) : Option Nat :=
  match parse_digits ((cs.takeWhile (fun c => c ≠ 'e')).takeWhile (fun c => c ≠ '.') ++
      (((cs.takeWhile (fun c => c ≠ 'e')).dropWhile (fun c => c ≠ '.')).tail)),
    get_exponent (cs.dropWhile (fun c => c ≠ 'e')) with
  | some d, some e =>
    if (((cs.takeWhile (fun c => c ≠ 'e')).dropWhile (fun c => c ≠ '.')).tail).length ≤ e then
      some (d * 10 ^ (e - (((cs.takeWhile (fun c => c ≠ 'e')).dropWhile
        (fun c => c ≠ '.')).tail).length))
    else none
  | _, _ => none

/-- The extraction `in >> splitvalue` of an integer-valued split value. -/
def get_general (s : String) : Option Int :=
  match s.data with
  | '-' :: cs => (get_general_nat cs).map (fun n => -(n : Int))
  | cs => (get_general_nat cs).map (fun n => (n : Int))

/-- The default formatting of the stream library for `size_t`, `int` labels and
integer-valued split values. -/
def fmt_decimal : stream_fmt Int :=
  { put_size := Nat.repr
    get_size := fun s => parse_digits s.data
    put_attr := put_general
    get_attr := get_general
    put_label := put_int
    get_label := get_int }

end ndectree

namespace nextratrees
open ndectree

/-- Two training rows `(1000000, 0)` and `(1000002, 1)`. -/
def scenario_gap : cexampleset Int :=
  { names := ["x1"]
    featurevectors := [[1000000], [1000002]]
    labelname := "y"
    labels := [0, 1]
    labelset := [0, 1] }

/-- Two training rows `(1, 0)` and `(3, 1)`. -/
def scenario_near : cexampleset Int :=
  { names := ["x1"]
    featurevectors := [[1], [3]]
    labelname := "y"
    labels := [0, 1]
    labelset := [0, 1] }

/-- A generator without state whose integer draws are `0` and whose real draws
from `[min, max]` are `min + 1`. -/
def rng_next : twister_t Unit Int :=
  { urand_sizet := fun g => (0, g)
    urand := fun min _ g => (min + 1, g) }

/-- The forest of one tree with split value `1000001`. -/
def forest_gap : forest_t Int :=
  { trees := [dectree_t.branch 0 1000001 (dectree_t.leaf [1, 0]) (dectree_t.leaf [0, 1])]
    indextolabel := [0, 1] }

/-- The forest of one tree with split value `1000000`. -/
def forest_gap_reread : forest_t Int :=
  { trees := [dectree_t.branch 0 1000000 (dectree_t.leaf [1, 0]) (dectree_t.leaf [0, 1])]
    indextolabel := [0, 1] }

/-- The forest of one tree with split value `2`. -/
def forest_near : forest_t Int :=
  { trees := [dectree_t.branch 0 2 (dectree_t.leaf [1, 0]) (dectree_t.leaf [0, 1])]
    indextolabel := [0, 1] }

/-- A model file for one label value, one excluded column and one tree, whose
tree is a leaf marker followed by a token that is not a frequency. -/
def file_malformed : String :=
  "y 7\nid\nx1\n1 1 1 1\n\\ x\n"

/-- The model file written for `forest_gap`. -/
def file_gap : String :=
  "y 0 1\nid\nx1\n1 1 1 1\n+ 0 1e+06\n\\ 1 0\n\\ 0 1\n"

end nextratrees

/-! The driver `etgrow.cpp`: command line, hyperparameter grid, best record -/

namespace nutil

/-- The loop `for( string token; getline( stream, token, delim ); )` of the
standard library over the characters left in a stream: the tokens extracted,
in order.  An extraction takes the characters up to the next delimiter and
discards the delimiter; it fails, ending the loop, when no character at all is
left.  The second argument holds the characters of the token being read. -/
def getline_tokens (delim : Char) : List Char → List Char → List String
  | [], cur => if cur = [] then [] else [String.mk cur]
  | c :: rest, cur =>
    if c = delim then String.mk cur :: getline_tokens delim rest []
    else getline_tokens delim rest (cur ++ [c])

/-- The call `s.insert( x )` on a `std::set`, the set being the list of its
elements in ascending order. -/
def set_insert {β : Type} [DecidableEq β] [LT β] [DecidableRel (fun a b : β => a < b)]
    (x : β) : List β → List β
  | [] => [x]
  | y :: ys =>
    if x = y then y :: ys
    else if x < y then x :: y :: ys
    else y :: set_insert x ys

end nutil

namespace etgrow

/-- The file-scope variables of `etgrow.cpp` that `processarguments` sets. -/
structure options_t where
  trainfile : String
  modelfile : String
  labelcolumnname : String
  excludedfeatures : List String
  dooptimize : Bool
  optimizationlayers : Nat
  numtrees_def : Nat
  numtrees_specified : Bool
  nmin_def : Nat
  nmin_specified : Bool
  numattr_def : Nat
  numattr_specified : Bool
  deriving DecidableEq

/-- The initial values of the file-scope variables. -/
def options_init : options_t :=
  { trainfile := ""
    modelfile := ""
    labelcolumnname := ""
    excludedfeatures := []
    dooptimize := false
    optimizationlayers := 3
    numtrees_def := 10
    numtrees_specified := false
    nmin_def := 4
    nmin_specified := false
    numattr_def := 0
    numattr_specified := false }

def numtrees_p2_min : Nat := 3

def numtrees_p2_max : Nat := 10

def nmin_p2_min : Nat := 1

def nmin_p2_max : Nat := 8

/-- The loop `for( string name; getline( namestream, name, ',' ); )
excludedfeatures.insert( name )` for the value `nextarg` of `-e`. -/
def exclude_names (excludedfeatures : List String) (nextarg : String) : List String :=
  (nutil.getline_tokens ',' nextarg.data []).foldl (fun s name => nutil.set_insert name s)
    excludedfeatures

/-- The chain `if( arg == "-e" ) ... else if( arg == "-y" ) ...` of
`processarguments` for one argument `arg` followed by `nextarg`; `none` when
`good` stays false.  `stol` is the library function, `none` standing for a
thrown exception. -/
def process_pair (stol : String → Option Int) (o : options_t) (arg nextarg : String) :
    Option options_t :=
  if arg = "-e" then
    some { o with excludedfeatures := exclude_names o.excludedfeatures nextarg }
  else if arg = "-l" then
    match stol nextarg with
    | none => none
    | some num =>
      if num < 1 then none
      else some { o with dooptimize := true, optimizationlayers := num.toNat }
  else if arg = "-nmin" then
    match stol nextarg with
    | none => none
    | some num =>
      if num < 1 then none
      else some { o with nmin_def := num.toNat, nmin_specified := true }
  else if arg = "-numattr" then
    match stol nextarg with
    | none => none
    | some num =>
      if num < 0 then none
      else some { o with numattr_def := num.toNat, numattr_specified := true }
  else if arg = "-numtrees" then
    match stol nextarg with
    | none => none
    | some num =>
      if num < 1 then none
      else some { o with numtrees_def := num.toNat, numtrees_specified := true }
  else if arg = "-m" then some { o with modelfile := nextarg }
  else if arg = "-t" then some { o with trainfile := nextarg }
  else if arg = "-y" then some { o with labelcolumnname := nextarg }
  else none

/-- The loop `for( int argi = 1; argi < argc; argi++ )` of `processarguments`
over the arguments from `argv[ argi ]` on: `(false, _)` when the loop returns
false, `(true, o)` when it runs to its end with the variables `o`. -/
def process_loop (stol : String → Option Int) : List String → options_t → Bool × options_t
  | [], o => (true, o)
  | [_], o => (false, o)
  | arg :: nextarg :: rest, o =>
    match process_pair stol o arg nextarg with
    | none => (false, o)
    | some o1 => process_loop stol rest o1

/-- The function `processarguments` of `etgrow.cpp` on the argument vector
`argv` (`argc` is its length), started with the variables `o`: the value
returned and the variables afterwards. -/
def processarguments (stol : String → Option Int) (argv : List String) (o : options_t) :
    Bool × options_t :=
  if argv.length < 1 + 2 + 2 then (false, o)
  else
    match process_loop stol argv.tail o with
    | (false, o1) => (false, o1)
    | (true, o1) => (!o1.trainfile.isEmpty && !o1.modelfile.isEmpty, o1)

/-- The library function `isspace` in the "C" locale. -/
def isspace (c : Char) : Bool :=
  c = ' ' || c = '\t' || c = '\n' || c = '\r' || c.toNat = 11 || c.toNat = 12

/-- The value of a list of decimal digits, most significant first. -/
def digits_value (ds : List Char) : Nat :=
  ds.foldl (fun a c => 10 * a + (c.toNat - 48)) 0

/-- The sign read by `strtol` and the characters after it. -/
def stol_sign : List Char → Bool × List Char
  | '-' :: cs => (true, cs)
  | '+' :: cs => (false, cs)
  | cs => (false, cs)

/-- The library function `std::stol( s )` (base 10, `long` of 64 bits):
leading white space is skipped, an optional sign and the longest run of digits
are read, whatever follows is ignored; `none` stands for the exception thrown
when no digit is read (`invalid_argument`) or the value does not fit
(`out_of_range`). -/
def std_stol (s : String) : Option Int :=
  if ((stol_sign (s.data.dropWhile isspace)).2.takeWhile Char.isDigit) = [] then none
  else if (stol_sign (s.data.dropWhile isspace)).1 then
    (if 2 ^ 63 < digits_value ((stol_sign (s.data.dropWhile isspace)).2.takeWhile Char.isDigit)
      then none
      else some (-(digits_value
        ((stol_sign (s.data.dropWhile isspace)).2.takeWhile Char.isDigit) : Int)))
  else
    (if 2 ^ 63 ≤ digits_value ((stol_sign (s.data.dropWhile isspace)).2.takeWhile Char.isDigit)
      then none
      else some (digits_value
        ((stol_sign (s.data.dropWhile isspace)).2.takeWhile Char.isDigit) : Int))

/-- The flag/value pairs the specification accepts: `-e`, `-m`, `-t`, `-y`
with any value; `-l`, `-nmin`, `-numtrees` with a value from which `stol` reads
a number `≥ 1`; `-numattr` with a value from which it reads a number `≥ 0`. -/
def valid_pair (stol : String → Option Int) (arg nextarg : String) : Bool :=
  if arg = "-e" ∨ arg = "-m" ∨ arg = "-t" ∨ arg = "-y" then true
  else if arg = "-l" ∨ arg = "-nmin" ∨ arg = "-numtrees" then
    match stol nextarg with
    | some num => decide (1 ≤ num)
    | none => false
  else if arg = "-numattr" then
    match stol nextarg with
    | some num => decide (0 ≤ num)
    | none => false
  else false

/-- The arguments after the program name split into valid flag/value pairs, no
argument left over. -/
def args_ok (stol : String → Option Int) : List String → Bool
  | [] => true
  | [_] => false
  | arg :: nextarg :: rest => valid_pair stol arg nextarg && args_ok stol rest

/-- The value of the last pair whose flag is `flag`, among the flag/value
pairs of the arguments. -/
def last_value (flag : String) : List String → Option String
  | arg :: nextarg :: rest =>
    match last_value flag rest with
    | some v => some v
    | none => if arg = flag then some nextarg else none
  | _ => none

/-- A decimal numeral: an optional sign followed by digits only, at least
one. -/
def is_numeral (s : String) : Bool :=
  (stol_sign s.data).2 ≠ [] && (stol_sign s.data).2.all Char.isDigit

/-- A loop `for( x : xs ) { body; if( specified ) break; }`, the body yielding
a list of launched tasks. -/
def loop_break {β : Type} (specified : Bool) (body : Nat → List β) : List Nat → List β
  | [] => []
  | x :: rest => body x ++ (if specified then [] else loop_break specified body rest)

/-- The task launched in one pass of the innermost loop of `main`:
`(numtrees, nmin, numattr)` for the loop variables `M2`, `nmin2`, `K`. -/
def task_of (o : options_t) (M2 nmin2 K : Nat) : Nat × Nat × Nat :=
  (if o.numtrees_specified then o.numtrees_def else 1 <<< M2,
    if o.nmin_specified then o.nmin_def else 1 <<< nmin2,
    if o.numattr_specified then o.numattr_def else K)

/-- The triples `(numtrees, nmin, numattr)` for which the triple loop of `main`
creates a thread, in the order of creation; `F` is
`trainsuperset.names.size()`. -/
def launched_tasks (o : options_t) (F : Nat) : List (Nat × Nat × Nat) :=
  loop_break o.numtrees_specified
    (fun M2 => loop_break o.nmin_specified
      (fun nmin2 => loop_break o.numattr_specified
        (fun K => [task_of o M2 nmin2 K])
        (List.range' 1 F))
      (List.range' nmin_p2_min (nmin_p2_max + 1 - nmin_p2_min)))
    (List.range' numtrees_p2_min (numtrees_p2_max + 1 - numtrees_p2_min))

/-- The value `totalcombos` of `main`, a product of `size_t`. -/
def totalcombos (o : options_t) (F : Nat) : Nat :=
  ((if o.numtrees_specified then 1 else numtrees_p2_max - numtrees_p2_min + 1) *
    (if o.nmin_specified then 1 else nmin_p2_max - nmin_p2_min + 1) *
    (if o.numattr_specified then 1 else F)) % 2 ^ 64

/-- The grid of one axis as the specification lists it: the pinned value, or
the values of the free axis. -/
def axis_grid (specified : Bool) (pinned : Nat) (free : List Nat) : List Nat :=
  if specified then [pinned] else free

/-- The Cartesian product of the three grids of the specification in
lexicographic order: `numtrees` pinned or 8, 16, ..., 1024; `nmin` pinned or
2, 4, ..., 256; `numattr` pinned or 1, ..., F. -/
def grid_product (o : options_t) (F : Nat) : List (Nat × Nat × Nat) :=
  List.product (axis_grid o.numtrees_specified o.numtrees_def [8, 16, 32, 64, 128, 256, 512, 1024])
    (List.product (axis_grid o.nmin_specified o.nmin_def [2, 4, 8, 16, 32, 64, 128, 256])
      (axis_grid o.numattr_specified o.numattr_def (List.range' 1 F)))

/-- The record guarded by `best_mutex`: `bestaccuracy`, `bestnumtrees`,
`bestnmin`, `bestnumattr`, and the counter `numcombos`. -/
structure best_t (R : Type) where
  bestaccuracy : R
  bestnumtrees : Nat
  bestnmin : Nat
  bestnumattr : Nat
  numcombos : Nat

/-- A finished task as it enters the section guarded by `best_mutex`: its
hyperparameters and the mean accuracy it measured. -/
structure completion_t (R : Type) where
  numtrees : Nat
  nmin : Nat
  numattr : Nat
  accuracy : R

/-- The record before the first task: `bestaccuracy = -1.0`, the three
hyperparameters 0, `numcombos = 0`. -/
def best_init {R : Type} [Neg R] [One R] : best_t R :=
  { bestaccuracy := -1
    bestnumtrees := 0
    bestnmin := 0
    bestnumattr := 0
    numcombos := 0 }

/-- The section of `dotest` between `best_mutex.lock()` and
`best_mutex.unlock()`: `++numcombos; isbest = accuracy > bestaccuracy;
if( isbest ) { bestaccuracy = accuracy; bestnumtrees = numtrees; ... }`. -/
def dotest_record {R : Type} [LT R] [DecidableRel (fun a b : R => a < b)]
    (b : best_t R) (c : completion_t R) : best_t R :=
  if c.accuracy > b.bestaccuracy then
    { bestaccuracy := c.accuracy
      bestnumtrees := c.numtrees
      bestnmin := c.nmin
      bestnumattr := c.numattr
      numcombos := (b.numcombos + 1) % 2 ^ 64 }
  else
    { bestaccuracy := b.bestaccuracy
      bestnumtrees := b.bestnumtrees
      bestnmin := b.bestnmin
      bestnumattr := b.bestnumattr
      numcombos := (b.numcombos + 1) % 2 ^ 64 }

/-- The record after the first `k` of the completions `cs`. -/
def tracker_after {R : Type} [Neg R] [One R] [LT R] [DecidableRel (fun a b : R => a < b)]
    (cs : List (completion_t R)) (k : Nat) : best_t R :=
  (cs.take k).foldl dotest_record best_init

/-- Three completions with accuracies `1/2`, `3/4`, `3/4`. -/
def scenario_completions : List (completion_t ℚ) :=
  [{ numtrees := 8, nmin := 2, numattr := 1, accuracy := 1 / 2 },
    { numtrees := 8, nmin := 2, numattr := 2, accuracy := 3 / 4 },
    { numtrees := 8, nmin := 4, numattr := 1, accuracy := 3 / 4 }]

/-- The state of the optimizer that the thread bound depends on: the counter
`numproc`, whether the producer has returned from
`done_condition.wait( done_lock, notfull_predicate )` and not yet created the
thread, and the number of threads created whose `numproc--` is still to come. -/
structure optimizer_t where
  numproc : Nat
  admitted : Bool
  running : Nat
  deriving DecidableEq

/-- The steps of the optimizer, each one section guarded by `numproc_mutex`:
the producer evaluates `notfull_predicate`; the producer runs `numproc++;
new thread( dotest, ... )`; a worker runs `numproc--`. -/
inductive optimizer_event where
  | observe
  | launch
  | finish
  deriving DecidableEq

/-- One step of the optimizer with `maxproc` hardware threads; `none` when the
step cannot be taken in the state.  The producer evaluates the predicate only
while waiting, and leaves the wait only when it read `numproc < maxproc`; a
worker decrements only once, at its end. -/
def optimizer_next (maxproc : Nat) (s : optimizer_t) : optimizer_event → Option optimizer_t
  | optimizer_event.observe =>
    if s.admitted then none
    else some { s with admitted := decide (s.numproc < maxproc) }
  | optimizer_event.launch =>
    if s.admitted then
      some { numproc := (s.numproc + 1) % 2 ^ 64, admitted := false, running := s.running + 1 }
    else none
  | optimizer_event.finish =>
    if 0 < s.running then
      some { numproc := (s.numproc + (2 ^ 64 - 1)) % 2 ^ 64, admitted := s.admitted,
             running := s.running - 1 }
    else none

/-- The state before the triple loop: `numproc = 0`, no thread created. -/
def optimizer_init : optimizer_t :=
  { numproc := 0, admitted := false, running := 0 }

/-- The state reached from the initial one by a sequence of steps. -/
def optimizer_run (maxproc : Nat) (events : List optimizer_event) : Option optimizer_t :=
  events.foldlM (optimizer_next maxproc) optimizer_init

end etgrow

/-! The CSV reader `cexampleset::loadfromfile` of `nexamples.hpp` -/

namespace nexamples
open nextratrees

/-- The result of a conversion `stoi( token )` or `stof( token )`: a value, or
one of the two exceptions the library throws. -/
inductive conv_t (β : Type) where
  | value : β → conv_t β
  | invalid_argument : conv_t β
  | out_of_range : conv_t β
  deriving DecidableEq

/-- The local `enum coltype : char { EXCLUDE, FEATURE, LABEL }`. -/
inductive coltype where
  | EXCLUDE
  | FEATURE
  | LABEL
  deriving DecidableEq

/-- The variables written by the header loop of `loadfromfile`. -/
structure header_t where
  labelfound : Bool
  columnmap : List coltype
  names : List String
  exnames : List String
  deriving DecidableEq

/-- Body of the loop "read column names: learn indices of label and excluded
columns". -/
def header_step (labelcolumnname : String) (excludefeatures : List String) (h : header_t)
    (token : String) : header_t :=
  if token = labelcolumnname then
    { h with labelfound := true, columnmap := h.columnmap ++ [coltype.LABEL] }
  else if token ∈ excludefeatures then
    { h with exnames := h.exnames ++ [token], columnmap := h.columnmap ++ [coltype.EXCLUDE] }
  else
    { h with names := h.names ++ [token], columnmap := h.columnmap ++ [coltype.FEATURE] }

/-- The header loop over the tokens of the header line. -/
def read_header (labelcolumnname : String) (excludefeatures : List String)
    (tokens : List String) : header_t :=
  tokens.foldl (header_step labelcolumnname excludefeatures)
    { labelfound := false, columnmap := [], names := [], exnames := [] }

/-- What the block "read header line" leaves behind when it does not return
false: the column map, the names, and the in/out parameters. -/
structure columns_t where
  numfilecolumns : Nat
  columnmap : List coltype
  names : List String
  exnames : List String
  labelcolumnname : String
  islabeled : Bool
  deriving DecidableEq

/-- The block "decide whether there should be a label column present, and
which one it is" with the check of the excluded names after it.  Outer `none`:
undefined behaviour (`columnmap[ numfilecolumns - 1 ]` without a column,
`names.back()` of an empty vector); `some none`: the function returns false. -/
def decide_label (labelcolumnname : String) (islabeled : Bool) (excludefeatures : List String)
    (numfilecolumns : Nat) (h : header_t) : Option (Option columns_t) :=
  if labelcolumnname.isEmpty then
    if islabeled then
      if numfilecolumns = 0 then none
      else
        match h.names.getLast? with
        | none => none
        | some last =>
          if h.exnames.length ≠ excludefeatures.length then some none
          else some (some
            { numfilecolumns := numfilecolumns
              columnmap := h.columnmap.set (numfilecolumns - 1) coltype.LABEL
              names := h.names.dropLast
              exnames := h.exnames
              labelcolumnname := last
              islabeled := islabeled })
    else
      if h.exnames.length ≠ excludefeatures.length then some none
      else some (some
        { numfilecolumns := numfilecolumns
          columnmap := h.columnmap
          names := h.names
          exnames := h.exnames
          labelcolumnname := labelcolumnname
          islabeled := islabeled })
  else if !h.labelfound && islabeled then some none
  else if h.exnames.length ≠ excludefeatures.length then some none
  else some (some
    { numfilecolumns := numfilecolumns
      columnmap := h.columnmap
      names := h.names
      exnames := h.exnames
      labelcolumnname := labelcolumnname
      islabeled := h.labelfound || islabeled })

/-- The variables written while the tokens of one line are read: the two local
vectors and the members `labels`, `labelset`. -/
structure row_t (α : Type) where
  featurevector : List α
  exfeaturevector : List String
  labels : List Int
  labelset : List Int

/-- The loop over the tokens of one line from column `index` on.  Outer
`none`: no return (an `out_of_range` exception is not caught); `some none`: the
function returns false. -/
def read_tokens {α : Type} (stoi : String → conv_t Int) (stof : String → conv_t α)
    (c : columns_t) : List String → Nat → row_t α → Option (Option (Nat × row_t α))
  | [], index, r => some (some (index, r))
  | token :: rest, index, r =>
    if index ≥ c.numfilecolumns then some none
    else
      match c.columnmap[index]? with
      | none => none
      | some coltype.LABEL =>
        match stoi token with
        | conv_t.value label =>
          read_tokens stoi stof c rest (index + 1)
            { r with labels := r.labels ++ [label],
                     labelset := nutil.set_insert label r.labelset }
        | conv_t.invalid_argument => some none
        | conv_t.out_of_range => none
      | some coltype.FEATURE =>
        match stof token with
        | conv_t.value featurevalue =>
          read_tokens stoi stof c rest (index + 1)
            { r with featurevector := r.featurevector ++ [featurevalue] }
        | conv_t.invalid_argument => some none
        | conv_t.out_of_range => none
      | some coltype.EXCLUDE =>
        read_tokens stoi stof c rest (index + 1)
          { r with exfeaturevector := r.exfeaturevector ++ [token] }

/-- The members written by the loop "read values". -/
structure values_t (α : Type) where
  featurevectors : List (List α)
  exfeaturevectors : List (List String)
  labels : List Int
  labelset : List Int

/-- The loop "read values" over the lines after the header. -/
def read_values {α : Type} (stoi : String → conv_t Int) (stof : String → conv_t α)
    (c : columns_t) : List String → values_t α → Option (Option (values_t α))
  | [], v => some (some v)
  | line :: rest, v =>
    match read_tokens stoi stof c (nutil.getline_tokens ',' line.data []) 0
        { featurevector := [], exfeaturevector := [], labels := v.labels,
          labelset := v.labelset } with
    | none => none
    | some none => some none
    | some (some (index, r)) =>
      if index ≠ c.numfilecolumns then some none
      else
        read_values stoi stof c rest
          { featurevectors := v.featurevectors ++ [r.featurevector]
            exfeaturevectors :=
              if r.exfeaturevector = [] then v.exfeaturevectors
              else v.exfeaturevectors ++ [r.exfeaturevector]
            labels := r.labels
            labelset := r.labelset }

/-- What `loadfromfile` leaves behind when it returns true: the members of the
example set, the excluded columns, the two in/out parameters, and (for
reference) the local column map. -/
structure loaded_t (α : Type) where
  exampleset : cexampleset α
  exnames : List String
  exfeaturevectors : List (List String)
  labelcolumnname : String
  islabeled : Bool
  columnmap : List coltype

/-- The function `cexampleset::loadfromfile` of `nexamples.hpp` on a fresh
example set and a file that opens, with the text `text`.  Outer `none`: the
call does not return (undefined behaviour or an exception that is not caught);
`some none`: it returns false; `some (some r)`: it returns true. -/
def loadfromfile {α : Type} (stoi : String → conv_t Int) (stof : String → conv_t α)
    (text : String) (labelcolumnname : String) (islabeled : Bool)
    (excludefeatures : List String) : Option (Option (loaded_t α)) :=
  if labelcolumnname ∈ excludefeatures then some none
  else
    match nutil.getline text.data with
    | none => none
    | some (header, rest) =>
      match decide_label labelcolumnname islabeled excludefeatures
          (nutil.getline_tokens ',' header.data []).length
          (read_header labelcolumnname excludefeatures
            (nutil.getline_tokens ',' header.data [])) with
      | none => none
      | some none => some none
      | some (some c) =>
        match read_values stoi stof c (nutil.getline_tokens '\n' rest [])
            { featurevectors := [], exfeaturevectors := [], labels := [], labelset := [] } with
        | none => none
        | some none => some none
        | some (some v) =>
          some (some
            { exampleset :=
                { names := c.names
                  featurevectors := v.featurevectors
                  labelname := c.labelcolumnname
                  labels := v.labels
                  labelset := v.labelset }
              exnames := c.exnames
              exfeaturevectors := v.exfeaturevectors
              labelcolumnname := c.labelcolumnname
              islabeled := c.islabeled
              columnmap := c.columnmap })

/-- The library function `std::stoi( token )` (`int` of 32 bits), read like
`std::stol`. -/
def std_stoi (token : String) : conv_t Int :=
  if ((etgrow.stol_sign (token.data.dropWhile etgrow.isspace)).2.takeWhile Char.isDigit) = []
  then conv_t.invalid_argument
  else
    match etgrow.std_stol token with
    | none => conv_t.out_of_range
    | some v => if v < -(2 ^ 31) ∨ 2 ^ 31 ≤ v then conv_t.out_of_range else conv_t.value v

/-- The library function `std::stof( token )` on tokens that are decimal
integers, the value held as an integer; tokens with a fraction or an exponent
are outside this stand-in and are read up to the first character that is not a
digit. -/
def stof_integer (token : String) : conv_t Int :=
  if ((etgrow.stol_sign (token.data.dropWhile etgrow.isspace)).2.takeWhile Char.isDigit) = []
  then conv_t.invalid_argument
  else
    match etgrow.std_stol token with
    | none => conv_t.out_of_range
    | some v => conv_t.value v

/-- A CSV text with the header `a,b,c` and the row `1,2,3`. -/
def csv_three_columns : String := "a,b,c\n1,2,3\n"

end nexamples

/-! Traces of the tree builder: tested attributes and drawn splits -/

namespace ndectree

/-- The attribute indices tested by the branch nodes of a tree, in pre-order. -/
def dectree_t.attrindices {α : Type} : dectree_t α → List Nat
  | dectree_t.leaf _ => []
  | dectree_t.branch attrindex _ l r => attrindex :: (attrindices l ++ attrindices r)

end ndectree

namespace nextratrees
open ndectree

/-- The comparison `if( scr > bestscore ) { bestattr = ai; bestsplit = split;
bestscore = scr; }` on a triple. -/
def first_max_step {β R : Type} [LT R] [DecidableRel (fun a b : R => a < b)]
    (best d : Nat × β × R) : Nat × β × R :=
  if d.2.2 > best.2.2 then d else best

section draws_defs
variable {α : Type} [LinearOrder α]
variable {R : Type} [NatCast R] [Zero R] [One R] [Add R] [Sub R] [Mul R] [Div R] [Neg R]
  [LT R] [DecidableRel (fun a b : R => a < b)]
variable {G : Type}

/-- One pass of the loop `for( auto &ai : attrs )` up to the comparison: the
split value drawn from `[min, max]` of attribute `ai`, its score, and the
generator state after the draw. -/
def draw_one (log2 : R → R) (rng : twister_t G α) (exampleset : exampleset_t α)
    (indices : List Nat) (mins maxs : List (Option α)) (ai : Nat) (g : G) :
    Option ((Nat × α × R) × G) :=
  match mins[ai]?, maxs[ai]?, exampleset.attrs[ai]? with
  | some (some min), some (some max), some attr =>
    match score log2 attr exampleset.labels exampleset.numclasses indices
        (rng.urand min max g).1 with
    | none => none
    | some scr => some ((ai, (rng.urand min max g).1, scr), (rng.urand min max g).2)
  | _, _, _ => none

/-- The triples `(ai, split, scr)` of the passes of the loop over `attrs`, in
iteration order, the generator state running through them. -/
def split_draws (log2 : R → R) (rng : twister_t G α) (exampleset : exampleset_t α)
    (indices : List Nat) (mins maxs : List (Option α)) :
    List Nat → G → Option (List (Nat × α × R) × G)
  | [], g => some ([], g)
  | ai :: rest, g =>
    match draw_one log2 rng exampleset indices mins maxs ai g with
    | none => none
    | some (d, g1) =>
      match split_draws log2 rng exampleset indices mins maxs rest g1 with
      | none => none
      | some (ds, g2) => some (d :: ds, g2)

end draws_defs

end nextratrees

/-! The shuffle as a function of its offsets, and the outcome of a build -/

namespace nexamples
open nextratrees

/-- A generator that replays a list of values: `urand_sizet` returns the head
of the list (0 when the list is used up) and leaves its tail. -/
def rng_replay : twister_t (List Nat) Unit :=
  { urand_sizet := fun g => (g.headD 0, g.tail)
    urand := fun min _ g => (min, g) }

/-- The index vector after the shuffle loop of `split` on `N` examples when
the successive values of `urand_sizet( twister )` are `ts`; for `ts[i]` below
`N - i` the swap target of pass `i` is `i + ts[i]`. -/
def shuffle_of_offsets (N : Nat) (ts : List Nat) : Option (List Nat) :=
  (shuffle_indices rng_replay N ts).map Prod.fst

/-- The offset sequences `(t_i, ..., t_(i+k-1))` with `t_j` in `[0, N - j)`. -/
def offset_sequences_from (N : Nat) : Nat → Nat → List (List Nat)
  | 0, _ => [[]]
  | k + 1, i =>
    (List.range (N - i)).flatMap
      (fun t => (offset_sequences_from N k (i + 1)).map (fun ts => t :: ts))

/-- The offset sequences `(t_0, ..., t_(N-2))` with `t_i` in `[0, N - i)`. -/
def offset_sequences (N : Nat) : List (List Nat) :=
  offset_sequences_from N (N - 1) 0

/-- The number of offset sequences for which the shuffle of `N` indices ends in
the arrangement `p`. -/
def produced_by (N : Nat) (p : List Nat) : Nat :=
  (offset_sequences N).countP (fun ts => decide (shuffle_of_offsets N ts = some p))

end nexamples

namespace nextratrees
open ndectree

/-- Two examples `(1, 0)` and `(3, 1)` in column form. -/
def scenario_stump : exampleset_t Int :=
  { attrnames := ["x1"]
    attrs := [[1, 3]]
    labelvalues := [0, 1]
    labels := [0, 1]
    numclasses := 2 }

/-- Four examples with two attributes that hold the same column, labels
`0, 0, 1, 1`: any split value scores the same on both attributes. -/
def scenario_tie : exampleset_t Int :=
  { attrnames := ["x1", "x2"]
    attrs := [[0, 0, 1, 1], [0, 0, 1, 1]]
    labelvalues := [0, 1]
    labels := [0, 0, 1, 1]
    numclasses := 2 }

/-- How a call of `build_an_extra_tree` ends in the embedding: it returns a
tree, the recursion bound is used up, or it reaches an undefined operation (a
subscript out of range, a read of a cell that was not written). -/
inductive outcome_t where
  | returned
  | out_of_fuel
  | undefined
  deriving DecidableEq

section build_outcome

variable {α : Type} [LinearOrder α] [Zero α]
variable {R : Type} [NatCast R] [Zero R] [One R] [Add R] [Sub R] [Mul R] [Div R] [Neg R]
  [LT R] [DecidableRel (fun a b : R => a < b)]
variable {G : Type}

/-- The function `build_an_extra_tree` once more, keeping only how the call
ends: the same blocks in the same order, `undefined` where a block of the call
is undefined, and the outcome of the first child that does not return a tree
(the right child is built from the generator state the left child leaves). -/
def build_outcome (log2 : R → R) (rng : twister_t G α) :
    Nat → exampleset_t α → List Nat → List Nat → Nat → Nat → G → outcome_t
  | 0, _, _, _, _, _, _ => outcome_t.out_of_fuel
  | fuel + 1, exampleset, attrindices, indices, nmin, numattr, g =>
    match count_classfreqs exampleset indices with
    | none => outcome_t.undefined
    | some classfreqs =>
      if indices.length < nmin then outcome_t.returned
      else if numclassesnonzero classfreqs = 1 then outcome_t.returned
      else
        match collect_candidates exampleset attrindices indices with
        | none => outcome_t.undefined
        | some (mins, maxs, attrcandidates) =>
          if attrcandidates.length < 1 then outcome_t.returned
          else
            match pick_attrs rng attrcandidates numattr g with
            | none => outcome_t.undefined
            | some (attrs, g1) =>
              match choose_split log2 rng exampleset indices mins maxs attrs g1 with
              | none => outcome_t.undefined
              | some ((bestattr, bestsplit, _), g2) =>
                match exampleset.attrs[bestattr]? with
                | none => outcome_t.undefined
                | some attr =>
                  match split_indices attr bestsplit indices with
                  | none => outcome_t.undefined
                  | some (leftindices, rightindices) =>
                    match build_an_extra_tree log2 rng fuel exampleset attrs leftindices
                        nmin numattr g2 with
                    | none =>
                      build_outcome log2 rng fuel exampleset attrs leftindices nmin numattr g2
                    | some (_, g3) =>
                      build_outcome log2 rng fuel exampleset attrs rightindices nmin
                        numattr g3

end build_outcome

end nextratrees

/-! The type `double` of the ratio and the divider in `cexampleset::split` -/

namespace nexamples
open nextratrees

/-- A finite `double`, by its exact value `mantissa * 2 ^ exponent`.  Every
operation below returns a mantissa of at most 53 binary digits, as IEEE 754
binary64 does; the exponent is not bounded (the values `split` computes lie
between 0 and the number of examples and come nowhere near overflow or the
subnormal range), and infinities and NaN are left out. -/
structure double where
  mantissa : Int
  exponent : Int
  deriving DecidableEq, Repr

/-- The number of binary digits of a positive number. -/
def bit_length (n : Nat) : Nat :=
  (Nat.toDigits 2 n).length

namespace double

/-- The exact value of a `double`. -/
def value (x : double) : ℚ :=
  (x.mantissa : ℚ) * (2 : ℚ) ^ x.exponent

/-- Rounding of the exact value `m * 2 ^ e` to a `double`, to nearest with
ties to the even mantissa: a mantissa of more than 53 binary digits loses its
low digits. -/
def round (m e : Int) : double :=
  if bit_length m.natAbs ≤ 53 then { mantissa := m, exponent := e }
  else
    { mantissa := m.sign *
        (ndectree.round_half_even m.natAbs (2 ^ (bit_length m.natAbs - 53)) : Nat)
      exponent := e + ((bit_length m.natAbs - 53 : Nat) : Int) }

/-- The conversion of a decimal literal with the value `a / b` (`a`, `b`
positive) to the nearest `double`, as the compiler does for `0.7`: the
quotient is scaled to 53 binary digits and rounded once. -/
def of_ratio (a b : Nat) : double :=
  if a * 2 ^ (53 + bit_length b - bit_length a) < b * 2 ^ 53 then
    { mantissa := (ndectree.round_half_even (a * 2 ^ (53 + bit_length b - bit_length a)) b : Nat)
      exponent := -((53 + bit_length b - bit_length a : Nat) : Int) }
  else
    { mantissa :=
        (ndectree.round_half_even (a * 2 ^ (52 + bit_length b - bit_length a)) b : Nat)
      exponent := -((52 + bit_length b - bit_length a : Nat) : Int) }

/-- The comparison `x < y` of two finite `double` values, on mantissas brought
to the smaller of the two exponents. -/
def lt (x y : double) : Prop :=
  x.mantissa * 2 ^ (x.exponent - min x.exponent y.exponent).toNat <
    y.mantissa * 2 ^ (y.exponent - min x.exponent y.exponent).toNat

instance : LT double := ⟨lt⟩

instance (x y : double) : Decidable (x < y) := by
  show Decidable (lt x y)
  unfold lt
  infer_instance

instance : Zero double := ⟨{ mantissa := 0, exponent := 0 }⟩

instance : One double := ⟨{ mantissa := 1, exponent := 0 }⟩

/-- The product `x * y` of the machine: the exact product, rounded. -/
instance : Mul double := ⟨fun x y => round (x.mantissa * y.mantissa) (x.exponent + y.exponent)⟩

/-- The conversion of a `size_t` to `double`. -/
instance : NatCast double := ⟨fun n => round (n : Int) 0⟩

/-- The conversion `(size_t)( x )` of a `double` that is not negative: the
value without its fraction. -/
def to_size_t (x : double) : Nat :=
  if 0 ≤ x.exponent then x.mantissa.toNat * 2 ^ x.exponent.toNat
  else x.mantissa.toNat / 2 ^ (-x.exponent).toNat

end double

/-- Ninety examples with one feature and labels `0` and `1` in turn. -/
def scenario_ninety : cexampleset Int :=
  { names := ["x1"]
    featurevectors := (List.range 90).map (fun i => [(i : Int)])
    labelname := "y"
    labels := (List.range 90).map (fun i => (i : Int) % 2)
    labelset := [0, 1] }

end nexamples

/-! The counting loop of `score` -/

namespace nextratrees

open ndectree

section score_count

variable {α : Type} [LinearOrder α]

theorem range_map_getElem? {β : Type} (K : Nat) (f : Nat → β) (j : Nat) :
    ((List.range K).map f)[j]? = if j < K then some (f j) else none := by
  by_cases hj : j < K
  · simp [hj, List.getElem?_range hj]
  · have : (List.range K)[j]? = none := List.getElem?_eq_none (by simpa using hj)
    simp [hj, this]

theorem range_map_set {β : Type} (K : Nat) (f : Nat → β) (l : Nat) (v : β) :
    ((List.range K).map f).set l v = (List.range K).map (Function.update f l v) := by
  apply List.ext_getElem?
  intro j
  rw [List.getElem?_set, range_map_getElem?, range_map_getElem?]
  by_cases hjl : l = j
  · subst hjl
    by_cases hj : l < K <;> simp [hj]
  · by_cases hj : j < K <;> simp [hj, hjl, Function.update, Ne.symm hjl]

theorem replicate_eq_range_map {β : Type} (K : Nat) (v : β) :
    List.replicate K v = (List.range K).map (fun _ => v) := by
  apply List.ext_getElem?
  intro j
  rw [range_map_getElem?]
  by_cases hj : j < K
  · simp [hj, List.getElem?_replicate]
  · simp [hj, List.getElem?_replicate]

/-- The counting loop started from tables `ns`, `f` adds the side counts and
the per-class side counts of `indices`. -/
theorem score_count_fold (attr : List α) (labels : List Nat) (K : Nat) (split : α) :
    ∀ (indices : List Nat) (ns : Nat × Nat) (f : Nat → Nat × Nat),
      (∀ i ∈ indices, i < attr.length ∧ ∃ l, labels[i]? = some l ∧ l < K) →
      indices.foldlM (score_count_step attr labels split) (ns, (List.range K).map f) =
        some ((ns.1 + nside attr indices split false, ns.2 + nside attr indices split true),
          (List.range K).map (fun c =>
            ((f c).1 + nclass_side attr labels indices split c false,
             (f c).2 + nclass_side attr labels indices split c true))) := by
  intro indices
  induction indices with
  | nil => intro ns f _; simp [nside, nclass_side]
  | cons i rest ih =>
    intro ns f h
    obtain ⟨hi, l, hl, hlK⟩ := h i (List.mem_cons_self _ _)
    have hrest : ∀ j ∈ rest, j < attr.length ∧ ∃ l, labels[j]? = some l ∧ l < K :=
      fun j hj => h j (List.mem_cons_of_mem _ hj)
    have ha : attr[i]? = some attr[i] := List.getElem?_eq_getElem hi
    simp only [List.foldlM_cons, score_count_step, ha, hl]
    have hget : ((List.range K).map f)[l]? = some (f l) := by simp [hlK]
    simp only [hget, range_map_set, Option.bind_eq_bind, Option.some_bind]
    rw [ih _ _ hrest]
    have hs : ∀ b : Bool, nside attr (i :: rest) split b =
        nside attr rest split b + (if decide (attr[i] ≥ split) = b then 1 else 0) := by
      intro b
      simp [nside, List.countP_cons, on_side, ha]
    have hc : ∀ (c : Nat) (b : Bool), nclass_side attr labels (i :: rest) split c b =
        nclass_side attr labels rest split c b +
          (if l = c ∧ decide (attr[i] ≥ split) = b then 1 else 0) := by
      intro c b
      simp [nclass_side, List.countP_cons, on_side, has_label, ha, hl]
    refine congrArg some (Prod.ext (Prod.ext ?_ ?_) (List.map_congr_left ?_))
    · simp only [hs]
      by_cases hge : attr[i] ≥ split
      · simp [incr, hge]; try omega
      · simp [incr, hge]; try omega
    · simp only [hs]
      by_cases hge : attr[i] ≥ split
      · simp [incr, hge]; try omega
      · simp [incr, hge]; try omega
    · intro c _
      simp only [hc]
      by_cases hlc : l = c
      · subst hlc
        by_cases hge : attr[i] ≥ split
        · simp [incr, hge]; try omega
        · simp [incr, hge]; try omega
      · simp [Function.update, hlc, Ne.symm hlc]

/-- On in-range inputs the counting loop of `score` returns the tables
`numsplit = (nL, nR)` and `numclass[c] = (nLc, nRc)`. -/
theorem score_count_eq (attr : List α) (labels : List Nat) (K : Nat) (indices : List Nat)
    (split : α)
    (h : ∀ i ∈ indices, i < attr.length ∧ ∃ l, labels[i]? = some l ∧ l < K) :
    score_count attr labels K indices split =
      some ((nside attr indices split false, nside attr indices split true),
        (List.range K).map (fun c =>
          (nclass_side attr labels indices split c false,
           nclass_side attr labels indices split c true))) := by
  unfold score_count
  rw [replicate_eq_range_map, score_count_fold attr labels K split indices _ _ h]
  simp

end score_count

end nextratrees

/-! Degenerate splits score zero -/

namespace nextratrees

section score_degenerate

variable {α : Type} [LinearOrder α]
variable {R : Type} [NatCast R] [Zero R] [One R] [Add R] [Sub R] [Mul R] [Div R] [Neg R]

theorem nside_eq_zero_of_forall (attr : List α) (indices : List Nat) (split : α) (b : Bool)
    (h : ∀ i ∈ indices, ∀ a, attr[i]? = some a → ¬ (decide (a ≥ split) = b)) :
    nside attr indices split b = 0 := by
  unfold nside
  rw [List.countP_eq_zero]
  intro i hi
  unfold on_side
  cases ha : attr[i]? with
  | none => simp
  | some a => simpa using h i hi a ha

/-- C6: whatever the arithmetic `R` and the function `log2` are, when no entry
of `indices` has `attr < split`, or no entry has `attr >= split` (in particular
when `indices` is empty), `score` returns exactly `0`: the value does not
depend on `log2` or on the division of `R`. -/
theorem score_one_sided_zero (log2 : R → R) (attr : List α) (labels : List Nat)
    (numclasses : Nat) (indices : List Nat) (split : α)
    (hrange : ∀ i ∈ indices, i < attr.length ∧ ∃ l, labels[i]? = some l ∧ l < numclasses)
    (hside : (∀ i ∈ indices, ∀ a, attr[i]? = some a → ¬ a < split) ∨
      (∀ i ∈ indices, ∀ a, attr[i]? = some a → ¬ a ≥ split)) :
    score log2 attr labels numclasses indices split = some 0 := by
  unfold score
  rw [score_count_eq attr labels numclasses indices split hrange]
  have h0 : nside attr indices split false = 0 ∨ nside attr indices split true = 0 := by
    rcases hside with h | h
    · left
      apply nside_eq_zero_of_forall
      intro i hi a ha
      have := h i hi a ha
      simpa using this
    · right
      apply nside_eq_zero_of_forall
      intro i hi a ha
      have := h i hi a ha
      simpa using this
  simp [score_of_counts, h0]

/-- Witness for C6 over the reals: the split value `1` leaves nothing of
`[1, 2, 3]` on the left. -/
theorem score_one_sided_zero_witness :
    ((∀ i ∈ [0, 1, 2], i < [(1 : Int), 2, 3].length ∧ ∃ l, [0, 1, 0][i]? = some l ∧ l < 2) ∧
      ((∀ i ∈ [0, 1, 2], ∀ a, [(1 : Int), 2, 3][i]? = some a → ¬ a < 1) ∨
        (∀ i ∈ [0, 1, 2], ∀ a, [(1 : Int), 2, 3][i]? = some a → ¬ a ≥ 1))) ∧
    score (Real.logb 2) [(1 : Int), 2, 3] [0, 1, 0] 2 [0, 1, 2] 1 = some (0 : ℝ) :=
  ⟨⟨by decide, Or.inl (by decide)⟩,
    score_one_sided_zero (Real.logb 2) [(1 : Int), 2, 3] [0, 1, 0] 2 [0, 1, 2] 1
      (by decide) (Or.inl (by decide))⟩

end score_degenerate

end nextratrees

/-! `score` over the reals -/

namespace nextratrees

section score_real

theorem range_map_sum {M : Type} [AddCommMonoid M] (K : Nat) (f : Nat → M) :
    ((List.range K).map f).sum = ∑ c in Finset.range K, f c := by
  induction K with
  | zero => simp
  | succ k ih => simp [List.range_succ, Finset.sum_range_succ, ih]

theorem score_class_step_real (numsplit : Nat × Nat) (rsize : ℝ) (st : ℝ × ℝ) (ci : Nat × Nat) :
    score_class_step (Real.logb 2) numsplit rsize st ci =
      (st.1 - (mutualinf_term (Real.logb 2) rsize ci ci.1 numsplit.1 +
          mutualinf_term (Real.logb 2) rsize ci ci.2 numsplit.2),
        st.2 - classent_term (Real.logb 2) rsize ci) := by
  unfold score_class_step mutualinf_term classent_term
  by_cases h1 : ci.1 = 0 <;> by_cases h2 : ci.2 = 0 <;> simp [h1, h2]
  ring

theorem score_class_fold_real (numsplit : Nat × Nat) (rsize : ℝ) :
    ∀ (l : List (Nat × Nat)) (st : ℝ × ℝ),
      l.foldl (score_class_step (Real.logb 2) numsplit rsize) st =
        (st.1 - (l.map (fun ci => mutualinf_term (Real.logb 2) rsize ci ci.1 numsplit.1 +
            mutualinf_term (Real.logb 2) rsize ci ci.2 numsplit.2)).sum,
          st.2 - (l.map (classent_term (Real.logb 2) rsize)).sum) := by
  intro l
  induction l with
  | nil => intro st; simp
  | cons ci rest ih =>
    intro st
    rw [List.foldl_cons, ih, score_class_step_real]
    simp only [List.map_cons, List.sum_cons]
    refine Prod.ext ?_ ?_ <;> simp <;> ring

end score_real
end nextratrees

namespace nextratrees

section score_real

theorem log_two_pos : 0 < Real.log 2 := Real.log_pos (by norm_num)

/-- Gibbs bound for one term. -/
theorem mutualinf_term_le (x y A n : Nat) (hA : 0 < A) (hn : 0 < n) :
    mutualinf_term (Real.logb 2) (1 / (n : ℝ)) (x, y) x A ≤
      (((x + y : ℝ) / n) * ((A : ℝ) / n) - (x : ℝ) / n) / Real.log 2 := by
  have hA' : (0 : ℝ) < A := by exact_mod_cast hA
  have hn' : (0 : ℝ) < n := by exact_mod_cast hn
  have hy : (0 : ℝ) ≤ y := Nat.cast_nonneg y
  unfold mutualinf_term
  by_cases hx : x = 0
  · subst hx
    simp only [ne_eq, not_true_eq_false, if_false, Nat.cast_zero, zero_add, zero_div, sub_zero]
    apply div_nonneg _ log_two_pos.le
    positivity
  · have hx' : (0 : ℝ) < x := by exact_mod_cast Nat.pos_of_ne_zero hx
    simp only [ne_eq, hx, not_false_eq_true, if_true, Nat.cast_add]
    have hz : 0 < ((x : ℝ) + y) * (1 / n) / (x / A) := by positivity
    have hlog := Real.log_le_sub_one_of_pos hz
    rw [Real.logb, ← mul_div_assoc]
    apply div_le_div_of_nonneg_right _ log_two_pos.le
    calc (x : ℝ) * (1 / n) * Real.log (((x : ℝ) + y) * (1 / n) / (x / A))
        ≤ (x : ℝ) * (1 / n) * (((x : ℝ) + y) * (1 / n) / (x / A) - 1) := by
          apply mul_le_mul_of_nonneg_left hlog
          positivity
      _ = ((x : ℝ) + y) / n * (A / n) - x / n := by
          field_simp
          ring

/-- A class contributes at least its entropy term. -/
theorem classent_term_le (x y A B n : Nat) (hxA : x ≤ A) (hyB : y ≤ B) (hn : 0 < n) :
    classent_term (Real.logb 2) (1 / (n : ℝ)) (x, y) ≤
      mutualinf_term (Real.logb 2) (1 / (n : ℝ)) (x, y) x A +
        mutualinf_term (Real.logb 2) (1 / (n : ℝ)) (x, y) y B := by
  have hn' : (0 : ℝ) < n := by exact_mod_cast hn
  have key : ∀ (u v U : Nat), u ≤ U → u ≠ 0 →
      (u : ℝ) * (1 / n) * Real.logb 2 (((u + v : ℝ)) * (1 / n)) ≤
        (u : ℝ) * (1 / n) * Real.logb 2 (((u + v : ℝ)) * (1 / n) / (u / U)) := by
    intro u v U huU hu
    have hu' : (0 : ℝ) < u := by exact_mod_cast Nat.pos_of_ne_zero hu
    have hU' : (0 : ℝ) < U := lt_of_lt_of_le hu' (by exact_mod_cast huU)
    have hv : (0 : ℝ) ≤ v := Nat.cast_nonneg v
    apply mul_le_mul_of_nonneg_left _ (by positivity)
    have hp : 0 < ((u : ℝ) + v) * (1 / n) := by positivity
    rw [Real.logb_div hp.ne' (by positivity)]
    have : Real.logb 2 ((u : ℝ) / U) ≤ 0 := by
      apply Real.logb_nonpos (by norm_num) (by positivity)
      rw [div_le_one hU']
      exact_mod_cast huU
    linarith
  unfold classent_term mutualinf_term
  simp only [Nat.cast_add]
  by_cases hx : x = 0
  · by_cases hy : y = 0
    · simp [hx, hy]
    · subst hx
      have := key y 0 B hyB hy
      simp only [Nat.cast_zero, add_zero, zero_add] at this ⊢
      simpa [hy] using this
  · by_cases hy : y = 0
    · subst hy
      have := key x 0 A hxA hx
      simp only [Nat.cast_zero, add_zero, zero_add] at this ⊢
      simpa [hx] using this
    · have h1 := key x y A hxA hx
      have h2 := key y x B hyB hy
      rw [add_comm (y : ℝ) x] at h2
      simp only [ne_eq, hx, hy, not_false_eq_true, if_true]
      have : ((x : ℝ) + y) * (1 / n) * Real.logb 2 (((x : ℝ) + y) * (1 / n)) =
          (x : ℝ) * (1 / n) * Real.logb 2 (((x : ℝ) + y) * (1 / n)) +
          (y : ℝ) * (1 / n) * Real.logb 2 (((x : ℝ) + y) * (1 / n)) := by ring
      rw [this]
      linarith

/-- A class on one side contributes at least its share of the side's entropy term. -/
theorem splitent_share_le (x y A n : Nat) (hA : 0 < A) (hn : 0 < n) :
    (x : ℝ) * (1 / n) * Real.logb 2 ((A : ℝ) * (1 / n)) ≤
      mutualinf_term (Real.logb 2) (1 / (n : ℝ)) (x, y) x A := by
  have hA' : (0 : ℝ) < A := by exact_mod_cast hA
  have hn' : (0 : ℝ) < n := by exact_mod_cast hn
  have hy : (0 : ℝ) ≤ y := Nat.cast_nonneg y
  unfold mutualinf_term
  by_cases hx : x = 0
  · simp [hx]
  · have hx' : (0 : ℝ) < x := by exact_mod_cast Nat.pos_of_ne_zero hx
    simp only [ne_eq, hx, not_false_eq_true, if_true, Nat.cast_add]
    apply mul_le_mul_of_nonneg_left _ (by positivity)
    apply Real.logb_le_logb_of_le (by norm_num) (by positivity)
    rw [le_div_iff₀ (by positivity)]
    have : (A : ℝ) * (1 / n) * (x / A) = x * (1 / n) := by field_simp; ring
    rw [this]
    apply mul_le_mul_of_nonneg_right _ (by positivity)
    linarith


/-- The two orders of the count pair give the same term. -/
theorem mutualinf_term_swap (rsize : ℝ) (x y nsc ns : Nat) :
    mutualinf_term (Real.logb 2) rsize (y, x) nsc ns =
      mutualinf_term (Real.logb 2) rsize (x, y) nsc ns := by
  simp [mutualinf_term, add_comm]

/-- The Gibbs bounds of all terms add up to zero. -/
theorem gibbs_bound_sum (K : Nat) (a b : Nat → Nat) (A B : Nat)
    (hA : A = ∑ c in Finset.range K, a c) (hB : B = ∑ c in Finset.range K, b c)
    (hApos : 0 < A) :
    ∑ c in Finset.range K,
        (((((a c : ℝ) + b c) / ((A + B : Nat) : ℝ)) * ((A : ℝ) / ((A + B : Nat) : ℝ)) -
            (a c : ℝ) / ((A + B : Nat) : ℝ)) / Real.log 2 +
          ((((b c : ℝ) + a c) / ((A + B : Nat) : ℝ)) * ((B : ℝ) / ((A + B : Nat) : ℝ)) -
            (b c : ℝ) / ((A + B : Nat) : ℝ)) / Real.log 2) = 0 := by
  have hn : 0 < A + B := by omega
  have hn' : (0 : ℝ) < ((A + B : Nat) : ℝ) := by exact_mod_cast hn
  have hAr : (A : ℝ) = ∑ c in Finset.range K, (a c : ℝ) := by rw [hA]; push_cast; rfl
  have hBr : (B : ℝ) = ∑ c in Finset.range K, (b c : ℝ) := by rw [hB]; push_cast; rfl
  simp only [← add_div, ← Finset.sum_div]
  rw [div_eq_zero_iff]
  left
  simp only [Finset.sum_add_distrib, Finset.sum_sub_distrib, ← Finset.sum_div,
    ← Finset.sum_mul, ← hAr, ← hBr]
  push_cast
  field_simp
  ring

/-- The sum of the mutual-information terms subtracted by the code is at most
zero, so `mutualinf` ends non-negative. -/
theorem mutualinf_sum_nonpos (K : Nat) (a b : Nat → Nat) (A B : Nat)
    (hA : A = ∑ c in Finset.range K, a c) (hB : B = ∑ c in Finset.range K, b c)
    (hApos : 0 < A) (hBpos : 0 < B) :
    ∑ c in Finset.range K,
      (mutualinf_term (Real.logb 2) (1 / ((A + B : Nat) : ℝ)) (a c, b c) (a c) A +
        mutualinf_term (Real.logb 2) (1 / ((A + B : Nat) : ℝ)) (a c, b c) (b c) B) ≤ 0 := by
  have hn : 0 < A + B := by omega
  rw [← gibbs_bound_sum K a b A B hA hB hApos]
  apply Finset.sum_le_sum
  intro c _
  have h1 := mutualinf_term_le (a c) (b c) A (A + B) hApos hn
  have h2 := mutualinf_term_le (b c) (a c) B (A + B) hBpos hn
  rw [mutualinf_term_swap] at h2
  exact add_le_add h1 h2

theorem classent_sum_le (K : Nat) (a b : Nat → Nat) (A B : Nat)
    (hA : A = ∑ c in Finset.range K, a c) (hB : B = ∑ c in Finset.range K, b c)
    (hApos : 0 < A) :
    ∑ c in Finset.range K, classent_term (Real.logb 2) (1 / ((A + B : Nat) : ℝ)) (a c, b c) ≤
      ∑ c in Finset.range K,
        (mutualinf_term (Real.logb 2) (1 / ((A + B : Nat) : ℝ)) (a c, b c) (a c) A +
          mutualinf_term (Real.logb 2) (1 / ((A + B : Nat) : ℝ)) (a c, b c) (b c) B) := by
  apply Finset.sum_le_sum
  intro c hc
  apply classent_term_le _ _ _ _ _ _ _ (by omega)
  · rw [hA]; exact Finset.single_le_sum (f := a) (fun _ _ => Nat.zero_le _) hc
  · rw [hB]; exact Finset.single_le_sum (f := b) (fun _ _ => Nat.zero_le _) hc

theorem splitent_neg_le (K : Nat) (a b : Nat → Nat) (A B : Nat)
    (hA : A = ∑ c in Finset.range K, a c) (hB : B = ∑ c in Finset.range K, b c)
    (hApos : 0 < A) (hBpos : 0 < B) :
    -score_splitent (Real.logb 2) (A, B) (1 / ((A + B : Nat) : ℝ)) ≤
      ∑ c in Finset.range K,
        (mutualinf_term (Real.logb 2) (1 / ((A + B : Nat) : ℝ)) (a c, b c) (a c) A +
          mutualinf_term (Real.logb 2) (1 / ((A + B : Nat) : ℝ)) (a c, b c) (b c) B) := by
  have hn : 0 < A + B := by omega
  have hAr : (A : ℝ) = ∑ c in Finset.range K, (a c : ℝ) := by rw [hA]; push_cast; rfl
  have hBr : (B : ℝ) = ∑ c in Finset.range K, (b c : ℝ) := by rw [hB]; push_cast; rfl
  have e : -score_splitent (Real.logb 2) (A, B) (1 / ((A + B : Nat) : ℝ)) =
      ∑ c in Finset.range K,
        ((a c : ℝ) * (1 / ((A + B : Nat) : ℝ)) * Real.logb 2 ((A : ℝ) * (1 / ((A + B : Nat) : ℝ))) +
          (b c : ℝ) * (1 / ((A + B : Nat) : ℝ)) * Real.logb 2 ((B : ℝ) * (1 / ((A + B : Nat) : ℝ)))) := by
    simp only [Finset.sum_add_distrib, ← Finset.sum_mul, ← hAr, ← hBr, score_splitent]
    ring
  rw [e]
  apply Finset.sum_le_sum
  intro c _
  have h1 := splitent_share_le (a c) (b c) A (A + B) hApos hn
  have h2 := splitent_share_le (b c) (a c) B (A + B) hBpos hn
  have e2 : mutualinf_term (Real.logb 2) (1 / ((A + B : Nat) : ℝ)) (b c, a c) (b c) B =
      mutualinf_term (Real.logb 2) (1 / ((A + B : Nat) : ℝ)) (a c, b c) (b c) B := by
    simp [mutualinf_term, add_comm]
  rw [e2] at h2
  exact add_le_add h1 h2

theorem splitent_pos (A B : Nat) (hApos : 0 < A) (hBpos : 0 < B) :
    0 < score_splitent (Real.logb 2) (A, B) (1 / ((A + B : Nat) : ℝ)) := by
  have hA' : (0 : ℝ) < A := by exact_mod_cast hApos
  have hB' : (0 : ℝ) < B := by exact_mod_cast hBpos
  have key : ∀ u v : ℝ, 0 < u → 0 < v → u * (1 / (u + v)) * Real.logb 2 (u * (1 / (u + v))) < 0 := by
    intro u v hu hv
    apply mul_neg_of_pos_of_neg (by positivity)
    apply Real.logb_neg (by norm_num) (by positivity)
    rw [mul_one_div, div_lt_one (by positivity)]
    linarith
  have h1 := key A B hA' hB'
  have h2 := key B A hB' hA'
  rw [add_comm (B : ℝ) A] at h2
  simp only [score_splitent]
  push_cast
  linarith

end score_real
end nextratrees

namespace nextratrees

section score_real2
variable {α : Type} [LinearOrder α]

theorem nclass_side_sum (attr : List α) (labels : List Nat) (K : Nat) (split : α) (b : Bool) :
    ∀ (indices : List Nat), (∀ i ∈ indices, ∃ l, labels[i]? = some l ∧ l < K) →
      ∑ c in Finset.range K, nclass_side attr labels indices split c b =
        nside attr indices split b := by
  intro indices
  induction indices with
  | nil => intro _; simp [nclass_side, nside]
  | cons i rest ih =>
    intro h
    obtain ⟨l, hl, hlK⟩ := h i (List.mem_cons_self _ _)
    have ih' := ih (fun j hj => h j (List.mem_cons_of_mem _ hj))
    have hc : ∀ c, nclass_side attr labels (i :: rest) split c b =
        nclass_side attr labels rest split c b +
          (if l = c then (if on_side attr split b i then 1 else 0) else 0) := by
      intro c
      simp only [nclass_side, List.countP_cons, has_label, hl, Option.some.injEq]
      by_cases hlc : l = c <;> simp [hlc]
    simp only [hc, Finset.sum_add_distrib, ih', Finset.sum_ite_eq, Finset.mem_range, hlK, if_true]
    simp [nside, List.countP_cons]

theorem nside_add (attr : List α) (split : α) :
    ∀ (indices : List Nat), (∀ i ∈ indices, i < attr.length) →
      nside attr indices split false + nside attr indices split true = indices.length := by
  intro indices
  induction indices with
  | nil => intro _; simp [nside]
  | cons i rest ih =>
    intro h
    have ih' := ih (fun j hj => h j (List.mem_cons_of_mem _ hj))
    have hi := h i (List.mem_cons_self _ _)
    have ha : attr[i]? = some attr[i] := List.getElem?_eq_getElem hi
    simp only [nside, List.countP_cons, on_side, ha, List.length_cons] at ih' ⊢
    by_cases hge : attr[i] ≥ split
    · simp [hge]; omega
    · simp [hge]; omega

/-- On in-range inputs `score` is the arithmetic of `score_of_counts` applied to
the side counts. -/
theorem score_eq_of_counts {R : Type} [NatCast R] [Zero R] [One R] [Add R] [Sub R] [Mul R]
    [Div R] [Neg R] (log2 : R → R) (attr : List α) (labels : List Nat) (K : Nat)
    (indices : List Nat) (split : α)
    (h : ∀ i ∈ indices, i < attr.length ∧ ∃ l, labels[i]? = some l ∧ l < K) :
    score log2 attr labels K indices split =
      some (score_of_counts log2
        (nside attr indices split false, nside attr indices split true)
        ((List.range K).map (fun c =>
          (nclass_side attr labels indices split c false,
           nclass_side attr labels indices split c true)))
        (nside attr indices split false + nside attr indices split true)) := by
  unfold score
  rw [score_count_eq attr labels K indices split h, nside_add attr split indices (fun i hi => (h i hi).1)]
  rfl

/-- The real value of `score_of_counts` when both sides are non-empty. -/
theorem score_of_counts_real (K : Nat) (a b : Nat → Nat) (A B : Nat)
    (hApos : 0 < A) (hBpos : 0 < B) :
    score_of_counts (Real.logb 2) (A, B) ((List.range K).map (fun c => (a c, b c))) (A + B) =
      2 * (0 - ∑ c in Finset.range K,
          (mutualinf_term (Real.logb 2) (1 / ((A + B : Nat) : ℝ)) (a c, b c) (a c) A +
            mutualinf_term (Real.logb 2) (1 / ((A + B : Nat) : ℝ)) (a c, b c) (b c) B)) /
        (score_splitent (Real.logb 2) (A, B) (1 / ((A + B : Nat) : ℝ)) +
          (0 - ∑ c in Finset.range K,
            classent_term (Real.logb 2) (1 / ((A + B : Nat) : ℝ)) (a c, b c))) := by
  unfold score_of_counts
  have h : ¬ ((A, B).1 = 0 ∨ (A, B).2 = 0) := by simp; omega
  rw [if_neg h]
  dsimp only
  rw [score_class_fold_real]
  simp only [List.map_map, range_map_sum, Function.comp_def]

/-- Bounds for the value computed from count tables. -/
theorem score_of_counts_bounds (K : Nat) (a b : Nat → Nat) (A B : Nat)
    (hA : A = ∑ c in Finset.range K, a c) (hB : B = ∑ c in Finset.range K, b c) :
    0 ≤ score_of_counts (Real.logb 2) (A, B) ((List.range K).map (fun c => (a c, b c))) (A + B) ∧
    score_of_counts (Real.logb 2) (A, B) ((List.range K).map (fun c => (a c, b c))) (A + B) ≤ 1 := by
  by_cases h0 : A = 0 ∨ B = 0
  · have : score_of_counts (Real.logb 2) (A, B) ((List.range K).map (fun c => (a c, b c))) (A + B)
        = 0 := by simp [score_of_counts, h0]
    rw [this]
    exact ⟨le_refl _, zero_le_one⟩
  · have hApos : 0 < A := by omega
    have hBpos : 0 < B := by omega
    rw [score_of_counts_real K a b A B hApos hBpos]
    have h1 := mutualinf_sum_nonpos K a b A B hA hB hApos hBpos
    have h2 := classent_sum_le K a b A B hA hB hApos
    have h3 := splitent_neg_le K a b A B hA hB hApos hBpos
    have h4 := splitent_pos A B hApos hBpos
    constructor
    · apply div_nonneg <;> linarith
    · rw [div_le_one (by linarith)]
      linarith

end score_real2
end nextratrees


/-! When the mutual information vanishes -/

namespace nextratrees

section score_zero

/-- Strict Gibbs bound for one term when the class is not split in the
proportion of the side. -/
theorem mutualinf_term_lt (x y A n : Nat) (hA : 0 < A) (hn : 0 < n)
    (hne : x * n ≠ (x + y) * A) :
    mutualinf_term (Real.logb 2) (1 / (n : ℝ)) (x, y) x A <
      (((x + y : ℝ) / n) * ((A : ℝ) / n) - (x : ℝ) / n) / Real.log 2 := by
  have hA' : (0 : ℝ) < A := by exact_mod_cast hA
  have hn' : (0 : ℝ) < n := by exact_mod_cast hn
  have hy : (0 : ℝ) ≤ y := Nat.cast_nonneg y
  unfold mutualinf_term
  by_cases hx : x = 0
  · subst hx
    have hy0 : y ≠ 0 := by
      intro h
      apply hne
      simp [h]
    have hy' : (0 : ℝ) < y := by exact_mod_cast Nat.pos_of_ne_zero hy0
    simp only [ne_eq, not_true_eq_false, if_false, Nat.cast_zero, zero_add, zero_div, sub_zero]
    apply div_pos _ log_two_pos
    positivity
  · have hx' : (0 : ℝ) < x := by exact_mod_cast Nat.pos_of_ne_zero hx
    simp only [ne_eq, hx, not_false_eq_true, if_true, Nat.cast_add]
    have hz : 0 < ((x : ℝ) + y) * (1 / n) / (x / A) := by positivity
    have hz1 : ((x : ℝ) + y) * (1 / n) / (x / A) ≠ 1 := by
      intro h
      apply hne
      rw [div_eq_one_iff_eq (by positivity)] at h
      field_simp at h
      have h' : ((x : ℝ) + y) * A = x * n := by linarith
      have : (((x + y) * A : Nat) : ℝ) = ((x * n : Nat) : ℝ) := by push_cast; exact h'
      exact (Nat.cast_injective this).symm
    have hlog := Real.log_lt_sub_one_of_pos hz hz1
    rw [Real.logb, ← mul_div_assoc]
    apply div_lt_div_of_pos_right _ log_two_pos
    calc (x : ℝ) * (1 / n) * Real.log (((x : ℝ) + y) * (1 / n) / (x / A))
        < (x : ℝ) * (1 / n) * (((x : ℝ) + y) * (1 / n) / (x / A) - 1) := by
          apply mul_lt_mul_of_pos_left hlog
          positivity
      _ = ((x : ℝ) + y) / n * (A / n) - x / n := by
          field_simp
          ring

/-- A term vanishes when the class is split in the proportion of the side. -/
theorem mutualinf_term_eq_zero (x y A n : Nat) (hn : 0 < n)
    (h : x * n = (x + y) * A) :
    mutualinf_term (Real.logb 2) (1 / (n : ℝ)) (x, y) x A = 0 := by
  unfold mutualinf_term
  by_cases hx : x = 0
  · simp [hx]
  · have hx' : (0 : ℝ) < x := by exact_mod_cast Nat.pos_of_ne_zero hx
    have hn' : (0 : ℝ) < n := by exact_mod_cast hn
    have hA : A ≠ 0 := by
      intro h0
      rw [h0, Nat.mul_zero] at h
      rcases Nat.mul_eq_zero.mp h with h1 | h1 <;> omega
    have hA' : (0 : ℝ) < A := by exact_mod_cast Nat.pos_of_ne_zero hA
    have hr : ((x : ℝ)) * n = ((x : ℝ) + y) * A := by exact_mod_cast h
    simp only [ne_eq, hx, not_false_eq_true, if_true, Nat.cast_add]
    have : ((x : ℝ) + y) * (1 / n) / (x / A) = 1 := by
      rw [div_eq_one_iff_eq (by positivity)]
      field_simp
      linarith
    rw [this]
    simp

end score_zero
end nextratrees


/-! `score` against the specification's formula -/

namespace nextratrees

section score_refines
variable {α : Type} [LinearOrder α]

theorem spec_nL_eq (attr : List α) (indices : List Nat) (s : α) :
    spec_nL attr indices s = nside attr indices s false := by
  unfold spec_nL nside
  congr 1
  funext i
  unfold on_side
  cases attr[i]? with
  | none => rfl
  | some a => by_cases h : a < s <;> simp [h, not_le.mpr, le_of_not_lt]

theorem spec_nR_eq (attr : List α) (indices : List Nat) (s : α)
    (h : ∀ i ∈ indices, i < attr.length) :
    spec_nR attr indices s = nside attr indices s true := by
  unfold spec_nR
  rw [spec_nL_eq, ← nside_add attr s indices h]
  omega

theorem spec_nLc_eq (attr : List α) (labels : List Nat) (indices : List Nat) (s : α) (c : Nat) :
    spec_nLc attr labels indices s c = nclass_side attr labels indices s c false := by
  unfold spec_nLc nclass_side
  congr 1
  funext i
  unfold on_side has_label
  cases attr[i]? with
  | none => rfl
  | some a => by_cases h : a < s <;> simp [h, not_le.mpr, le_of_not_lt]

theorem spec_nRc_eq (attr : List α) (labels : List Nat) (indices : List Nat) (s : α) (c : Nat) :
    spec_nRc attr labels indices s c = nclass_side attr labels indices s c true := by
  unfold spec_nRc nclass_side
  congr 1
  funext i
  unfold on_side has_label
  cases attr[i]? with
  | none => rfl
  | some a => by_cases h : a < s <;> simp [h, not_le.mpr, le_of_not_lt]

/-- The code's term with its minus sign is the specification's term. -/
theorem spec_mi_term_eq (x nc ns n : Nat) (ci : Nat × Nat) (hci : ci.1 + ci.2 = nc)
    (hxc : x ≤ nc) (hx : x ≤ ns) (hn : 0 < n) :
    spec_mi_term (Real.logb 2) x nc ns n =
      -mutualinf_term (Real.logb 2) (1 / (n : ℝ)) ci x ns := by
  unfold spec_mi_term mutualinf_term
  by_cases h0 : x = 0
  · simp [h0]
  · have hx' : (0 : ℝ) < x := by exact_mod_cast Nat.pos_of_ne_zero h0
    have hns : (0 : ℝ) < ns := lt_of_lt_of_le hx' (by exact_mod_cast hx)
    have hnc : (0 : ℝ) < nc := lt_of_lt_of_le hx' (by exact_mod_cast hxc)
    have hn' : (0 : ℝ) < n := by exact_mod_cast hn
    simp only [gt_iff_lt, Nat.pos_of_ne_zero h0, if_true, ne_eq, h0, not_false_eq_true, hci]
    rw [← mul_neg, ← Real.logb_inv, mul_one_div]
    congr 2
    field_simp
    ring

theorem spec_class_term_eq (nc n : Nat) (ci : Nat × Nat) (hci : ci.1 + ci.2 = nc) :
    (if nc > 0 then ((nc : ℝ) / (n : ℝ)) * Real.logb 2 ((nc : ℝ) / (n : ℝ)) else 0) =
      classent_term (Real.logb 2) (1 / (n : ℝ)) ci := by
  unfold classent_term
  rw [hci]
  by_cases h0 : nc = 0
  · simp [h0]
  · simp [Nat.pos_of_ne_zero h0, div_eq_mul_inv]

/-- C9: over the reals, on every in-range input on which both sides of the
split are non-empty, `score` returns `2·I(C;S) / (H_S + H_C)` with `I(C;S)`,
`H_S` and `H_C` as the specification defines them (base-2 logarithms, zero
terms omitted). -/
theorem score_is_normalized_mutual_information (attr : List α) (labels : List Nat)
    (numclasses : Nat) (indices : List Nat) (split : α)
    (hrange : ∀ i ∈ indices, i < attr.length ∧ ∃ l, labels[i]? = some l ∧ l < numclasses)
    (hL : spec_nL attr indices split ≠ 0) (hR : spec_nR attr indices split ≠ 0) :
    score (Real.logb 2) attr labels numclasses indices split =
      some (2 * spec_mutual_information (Real.logb 2) attr labels numclasses indices split /
        (spec_split_entropy (Real.logb 2) attr indices split +
          spec_class_entropy (Real.logb 2) attr labels numclasses indices split)) := by
  have hin : ∀ i ∈ indices, i < attr.length := fun i hi => (hrange i hi).1
  have hlab : ∀ i ∈ indices, ∃ l, labels[i]? = some l ∧ l < numclasses :=
    fun i hi => (hrange i hi).2
  have hA := (nclass_side_sum attr labels numclasses split false indices hlab).symm
  have hB := (nclass_side_sum attr labels numclasses split true indices hlab).symm
  have hlen := nside_add attr split indices hin
  rw [spec_nL_eq] at hL
  rw [spec_nR_eq attr indices split hin] at hR
  have hApos : 0 < nside attr indices split false := Nat.pos_of_ne_zero hL
  have hBpos : 0 < nside attr indices split true := Nat.pos_of_ne_zero hR
  have hn : 0 < indices.length := by omega
  rw [score_eq_of_counts (Real.logb 2) attr labels numclasses indices split hrange,
    score_of_counts_real numclasses _ _ _ _ hApos hBpos, hlen]
  have hI : spec_mutual_information (Real.logb 2) attr labels numclasses indices split =
      0 - ∑ c in Finset.range numclasses,
        (mutualinf_term (Real.logb 2) (1 / (indices.length : ℝ))
            (nclass_side attr labels indices split c false,
              nclass_side attr labels indices split c true)
            (nclass_side attr labels indices split c false) (nside attr indices split false) +
          mutualinf_term (Real.logb 2) (1 / (indices.length : ℝ))
            (nclass_side attr labels indices split c false,
              nclass_side attr labels indices split c true)
            (nclass_side attr labels indices split c true) (nside attr indices split true)) := by
    unfold spec_mutual_information
    rw [range_map_sum, zero_sub, ← Finset.sum_neg_distrib]
    apply Finset.sum_congr rfl
    intro c hc
    simp only [spec_nL_eq, spec_nR_eq attr indices split hin, spec_nLc_eq, spec_nRc_eq]
    rw [spec_mi_term_eq _ _ _ _ (nclass_side attr labels indices split c false,
        nclass_side attr labels indices split c true) rfl (by omega)
        (by rw [hA]; exact Finset.single_le_sum (f := fun c => nclass_side attr labels indices split c false) (fun _ _ => Nat.zero_le _) hc) hn,
      spec_mi_term_eq _ _ _ _ (nclass_side attr labels indices split c false,
        nclass_side attr labels indices split c true) rfl (by omega)
        (by rw [hB]; exact Finset.single_le_sum (f := fun c => nclass_side attr labels indices split c true) (fun _ _ => Nat.zero_le _) hc) hn]
    ring
  have hC : spec_class_entropy (Real.logb 2) attr labels numclasses indices split =
      0 - ∑ c in Finset.range numclasses,
        classent_term (Real.logb 2) (1 / (indices.length : ℝ))
          (nclass_side attr labels indices split c false,
            nclass_side attr labels indices split c true) := by
    unfold spec_class_entropy
    rw [range_map_sum, zero_sub]
    congr 1
    apply Finset.sum_congr rfl
    intro c _
    simp only [spec_nLc_eq, spec_nRc_eq]
    exact spec_class_term_eq _ _ (nclass_side attr labels indices split c false,
            nclass_side attr labels indices split c true) rfl
  have hS : spec_split_entropy (Real.logb 2) attr indices split =
      score_splitent (Real.logb 2)
        (nside attr indices split false, nside attr indices split true)
        (1 / (indices.length : ℝ)) := by
    unfold spec_split_entropy score_splitent
    simp only [spec_nL_eq, spec_nR_eq attr indices split hin, mul_one_div]
    ring
  rw [hI, hC, hS]

/-- Witness for C9: four examples, two classes, one example left of the
split and three right of it. -/
theorem score_is_normalized_mutual_information_witness :
    ((∀ i ∈ [0, 1, 2, 3], i < [(0 : Int), 1, 1, 1].length ∧
        ∃ l, [0, 1, 0, 1][i]? = some l ∧ l < 2) ∧
      spec_nL [(0 : Int), 1, 1, 1] [0, 1, 2, 3] 1 ≠ 0 ∧
      spec_nR [(0 : Int), 1, 1, 1] [0, 1, 2, 3] 1 ≠ 0) ∧
    score (Real.logb 2) [(0 : Int), 1, 1, 1] [0, 1, 0, 1] 2 [0, 1, 2, 3] 1 =
      some (2 * spec_mutual_information (Real.logb 2) [(0 : Int), 1, 1, 1] [0, 1, 0, 1] 2
          [0, 1, 2, 3] 1 /
        (spec_split_entropy (Real.logb 2) [(0 : Int), 1, 1, 1] [0, 1, 2, 3] 1 +
          spec_class_entropy (Real.logb 2) [(0 : Int), 1, 1, 1] [0, 1, 0, 1] 2
            [0, 1, 2, 3] 1)) :=
  ⟨⟨by decide, by decide, by decide⟩,
    score_is_normalized_mutual_information [(0 : Int), 1, 1, 1] [0, 1, 0, 1] 2 [0, 1, 2, 3] 1
      (by decide) (by decide) (by decide)⟩

end score_refines
end nextratrees


/-! Bounds of `score` -/

namespace nextratrees

section score_claims
variable {α : Type} [LinearOrder α]

/-- C8: over the reals, on every in-range input whose label indices are all
below `numclasses`, `score` returns a value in `[0, 1]`; and whenever the
counting loop leaves both sides non-empty (so the final division is reached)
the denominator `splitent + classent` is strictly positive. -/
theorem score_in_unit_interval (attr : List α) (labels : List Nat) (numclasses : Nat)
    (indices : List Nat) (split : α)
    (hrange : ∀ i ∈ indices, i < attr.length ∧ ∃ l, labels[i]? = some l ∧ l < numclasses) :
    (∃ r : ℝ, score (Real.logb 2) attr labels numclasses indices split = some r ∧
      0 ≤ r ∧ r ≤ 1) ∧
    (∀ cnt, score_count attr labels numclasses indices split = some cnt →
      ¬ (cnt.1.1 = 0 ∨ cnt.1.2 = 0) →
      0 < score_splitent (Real.logb 2) cnt.1 (1 / (indices.length : ℝ)) +
        (cnt.2.foldl (score_class_step (Real.logb 2) cnt.1 (1 / (indices.length : ℝ)))
          (0, 0)).2) := by
  have hlab : ∀ i ∈ indices, ∃ l, labels[i]? = some l ∧ l < numclasses :=
    fun i hi => (hrange i hi).2
  have hA := (nclass_side_sum attr labels numclasses split false indices hlab).symm
  have hB := (nclass_side_sum attr labels numclasses split true indices hlab).symm
  constructor
  · refine ⟨_, score_eq_of_counts (Real.logb 2) attr labels numclasses indices split hrange, ?_⟩
    exact score_of_counts_bounds numclasses _ _ _ _ hA hB
  · intro cnt hcnt hne
    rw [score_count_eq attr labels numclasses indices split hrange] at hcnt
    cases hcnt
    simp only [not_or] at hne
    have hApos : 0 < nside attr indices split false := Nat.pos_of_ne_zero hne.1
    have hBpos : 0 < nside attr indices split true := Nat.pos_of_ne_zero hne.2
    rw [← nside_add attr split indices (fun i hi => (hrange i hi).1), score_class_fold_real]
    simp only [List.map_map, range_map_sum, Function.comp_def]
    have h1 := mutualinf_sum_nonpos numclasses _ _ _ _ hA hB hApos hBpos
    have h2 := classent_sum_le numclasses _ _ _ _ hA hB hApos
    have h4 := splitent_pos _ _ hApos hBpos
    linarith

/-- Witness for C8: four examples, two classes, both sides of the split
non-empty. -/
theorem score_in_unit_interval_witness :
    (∀ i ∈ [0, 1, 2, 3], i < [(0 : Int), 0, 1, 1].length ∧
      ∃ l, [0, 1, 1, 1][i]? = some l ∧ l < 2) ∧
    ((∃ r : ℝ, score (Real.logb 2) [(0 : Int), 0, 1, 1] [0, 1, 1, 1] 2 [0, 1, 2, 3] 1 = some r ∧
      0 ≤ r ∧ r ≤ 1) ∧
    (∀ cnt, score_count [(0 : Int), 0, 1, 1] [0, 1, 1, 1] 2 [0, 1, 2, 3] 1 = some cnt →
      ¬ (cnt.1.1 = 0 ∨ cnt.1.2 = 0) →
      0 < score_splitent (Real.logb 2) cnt.1 (1 / (([0, 1, 2, 3] : List Nat).length : ℝ)) +
        (cnt.2.foldl (score_class_step (Real.logb 2) cnt.1
          (1 / (([0, 1, 2, 3] : List Nat).length : ℝ))) (0, 0)).2)) :=
  ⟨by decide,
    score_in_unit_interval [(0 : Int), 0, 1, 1] [0, 1, 1, 1] 2 [0, 1, 2, 3] 1 (by decide)⟩

end score_claims
end nextratrees


/-! Zero scores -/

namespace nextratrees

section score_zero_iff
variable {α : Type} [LinearOrder α]

/-- With both sides non-empty, the value computed from the count tables is zero
exactly when every class is split in the proportion of the two sides. -/
theorem score_of_counts_eq_zero_iff (K : Nat) (a b : Nat → Nat) (A B : Nat)
    (hA : A = ∑ c in Finset.range K, a c) (hB : B = ∑ c in Finset.range K, b c)
    (hApos : 0 < A) (hBpos : 0 < B) :
    score_of_counts (Real.logb 2) (A, B) ((List.range K).map (fun c => (a c, b c))) (A + B) = 0 ↔
      ∀ c, c < K → a c * B = b c * A := by
  have hn : 0 < A + B := by omega
  rw [score_of_counts_real K a b A B hApos hBpos]
  have h1 := mutualinf_sum_nonpos K a b A B hA hB hApos hBpos
  have h2 := classent_sum_le K a b A B hA hB hApos
  have h4 := splitent_pos A B hApos hBpos
  have hD : 0 < score_splitent (Real.logb 2) (A, B) (1 / ((A + B : Nat) : ℝ)) +
      (0 - ∑ c in Finset.range K,
        classent_term (Real.logb 2) (1 / ((A + B : Nat) : ℝ)) (a c, b c)) := by linarith
  rw [div_eq_zero_iff]
  constructor
  · intro h
    have hT : ∑ c in Finset.range K,
        (mutualinf_term (Real.logb 2) (1 / ((A + B : Nat) : ℝ)) (a c, b c) (a c) A +
          mutualinf_term (Real.logb 2) (1 / ((A + B : Nat) : ℝ)) (a c, b c) (b c) B) = 0 := by
      rcases h with h | h
      · linarith
      · linarith
    by_contra hcon
    push_neg at hcon
    obtain ⟨c, hc, hne⟩ := hcon
    have hlt : ∑ c in Finset.range K,
        (mutualinf_term (Real.logb 2) (1 / ((A + B : Nat) : ℝ)) (a c, b c) (a c) A +
          mutualinf_term (Real.logb 2) (1 / ((A + B : Nat) : ℝ)) (a c, b c) (b c) B) < 0 := by
      rw [← gibbs_bound_sum K a b A B hA hB hApos]
      apply Finset.sum_lt_sum
      · intro c _
        have h1 := mutualinf_term_le (a c) (b c) A (A + B) hApos hn
        have h2 := mutualinf_term_le (b c) (a c) B (A + B) hBpos hn
        rw [mutualinf_term_swap] at h2
        exact add_le_add h1 h2
      · refine ⟨c, Finset.mem_range.mpr hc, ?_⟩
        have hne' : a c * (A + B) ≠ (a c + b c) * A := by
          intro h
          apply hne
          have : a c * A + a c * B = a c * A + b c * A := by
            rw [← Nat.mul_add, ← Nat.add_mul]; exact h
          omega
        have h1 := mutualinf_term_lt (a c) (b c) A (A + B) hApos hn hne'
        have h2 := mutualinf_term_le (b c) (a c) B (A + B) hBpos hn
        rw [mutualinf_term_swap] at h2
        exact add_lt_add_of_lt_of_le h1 h2
    linarith
  · intro h
    left
    have hT : ∑ c in Finset.range K,
        (mutualinf_term (Real.logb 2) (1 / ((A + B : Nat) : ℝ)) (a c, b c) (a c) A +
          mutualinf_term (Real.logb 2) (1 / ((A + B : Nat) : ℝ)) (a c, b c) (b c) B) = 0 := by
      apply Finset.sum_eq_zero
      intro c hc
      have hc' := h c (Finset.mem_range.mp hc)
      have e1 : a c * (A + B) = (a c + b c) * A := by
        rw [Nat.mul_add, Nat.add_mul, hc']
      have e2 : b c * (A + B) = (b c + a c) * B := by
        rw [Nat.mul_add, Nat.add_mul, hc', Nat.add_comm]
      rw [mutualinf_term_eq_zero (a c) (b c) A (A + B) hn e1, ← mutualinf_term_swap,
        mutualinf_term_eq_zero (b c) (a c) B (A + B) hn e2]
      simp
    rw [hT]
    simp

/-- C7 (amended): over the reals, on every in-range input, `score` is zero if
and only if the split places all of `indices` on one side or every class is
split in the proportion of the two sides (`nLc · nR = nRc · nL` for every
class `c`), i.e. class and side are independent on `indices`. -/
theorem score_eq_zero_iff (attr : List α) (labels : List Nat) (numclasses : Nat)
    (indices : List Nat) (split : α)
    (hrange : ∀ i ∈ indices, i < attr.length ∧ ∃ l, labels[i]? = some l ∧ l < numclasses) :
    score (Real.logb 2) attr labels numclasses indices split = some 0 ↔
      (nside attr indices split false = 0 ∨ nside attr indices split true = 0 ∨
        ∀ c, c < numclasses →
          nclass_side attr labels indices split c false * nside attr indices split true =
            nclass_side attr labels indices split c true * nside attr indices split false) := by
  have hlab : ∀ i ∈ indices, ∃ l, labels[i]? = some l ∧ l < numclasses :=
    fun i hi => (hrange i hi).2
  have hA := (nclass_side_sum attr labels numclasses split false indices hlab).symm
  have hB := (nclass_side_sum attr labels numclasses split true indices hlab).symm
  rw [score_eq_of_counts (Real.logb 2) attr labels numclasses indices split hrange,
    Option.some.injEq]
  by_cases h0 : nside attr indices split false = 0 ∨ nside attr indices split true = 0
  · have : score_of_counts (Real.logb 2)
        (nside attr indices split false, nside attr indices split true)
        ((List.range numclasses).map (fun c =>
          (nclass_side attr labels indices split c false,
           nclass_side attr labels indices split c true)))
        (nside attr indices split false + nside attr indices split true) = 0 := by
      simp [score_of_counts, h0]
    rw [this]
    simp only [true_iff]
    rcases h0 with h | h
    · exact Or.inl h
    · exact Or.inr (Or.inl h)
  · have hApos : 0 < nside attr indices split false := by omega
    have hBpos : 0 < nside attr indices split true := by omega
    rw [score_of_counts_eq_zero_iff numclasses _ _ _ _ hA hB hApos hBpos]
    constructor
    · intro h
      exact Or.inr (Or.inr h)
    · intro h
      rcases h with h | h | h
      · omega
      · omega
      · exact h

/-- Witness for the amended C7: the split of the counterexample below. -/
theorem score_eq_zero_iff_witness :
    (∀ i ∈ [0, 1, 2, 3], i < [(0 : Int), 0, 1, 1].length ∧
      ∃ l, [0, 1, 0, 1][i]? = some l ∧ l < 2) ∧
    (score (Real.logb 2) [(0 : Int), 0, 1, 1] [0, 1, 0, 1] 2 [0, 1, 2, 3] 1 = some 0 ↔
      (nside [(0 : Int), 0, 1, 1] [0, 1, 2, 3] 1 false = 0 ∨
        nside [(0 : Int), 0, 1, 1] [0, 1, 2, 3] 1 true = 0 ∨
        ∀ c, c < 2 →
          nclass_side [(0 : Int), 0, 1, 1] [0, 1, 0, 1] [0, 1, 2, 3] 1 c false *
              nside [(0 : Int), 0, 1, 1] [0, 1, 2, 3] 1 true =
            nclass_side [(0 : Int), 0, 1, 1] [0, 1, 0, 1] [0, 1, 2, 3] 1 c true *
              nside [(0 : Int), 0, 1, 1] [0, 1, 2, 3] 1 false)) :=
  ⟨by decide, score_eq_zero_iff [(0 : Int), 0, 1, 1] [0, 1, 0, 1] 2 [0, 1, 2, 3] 1 (by decide)⟩

/-- C7 (counterexample): the attribute column `[0, 0, 1, 1]` with labels
`[0, 1, 0, 1]` split at `1` has two examples on each side, one of each class,
and `score` returns exactly `0`: a zero score does not imply a one-sided
split. -/
theorem score_zero_with_both_sides_nonempty :
    score (Real.logb 2) [(0 : Int), 0, 1, 1] [0, 1, 0, 1] 2 [0, 1, 2, 3] 1 = some 0 ∧
      spec_nL [(0 : Int), 0, 1, 1] [0, 1, 2, 3] 1 = 2 ∧
      spec_nR [(0 : Int), 0, 1, 1] [0, 1, 2, 3] 1 = 2 := by
  refine ⟨?_, by decide, by decide⟩
  rw [score_eq_of_counts (Real.logb 2) _ _ _ _ _ (by decide)]
  have hA : nside [(0 : Int), 0, 1, 1] [0, 1, 2, 3] 1 false = 2 := by decide
  have hB : nside [(0 : Int), 0, 1, 1] [0, 1, 2, 3] 1 true = 2 := by decide
  rw [hA, hB, Option.some.injEq,
    score_of_counts_eq_zero_iff 2 _ _ 2 2 (by decide) (by decide) (by decide) (by decide)]
  decide

end score_zero_iff
end nextratrees


/-! Renaming the labels -/

namespace nextratrees

section score_relabel
variable {α : Type} [LinearOrder α]

theorem relabel_lt {K : Nat} (π : Equiv.Perm (Fin K)) (l : Nat) (h : l < K) :
    relabel π l < K := by
  simp [relabel, h]

theorem relabel_symm_relabel {K : Nat} (π : Equiv.Perm (Fin K)) (l : Nat) :
    relabel π.symm (relabel π l) = l := by
  by_cases h : l < K
  · simp [relabel, h]
  · simp [relabel, h]

theorem relabel_relabel_symm {K : Nat} (π : Equiv.Perm (Fin K)) (l : Nat) :
    relabel π (relabel π.symm l) = l := by
  by_cases h : l < K
  · simp [relabel, h]
  · simp [relabel, h]

theorem nclass_side_relabel {K : Nat} (π : Equiv.Perm (Fin K)) (attr : List α)
    (labels : List Nat) (indices : List Nat) (split : α) (c : Nat) (b : Bool) :
    nclass_side attr (labels.map (relabel π)) indices split c b =
      nclass_side attr labels indices split (relabel π.symm c) b := by
  unfold nclass_side
  congr 1
  funext i
  congr 1
  unfold has_label
  rw [List.getElem?_map]
  cases hl : labels[i]? with
  | none => simp
  | some l =>
    simp only [Option.map_some', Option.some.injEq, decide_eq_decide]
    constructor
    · intro h
      rw [← h, relabel_symm_relabel]
    · intro h
      rw [h, relabel_relabel_symm]

theorem sum_relabel {K : Nat} (π : Equiv.Perm (Fin K)) (g : Nat → ℝ) :
    ∑ c in Finset.range K, g (relabel π.symm c) = ∑ c in Finset.range K, g c := by
  apply Finset.sum_nbij' (relabel π.symm) (relabel π)
  · intro c hc
    exact Finset.mem_range.mpr (relabel_lt π.symm c (Finset.mem_range.mp hc))
  · intro c hc
    exact Finset.mem_range.mpr (relabel_lt π c (Finset.mem_range.mp hc))
  · intro c _
    exact relabel_relabel_symm π c
  · intro c _
    exact relabel_symm_relabel π c
  · intro c _
    rfl

/-- The value computed from count tables does not change when the rows of
`numclass` are permuted. -/
theorem score_of_counts_relabel {K : Nat} (π : Equiv.Perm (Fin K)) (a b : Nat → Nat)
    (A B n : Nat) :
    score_of_counts (Real.logb 2) (A, B)
        ((List.range K).map (fun c => (a (relabel π.symm c), b (relabel π.symm c)))) n =
      score_of_counts (Real.logb 2) (A, B) ((List.range K).map (fun c => (a c, b c))) n := by
  unfold score_of_counts
  by_cases h : (A, B).1 = 0 ∨ (A, B).2 = 0
  · rw [if_pos h, if_pos h]
  · rw [if_neg h, if_neg h]
    dsimp only
    rw [score_class_fold_real, score_class_fold_real]
    simp only [List.map_map, range_map_sum, Function.comp_def]
    rw [sum_relabel π (fun c => mutualinf_term (Real.logb 2) (1 / (n : ℝ)) (a c, b c) (a c) A +
        mutualinf_term (Real.logb 2) (1 / (n : ℝ)) (a c, b c) (b c) B),
      sum_relabel π (fun c => classent_term (Real.logb 2) (1 / (n : ℝ)) (a c, b c))]

/-- C10: over the reals, on every in-range input, renaming the label indices by
a permutation `π` of `[0, numclasses)` does not change the value of `score`. -/
theorem score_relabel_invariant {numclasses : Nat} (π : Equiv.Perm (Fin numclasses))
    (attr : List α) (labels : List Nat) (indices : List Nat) (split : α)
    (hrange : ∀ i ∈ indices, i < attr.length ∧ ∃ l, labels[i]? = some l ∧ l < numclasses) :
    score (Real.logb 2) attr (labels.map (relabel π)) numclasses indices split =
      score (Real.logb 2) attr labels numclasses indices split := by
  have hrange' : ∀ i ∈ indices, i < attr.length ∧
      ∃ l, (labels.map (relabel π))[i]? = some l ∧ l < numclasses := by
    intro i hi
    obtain ⟨h1, l, hl, hlK⟩ := hrange i hi
    refine ⟨h1, relabel π l, ?_, relabel_lt π l hlK⟩
    rw [List.getElem?_map, hl]
    rfl
  rw [score_eq_of_counts (Real.logb 2) attr _ numclasses indices split hrange',
    score_eq_of_counts (Real.logb 2) attr labels numclasses indices split hrange]
  simp only [nclass_side_relabel]
  rw [score_of_counts_relabel π
    (fun c => nclass_side attr labels indices split c false)
    (fun c => nclass_side attr labels indices split c true)]

/-- Witness for C10: swapping the two labels of a four-example set. -/
theorem score_relabel_invariant_witness :
    (∀ i ∈ [0, 1, 2, 3], i < [(0 : Int), 0, 1, 1].length ∧
      ∃ l, [0, 1, 1, 1][i]? = some l ∧ l < 2) ∧
    score (Real.logb 2) [(0 : Int), 0, 1, 1]
        ([0, 1, 1, 1].map (relabel (Equiv.swap (0 : Fin 2) 1))) 2 [0, 1, 2, 3] 1 =
      score (Real.logb 2) [(0 : Int), 0, 1, 1] [0, 1, 1, 1] 2 [0, 1, 2, 3] 1 :=
  ⟨by decide, score_relabel_invariant (Equiv.swap (0 : Fin 2) 1) [(0 : Int), 0, 1, 1]
    [0, 1, 1, 1] [0, 1, 2, 3] 1 (by decide)⟩

end score_relabel
end nextratrees


/-! The loops of `build_an_extra_tree` -/

namespace nextratrees
open ndectree

section build_loops
variable {α : Type}

/-- The class-frequency loop started from the table `f` adds the label counts
of `indices`. -/
theorem count_classfreqs_fold (labels : List Nat) (K : Nat) :
    ∀ (indices : List Nat) (f : Nat → Nat),
      (∀ i ∈ indices, ∃ l, labels[i]? = some l ∧ l < K) →
      indices.foldlM (count_classfreqs_step labels)
          ((List.range K).map f) =
        some ((List.range K).map (fun c => f c + indices.countP (has_label labels c))) := by
  intro indices
  induction indices with
  | nil => intro f _; simp
  | cons i rest ih =>
    intro f h
    obtain ⟨l, hl, hlK⟩ := h i (List.mem_cons_self _ _)
    have hrest : ∀ j ∈ rest, ∃ l, labels[j]? = some l ∧ l < K :=
      fun j hj => h j (List.mem_cons_of_mem _ hj)
    have hget : ((List.range K).map f)[l]? = some (f l) := by simp [hlK]
    simp only [List.foldlM_cons, count_classfreqs_step, hl, hget, range_map_set,
      Option.bind_eq_bind, Option.some_bind]
    rw [ih _ hrest]
    refine congrArg some (List.map_congr_left ?_)
    intro c _
    simp only [List.countP_cons, has_label, hl, Option.some.injEq]
    by_cases hlc : l = c
    · subst hlc
      simp [Function.update]; omega
    · simp [Function.update, hlc, Ne.symm hlc]

/-- A successful run of the class-frequency loop keeps the table length and
means every label read was in range. -/
theorem count_classfreqs_fold_inv (labels : List Nat) :
    ∀ (indices : List Nat) (cf0 cf : List Nat),
      indices.foldlM (count_classfreqs_step labels)
          cf0 = some cf →
      ∀ i ∈ indices, ∃ l, labels[i]? = some l ∧ l < cf0.length := by
  intro indices
  induction indices with
  | nil => intro _ _ _ i hi; simp at hi
  | cons i rest ih =>
    intro cf0 cf h j hj
    simp only [List.foldlM_cons, Option.bind_eq_bind, count_classfreqs_step] at h
    cases hl : labels[i]? with
    | none => simp [hl] at h
    | some l =>
      cases hc : cf0[l]? with
      | none => simp [hl, hc] at h
      | some f0 =>
        simp only [hl, hc, Option.some_bind] at h
        have hlt : l < cf0.length := by
          by_contra hcon
          rw [List.getElem?_eq_none (by omega)] at hc
          cases hc
        rcases List.mem_cons.mp hj with rfl | hj'
        · exact ⟨l, hl, hlt⟩
        · have := ih _ _ h j hj'
          simpa using this

theorem count_classfreqs_eq (exampleset : exampleset_t α) (indices : List Nat)
    (h : ∀ i ∈ indices, ∃ l, exampleset.labels[i]? = some l ∧ l < exampleset.numclasses) :
    count_classfreqs exampleset indices = some (label_histogram exampleset indices) := by
  unfold count_classfreqs label_histogram
  rw [replicate_eq_range_map, count_classfreqs_fold _ _ _ _ h]
  simp

theorem count_classfreqs_inv (exampleset : exampleset_t α) (indices : List Nat)
    (cf : List Nat) (h : count_classfreqs exampleset indices = some cf) :
    (∀ i ∈ indices, ∃ l, exampleset.labels[i]? = some l ∧ l < exampleset.numclasses) ∧
      cf = label_histogram exampleset indices := by
  have h1 : ∀ i ∈ indices, ∃ l, exampleset.labels[i]? = some l ∧ l < exampleset.numclasses := by
    have := count_classfreqs_fold_inv exampleset.labels indices _ cf h
    simpa using this
  refine ⟨h1, ?_⟩
  rw [count_classfreqs_eq exampleset indices h1] at h
  exact (Option.some.inj h).symm

theorem numclassesnonzero_eq (classfreqs : List Nat) :
    numclassesnonzero classfreqs = classfreqs.countP (fun c => decide (c ≠ 0)) := by
  unfold numclassesnonzero
  have : ∀ (l : List Nat) (n : Nat),
      l.foldl (fun n c => n + (if c ≠ 0 then 1 else 0)) n =
        n + l.countP (fun c => decide (c ≠ 0)) := by
    intro l
    induction l with
    | nil => intro n; simp
    | cons c rest ih =>
      intro n
      rw [List.foldl_cons, ih, List.countP_cons]
      by_cases hc : c = 0
      · simp [hc]
      · simp [hc]; omega
  rw [this]
  simp

end build_loops
end nextratrees


/-! Partition of the indices and the classifier's walk -/

namespace nextratrees
open ndectree

section split_loop
variable {α : Type} [LinearOrder α]

theorem on_side_false_iff (attr : List α) (split a : α) (i : Nat) (ha : attr[i]? = some a) :
    on_side attr split false i = true ↔ a < split := by
  simp [on_side, ha]

theorem on_side_true_iff (attr : List α) (split a : α) (i : Nat) (ha : attr[i]? = some a) :
    on_side attr split true i = true ↔ ¬ a < split := by
  simp [on_side, ha]

theorem split_indices_fold (attr : List α) (bestsplit : α) :
    ∀ (indices : List Nat) (lr : List Nat × List Nat),
      (∀ i ∈ indices, i < attr.length) →
      indices.foldlM (split_indices_step attr bestsplit) lr =
        some (lr.1 ++ indices.filter (on_side attr bestsplit false),
          lr.2 ++ indices.filter (on_side attr bestsplit true)) := by
  intro indices
  induction indices with
  | nil => intro lr _; simp
  | cons i rest ih =>
    intro lr h
    have hi := h i (List.mem_cons_self _ _)
    have ha : attr[i]? = some attr[i] := List.getElem?_eq_getElem hi
    simp only [List.foldlM_cons, split_indices_step, ha, Option.bind_eq_bind, Option.some_bind]
    rw [ih _ (fun j hj => h j (List.mem_cons_of_mem _ hj))]
    by_cases hlt : attr[i] < bestsplit
    · have h1 : on_side attr bestsplit false i = true := (on_side_false_iff _ _ _ _ ha).mpr hlt
      have h2 : on_side attr bestsplit true i = false := by
        rw [← Bool.not_eq_true, on_side_true_iff _ _ _ _ ha]; simpa using hlt
      simp [hlt, List.filter_cons, h1, h2]
    · have h1 : on_side attr bestsplit false i = false := by
        rw [← Bool.not_eq_true, on_side_false_iff _ _ _ _ ha]; exact hlt
      have h2 : on_side attr bestsplit true i = true := (on_side_true_iff _ _ _ _ ha).mpr hlt
      simp [hlt, List.filter_cons, h1, h2]

theorem split_indices_fold_inv (attr : List α) (bestsplit : α) :
    ∀ (indices : List Nat) (lr lr' : List Nat × List Nat),
      indices.foldlM (split_indices_step attr bestsplit) lr = some lr' →
      ∀ i ∈ indices, i < attr.length := by
  intro indices
  induction indices with
  | nil => intro _ _ _ i hi; simp at hi
  | cons i rest ih =>
    intro lr lr' h j hj
    simp only [List.foldlM_cons, Option.bind_eq_bind, split_indices_step] at h
    cases ha : attr[i]? with
    | none => simp [ha] at h
    | some a =>
      simp only [ha, Option.some_bind] at h
      rcases List.mem_cons.mp hj with rfl | hj'
      · by_contra hcon
        rw [List.getElem?_eq_none (by omega)] at ha
        cases ha
      · exact ih _ _ h j hj'

theorem split_indices_eq (attr : List α) (bestsplit : α) (indices : List Nat)
    (h : ∀ i ∈ indices, i < attr.length) :
    split_indices attr bestsplit indices =
      some (indices.filter (on_side attr bestsplit false),
        indices.filter (on_side attr bestsplit true)) := by
  unfold split_indices
  rw [split_indices_fold attr bestsplit indices _ h]
  simp

theorem split_indices_inv (attr : List α) (bestsplit : α) (indices : List Nat)
    (lr : List Nat × List Nat) (h : split_indices attr bestsplit indices = some lr) :
    (∀ i ∈ indices, i < attr.length) ∧
      lr.1 = indices.filter (on_side attr bestsplit false) ∧
      lr.2 = indices.filter (on_side attr bestsplit true) := by
  have h1 := split_indices_fold_inv attr bestsplit indices _ _ h
  rw [split_indices_eq attr bestsplit indices h1] at h
  cases h
  exact ⟨h1, rfl, rfl⟩

end split_loop

section walk
variable {α : Type} [LinearOrder α]

/-- The leaf reached by the walk is the leaf at the path walked. -/
theorem walk_leaf_at (t : dectree_t α) (fv : List α) :
    ∀ pc, dectree_t.walk t fv = some pc → dectree_t.leaf_at t pc.1 = some pc.2 := by
  induction t with
  | leaf cf =>
    intro pc h
    simp only [dectree_t.walk, Option.some.injEq] at h
    subst h
    rfl
  | branch ai s l r ihl ihr =>
    intro pc h
    simp only [dectree_t.walk] at h
    cases ha : fv[ai]? with
    | none => simp [ha] at h
    | some a =>
      simp only [ha] at h
      by_cases hlt : a < s
      · simp only [hlt, if_true, Option.map_eq_some'] at h
        obtain ⟨pc', hw, rfl⟩ := h
        exact ihl pc' hw
      · simp only [hlt, if_false, Option.map_eq_some'] at h
        obtain ⟨pc', hw, rfl⟩ := h
        exact ihr pc' hw

end walk
end nextratrees


/-! Inversion of a successful build -/

namespace nextratrees
open ndectree

section build_inv
variable {α : Type} [LinearOrder α] [Zero α]
variable {R : Type} [NatCast R] [Zero R] [One R] [Add R] [Sub R] [Mul R] [Div R] [Neg R]
  [LT R] [DecidableRel (fun a b : R => a < b)]
variable {G : Type}

/-- What a successful call of `build_an_extra_tree` went through: either one of
the three stopping rules returned a leaf holding `classfreqs` without touching
the generator, or a branch was built from two successful recursive calls. -/
theorem build_an_extra_tree_inv (log2 : R → R) (rng : twister_t G α) (fuel : Nat)
    (exampleset : exampleset_t α) (attrindices indices : List Nat) (nmin numattr : Nat)
    (g g' : G) (t : dectree_t α)
    (h : build_an_extra_tree log2 rng (fuel + 1) exampleset attrindices indices nmin numattr g =
      some (t, g')) :
    ∃ classfreqs, count_classfreqs exampleset indices = some classfreqs ∧
      ((t = dectree_t.leaf classfreqs ∧ g' = g) ∨
        (∃ mins maxs attrcandidates attrs g1 bestattr bestsplit bestscore g2 attr
            leftindices rightindices left g3 right,
          ¬ indices.length < nmin ∧ numclassesnonzero classfreqs ≠ 1 ∧
          collect_candidates exampleset attrindices indices = some (mins, maxs, attrcandidates) ∧
          ¬ attrcandidates.length < 1 ∧
          pick_attrs rng attrcandidates numattr g = some (attrs, g1) ∧
          choose_split log2 rng exampleset indices mins maxs attrs g1 =
            some ((bestattr, bestsplit, bestscore), g2) ∧
          exampleset.attrs[bestattr]? = some attr ∧
          split_indices attr bestsplit indices = some (leftindices, rightindices) ∧
          build_an_extra_tree log2 rng fuel exampleset attrs leftindices nmin numattr g2 =
            some (left, g3) ∧
          build_an_extra_tree log2 rng fuel exampleset attrs rightindices nmin numattr g3 =
            some (right, g') ∧
          t = dectree_t.branch bestattr bestsplit left right)) := by
  rw [build_an_extra_tree] at h
  split at h
  · cases h
  · rename_i classfreqs hcf
    refine ⟨classfreqs, hcf, ?_⟩
    split at h
    · left; cases h; exact ⟨rfl, rfl⟩
    · rename_i hnmin
      split at h
      · left; cases h; exact ⟨rfl, rfl⟩
      · rename_i hpure
        split at h
        · cases h
        · rename_i mins maxs attrcandidates hcc
          split at h
          · left; cases h; exact ⟨rfl, rfl⟩
          · rename_i hcand
            split at h
            · cases h
            · rename_i attrs g1 hpick
              split at h
              · cases h
              · rename_i bestattr bestsplit bestscore g2 hchoose
                split at h
                · cases h
                · rename_i attr hattr
                  split at h
                  · cases h
                  · rename_i leftindices rightindices hsplit
                    split at h
                    · cases h
                    · rename_i left g3 hleft
                      split at h
                      · cases h
                      · rename_i right g4 hright
                        cases h
                        right
                        exact ⟨mins, maxs, attrcandidates, attrs, g1, bestattr, bestsplit,
                          bestscore, g2, attr, leftindices, rightindices, left, g3, right,
                          hnmin, hpure, hcc, hcand, hpick, hchoose, hattr, hsplit, hleft,
                          hright, rfl⟩

end build_inv
end nextratrees


/-! Routing of training examples -/

namespace nextratrees
open ndectree

section featurevector

theorem featurevector_getElem? {α : Type} [Zero α] (exampleset : exampleset_t α) (i ai : Nat)
    (attr : List α)
    (a : α) (hattr : exampleset.attrs[ai]? = some attr) (ha : attr[i]? = some a) :
    (exampleset.featurevector i)[ai]? = some a := by
  unfold exampleset_t.featurevector
  rw [List.getElem?_map, hattr]
  simp only [Option.map_some', Option.some.injEq]
  rw [List.getD_eq_getElem?_getD, ha]
  rfl

end featurevector

section routing
variable {α : Type} [LinearOrder α] [Zero α]

theorem routed_to_leaf (exampleset : exampleset_t α) (cf : List Nat) (i : Nat) :
    routed_to exampleset (dectree_t.leaf cf) [] i = true := by
  simp [routed_to, dectree_t.walk]

theorem routed_to_branch_nil (exampleset : exampleset_t α) (ai : Nat) (s : α)
    (l r : dectree_t α) (i : Nat) :
    routed_to exampleset (dectree_t.branch ai s l r) [] i = false := by
  simp only [routed_to, dectree_t.walk, decide_eq_false_iff_not]
  cases (exampleset.featurevector i)[ai]? with
  | none => simp
  | some a =>
    by_cases h : a < s
    · simp only [h, if_true, Option.map_map]
      cases dectree_t.walk l (exampleset.featurevector i) <;> simp
    · simp only [h, if_false, Option.map_map]
      cases dectree_t.walk r (exampleset.featurevector i) <;> simp

theorem routed_to_branch_cons (exampleset : exampleset_t α) (ai : Nat) (s : α)
    (l r : dectree_t α) (i : Nat) (attr : List α) (a : α)
    (hattr : exampleset.attrs[ai]? = some attr) (ha : attr[i]? = some a)
    (b : Bool) (path : List Bool) :
    routed_to exampleset (dectree_t.branch ai s l r) (b :: path) i =
      (on_side attr s b i && routed_to exampleset (if b then r else l) path i) := by
  have hfv := featurevector_getElem? exampleset i ai attr a hattr ha
  simp only [routed_to, dectree_t.walk, hfv, on_side, ha]
  by_cases h : a < s
  · simp only [h, if_true, Option.map_map]
    cases hw : dectree_t.walk l (exampleset.featurevector i) with
    | none => cases b <;> simp [not_le.mpr h, hw]
    | some pc => cases b <;> simp [not_le.mpr h, hw]
  · simp only [h, if_false, Option.map_map]
    cases hw : dectree_t.walk r (exampleset.featurevector i) with
    | none => cases b <;> simp [le_of_not_lt h, hw]
    | some pc => cases b <;> simp [le_of_not_lt h, hw]

end routing
end nextratrees


/-! Leaf histograms of a built tree -/

namespace nextratrees
open ndectree

section tally

/-- Summing over the classes the examples with that class and a property `q`
counts the examples with `q`. -/
theorem countP_label_sum (labels : List Nat) (K : Nat) (q : Nat → Bool) :
    ∀ (indices : List Nat), (∀ i ∈ indices, ∃ l, labels[i]? = some l ∧ l < K) →
      ∑ c in Finset.range K, indices.countP (fun i => has_label labels c i && q i) =
        indices.countP q := by
  intro indices
  induction indices with
  | nil => intro _; simp
  | cons i rest ih =>
    intro h
    obtain ⟨l, hl, hlK⟩ := h i (List.mem_cons_self _ _)
    have ih' := ih (fun j hj => h j (List.mem_cons_of_mem _ hj))
    have hc : ∀ c, (i :: rest).countP (fun i => has_label labels c i && q i) =
        rest.countP (fun i => has_label labels c i && q i) +
          (if l = c then (if q i then 1 else 0) else 0) := by
      intro c
      simp only [List.countP_cons, has_label, hl, Option.some.injEq]
      by_cases hlc : l = c <;> simp [hlc]
    simp only [hc, Finset.sum_add_distrib, ih', Finset.sum_ite_eq, Finset.mem_range, hlK, if_true]
    simp [List.countP_cons]

end tally

section histogram
variable {α : Type} [LinearOrder α] [Zero α]
variable {R : Type} [NatCast R] [Zero R] [One R] [Add R] [Sub R] [Mul R] [Div R] [Neg R]
  [LT R] [DecidableRel (fun a b : R => a < b)]
variable {G : Type}

/-- Every leaf of a built tree holds the label tally of the examples of
`indices` that the walk routes to it, and the walk of every example of
`indices` ends at a leaf. -/
theorem build_leaf_tally (log2 : R → R) (rng : twister_t G α) (exampleset : exampleset_t α)
    (nmin numattr : Nat) :
    ∀ (fuel : Nat) (attrindices indices : List Nat) (g g' : G) (t : dectree_t α),
      build_an_extra_tree log2 rng fuel exampleset attrindices indices nmin numattr g =
        some (t, g') →
      (∀ path cf, dectree_t.leaf_at t path = some cf →
        cf = (List.range exampleset.numclasses).map (fun c =>
          indices.countP (fun i => has_label exampleset.labels c i &&
            routed_to exampleset t path i))) ∧
      (∀ i ∈ indices, ∃ pc, dectree_t.walk t (exampleset.featurevector i) = some pc) := by
  intro fuel
  induction fuel with
  | zero =>
    intro attrindices indices g g' t h
    simp [build_an_extra_tree] at h
  | succ fuel ih =>
    intro attrindices indices g g' t h
    obtain ⟨classfreqs, hcf, hcase⟩ :=
      build_an_extra_tree_inv log2 rng fuel exampleset attrindices indices nmin numattr g g' t h
    obtain ⟨_, hhist⟩ := count_classfreqs_inv exampleset indices classfreqs hcf
    rcases hcase with ⟨rfl, _⟩ | ⟨mins, maxs, attrcandidates, attrs, g1, bestattr, bestsplit,
      bestscore, g2, attr, leftindices, rightindices, left, g3, right, _, _, _, _, _, _,
      hattr, hsplit, hleft, hright, rfl⟩
    · constructor
      · intro path cf hleaf
        cases path with
        | nil =>
          simp only [dectree_t.leaf_at, Option.some.injEq] at hleaf
          subst hleaf
          rw [hhist, label_histogram]
          apply List.map_congr_left
          intro c _
          simp [routed_to_leaf]
        | cons b p => simp [dectree_t.leaf_at] at hleaf
      · intro i _
        exact ⟨_, rfl⟩
    · obtain ⟨hin, hL, hR⟩ := split_indices_inv attr bestsplit indices _ hsplit
      simp only at hL hR
      obtain ⟨ihl1, ihl2⟩ := ih attrs leftindices g2 g3 left hleft
      obtain ⟨ihr1, ihr2⟩ := ih attrs rightindices g3 g' right hright
      have hget : ∀ i ∈ indices, ∃ a, attr[i]? = some a :=
        fun i hi => ⟨_, List.getElem?_eq_getElem (hin i hi)⟩
      constructor
      · intro path cf hleaf
        cases path with
        | nil => simp [dectree_t.leaf_at] at hleaf
        | cons b p =>
          cases b with
          | false =>
            simp only [dectree_t.leaf_at] at hleaf
            rw [ihl1 p cf hleaf]
            apply List.map_congr_left
            intro c _
            rw [hL, List.countP_filter]
            apply List.countP_congr
            intro i hi
            obtain ⟨a, ha⟩ := hget i hi
            rw [routed_to_branch_cons exampleset bestattr bestsplit left right i attr a hattr ha]
            simp only [Bool.and_eq_true, Bool.false_eq_true, if_false]
            tauto
          | true =>
            simp only [dectree_t.leaf_at] at hleaf
            rw [ihr1 p cf hleaf]
            apply List.map_congr_left
            intro c _
            rw [hR, List.countP_filter]
            apply List.countP_congr
            intro i hi
            obtain ⟨a, ha⟩ := hget i hi
            rw [routed_to_branch_cons exampleset bestattr bestsplit left right i attr a hattr ha]
            simp only [Bool.and_eq_true, if_true]
            tauto
      · intro i hi
        obtain ⟨a, ha⟩ := hget i hi
        have hfv := featurevector_getElem? exampleset i bestattr attr a hattr ha
        simp only [dectree_t.walk, hfv]
        by_cases hlt : a < bestsplit
        · have hiL : i ∈ leftindices := by
            rw [hL, List.mem_filter]
            exact ⟨hi, (on_side_false_iff attr bestsplit a i ha).mpr hlt⟩
          obtain ⟨pc, hpc⟩ := ihl2 i hiL
          simp [hlt, hpc]
        · have hiR : i ∈ rightindices := by
            rw [hR, List.mem_filter]
            exact ⟨hi, (on_side_true_iff attr bestsplit a i ha).mpr hlt⟩
          obtain ⟨pc, hpc⟩ := ihr2 i hiR
          simp [hlt, hpc]

end histogram
end nextratrees


/-! The best-split loop over the reals -/

namespace nextratrees
open ndectree

section choose_real
variable {α : Type} [LinearOrder α]
variable {G : Type}

/-- Over the reals every score is above the initial `bestscore = -1.0`. -/
theorem score_real_nonneg (attr : List α) (labels : List Nat) (numclasses : Nat)
    (indices : List Nat) (split : α)
    (hrange : ∀ i ∈ indices, i < attr.length ∧ ∃ l, labels[i]? = some l ∧ l < numclasses) :
    ∃ r : ℝ, score (Real.logb 2) attr labels numclasses indices split = some r ∧ 0 ≤ r := by
  have hlab : ∀ i ∈ indices, ∃ l, labels[i]? = some l ∧ l < numclasses :=
    fun i hi => (hrange i hi).2
  have hA := (nclass_side_sum attr labels numclasses split false indices hlab).symm
  have hB := (nclass_side_sum attr labels numclasses split true indices hlab).symm
  exact ⟨_, score_eq_of_counts (Real.logb 2) attr labels numclasses indices split hrange,
    (score_of_counts_bounds numclasses _ _ _ _ hA hB).1⟩

theorem choose_split_step_real (rng : twister_t G α) (exampleset : exampleset_t α)
    (indices : List Nat) (mins maxs : List (Option α)) (attrs : List Nat)
    (st : (Nat × α × ℝ) × G) (ai : Nat) (mn mx : α) (attr : List α)
    (hai : ai ∈ attrs)
    (hmn : mins[ai]? = some (some mn)) (hmx : maxs[ai]? = some (some mx))
    (hattr : exampleset.attrs[ai]? = some attr)
    (hrange : ∀ i ∈ indices, i < attr.length ∧
      ∃ l, exampleset.labels[i]? = some l ∧ l < exampleset.numclasses)
    (hst : st.1.2.2 = -1 ∨ choose_inv rng mins maxs attrs st) :
    ∃ st', choose_split_step (Real.logb 2) rng exampleset indices mins maxs st ai = some st' ∧
      choose_inv rng mins maxs attrs st' ∧
      st'.2 = (rng.urand mn mx st.2).2 ∧
      (st.1.2.2 = -1 → st'.1.1 = ai ∧ st'.1.2.1 = (rng.urand mn mx st.2).1) := by
  obtain ⟨r, hr, hr0⟩ := score_real_nonneg attr exampleset.labels exampleset.numclasses indices
    (rng.urand mn mx st.2).1 hrange
  simp only [choose_split_step, hmn, hmx, hattr, hr]
  by_cases hgt : r > st.1.2.2
  · simp only [hgt, if_true]
    exact ⟨_, rfl, ⟨hai, hr0, mn, mx, st.2, hmn, hmx, rfl⟩, rfl, fun _ => ⟨rfl, rfl⟩⟩
  · simp only [hgt, if_false]
    rcases hst with h | h
    · exfalso
      apply hgt
      rw [h]
      linarith
    · refine ⟨_, rfl, h, rfl, ?_⟩
      intro h1
      exfalso
      apply hgt
      rw [h1]
      linarith

theorem choose_split_fold_real (rng : twister_t G α) (exampleset : exampleset_t α)
    (indices : List Nat) (mins maxs : List (Option α)) (attrs : List Nat) :
    ∀ (l : List Nat) (st : (Nat × α × ℝ) × G),
      (∀ ai ∈ l, ai ∈ attrs ∧ ∃ mn mx attr, mins[ai]? = some (some mn) ∧
        maxs[ai]? = some (some mx) ∧ exampleset.attrs[ai]? = some attr ∧
        ∀ i ∈ indices, i < attr.length ∧
          ∃ lb, exampleset.labels[i]? = some lb ∧ lb < exampleset.numclasses) →
      (st.1.2.2 = -1 ∨ choose_inv rng mins maxs attrs st) →
      ∃ st', l.foldlM (choose_split_step (Real.logb 2) rng exampleset indices mins maxs) st =
          some st' ∧
        (l ≠ [] → choose_inv rng mins maxs attrs st') := by
  intro l
  induction l with
  | nil =>
    intro st _ _
    exact ⟨st, rfl, fun h => absurd rfl h⟩
  | cons ai rest ih =>
    intro st h hst
    obtain ⟨hai, mn, mx, attr, hmn, hmx, hattr, hrange⟩ := h ai (List.mem_cons_self _ _)
    obtain ⟨st1, hstep, hinv1, _, _⟩ := choose_split_step_real rng exampleset indices mins maxs
      attrs st ai mn mx attr hai hmn hmx hattr hrange hst
    obtain ⟨st', hfold, hinv'⟩ := ih st1 (fun a ha => h a (List.mem_cons_of_mem _ ha))
      (Or.inr hinv1)
    refine ⟨st', ?_, fun _ => ?_⟩
    · simp only [List.foldlM_cons, hstep, Option.bind_eq_bind, Option.some_bind]
      exact hfold
    · by_cases hrest : rest = []
      · subst hrest
        simp only [List.foldlM_nil, Option.pure_def, Option.some.injEq] at hfold
        rw [← hfold]
        exact hinv1
      · exact hinv' hrest

variable [Zero α]

/-- Over the reals the best-split block returns an attribute of `attrs` with a
split value that was drawn for it. -/
theorem choose_split_real (rng : twister_t G α) (exampleset : exampleset_t α)
    (indices : List Nat) (mins maxs : List (Option α)) (attrs : List Nat) (g : G)
    (hne : attrs ≠ [])
    (h : ∀ ai ∈ attrs, ∃ mn mx attr, mins[ai]? = some (some mn) ∧
        maxs[ai]? = some (some mx) ∧ exampleset.attrs[ai]? = some attr ∧
        ∀ i ∈ indices, i < attr.length ∧
          ∃ lb, exampleset.labels[i]? = some lb ∧ lb < exampleset.numclasses) :
    ∃ st, choose_split (Real.logb 2) rng exampleset indices mins maxs attrs g = some st ∧
      choose_inv rng mins maxs attrs st := by
  unfold choose_split
  cases attrs with
  | nil => exact absurd rfl hne
  | cons a0 rest =>
    simp only [List.getElem?_cons_zero]
    obtain ⟨st', hfold, hinv⟩ := choose_split_fold_real rng exampleset indices mins maxs
      (a0 :: rest) (a0 :: rest) ((a0, 0, -1), g) (fun ai hai => ⟨hai, h ai hai⟩) (Or.inl rfl)
    exact ⟨st', hfold, hinv (List.cons_ne_nil _ _)⟩

/-- With a single selected attribute the best-split block takes the split
drawn for it. -/
theorem choose_split_single_real (rng : twister_t G α) (exampleset : exampleset_t α)
    (indices : List Nat) (mins maxs : List (Option α)) (ai : Nat) (g : G)
    (mn mx : α) (attr : List α)
    (hmn : mins[ai]? = some (some mn)) (hmx : maxs[ai]? = some (some mx))
    (hattr : exampleset.attrs[ai]? = some attr)
    (hrange : ∀ i ∈ indices, i < attr.length ∧
      ∃ l, exampleset.labels[i]? = some l ∧ l < exampleset.numclasses) :
    ∃ r : ℝ, choose_split (Real.logb 2) rng exampleset indices mins maxs [ai] g =
      some ((ai, (rng.urand mn mx g).1, r), (rng.urand mn mx g).2) := by
  obtain ⟨st', hstep, _, hg, hfirst⟩ := choose_split_step_real rng exampleset indices mins maxs
    [ai] ((ai, 0, -1), g) ai mn mx attr (List.mem_singleton_self _) hmn hmx hattr hrange
    (Or.inl rfl)
  obtain ⟨h1, h2⟩ := hfirst rfl
  refine ⟨st'.1.2.2, ?_⟩
  simp only [choose_split, List.getElem?_cons_zero, List.foldlM_cons, hstep, List.foldlM_nil,
    Option.bind_eq_bind, Option.some_bind, Option.pure_def, Option.some.injEq]
  simp only at hg
  rw [← h1, ← h2, ← hg]

end choose_real
end nextratrees


/-! Concrete runs -/

namespace nextratrees
open ndectree

section runs

/-- A run of `build_an_extra_tree` over the reals on scenario S1 with
`nmin = 1`, `numattr = 1`: one branch on attribute 0 at split value 1. -/
theorem build_S1_run :
    build_an_extra_tree (Real.logb 2) rng_max 2 scenario_S1 [0, 1] [0, 1, 2, 3] 1 1 () =
      some (dectree_t.branch 0 1 (dectree_t.leaf [2, 0]) (dectree_t.leaf [0, 2]), ()) := by
  have hcf : count_classfreqs scenario_S1 [0, 1, 2, 3] = some [2, 2] := by decide
  have hcc : collect_candidates scenario_S1 [0, 1] [0, 1, 2, 3] =
      some ([some 0, some 0], [some 1, some 1], [0, 1]) := by decide
  have hpick : pick_attrs rng_max [0, 1] 1 () = some ([0], ()) := by decide
  obtain ⟨r, hr⟩ := choose_split_single_real rng_max scenario_S1 [0, 1, 2, 3]
    [some 0, some 0] [some 1, some 1] 0 () 0 1 [0, 0, 1, 1] (by decide) (by decide) (by decide)
    (by decide)
  have hsplit : split_indices [(0 : Int), 0, 1, 1] 1 [0, 1, 2, 3] = some ([0, 1], [2, 3]) := by
    decide
  have hl : build_an_extra_tree (Real.logb 2) rng_max 1 scenario_S1 [0] [0, 1] 1 1 () =
      some (dectree_t.leaf [2, 0], ()) := by
    have h1 : count_classfreqs scenario_S1 [0, 1] = some [2, 0] := by decide
    rw [build_an_extra_tree]
    simp only [h1]
    decide
  have hr' : build_an_extra_tree (Real.logb 2) rng_max 1 scenario_S1 [0] [2, 3] 1 1 () =
      some (dectree_t.leaf [0, 2], ()) := by
    have h1 : count_classfreqs scenario_S1 [2, 3] = some [0, 2] := by decide
    rw [build_an_extra_tree]
    simp only [h1]
    decide
  rw [build_an_extra_tree]
  simp only [hcf, hcc, hpick]
  have e1 : ¬ ([0, 1, 2, 3] : List Nat).length < 1 := by decide
  have e2 : ¬ numclassesnonzero [2, 2] = 1 := by decide
  have e3 : ¬ ([0, 1] : List Nat).length < 1 := by decide
  have e4 : scenario_S1.attrs[0]? = some [0, 0, 1, 1] := by decide
  have e5 : (rng_max.urand 0 1 ()) = (1, ()) := rfl
  simp only [e1, e2, e3, if_false, hr, e4, e5, hsplit, hl, hr']

end runs
end nextratrees


/-! C1: leaf histogram and routing consistency -/

namespace nextratrees
open ndectree

section claim_tally
variable {α : Type} [LinearOrder α] [Zero α]
variable {R : Type} [NatCast R] [Zero R] [One R] [Add R] [Sub R] [Mul R] [Div R] [Neg R]
  [LT R] [DecidableRel (fun a b : R => a < b)]
variable {G : Type}

/-- C1: whenever `build_an_extra_tree` returns a tree (for any example set, any
index list, any `nmin`, `numattr`, any generator and any arithmetic of the
scores), every leaf of the tree holds in bucket `c` the number of entries of
`indices` with label index `c` that the classifier's walk (left iff
`featurevector[attrindex] < splitvalue`) routes to that leaf; the sum of a
leaf's histogram is the number of entries routed to it; and the leaf reached by
a training example `i` has `classfreqs[labels[i]] >= 1`. -/
theorem leaf_histogram_consistency (log2 : R → R) (rng : twister_t G α) (fuel : Nat)
    (exampleset : exampleset_t α) (attrindices indices : List Nat) (nmin numattr : Nat)
    (g g' : G) (t : dectree_t α)
    (h : build_an_extra_tree log2 rng fuel exampleset attrindices indices nmin numattr g =
      some (t, g')) :
    tallies_consistent exampleset indices t := by
  obtain ⟨h1, h2⟩ := build_leaf_tally log2 rng exampleset nmin numattr fuel attrindices indices
    g g' t h
  have hlab : ∀ i ∈ indices,
      ∃ l, exampleset.labels[i]? = some l ∧ l < exampleset.numclasses := by
    cases fuel with
    | zero => simp [build_an_extra_tree] at h
    | succ fuel =>
      obtain ⟨cf, hcf, _⟩ := build_an_extra_tree_inv log2 rng fuel exampleset attrindices
        indices nmin numattr g g' t h
      exact (count_classfreqs_inv exampleset indices cf hcf).1
  refine ⟨h1, ?_, ?_⟩
  · intro path cf hleaf
    rw [h1 path cf hleaf, range_map_sum]
    exact countP_label_sum exampleset.labels exampleset.numclasses _ indices hlab
  · intro i hi
    obtain ⟨pc, hpc⟩ := h2 i hi
    obtain ⟨l, hl, hlK⟩ := hlab i hi
    have hleaf := walk_leaf_at t _ pc hpc
    refine ⟨pc.1, pc.2, l, hpc, hleaf, hl, ?_⟩
    rw [h1 pc.1 pc.2 hleaf, List.getD_eq_getElem?_getD, range_map_getElem?, if_pos hlK]
    simp only [Option.getD_some]
    apply List.countP_pos_iff.mpr
    refine ⟨i, hi, ?_⟩
    simp [has_label, hl, routed_to, hpc]

/-- Witness for C1: the run on scenario S1 (four examples, one branch, two
leaves) over the reals. -/
theorem leaf_histogram_consistency_witness :
    build_an_extra_tree (Real.logb 2) rng_max 2 scenario_S1 [0, 1] [0, 1, 2, 3] 1 1 () =
        some (dectree_t.branch 0 1 (dectree_t.leaf [2, 0]) (dectree_t.leaf [0, 2]), ()) ∧
      tallies_consistent scenario_S1 [0, 1, 2, 3]
        (dectree_t.branch 0 1 (dectree_t.leaf [2, 0]) (dectree_t.leaf [0, 2])) :=
  ⟨build_S1_run,
    leaf_histogram_consistency (Real.logb 2) rng_max 2 scenario_S1 [0, 1] [0, 1, 2, 3] 1 1 ()
      () _ build_S1_run⟩

end claim_tally
end nextratrees


/-! Minimum and maximum of a column -/

namespace nextratrees
open ndectree

section minmax
variable {α : Type} [LinearOrder α]

theorem attr_minmax_fold (attr : List α) :
    ∀ (rest : List Nat) (mm mm' : α × α), mm.1 ≤ mm.2 →
      rest.foldlM (attr_minmax_step attr) mm = some mm' →
      mm'.1 ≤ mm.1 ∧ mm.2 ≤ mm'.2 ∧
      (∀ i ∈ rest, ∃ a, attr[i]? = some a ∧ mm'.1 ≤ a ∧ a ≤ mm'.2) ∧
      (mm'.1 = mm.1 ∨ ∃ i ∈ rest, attr[i]? = some mm'.1) ∧
      (mm'.2 = mm.2 ∨ ∃ i ∈ rest, attr[i]? = some mm'.2) := by
  intro rest
  induction rest with
  | nil =>
    intro mm mm' _ h
    simp only [List.foldlM_nil, Option.pure_def, Option.some.injEq] at h
    subst h
    simp
  | cons i rest ih =>
    intro mm mm' hle h
    simp only [List.foldlM_cons, Option.bind_eq_bind, attr_minmax_step] at h
    cases ha : attr[i]? with
    | none => simp [ha] at h
    | some a =>
      simp only [ha, Option.some_bind] at h
      by_cases h1 : a < mm.1
      · simp only [h1, if_true] at h
        obtain ⟨e1, e2, e3, e4, e5⟩ := ih (a, mm.2) mm' (le_trans h1.le hle) h
        simp only at e1 e2 e4 e5
        refine ⟨le_trans e1 h1.le, e2, ?_, ?_, ?_⟩
        · intro j hj
          rcases List.mem_cons.mp hj with rfl | hj'
          · exact ⟨a, ha, e1, le_trans (le_trans h1.le hle) e2⟩
          · exact e3 j hj'
        · right
          rcases e4 with e | ⟨j, hj, e⟩
          · exact ⟨i, List.mem_cons_self _ _, by rw [e]; exact ha⟩
          · exact ⟨j, List.mem_cons_of_mem _ hj, e⟩
        · rcases e5 with e | ⟨j, hj, e⟩
          · exact Or.inl e
          · exact Or.inr ⟨j, List.mem_cons_of_mem _ hj, e⟩
      · by_cases h2 : a > mm.2
        · simp only [h1, h2, if_true, if_false] at h
          have hle' : mm.1 ≤ a := le_of_not_lt h1
          obtain ⟨e1, e2, e3, e4, e5⟩ := ih (mm.1, a) mm' hle' h
          simp only at e1 e2 e4 e5
          refine ⟨e1, le_trans h2.le e2, ?_, ?_, ?_⟩
          · intro j hj
            rcases List.mem_cons.mp hj with rfl | hj'
            · exact ⟨a, ha, le_trans e1 hle', e2⟩
            · exact e3 j hj'
          · rcases e4 with e | ⟨j, hj, e⟩
            · exact Or.inl e
            · exact Or.inr ⟨j, List.mem_cons_of_mem _ hj, e⟩
          · right
            rcases e5 with e | ⟨j, hj, e⟩
            · exact ⟨i, List.mem_cons_self _ _, by rw [e]; exact ha⟩
            · exact ⟨j, List.mem_cons_of_mem _ hj, e⟩
        · simp only [h1, h2, if_false] at h
          obtain ⟨e1, e2, e3, e4, e5⟩ := ih mm mm' hle h
          refine ⟨e1, e2, ?_, ?_, ?_⟩
          · intro j hj
            rcases List.mem_cons.mp hj with rfl | hj'
            · exact ⟨a, ha, le_trans e1 (le_of_not_lt h1), le_trans (le_of_not_lt h2) e2⟩
            · exact e3 j hj'
          · rcases e4 with e | ⟨j, hj, e⟩
            · exact Or.inl e
            · exact Or.inr ⟨j, List.mem_cons_of_mem _ hj, e⟩
          · rcases e5 with e | ⟨j, hj, e⟩
            · exact Or.inl e
            · exact Or.inr ⟨j, List.mem_cons_of_mem _ hj, e⟩

/-- The values `(min, max)` computed for a column over `indices` bound the
column on `indices` and are both attained there. -/
theorem attr_minmax_spec (attr : List α) (indices : List Nat) (mm : α × α)
    (h : attr_minmax attr indices = some mm) :
    indices ≠ [] ∧
      (∀ i ∈ indices, ∃ a, attr[i]? = some a ∧ mm.1 ≤ a ∧ a ≤ mm.2) ∧
      (∃ i ∈ indices, attr[i]? = some mm.1) ∧
      (∃ i ∈ indices, attr[i]? = some mm.2) := by
  cases indices with
  | nil => simp [attr_minmax] at h
  | cons i0 rest =>
    simp only [attr_minmax] at h
    cases ha : attr[i0]? with
    | none => simp [ha] at h
    | some a0 =>
      simp only [ha] at h
      obtain ⟨e1, e2, e3, e4, e5⟩ := attr_minmax_fold attr rest (a0, a0) mm (le_refl _) h
      simp only at e1 e2 e4 e5
      refine ⟨List.cons_ne_nil _ _, ?_, ?_, ?_⟩
      · intro j hj
        rcases List.mem_cons.mp hj with rfl | hj'
        · exact ⟨a0, ha, e1, e2⟩
        · exact e3 j hj'
      · rcases e4 with e | ⟨j, hj, e⟩
        · exact ⟨i0, List.mem_cons_self _ _, by rw [e]; exact ha⟩
        · exact ⟨j, List.mem_cons_of_mem _ hj, e⟩
      · rcases e5 with e | ⟨j, hj, e⟩
        · exact ⟨i0, List.mem_cons_self _ _, by rw [e]; exact ha⟩
        · exact ⟨j, List.mem_cons_of_mem _ hj, e⟩

theorem attr_minmax_fold_some (attr : List α) :
    ∀ (rest : List Nat) (mm : α × α), (∀ i ∈ rest, i < attr.length) →
      ∃ mm', rest.foldlM (attr_minmax_step attr) mm = some mm' := by
  intro rest
  induction rest with
  | nil => intro mm _; exact ⟨mm, rfl⟩
  | cons i rest ih =>
    intro mm h
    have hi : i < attr.length := h i (List.mem_cons_self _ _)
    have ha : attr[i]? = some attr[i] := List.getElem?_eq_getElem hi
    simp only [List.foldlM_cons, attr_minmax_step, ha, Option.bind_eq_bind, Option.some_bind]
    exact ih _ (fun j hj => h j (List.mem_cons_of_mem _ hj))

/-- On a non-empty, in-range index list `min` and `max` are computed. -/
theorem attr_minmax_some (attr : List α) (indices : List Nat) (hne : indices ≠ [])
    (h : ∀ i ∈ indices, i < attr.length) :
    ∃ mm, attr_minmax attr indices = some mm := by
  cases indices with
  | nil => exact absurd rfl hne
  | cons i0 rest =>
    have hi : i0 < attr.length := h i0 (List.mem_cons_self _ _)
    have ha : attr[i0]? = some attr[i0] := List.getElem?_eq_getElem hi
    simp only [attr_minmax, ha]
    exact attr_minmax_fold_some attr rest _ (fun j hj => h j (List.mem_cons_of_mem _ hj))

/-- A column with a single value `v` on `indices` has `min = max = v`. -/
theorem attr_minmax_const (attr : List α) (indices : List Nat) (v : α) (hne : indices ≠ [])
    (h : ∀ i ∈ indices, attr[i]? = some v) :
    attr_minmax attr indices = some (v, v) := by
  have hin : ∀ i ∈ indices, i < attr.length := by
    intro i hi
    by_contra hcon
    have := h i hi
    rw [List.getElem?_eq_none (by omega)] at this
    cases this
  obtain ⟨mm, hmm⟩ := attr_minmax_some attr indices hne hin
  obtain ⟨_, _, ⟨i, hi, e1⟩, ⟨j, hj, e2⟩⟩ := attr_minmax_spec attr indices mm hmm
  rw [h i hi] at e1
  rw [h j hj] at e2
  rw [hmm]
  have e1' : v = mm.1 := Option.some.inj e1
  have e2' : v = mm.2 := Option.some.inj e2
  exact congrArg some (Prod.ext e1'.symm e2'.symm)

end minmax
end nextratrees


/-! The candidate attributes -/

namespace nextratrees
open ndectree

section candidates
variable {α : Type} [LinearOrder α]

theorem collect_candidates_fold (exampleset : exampleset_t α) (indices : List Nat) :
    ∀ (l : List Nat) (st st' : List (Option α) × List (Option α) × List Nat),
      st.1.length = exampleset.attrs.length → st.2.1.length = exampleset.attrs.length →
      l.foldlM (collect_candidates_step exampleset indices) st = some st' →
      (∀ ai ∈ l, minmax_cell_ok exampleset indices st'.1 st'.2.1 ai) ∧
      (∀ ai, minmax_cell_ok exampleset indices st.1 st.2.1 ai →
        minmax_cell_ok exampleset indices st'.1 st'.2.1 ai) ∧
      (∀ ai ∈ st'.2.2, ai ∈ st.2.2 ∨ (ai ∈ l ∧ is_candidate exampleset indices ai)) := by
  intro l
  induction l with
  | nil =>
    intro st st' _ _ h
    simp only [List.foldlM_nil, Option.pure_def, Option.some.injEq] at h
    subst h
    exact ⟨fun ai hai => by simp at hai, fun ai h => h, fun ai h => Or.inl h⟩
  | cons a rest ih =>
    intro st st' hl1 hl2 h
    simp only [List.foldlM_cons, Option.bind_eq_bind, collect_candidates_step] at h
    cases hattr : exampleset.attrs[a]? with
    | none => simp [hattr] at h
    | some attr =>
      cases hmm : attr_minmax attr indices with
      | none => simp [hattr, hmm] at h
      | some mm =>
        simp only [hattr, hmm, Option.some_bind] at h
        have ha : a < exampleset.attrs.length := by
          by_contra hcon
          rw [List.getElem?_eq_none (by omega)] at hattr
          cases hattr
        obtain ⟨e1, e2, e3⟩ := ih _ st' (by simp [hl1]) (by simp [hl2]) h
        simp only at e1 e2 e3
        have hnew : minmax_cell_ok exampleset indices (st.1.set a (some mm.1))
            (st.2.1.set a (some mm.2)) a := by
          refine ⟨attr, mm, hattr, hmm, ?_, ?_⟩
          · rw [List.getElem?_set]; simp [hl1, ha]
          · rw [List.getElem?_set]; simp [hl2, ha]
        have hkeep : ∀ ai, minmax_cell_ok exampleset indices st.1 st.2.1 ai →
            minmax_cell_ok exampleset indices (st.1.set a (some mm.1))
              (st.2.1.set a (some mm.2)) ai := by
          intro ai hok
          by_cases hai : a = ai
          · subst hai
            exact hnew
          · obtain ⟨attr', mm', h1, h2, h3, h4⟩ := hok
            refine ⟨attr', mm', h1, h2, ?_, ?_⟩
            · rw [List.getElem?_set]; simp [hai, h3]
            · rw [List.getElem?_set]; simp [hai, h4]
        refine ⟨?_, fun ai hok => e2 ai (hkeep ai hok), ?_⟩
        · intro ai hai
          rcases List.mem_cons.mp hai with rfl | hai'
          · exact e2 _ hnew
          · exact e1 ai hai'
        · intro ai hai
          rcases e3 ai hai with h' | ⟨h', hc⟩
          · by_cases hlt : mm.1 < mm.2
            · simp only [hlt, if_true, List.mem_append, List.mem_singleton] at h'
              rcases h' with h' | rfl
              · exact Or.inl h'
              · exact Or.inr ⟨List.mem_cons_self _ _, attr, mm, hattr, hmm, hlt⟩
            · simp only [hlt, if_false] at h'
              exact Or.inl h'
          · exact Or.inr ⟨List.mem_cons_of_mem _ h', hc⟩

/-- After a successful candidate loop every attribute of `attrindices` has its
`mins`/`maxs` cells written, and every candidate is an attribute of
`attrindices` that is non-constant on `indices`. -/
theorem collect_candidates_spec (exampleset : exampleset_t α) (attrindices indices : List Nat)
    (mins maxs : List (Option α)) (attrcandidates : List Nat)
    (h : collect_candidates exampleset attrindices indices = some (mins, maxs, attrcandidates)) :
    (∀ ai ∈ attrindices, minmax_cell_ok exampleset indices mins maxs ai) ∧
      (∀ ai ∈ attrcandidates, ai ∈ attrindices ∧ is_candidate exampleset indices ai) := by
  obtain ⟨e1, _, e3⟩ := collect_candidates_fold exampleset indices attrindices _ _
    (by simp) (by simp) h
  refine ⟨e1, ?_⟩
  intro ai hai
  rcases e3 ai hai with h' | h'
  · simp at h'
  · exact h'

theorem collect_candidates_fold_some (exampleset : exampleset_t α) (indices : List Nat)
    (hne : indices ≠ []) :
    ∀ (l : List Nat) (st : List (Option α) × List (Option α) × List Nat),
      (∀ ai ∈ l, ∃ attr, exampleset.attrs[ai]? = some attr ∧ ∀ i ∈ indices, i < attr.length) →
      ∃ st', l.foldlM (collect_candidates_step exampleset indices) st = some st' := by
  intro l
  induction l with
  | nil => intro st _; exact ⟨st, rfl⟩
  | cons a rest ih =>
    intro st h
    obtain ⟨attr, hattr, hin⟩ := h a (List.mem_cons_self _ _)
    obtain ⟨mm, hmm⟩ := attr_minmax_some attr indices hne hin
    simp only [List.foldlM_cons, collect_candidates_step, hattr, hmm, Option.bind_eq_bind,
      Option.some_bind]
    exact ih _ (fun ai hai => h ai (List.mem_cons_of_mem _ hai))

/-- On a non-empty index list with all subscripts in range the candidate loop
completes. -/
theorem collect_candidates_some (exampleset : exampleset_t α) (attrindices indices : List Nat)
    (hne : indices ≠ [])
    (h : ∀ ai ∈ attrindices,
      ∃ attr, exampleset.attrs[ai]? = some attr ∧ ∀ i ∈ indices, i < attr.length) :
    ∃ r, collect_candidates exampleset attrindices indices = some r :=
  collect_candidates_fold_some exampleset indices hne attrindices _ h

end candidates
end nextratrees


/-! The stopping rules -/

namespace nextratrees
open ndectree

section stopping
variable {α : Type} [LinearOrder α] [Zero α]
variable {R : Type} [NatCast R] [Zero R] [One R] [Add R] [Sub R] [Mul R] [Div R] [Neg R]
  [LT R] [DecidableRel (fun a b : R => a < b)]
variable {G : Type}

/-- C2: for every example set, attribute list, generator and in-range index
list with `|indices| < nmin`, `build_an_extra_tree` returns a leaf whose
`classfreqs` is the K-bucket histogram of the label indices at `indices`, and
the generator state comes back unchanged (no draw was made). -/
theorem small_node_is_leaf (log2 : R → R) (rng : twister_t G α) (fuel : Nat)
    (exampleset : exampleset_t α) (attrindices indices : List Nat) (nmin numattr : Nat) (g : G)
    (hrange : ∀ i ∈ indices,
      ∃ l, exampleset.labels[i]? = some l ∧ l < exampleset.numclasses)
    (hsmall : indices.length < nmin) :
    build_an_extra_tree log2 rng (fuel + 1) exampleset attrindices indices nmin numattr g =
      some (dectree_t.leaf (label_histogram exampleset indices), g) := by
  rw [build_an_extra_tree]
  simp only [count_classfreqs_eq exampleset indices hrange, hsmall, if_true]

/-- Witness for C2: two examples of scenario S1 with `nmin = 3`. -/
theorem small_node_is_leaf_witness :
    ((∀ i ∈ [0, 2], ∃ l, scenario_S1.labels[i]? = some l ∧ l < scenario_S1.numclasses) ∧
      ([0, 2] : List Nat).length < 3) ∧
    build_an_extra_tree (Real.logb 2) rng_max 1 scenario_S1 [0, 1] [0, 2] 3 1 () =
      some (dectree_t.leaf [1, 1], ()) :=
  ⟨⟨by decide, by decide⟩,
    small_node_is_leaf (Real.logb 2) rng_max 0 scenario_S1 [0, 1] [0, 2] 3 1 ()
      (by decide) (by decide)⟩

end stopping

section histogram_pure

theorem countP_replicate_set (K c n : Nat) (hc : c < K) (hn : n ≠ 0) :
    ((List.replicate K 0).set c n).countP (fun x => decide (x ≠ 0)) = 1 := by
  induction K generalizing c with
  | zero => omega
  | succ K ih =>
    cases c with
    | zero =>
      simp only [List.replicate_succ, List.set_cons_zero, List.countP_cons, hn, ne_eq,
        not_false_eq_true, decide_True, if_true]
      simp [List.countP_eq_zero]
    | succ c =>
      simp only [List.replicate_succ, List.set_cons_succ, List.countP_cons]
      rw [ih c (by omega)]
      simp

/-- The histogram of an index list whose examples all have class `c`. -/
theorem label_histogram_pure {α : Type} (exampleset : exampleset_t α) (indices : List Nat) (c : Nat)
    (hpure : ∀ i ∈ indices, exampleset.labels[i]? = some c) :
    label_histogram exampleset indices =
      (List.replicate exampleset.numclasses 0).set c indices.length := by
  unfold label_histogram
  rw [replicate_eq_range_map, range_map_set]
  apply List.map_congr_left
  intro c' _
  by_cases hcc : c = c'
  · subst hcc
    simp only [Function.update_same]
    rw [List.countP_eq_length]
    intro i hi
    simp [has_label, hpure i hi]
  · simp only [Function.update, Ne.symm hcc, dite_false]
    rw [List.countP_eq_zero]
    intro i hi
    simp [has_label, hpure i hi, hcc]

end histogram_pure

section stopping_rules
variable {α : Type} [LinearOrder α] [Zero α]
variable {R : Type} [NatCast R] [Zero R] [One R] [Add R] [Sub R] [Mul R] [Div R] [Neg R]
  [LT R] [DecidableRel (fun a b : R => a < b)]
variable {G : Type}

/-- Pure-node rule for one call of the tree builder. -/
theorem build_pure (log2 : R → R) (rng : twister_t G α) (fuel : Nat)
    (exampleset : exampleset_t α) (attrindices indices : List Nat) (nmin numattr : Nat) (g : G)
    (c : Nat) (hne : indices ≠ []) (hc : c < exampleset.numclasses)
    (hpure : ∀ i ∈ indices, exampleset.labels[i]? = some c) :
    build_an_extra_tree log2 rng (fuel + 1) exampleset attrindices indices nmin numattr g =
      some (dectree_t.leaf ((List.replicate exampleset.numclasses 0).set c indices.length),
        g) := by
  have hrange : ∀ i ∈ indices,
      ∃ l, exampleset.labels[i]? = some l ∧ l < exampleset.numclasses :=
    fun i hi => ⟨c, hpure i hi, hc⟩
  have hlen : indices.length ≠ 0 := by
    intro h
    exact hne (List.length_eq_zero.mp h)
  rw [build_an_extra_tree]
  simp only [count_classfreqs_eq exampleset indices hrange,
    label_histogram_pure exampleset indices c hpure, numclassesnonzero_eq,
    countP_replicate_set exampleset.numclasses c indices.length hc hlen, if_true]
  split <;> rfl

/-- Constant-attribute rule for one call of the tree builder. -/
theorem build_constant (log2 : R → R) (rng : twister_t G α) (fuel : Nat)
    (exampleset : exampleset_t α) (attrindices indices : List Nat) (nmin numattr : Nat) (g : G)
    (hne : indices ≠ [])
    (hrange : ∀ i ∈ indices,
      ∃ l, exampleset.labels[i]? = some l ∧ l < exampleset.numclasses)
    (hconst : ∀ ai ∈ attrindices, ∃ attr v, exampleset.attrs[ai]? = some attr ∧
      ∀ i ∈ indices, attr[i]? = some v) :
    build_an_extra_tree log2 rng (fuel + 1) exampleset attrindices indices nmin numattr g =
      some (dectree_t.leaf (label_histogram exampleset indices), g) := by
  have hin : ∀ ai ∈ attrindices,
      ∃ attr, exampleset.attrs[ai]? = some attr ∧ ∀ i ∈ indices, i < attr.length := by
    intro ai hai
    obtain ⟨attr, v, hattr, hv⟩ := hconst ai hai
    refine ⟨attr, hattr, ?_⟩
    intro i hi
    by_contra hcon
    have := hv i hi
    rw [List.getElem?_eq_none (by omega)] at this
    cases this
  obtain ⟨⟨mins, maxs, attrcandidates⟩, hcc⟩ :=
    collect_candidates_some exampleset attrindices indices hne hin
  have hnil : attrcandidates = [] := by
    apply List.eq_nil_iff_forall_not_mem.mpr
    intro ai hai
    obtain ⟨hmem, attr, mm, hattr, hmm, hlt⟩ :=
      (collect_candidates_spec exampleset attrindices indices mins maxs attrcandidates hcc).2
        ai hai
    obtain ⟨attr', v, hattr', hv⟩ := hconst ai hmem
    rw [hattr] at hattr'
    cases hattr'
    rw [attr_minmax_const attr indices v hne hv] at hmm
    cases hmm
    exact lt_irrefl _ hlt
  subst hnil
  rw [build_an_extra_tree]
  simp only [count_classfreqs_eq exampleset indices hrange, hcc]
  split
  · rfl
  · split
    · rfl
    · simp

end stopping_rules
end nextratrees


/-! Selection of the attributes -/

namespace nextratrees
open ndectree

section pick
variable {α : Type} {G : Type}

theorem mem_of_mem_set {β : Type} (l : List β) (i : Nat) (v x : β)
    (h : x ∈ l.set i v) : x = v ∨ x ∈ l := by
  rcases List.mem_or_eq_of_mem_set h with h | h
  · exact Or.inr h
  · exact Or.inl h

/-- The swap-pop loop with no more passes than candidates completes; it adds
exactly `k` attributes, all of them candidates. -/
theorem pick_loop_spec (rng : twister_t G α) :
    ∀ (k : Nat) (attrcandidates attrs : List Nat) (g : G), k ≤ attrcandidates.length →
      ∃ attrs' g', pick_loop rng k attrcandidates attrs g = some (attrs', g') ∧
        attrs'.length = attrs.length + k ∧
        ∀ a ∈ attrs', a ∈ attrs ∨ a ∈ attrcandidates := by
  intro k
  induction k with
  | zero =>
    intro cands attrs g _
    exact ⟨attrs, g, rfl, rfl, fun a ha => Or.inl ha⟩
  | succ k ih =>
    intro cands attrs g hk
    have hlen : cands.length ≠ 0 := by omega
    have htarget : (rng.urand_sizet g).1 % cands.length < cands.length :=
      Nat.mod_lt _ (by omega)
    have hc : cands[(rng.urand_sizet g).1 % cands.length]? =
        some cands[(rng.urand_sizet g).1 % cands.length] := List.getElem?_eq_getElem htarget
    have hne : cands ≠ [] := by
      intro h
      apply hlen
      rw [h]
      rfl
    have hback : cands.getLast? = some (cands.getLast hne) := List.getLast?_eq_getLast _ hne
    simp only [pick_loop, hlen, if_false, hc, hback]
    obtain ⟨attrs', g', h1, h2, h3⟩ := ih
      (((cands.set ((rng.urand_sizet g).1 % cands.length) (cands.getLast hne)).set
        (cands.length - 1) cands[(rng.urand_sizet g).1 % cands.length]).dropLast)
      (attrs ++ [cands[(rng.urand_sizet g).1 % cands.length]]) (rng.urand_sizet g).2
      (by simp; omega)
    refine ⟨attrs', g', h1, ?_, ?_⟩
    · rw [h2]
      simp
      omega
    · intro a ha
      rcases h3 a ha with h | h
      · rcases List.mem_append.mp h with h | h
        · exact Or.inl h
        · right
          rw [List.mem_singleton.mp h]
          exact List.getElem_mem _
      · right
        have h' := List.mem_of_mem_dropLast h
        rcases mem_of_mem_set _ _ _ _ h' with h' | h'
        · rw [h']
          exact List.getElem_mem _
        · rcases mem_of_mem_set _ _ _ _ h' with h' | h'
          · rw [h']
            exact List.getLast_mem hne
          · exact h'

/-- With `numattr >= 1` and at least one candidate the selection completes with
a non-empty list of candidates. -/
theorem pick_attrs_spec (rng : twister_t G α) (attrcandidates : List Nat) (numattr : Nat)
    (g : G) (hnum : 1 ≤ numattr) (hne : attrcandidates ≠ []) :
    ∃ attrs g', pick_attrs rng attrcandidates numattr g = some (attrs, g') ∧
      attrs ≠ [] ∧ ∀ a ∈ attrs, a ∈ attrcandidates := by
  unfold pick_attrs
  by_cases h : attrcandidates.length = 1 ∨ attrcandidates.length ≤ numattr
  · rw [if_pos h]
    exact ⟨attrcandidates, g, rfl, hne, fun a ha => ha⟩
  · rw [if_neg h]
    simp only [not_or, not_le] at h
    obtain ⟨attrs', g', h1, h2, h3⟩ := pick_loop_spec rng numattr attrcandidates [] g
      (by omega)
    refine ⟨attrs', g', h1, ?_, ?_⟩
    · intro he
      rw [he] at h2
      simp at h2
      omega
    · intro a ha
      rcases h3 a ha with h' | h'
      · simp at h'
      · exact h'

end pick
end nextratrees


/-! Termination of the tree builder -/

namespace nextratrees
open ndectree

section termination
variable {α : Type} [LinearOrder α]
variable {G : Type}

/-- A split value strictly above `min` and at most `max` of the chosen column
leaves both sides of the partition non-empty. -/
theorem both_sides_nonempty (attr : List α) (indices : List Nat) (mm : α × α) (s : α)
    (hmm : attr_minmax attr indices = some mm) (hlo : mm.1 < s) (hhi : s ≤ mm.2) :
    0 < (indices.filter (on_side attr s false)).length ∧
      0 < (indices.filter (on_side attr s true)).length ∧
      (indices.filter (on_side attr s false)).length +
        (indices.filter (on_side attr s true)).length = indices.length := by
  obtain ⟨_, hb, ⟨i1, hi1, e1⟩, ⟨i2, hi2, e2⟩⟩ := attr_minmax_spec attr indices mm hmm
  have hin : ∀ i ∈ indices, i < attr.length := by
    intro i hi
    obtain ⟨a, ha, _⟩ := hb i hi
    by_contra hcon
    rw [List.getElem?_eq_none (by omega)] at ha
    cases ha
  have hsum := nside_add attr s indices hin
  have hL : 0 < nside attr indices s false := by
    apply List.countP_pos_iff.mpr
    exact ⟨i1, hi1, (on_side_false_iff attr s mm.1 i1 e1).mpr hlo⟩
  have hR : 0 < nside attr indices s true := by
    apply List.countP_pos_iff.mpr
    exact ⟨i2, hi2, (on_side_true_iff attr s mm.2 i2 e2).mpr (not_lt.mpr hhi)⟩
  simp only [nside, List.countP_eq_length_filter] at hsum hL hR
  exact ⟨hL, hR, hsum⟩

variable [Zero α]

/-- Termination of the tree builder over the reals when every split value is
drawn from `(min, max]`: with fuel above `|indices|` a tree is returned, and
its depth is below `|indices|`. -/
theorem build_terminates (rng : twister_t G α) (exampleset : exampleset_t α)
    (nmin numattr : Nat) (hnmin : 1 ≤ nmin) (hnumattr : 1 ≤ numattr)
    (hrng : ∀ lo hi g, lo < hi → lo < (rng.urand lo hi g).1 ∧ (rng.urand lo hi g).1 ≤ hi) :
    ∀ (fuel : Nat) (attrindices indices : List Nat) (g : G),
      indices.length + 1 ≤ fuel →
      (∀ i ∈ indices, ∃ l, exampleset.labels[i]? = some l ∧ l < exampleset.numclasses) →
      (∀ ai ∈ attrindices,
        ∃ attr, exampleset.attrs[ai]? = some attr ∧ ∀ i ∈ indices, i < attr.length) →
      ∃ t g', build_an_extra_tree (Real.logb 2) rng fuel exampleset attrindices indices
          nmin numattr g = some (t, g') ∧
        t.depth ≤ indices.length - 1 := by
  intro fuel
  induction fuel with
  | zero => intro _ _ _ h; omega
  | succ fuel ih =>
    intro attrindices indices g hfuel hlab hattr
    rw [build_an_extra_tree]
    simp only [count_classfreqs_eq exampleset indices hlab]
    by_cases h1 : indices.length < nmin
    · simp only [h1, if_true]
      exact ⟨_, _, rfl, Nat.zero_le _⟩
    · simp only [h1, if_false]
      by_cases h2 : numclassesnonzero (label_histogram exampleset indices) = 1
      · simp only [h2, if_true]
        exact ⟨_, _, rfl, Nat.zero_le _⟩
      · simp only [h2, if_false]
        have hne : indices ≠ [] := by
          intro h
          apply h1
          rw [h]
          exact hnmin
        obtain ⟨⟨mins, maxs, attrcandidates⟩, hcc⟩ :=
          collect_candidates_some exampleset attrindices indices hne hattr
        obtain ⟨hcells, hcands⟩ :=
          collect_candidates_spec exampleset attrindices indices mins maxs attrcandidates hcc
        simp only [hcc]
        by_cases h3 : attrcandidates.length < 1
        · simp only [h3, if_true]
          exact ⟨_, _, rfl, Nat.zero_le _⟩
        · simp only [h3, if_false]
          have hcne : attrcandidates ≠ [] := by
            intro h
            apply h3
            rw [h]
            exact Nat.zero_lt_one
          obtain ⟨attrs, g1, hpick, hane, hsub⟩ :=
            pick_attrs_spec rng attrcandidates numattr g hnumattr hcne
          simp only [hpick]
          have hattrs : ∀ ai ∈ attrs, ∃ mn mx attr, mins[ai]? = some (some mn) ∧
              maxs[ai]? = some (some mx) ∧ exampleset.attrs[ai]? = some attr ∧
              ∀ i ∈ indices, i < attr.length ∧
                ∃ lb, exampleset.labels[i]? = some lb ∧ lb < exampleset.numclasses := by
            intro ai hai
            have hmem := (hcands ai (hsub ai hai)).1
            obtain ⟨attr, mm, e1, _, e3, e4⟩ := hcells ai hmem
            obtain ⟨attr', e1', hin⟩ := hattr ai hmem
            rw [e1] at e1'
            cases e1'
            exact ⟨mm.1, mm.2, attr, e3, e4, e1, fun i hi => ⟨hin i hi, hlab i hi⟩⟩
          obtain ⟨⟨⟨bestattr, bestsplit, bestscore⟩, g2⟩, hchoose, hba, _, mn, mx, gx, hmn,
            hmx, hbs⟩ := choose_split_real rng exampleset indices mins maxs attrs g1 hane hattrs
          simp only at hba hmn hmx hbs
          simp only [hchoose]
          obtain ⟨hbmem, attr, mm, e1, e2, hlt⟩ := hcands bestattr (hsub bestattr hba)
          obtain ⟨attr', mm', e1', e2', e3', e4'⟩ := hcells bestattr hbmem
          rw [e1] at e1'
          cases e1'
          rw [e2] at e2'
          cases e2'
          rw [hmn] at e3'
          rw [hmx] at e4'
          have hmn' : mn = mm.1 := Option.some.inj (Option.some.inj e3')
          have hmx' : mx = mm.2 := Option.some.inj (Option.some.inj e4')
          subst hmn' hmx'
          obtain ⟨hlo, hhi⟩ := hrng mm.1 mm.2 gx hlt
          rw [← hbs] at hlo hhi
          obtain ⟨attr', e1', hin⟩ := hattr bestattr hbmem
          rw [e1] at e1'
          cases e1'
          simp only [e1, split_indices_eq attr bestsplit indices hin]
          obtain ⟨hL, hR, hLR⟩ := both_sides_nonempty attr indices mm bestsplit e2 hlo hhi
          have hchild : ∀ (sub : List Nat), (∀ i ∈ sub, i ∈ indices) →
              (∀ i ∈ sub, ∃ l, exampleset.labels[i]? = some l ∧ l < exampleset.numclasses) ∧
              (∀ ai ∈ attrs, ∃ attr, exampleset.attrs[ai]? = some attr ∧
                ∀ i ∈ sub, i < attr.length) := by
            intro sub hsubset
            refine ⟨fun i hi => hlab i (hsubset i hi), ?_⟩
            intro ai hai
            obtain ⟨_, _, attr, _, _, e, hin'⟩ := hattrs ai hai
            exact ⟨attr, e, fun i hi => (hin' i (hsubset i hi)).1⟩
          obtain ⟨hlabL, hattrL⟩ := hchild (indices.filter (on_side attr bestsplit false))
            (fun i hi => (List.mem_filter.mp hi).1)
          obtain ⟨hlabR, hattrR⟩ := hchild (indices.filter (on_side attr bestsplit true))
            (fun i hi => (List.mem_filter.mp hi).1)
          obtain ⟨left, g3, hleft, hdl⟩ := ih attrs _ g2 (by omega) hlabL hattrL
          obtain ⟨right, g4, hright, hdr⟩ := ih attrs _ g3 (by omega) hlabR hattrR
          simp only [hleft, hright]
          refine ⟨_, _, rfl, ?_⟩
          simp only [dectree_t.depth]
          have : Nat.max left.depth right.depth ≤ indices.length - 2 := by
            apply Nat.max_le.mpr
            constructor <;> omega
          omega

end termination
end nextratrees


/-! C5: termination and depth -/

namespace nextratrees
open ndectree

section claim_termination
variable {α : Type} [LinearOrder α] [Zero α]
variable {G : Type}

/-- C5 (amended): over the reals, for every well-formed column-form example set
with N examples, every duplicate-free in-range index list, every `nmin >= 1`,
`numattr >= 1` and every generator whose split values are drawn from the
half-open interval `(min_j, max_j]`, the recursion of `build_an_extra_tree`
terminates (every fuel above N returns a tree) and the returned tree has depth
at most `|indices| - 1`, hence at most N. -/
theorem build_terminates_depth_le (rng : twister_t G α) (exampleset : exampleset_t α)
    (attrindices indices : List Nat) (nmin numattr : Nat) (g : G)
    (hnmin : 1 ≤ nmin) (hnumattr : 1 ≤ numattr)
    (hrng : ∀ lo hi g, lo < hi → lo < (rng.urand lo hi g).1 ∧ (rng.urand lo hi g).1 ≤ hi)
    (hcols : ∀ attr ∈ exampleset.attrs, attr.length = exampleset.labels.length)
    (hlabels : ∀ l ∈ exampleset.labels, l < exampleset.numclasses)
    (hattrindices : ∀ ai ∈ attrindices, ai < exampleset.attrs.length)
    (hindices : ∀ i ∈ indices, i < exampleset.labels.length)
    (hnodup : indices.Nodup) :
    ∀ fuel, exampleset.labels.length + 1 ≤ fuel →
      ∃ t g', build_an_extra_tree (Real.logb 2) rng fuel exampleset attrindices indices
          nmin numattr g = some (t, g') ∧
        t.depth ≤ indices.length - 1 ∧ t.depth ≤ exampleset.labels.length := by
  intro fuel hfuel
  have hlen : indices.length ≤ exampleset.labels.length := by
    have hsub : indices ⊆ List.range exampleset.labels.length :=
      fun i hi => List.mem_range.mpr (hindices i hi)
    have := (List.subperm_of_subset hnodup hsub).length_le
    simpa using this
  have hlab : ∀ i ∈ indices,
      ∃ l, exampleset.labels[i]? = some l ∧ l < exampleset.numclasses := by
    intro i hi
    have h := hindices i hi
    exact ⟨exampleset.labels[i], List.getElem?_eq_getElem h,
      hlabels _ (List.getElem_mem _)⟩
  have hattr : ∀ ai ∈ attrindices,
      ∃ attr, exampleset.attrs[ai]? = some attr ∧ ∀ i ∈ indices, i < attr.length := by
    intro ai hai
    have h := hattrindices ai hai
    refine ⟨exampleset.attrs[ai], List.getElem?_eq_getElem h, ?_⟩
    intro i hi
    rw [hcols _ (List.getElem_mem _)]
    exact hindices i hi
  obtain ⟨t, g', hbuild, hdepth⟩ := build_terminates rng exampleset nmin numattr hnmin hnumattr
    hrng fuel attrindices indices g (by omega) hlab hattr
  exact ⟨t, g', hbuild, hdepth, by omega⟩

/-- Witness for the amended C5: scenario S1 with the generator that draws
`max`. -/
theorem build_terminates_depth_le_witness :
    ((1 ≤ 1) ∧ (1 ≤ 1) ∧
      (∀ lo hi g, lo < hi → lo < (rng_max.urand lo hi g).1 ∧ (rng_max.urand lo hi g).1 ≤ hi) ∧
      (∀ attr ∈ scenario_S1.attrs, attr.length = scenario_S1.labels.length) ∧
      (∀ l ∈ scenario_S1.labels, l < scenario_S1.numclasses) ∧
      (∀ ai ∈ [0, 1], ai < scenario_S1.attrs.length) ∧
      (∀ i ∈ [0, 1, 2, 3], i < scenario_S1.labels.length) ∧
      ([0, 1, 2, 3] : List Nat).Nodup) ∧
    ∃ t g', build_an_extra_tree (Real.logb 2) rng_max 5 scenario_S1 [0, 1] [0, 1, 2, 3]
        1 1 () = some (t, g') ∧
      t.depth ≤ ([0, 1, 2, 3] : List Nat).length - 1 ∧ t.depth ≤ scenario_S1.labels.length :=
  ⟨⟨by decide, by decide, fun _ _ _ h => ⟨h, le_refl _⟩, by decide, by decide, by decide,
      by decide, by decide⟩,
    build_terminates_depth_le rng_max scenario_S1 [0, 1] [0, 1, 2, 3] 1 1 ()
      (by decide) (by decide) (fun _ _ _ h => ⟨h, le_refl _⟩) (by decide) (by decide)
      (by decide) (by decide) (by decide) 5 (by decide)⟩

/-- One call of the tree builder on scenario S1 with the generator that draws
`min`: the left child is built on the empty list and the right child on the
whole list again, so the call fails when the same call with less fuel does. -/
theorem build_S1_min_step (fuel : Nat)
    (h : build_an_extra_tree (Real.logb 2) rng_min fuel scenario_S1 [0] [0, 1, 2, 3] 1 1 () =
      none) :
    build_an_extra_tree (Real.logb 2) rng_min (fuel + 1) scenario_S1 [0] [0, 1, 2, 3] 1 1 () =
      none := by
  have hcf : count_classfreqs scenario_S1 [0, 1, 2, 3] = some [2, 2] := by decide
  have hcc : collect_candidates scenario_S1 [0] [0, 1, 2, 3] =
      some ([some 0, none], [some 1, none], [0]) := by decide
  have hpick : pick_attrs rng_min [0] 1 () = some ([0], ()) := by decide
  obtain ⟨r, hr⟩ := choose_split_single_real rng_min scenario_S1 [0, 1, 2, 3]
    [some 0, none] [some 1, none] 0 () 0 1 [0, 0, 1, 1] (by decide) (by decide) (by decide)
    (by decide)
  have hsplit : split_indices [(0 : Int), 0, 1, 1] 0 [0, 1, 2, 3] = some ([], [0, 1, 2, 3]) := by
    decide
  have e1 : ¬ ([0, 1, 2, 3] : List Nat).length < 1 := by decide
  have e2 : ¬ numclassesnonzero [2, 2] = 1 := by decide
  have e3 : ¬ ([0] : List Nat).length < 1 := by decide
  have e4 : scenario_S1.attrs[0]? = some [0, 0, 1, 1] := by decide
  have e5 : (rng_min.urand 0 1 ()) = (0, ()) := rfl
  rw [build_an_extra_tree]
  simp only [hcf, hcc, hpick, e1, e2, e3, if_false, hr, e4, e5, hsplit]
  split
  · rfl
  · rename_i left g3 _
    cases g3
    simp only [h]

/-- C5 (counterexample): the generator `rng_min` draws every split value from
the closed interval `[min_j, max_j]` (it returns `min_j`), and on scenario S1
with the attribute list `[0]` the recursion of `build_an_extra_tree` returns
no tree for any fuel: every call hands its right child the whole index list
again. -/
theorem build_diverges_at_min :
    (∀ lo hi g, lo ≤ hi → lo ≤ (rng_min.urand lo hi g).1 ∧ (rng_min.urand lo hi g).1 ≤ hi) ∧
    ¬ ∃ fuel t g', build_an_extra_tree (Real.logb 2) rng_min fuel scenario_S1 [0]
        [0, 1, 2, 3] 1 1 () = some (t, g') := by
  refine ⟨fun _ _ _ h => ⟨le_refl _, h⟩, ?_⟩
  rintro ⟨fuel, t, g', h⟩
  have hnone : ∀ fuel, build_an_extra_tree (Real.logb 2) rng_min fuel scenario_S1 [0]
      [0, 1, 2, 3] 1 1 () = none := by
    intro fuel
    induction fuel with
    | zero => rfl
    | succ fuel ih => exact build_S1_min_step fuel ih
  rw [hnone fuel] at h
  cases h

end claim_termination
end nextratrees


/-! The forest builder -/

namespace nextratrees
open ndectree

section pivot
variable {α : Type}

theorem push_featurevector_fold (attrs : List (List α)) (featurevector : List α)
    (h : featurevector.length ≤ attrs.length) :
    ∀ m, m ≤ featurevector.length →
      ∃ attrs', (List.range m).foldlM (push_featurevector_step featurevector) attrs = some attrs' ∧
        attrs'.length = attrs.length ∧
        ∀ j, attrs'[j]? = (attrs[j]?).map
          (fun col => if j < m then col ++ (featurevector[j]?).toList else col) := by
  intro m
  induction m with
  | zero =>
    intro _
    refine ⟨attrs, rfl, rfl, ?_⟩
    intro j
    cases attrs[j]? <;> simp
  | succ m ih =>
    intro hm
    obtain ⟨attrs1, h1, h2, h3⟩ := ih (by omega)
    have hm1 : m < attrs1.length := by omega
    have hm2 : m < featurevector.length := by omega
    have hcol : attrs1[m]? = some attrs1[m] := List.getElem?_eq_getElem hm1
    have ha : featurevector[m]? = some featurevector[m] := List.getElem?_eq_getElem hm2
    rw [List.range_succ, List.foldlM_append, h1]
    simp only [Option.bind_eq_bind, Option.some_bind, List.foldlM_cons, List.foldlM_nil,
      push_featurevector_step, hcol, ha, Option.pure_def]
    refine ⟨_, rfl, by simp [h2], ?_⟩
    intro j
    rw [List.getElem?_set]
    by_cases hj : m = j
    · subst hj
      have := h3 m
      rw [hcol] at this
      simp only [hm1, if_true, lt_irrefl, if_false, ha] at this ⊢
      cases hc : attrs[m]? with
      | none => rw [hc] at this; simp at this
      | some col =>
        rw [hc] at this
        simp only [Option.map_some', Option.some.injEq] at this ⊢
        simp [← this]
    · simp only [hj, if_false]
      rw [h3 j]
      have : (j < m + 1) ↔ (j < m) := by omega
      simp only [this]

/-- Pushing one feature vector appends its entry `j` to column `j`. -/
theorem push_featurevector_spec (attrs : List (List α)) (featurevector : List α)
    (h : featurevector.length ≤ attrs.length) :
    ∃ attrs', push_featurevector attrs featurevector = some attrs' ∧
      attrs'.length = attrs.length ∧
      ∀ j : Nat, attrs'[j]? =
        (attrs[j]?).map (fun col => col ++ (featurevector[j]?).toList) := by
  obtain ⟨attrs', h1, h2, h3⟩ :=
    push_featurevector_fold attrs featurevector h featurevector.length (le_refl _)
  refine ⟨attrs', h1, h2, ?_⟩
  intro j
  rw [h3 j]
  cases attrs[j]? with
  | none => rfl
  | some col =>
    simp only [Option.map_some', Option.some.injEq]
    by_cases hj : j < featurevector.length
    · simp [hj]
    · rw [List.getElem?_eq_none (by omega)]
      simp [hj]

theorem copy_attrs_fold :
    ∀ (featurevectors : List (List α)) (attrs : List (List α)),
      (∀ fv ∈ featurevectors, fv.length ≤ attrs.length) →
      ∃ attrs', featurevectors.foldlM push_featurevector attrs = some attrs' ∧
        attrs'.length = attrs.length ∧
        ∀ j : Nat, attrs'[j]? = (attrs[j]?).map
          (fun col => col ++ featurevectors.filterMap (fun fv => fv[j]?)) := by
  intro featurevectors
  induction featurevectors with
  | nil =>
    intro attrs _
    refine ⟨attrs, rfl, rfl, ?_⟩
    intro j
    cases attrs[j]? <;> simp
  | cons fv rest ih =>
    intro attrs h
    obtain ⟨attrs1, h1, h2, h3⟩ :=
      push_featurevector_spec attrs fv (h fv (List.mem_cons_self _ _))
    obtain ⟨attrs', h1', h2', h3'⟩ := ih attrs1
      (fun fv' hfv' => by rw [h2]; exact h fv' (List.mem_cons_of_mem _ hfv'))
    refine ⟨attrs', ?_, by rw [h2', h2], ?_⟩
    · simp only [List.foldlM_cons, h1, Option.bind_eq_bind, Option.some_bind]
      exact h1'
    · intro j
      rw [h3' j, h3 j]
      cases attrs[j]? with
      | none => rfl
      | some col =>
        simp only [Option.map_some', Option.some.injEq, List.filterMap_cons]
        cases fv[j]? <;> simp

/-- The pivot to column form: column `j` lists entry `j` of the feature
vectors in order. -/
theorem copy_attrs_spec (exampleset : cexampleset α)
    (h : ∀ fv ∈ exampleset.featurevectors, fv.length ≤ exampleset.names.length) :
    ∃ attrs, copy_attrs exampleset = some attrs ∧
      attrs.length = exampleset.names.length ∧
      ∀ j : Nat, j < exampleset.names.length →
        attrs[j]? = some (exampleset.featurevectors.filterMap (fun fv => fv[j]?)) := by
  obtain ⟨attrs, h1, h2, h3⟩ := copy_attrs_fold exampleset.featurevectors
    (List.replicate exampleset.names.length []) (by simpa using h)
  refine ⟨attrs, h1, by simpa using h2, ?_⟩
  intro j hj
  rw [h3 j]
  simp [List.getElem?_replicate, hj]

end pivot

section labelindex

theorem make_labeltoindex_fold :
    ∀ (ls : List Int) (st : List Int × List (Int × Nat)),
      (∀ l k, st.2.lookup l = some k → k < st.1.length) →
      (ls.foldl make_labeltoindex_step st).1 = st.1 ++ ls ∧
        ∀ l k, (ls.foldl make_labeltoindex_step st).2.lookup l = some k →
          k < (st.1 ++ ls).length := by
  intro ls
  induction ls with
  | nil =>
    intro st h
    simpa using h
  | cons x rest ih =>
    intro st h
    have hstep : ∀ l k, (make_labeltoindex_step st x).2.lookup l = some k →
        k < (make_labeltoindex_step st x).1.length := by
      intro l k hl
      simp only [make_labeltoindex_step, List.length_append, List.length_singleton] at hl ⊢
      by_cases hx : (st.2.lookup x).isSome
      · simp only [hx, if_true] at hl
        have := h l k hl
        omega
      · simp only [hx, Bool.false_eq_true, if_false, List.lookup_append] at hl
        cases hm : st.2.lookup l with
        | some k' =>
          rw [hm] at hl
          simp only [Option.or_some, Option.some.injEq] at hl
          have := h l k' hm
          omega
        | none =>
          rw [hm] at hl
          simp only [Option.none_or, List.lookup_cons, List.lookup_nil] at hl
          cases hb : (l == x) with
          | true => rw [hb] at hl; simp only [Option.some.injEq] at hl; omega
          | false => rw [hb] at hl; cases hl
    obtain ⟨e1, e2⟩ := ih (make_labeltoindex_step st x) hstep
    simp only [List.foldl_cons]
    constructor
    · rw [e1]
      simp [make_labeltoindex_step]
    · intro l k hl
      have := e2 l k hl
      simpa [make_labeltoindex_step] using this

/-- Every label index handed out by `labeltoindex[ l ]` is below the number of
classes, provided there is at least one class. -/
theorem labeltoindex_get_lt (labelset : List Int) (l : Int) (hne : labelset ≠ []) :
    labeltoindex_get (make_labeltoindex labelset).2 l < labelset.length := by
  obtain ⟨_, e2⟩ := make_labeltoindex_fold labelset ([], []) (by simp)
  unfold labeltoindex_get
  cases hm : (make_labeltoindex labelset).2.lookup l with
  | none =>
    simp only [Option.getD_none]
    exact List.length_pos.mpr hne
  | some k =>
    simp only [Option.getD_some]
    have := e2 l k hm
    simpa using this

end labelindex

section trees
variable {α : Type} [LinearOrder α] [Zero α]
variable {R : Type} [NatCast R] [Zero R] [One R] [Add R] [Sub R] [Mul R] [Div R] [Neg R]
  [LT R] [DecidableRel (fun a b : R => a < b)]
variable {G : Type}

/-- When every call of the tree builder returns the same tree and leaves the
generator alone, the tree loop returns `numtrees` copies of it. -/
theorem build_trees_const (log2 : R → R) (rng : twister_t G α) (fuel : Nat)
    (exset : exampleset_t α) (attrindices indices : List Nat) (nmin numattr : Nat)
    (t : dectree_t α)
    (h : ∀ g, build_an_extra_tree log2 rng fuel exset attrindices indices nmin numattr g =
      some (t, g)) :
    ∀ (k : Nat) (ensemble : List (dectree_t α)) (g : G),
      build_trees log2 rng fuel exset attrindices indices nmin numattr k ensemble g =
        some (ensemble ++ List.replicate k t, g) := by
  intro k
  induction k with
  | zero => intro ensemble g; simp [build_trees]
  | succ k ih =>
    intro ensemble g
    simp only [build_trees, h g]
    rw [ih]
    simp [List.replicate_succ]

end trees
end nextratrees


/-! C3, C4: pure nodes and constant attributes -/

namespace nextratrees
open ndectree

section exset
variable {α : Type}

/-- The column-form set built from a row-form set whose feature vectors fit the
declared columns. -/
theorem make_exset_spec (training : cexampleset α)
    (hrows : ∀ fv ∈ training.featurevectors, fv.length ≤ training.names.length) :
    ∃ exset, make_exset training = some exset ∧
      exset.attrnames = training.names ∧
      exset.attrs.length = training.names.length ∧
      (∀ j : Nat, j < training.names.length →
        exset.attrs[j]? = some (training.featurevectors.filterMap (fun fv => fv[j]?))) ∧
      exset.labels = training.labels.map
        (labeltoindex_get (make_labeltoindex training.labelset).2) ∧
      exset.numclasses = training.labelset.length := by
  obtain ⟨attrs, h1, h2, h3⟩ := copy_attrs_spec training hrows
  refine ⟨{ attrnames := training.names
            attrs := attrs
            labelvalues := (make_labeltoindex training.labelset).1
            labels := training.labels.map
              (labeltoindex_get (make_labeltoindex training.labelset).2)
            numclasses := training.labelset.length }, ?_, rfl, h2, h3, rfl, rfl⟩
  simp only [make_exset, h1]

theorem make_exset_labels_lt (training : cexampleset α) (exset : exampleset_t α)
    (hlabels : exset.labels = training.labels.map
      (labeltoindex_get (make_labeltoindex training.labelset).2))
    (hnum : exset.numclasses = training.labelset.length)
    (hne : training.labelset ≠ []) :
    ∀ i ∈ List.range training.labels.length,
      ∃ l, exset.labels[i]? = some l ∧ l < exset.numclasses := by
  intro i hi
  have hi' : i < training.labels.length := List.mem_range.mp hi
  refine ⟨labeltoindex_get (make_labeltoindex training.labelset).2 training.labels[i], ?_, ?_⟩
  · rw [hlabels, List.getElem?_map, List.getElem?_eq_getElem hi']
    rfl
  · rw [hnum]
    exact labeltoindex_get_lt training.labelset _ hne

theorem range_ne_nil_of_ne_nil {β : Type} (l : List β) (h : l ≠ []) :
    List.range l.length ≠ [] := by
  intro hr
  apply h
  have := congrArg List.length hr
  simp only [List.length_range, List.length_nil] at this
  exact List.length_eq_zero.mp this

end exset

section forest_rules
variable {α : Type} [LinearOrder α] [Zero α]
variable {R : Type} [NatCast R] [Zero R] [One R] [Add R] [Sub R] [Mul R] [Div R] [Neg R]
  [LT R] [DecidableRel (fun a b : R => a < b)]
variable {G : Type}

/-- C3: (tree) for every non-empty index list whose examples all have the one
class `c`, whatever `nmin`, `numattr`, the attribute values and the generator
are, `build_an_extra_tree` returns a single leaf with `|indices|` in bucket `c`
and `0` in every other bucket, the generator untouched; (forest) on a non-empty
training set with a single label value (`labelset = [L]`), every tree of the
forest built by `build_an_extra_ensemble` is the single leaf with histogram
`[N]`, `N` the number of rows. -/
theorem pure_node_is_leaf (log2 : R → R) (rng : twister_t G α) (fuel : Nat)
    (exampleset : exampleset_t α) (attrindices indices : List Nat) (nmin numattr : Nat) (g : G)
    (c : Nat) (hne : indices ≠ []) (hc : c < exampleset.numclasses)
    (hpure : ∀ i ∈ indices, exampleset.labels[i]? = some c)
    (training : cexampleset α) (numtrees nmin' numattr' : Nat) (g0 : G) (L : Int)
    (hrows : ∀ fv ∈ training.featurevectors, fv.length ≤ training.names.length)
    (hlabelset : training.labelset = [L]) (hrowsne : training.labels ≠ []) :
    build_an_extra_tree log2 rng (fuel + 1) exampleset attrindices indices nmin numattr g =
      some (dectree_t.leaf ((List.replicate exampleset.numclasses 0).set c indices.length),
        g) ∧
    build_an_extra_ensemble log2 rng (fuel + 1) training numtrees nmin' numattr' g0 =
      some ({ trees := List.replicate numtrees (dectree_t.leaf [training.labels.length]),
              indextolabel := [L] }, g0) := by
  refine ⟨build_pure log2 rng fuel exampleset attrindices indices nmin numattr g c hne hc hpure,
    ?_⟩
  obtain ⟨exset, hmk, _, _, _, hlab, hnum⟩ := make_exset_spec training hrows
  have hK : exset.numclasses = 1 := by rw [hnum, hlabelset]; rfl
  have hlne : training.labelset ≠ [] := by rw [hlabelset]; exact List.cons_ne_nil _ _
  have hlen : exset.labels.length = training.labels.length := by rw [hlab]; simp
  have hp : ∀ i ∈ List.range exset.labels.length, exset.labels[i]? = some 0 := by
    intro i hi
    rw [hlen] at hi
    obtain ⟨l, h1, h2⟩ := make_exset_labels_lt training exset hlab hnum hlne i hi
    rw [hK] at h2
    have : l = 0 := by omega
    rw [h1, this]
  have hrne : List.range exset.labels.length ≠ [] := by
    rw [hlen]
    exact range_ne_nil_of_ne_nil _ hrowsne
  have hb : ∀ g, build_an_extra_tree log2 rng (fuel + 1) exset
      (List.range exset.attrnames.length) (List.range exset.labels.length) nmin' numattr' g =
        some (dectree_t.leaf [training.labels.length], g) := by
    intro g
    rw [build_pure log2 rng fuel exset _ _ nmin' numattr' g 0 hrne (by omega) hp]
    simp [hK, hlen]
  simp only [build_an_extra_ensemble, hmk,
    build_trees_const log2 rng (fuel + 1) exset _ _ nmin' numattr' _ hb, hlabelset,
    List.nil_append]

/-- Witness for C3: two examples of class 0 of scenario S1, and the ten rows
with label 0 of scenario S2 (histogram `[10]`). -/
theorem pure_node_is_leaf_witness :
    (([0, 1] : List Nat) ≠ [] ∧ 0 < scenario_S1.numclasses ∧
      (∀ i ∈ [0, 1], scenario_S1.labels[i]? = some 0) ∧
      (∀ fv ∈ scenario_S2.featurevectors, fv.length ≤ scenario_S2.names.length) ∧
      scenario_S2.labelset = [0] ∧ scenario_S2.labels ≠ []) ∧
    (build_an_extra_tree (Real.logb 2) rng_max 1 scenario_S1 [0, 1] [0, 1] 1 2 () =
      some (dectree_t.leaf [2, 0], ()) ∧
    build_an_extra_ensemble (Real.logb 2) rng_max 1 scenario_S2 3 1 1 () =
      some ({ trees := [dectree_t.leaf [10], dectree_t.leaf [10], dectree_t.leaf [10]],
              indextolabel := [0] }, ())) :=
  ⟨⟨by decide, by decide, by decide, by decide, by decide, by decide⟩,
    pure_node_is_leaf (Real.logb 2) rng_max 0 scenario_S1 [0, 1] [0, 1] 1 2 () 0
      (by decide) (by decide) (by decide) scenario_S2 3 1 1 () 0 (by decide) (by decide)
      (by decide)⟩

theorem filterMap_const {β γ : Type} (f : β → Option γ) (v : γ) :
    ∀ (l : List β), (∀ x ∈ l, f x = some v) → l.filterMap f = List.replicate l.length v := by
  intro l
  induction l with
  | nil => intro _; rfl
  | cons x rest ih =>
    intro h
    rw [List.filterMap_cons, h x (List.mem_cons_self _ _)]
    simp only [List.length_cons, List.replicate_succ]
    rw [ih (fun y hy => h y (List.mem_cons_of_mem _ hy))]

/-- C4: (tree) for every non-empty in-range index list and attribute list such
that every listed attribute takes a single value on the index list,
`build_an_extra_tree` returns a single leaf whose `classfreqs` is the label
histogram of the index list, the generator untouched; (forest) when all
feature vectors of a non-empty training set are identical, every tree of the
forest built by `build_an_extra_ensemble` is the single leaf holding the label
histogram of all rows. -/
theorem constant_attributes_is_leaf (log2 : R → R) (rng : twister_t G α) (fuel : Nat)
    (exampleset : exampleset_t α) (attrindices indices : List Nat) (nmin numattr : Nat) (g : G)
    (hne : indices ≠ [])
    (hrange : ∀ i ∈ indices,
      ∃ l, exampleset.labels[i]? = some l ∧ l < exampleset.numclasses)
    (hconst : ∀ ai ∈ attrindices, ∃ attr v, exampleset.attrs[ai]? = some attr ∧
      ∀ i ∈ indices, attr[i]? = some v)
    (training : cexampleset α) (numtrees nmin' numattr' : Nat) (g0 : G) (fv0 : List α)
    (hfv0 : fv0.length = training.names.length)
    (hsame : ∀ fv ∈ training.featurevectors, fv = fv0)
    (hrows : training.featurevectors.length = training.labels.length)
    (hrowsne : training.labels ≠ [])
    (hlabelset : training.labelset ≠ []) :
    build_an_extra_tree log2 rng (fuel + 1) exampleset attrindices indices nmin numattr g =
      some (dectree_t.leaf (label_histogram exampleset indices), g) ∧
    ∃ exset, make_exset training = some exset ∧
      build_an_extra_ensemble log2 rng (fuel + 1) training numtrees nmin' numattr' g0 =
        some ({ trees := List.replicate numtrees
                  (dectree_t.leaf (label_histogram exset (List.range training.labels.length))),
                indextolabel := training.labelset }, g0) := by
  refine ⟨build_constant log2 rng fuel exampleset attrindices indices nmin numattr g hne hrange
    hconst, ?_⟩
  obtain ⟨exset, hmk, hnames, hF, hcols, hlab, hnum⟩ := make_exset_spec training
    (fun fv hfv => by rw [hsame fv hfv, hfv0])
  have hlen : exset.labels.length = training.labels.length := by rw [hlab]; simp
  have hrne : List.range exset.labels.length ≠ [] := by
    rw [hlen]
    exact range_ne_nil_of_ne_nil _ hrowsne
  have hr : ∀ i ∈ List.range exset.labels.length,
      ∃ l, exset.labels[i]? = some l ∧ l < exset.numclasses := by
    rw [hlen]
    exact make_exset_labels_lt training exset hlab hnum hlabelset
  have hc : ∀ ai ∈ List.range exset.attrnames.length, ∃ attr v, exset.attrs[ai]? = some attr ∧
      ∀ i ∈ List.range exset.labels.length, attr[i]? = some v := by
    intro ai hai
    rw [hnames] at hai
    have hai' : ai < training.names.length := List.mem_range.mp hai
    have hv : ai < fv0.length := by omega
    refine ⟨_, fv0[ai], hcols ai hai', ?_⟩
    intro i hi
    rw [hlen, ← hrows] at hi
    have hi' : i < training.featurevectors.length := List.mem_range.mp hi
    rw [filterMap_const (fun (fv : List α) => fv[ai]?) fv0[ai] training.featurevectors
      (fun fv hfv => by rw [hsame fv hfv]; exact List.getElem?_eq_getElem hv)]
    simp [List.getElem?_replicate, hi']
  have hb : ∀ g, build_an_extra_tree log2 rng (fuel + 1) exset
      (List.range exset.attrnames.length) (List.range exset.labels.length) nmin' numattr' g =
        some (dectree_t.leaf (label_histogram exset (List.range training.labels.length)),
          g) := by
    intro g
    rw [build_constant log2 rng fuel exset _ _ nmin' numattr' g hrne hr hc, hlen]
  refine ⟨exset, hmk, ?_⟩
  simp only [build_an_extra_ensemble, hmk,
    build_trees_const log2 rng (fuel + 1) exset _ _ nmin' numattr' _ hb, List.nil_append]

/-- Witness for C4: rows 0 and 2 of scenario S1 agree on attribute 1, and the
four identical rows of scenario S3 with labels `[0, 1, 0, 1]` give the
histogram `[2, 2]`. -/
theorem constant_attributes_is_leaf_witness :
    (([0, 2] : List Nat) ≠ [] ∧
      (∀ i ∈ [0, 2], ∃ l, scenario_S1.labels[i]? = some l ∧ l < scenario_S1.numclasses) ∧
      (∀ ai ∈ [1], ∃ attr v, scenario_S1.attrs[ai]? = some attr ∧
        ∀ i ∈ [0, 2], attr[i]? = some v) ∧
      ([5, 7] : List Int).length = scenario_S3.names.length ∧
      (∀ fv ∈ scenario_S3.featurevectors, fv = [5, 7]) ∧
      scenario_S3.featurevectors.length = scenario_S3.labels.length ∧
      scenario_S3.labels ≠ [] ∧ scenario_S3.labelset ≠ []) ∧
    (build_an_extra_tree (Real.logb 2) rng_max 1 scenario_S1 [1] [0, 2] 1 2 () =
      some (dectree_t.leaf [1, 1], ()) ∧
    build_an_extra_ensemble (Real.logb 2) rng_max 1 scenario_S3 2 1 2 () =
      some ({ trees := [dectree_t.leaf [2, 2], dectree_t.leaf [2, 2]],
              indextolabel := [0, 1] }, ())) := by
  have hconst : ∀ ai ∈ [1], ∃ attr v, scenario_S1.attrs[ai]? = some attr ∧
      ∀ i ∈ [0, 2], attr[i]? = some v := by
    intro ai hai
    rw [List.mem_singleton.mp hai]
    exact ⟨[0, 1, 0, 1], 0, by decide, by decide⟩
  obtain ⟨h1, exset, h2, h3⟩ := constant_attributes_is_leaf (Real.logb 2) rng_max 0
    scenario_S1 [1] [0, 2] 1 2 () (by decide) (by decide) hconst
    scenario_S3 2 1 2 () [5, 7] (by decide) (by decide) (by decide) (by decide) (by decide)
  have h2' : make_exset scenario_S3 = some
      { attrnames := ["x1", "x2"], attrs := [[5, 5, 5, 5], [7, 7, 7, 7]],
        labelvalues := [0, 1], labels := [0, 1, 0, 1], numclasses := 2 } := by decide
  rw [h2'] at h2
  cases h2
  exact ⟨⟨by decide, by decide, hconst, by decide, by decide, by decide, by decide,
    by decide⟩, h1, h3⟩

end forest_rules
end nextratrees


/-! C11: classification by one tree -/

namespace ndectree

section maxindex

theorem lowest_max_index_unique (xs : List Nat) (m m' : Nat)
    (h : lowest_max_index xs m) (h' : lowest_max_index xs m') : m = m' := by
  obtain ⟨h1, h2, h3⟩ := h
  obtain ⟨h1', h2', h3'⟩ := h'
  rcases h3 with hm | ⟨hx, hm⟩
  · rcases h3' with hm' | ⟨hx', _⟩
    · rcases Nat.lt_trichotomy m m' with hlt | heq | hgt
      · have a := h2' m hlt
        have b := h1 m' hm'
        omega
      · exact heq
      · have a := h2 m' hgt
        have b := h1' m hm
        omega
    · rw [hx'] at hm
      simp at hm
  · rcases h3' with hm' | ⟨_, hm'⟩
    · rw [hx] at hm'
      simp at hm'
    · rw [hm, hm']

/-- Invariant of the loop computing `maxlabelindex`: after the entries `pre`,
the state holds the maximum so far, the lowest index attaining it, and the
number of entries seen. -/
theorem maxlabelindex_fold :
    ∀ (rest pre : List Nat) (st : Nat × Nat × Nat),
      st.2.2 = pre.length → st.1 = pre.getD st.2.1 0 → lowest_max_index pre st.2.1 →
      (rest.foldl maxlabelindex_step st).2.2 = (pre ++ rest).length ∧
        (rest.foldl maxlabelindex_step st).1 =
          (pre ++ rest).getD (rest.foldl maxlabelindex_step st).2.1 0 ∧
        lowest_max_index (pre ++ rest) (rest.foldl maxlabelindex_step st).2.1 := by
  intro rest
  induction rest with
  | nil =>
    intro pre st h1 h2 h3
    simp only [List.foldl_nil, List.append_nil]
    exact ⟨h1, h2, h3⟩
  | cons freq rest ih =>
    intro pre st h1 h2 h3
    have happ : pre ++ freq :: rest = (pre ++ [freq]) ++ rest := by simp
    rw [List.foldl_cons, happ]
    obtain ⟨a1, a2, a3⟩ := h3
    have hget : ∀ j, j < pre.length → (pre ++ [freq]).getD j 0 = pre.getD j 0 := by
      intro j hj
      rw [List.getD_append _ _ _ _ hj]
    have hlast : (pre ++ [freq]).getD pre.length 0 = freq := by
      rw [List.getD_append_right _ _ _ _ (le_refl _)]
      simp
    apply ih
    · simp only [maxlabelindex_step]
      split <;> simp [h1]
    · simp only [maxlabelindex_step]
      split
      · simp only [h1, hlast]
      · rename_i hle
        simp only
        rcases a3 with hm | ⟨hx, hm⟩
        · rw [hget _ hm]
          exact h2
        · subst hx
          rw [hm] at h2 ⊢
          simp only [List.getD_nil] at h2
          simp only [List.nil_append, List.getD_cons_zero]
          omega
    · simp only [maxlabelindex_step]
      split
      · rename_i hgt
        simp only [h1]
        refine ⟨?_, ?_, Or.inl (by simp)⟩
        · intro j hj
          rw [hlast]
          simp only [List.length_append, List.length_singleton] at hj
          by_cases hjl : j < pre.length
          · rw [hget j hjl]
            have := a1 j hjl
            omega
          · have : j = pre.length := by omega
            rw [this, hlast]
        · intro j hj
          rw [hlast, hget j hj]
          have := a1 j hj
          omega
      · rename_i hle
        simp only
        rcases a3 with hm | ⟨hx, hm⟩
        · refine ⟨?_, ?_, Or.inl (by simp; omega)⟩
          · intro j hj
            rw [hget _ hm]
            simp only [List.length_append, List.length_singleton] at hj
            by_cases hjl : j < pre.length
            · rw [hget j hjl]
              exact a1 j hjl
            · have : j = pre.length := by omega
              rw [this, hlast]
              omega
          · intro j hj
            rw [hget _ hm, hget j (by omega)]
            exact a2 j hj
        · subst hx
          rw [hm] at h2 ⊢
          simp only [List.getD_nil] at h2
          refine ⟨?_, ?_, Or.inl (by simp)⟩
          · intro j hj
            simp only [List.nil_append, List.length_singleton] at hj
            have : j = 0 := by omega
            rw [this]
          · intro j hj
            omega

/-- The loop returns the smallest index at which the list attains its maximum
(`0` for the empty list and for an all-zero list). -/
theorem maxlabelindex_spec (xs : List Nat) : lowest_max_index xs (maxlabelindex xs) := by
  have h := maxlabelindex_fold xs [] (0, 0, 0) rfl rfl
    ⟨fun j hj => by simp at hj, fun j hj => absurd hj (Nat.not_lt_zero j), Or.inr ⟨rfl, rfl⟩⟩
  simpa [maxlabelindex] using h.2.2

end maxindex

namespace dectree_t

section walk_reaches
variable {α : Type} [LinearOrder α]

theorem reaches_of_walk (t : dectree_t α) (fv : List α) :
    ∀ pc, walk t fv = some pc → reaches t fv pc.2 := by
  induction t with
  | leaf cf =>
    intro pc h
    simp only [walk, Option.some.injEq] at h
    subst h
    exact reaches.leaf cf fv
  | branch ai s l r ihl ihr =>
    intro pc h
    simp only [walk] at h
    cases ha : fv[ai]? with
    | none => simp [ha] at h
    | some a =>
      simp only [ha] at h
      by_cases hlt : a < s
      · simp only [hlt, if_true, Option.map_eq_some'] at h
        obtain ⟨pc', hw, rfl⟩ := h
        exact reaches.left ai s a l r fv _ ha hlt (ihl pc' hw)
      · simp only [hlt, if_false, Option.map_eq_some'] at h
        obtain ⟨pc', hw, rfl⟩ := h
        exact reaches.right ai s a l r fv _ ha (le_of_not_lt hlt) (ihr pc' hw)

theorem walk_of_reaches (t : dectree_t α) (fv : List α) (cf : List Nat)
    (h : reaches t fv cf) : ∃ path, walk t fv = some (path, cf) := by
  induction h with
  | leaf cf fv => exact ⟨[], rfl⟩
  | left ai s a l r fv cf ha hlt _ ih =>
    obtain ⟨p, hp⟩ := ih
    exact ⟨false :: p, by simp [walk, ha, hlt, hp]⟩
  | right ai s a l r fv cf ha hge _ ih =>
    obtain ⟨p, hp⟩ := ih
    exact ⟨true :: p, by simp [walk, ha, not_lt.mpr hge, hp]⟩

/-- The walk ends at a leaf whenever every `attrindex` is a valid subscript of
the feature vector. -/
theorem walk_total (t : dectree_t α) (fv : List α) (h : attrs_lt t fv.length) :
    ∃ pc, walk t fv = some pc := by
  induction t with
  | leaf cf => exact ⟨_, rfl⟩
  | branch ai s l r ihl ihr =>
    obtain ⟨h1, h2, h3⟩ := h
    obtain ⟨pl, hl⟩ := ihl h2
    obtain ⟨pr, hr⟩ := ihr h3
    have ha : fv[ai]? = some fv[ai] := List.getElem?_eq_getElem h1
    by_cases hlt : fv[ai] < s
    · exact ⟨_, by simp only [walk, ha, hlt, if_true, hl]; rfl⟩
    · exact ⟨_, by simp only [walk, ha, hlt, if_false, hr]; rfl⟩

end walk_reaches

end dectree_t

end ndectree

namespace nextratrees
open ndectree

section claim_classify_tree
variable {α : Type} [LinearOrder α]

/-- C11: for every tree, index-to-label table and feature vector,
`classify_from_tree` returns `label` exactly when the walk from the root (left
iff `featurevector[attrindex] < splitvalue`, a value equal to `splitvalue` goes
right) reaches a leaf with histogram `cf` and `label = indextolabel[m]`, `m`
the smallest index at which `cf` attains its maximum (`m = 0` for an all-zero
histogram); and the walk does reach a leaf whenever every `attrindex` of the
tree is a valid subscript of the feature vector. -/
theorem classify_from_tree_spec (pdectree : dectree_t α) (indextolabel : List Int)
    (featurevector : List α) (label : Int) :
    (classify_from_tree pdectree indextolabel featurevector = some label ↔
      ∃ cf m, dectree_t.reaches pdectree featurevector cf ∧ lowest_max_index cf m ∧
        indextolabel[m]? = some label) ∧
    (dectree_t.attrs_lt pdectree featurevector.length →
      ∃ cf, dectree_t.reaches pdectree featurevector cf) ∧
    (∀ cf : List Nat, (∀ f ∈ cf, f = 0) → lowest_max_index cf 0) := by
  refine ⟨⟨?_, ?_⟩, ?_, ?_⟩
  · intro h
    unfold classify_from_tree at h
    cases hw : dectree_t.walk pdectree featurevector with
    | none => simp [hw] at h
    | some pc =>
      simp only [hw] at h
      exact ⟨pc.2, maxlabelindex pc.2, dectree_t.reaches_of_walk _ _ pc hw,
        maxlabelindex_spec pc.2, h⟩
  · rintro ⟨cf, m, hr, hm, hl⟩
    obtain ⟨path, hw⟩ := dectree_t.walk_of_reaches _ _ _ hr
    unfold classify_from_tree
    simp only [hw]
    rw [lowest_max_index_unique cf _ _ (maxlabelindex_spec cf) hm]
    exact hl
  · intro h
    obtain ⟨pc, hw⟩ := dectree_t.walk_total _ _ h
    exact ⟨pc.2, dectree_t.reaches_of_walk _ _ pc hw⟩
  · intro cf hz
    have h0 : ∀ j, cf.getD j 0 = 0 := by
      intro j
      by_cases hj : j < cf.length
      · rw [List.getD_eq_getElem _ _ hj]
        exact hz _ (List.getElem_mem _)
      · rw [List.getD_eq_default _ _ (by omega)]
    refine ⟨fun j _ => by rw [h0 j, h0 0], fun j hj => by omega, ?_⟩
    cases cf with
    | nil => exact Or.inr ⟨rfl, rfl⟩
    | cons x xs => exact Or.inl (by simp)

end claim_classify_tree
end nextratrees

namespace nextratrees
open ndectree

theorem classify_from_tree_spec_witness :
    classify_from_tree (dectree_t.branch 0 (5 : Int) (dectree_t.leaf [1, 0])
        (dectree_t.leaf [2, 2])) [10, 20] [5] = some 10 ∧
      ∃ cf m, dectree_t.reaches (dectree_t.branch 0 (5 : Int) (dectree_t.leaf [1, 0])
          (dectree_t.leaf [2, 2])) [5] cf ∧ lowest_max_index cf m ∧
        ([10, 20] : List Int)[m]? = some 10 :=
  ⟨by decide, ((classify_from_tree_spec _ _ _ 10).1).mp (by decide)⟩

end nextratrees

/-! C12: classification by the forest -/

namespace ndectree

theorem vote_tally_congr {β : Type} (K : Nat) (trees : List (dectree_t β))
    (v w : dectree_t β → Nat)
    (h : ∀ t ∈ trees, v t = w t) : vote_tally K trees v = vote_tally K trees w := by
  unfold vote_tally
  apply List.map_congr_left
  intro c _
  apply List.countP_congr
  intro t ht
  simp [h t ht]

section forest_classify
variable {α : Type} [LinearOrder α]

theorem dectree_t.reaches_leaves_have (t : dectree_t α) (fv : List α) (cf : List Nat) (K : Nat)
    (h : dectree_t.reaches t fv cf) : dectree_t.leaves_have t K → cf.length = K := by
  induction h with
  | leaf cf fv => exact fun h => h
  | left ai s a l r fv cf _ _ _ ih => exact fun h => ih h.1
  | right ai s a l r fv cf _ _ _ ih => exact fun h => ih h.2

theorem lowest_max_index_lt (xs : List Nat) (m : Nat) (h : lowest_max_index xs m)
    (hne : 1 ≤ xs.length) : m < xs.length := by
  rcases h.2.2 with hm | ⟨hx, _⟩
  · exact hm
  · rw [hx] at hne
    simp at hne

theorem tree_vote_of_reaches (t : dectree_t α) (fv : List α) (cf : List Nat) (m : Nat)
    (hr : dectree_t.reaches t fv cf) (hm : lowest_max_index cf m) : tree_vote fv t = m := by
  obtain ⟨p, hp⟩ := dectree_t.walk_of_reaches t fv cf hr
  simp only [tree_vote, hp]
  exact lowest_max_index_unique cf _ _ (maxlabelindex_spec cf) hm

theorem classify_fold (fv : List α) (K : Nat) :
    ∀ (ts : List (dectree_t α)) (f : Nat → Nat),
      (∀ t ∈ ts, ∃ pc, dectree_t.walk t fv = some pc ∧ maxlabelindex pc.2 < K) →
      ts.foldlM (classify_step fv) ((List.range K).map f) =
        some ((List.range K).map
          (fun c => f c + ts.countP (fun t => decide (tree_vote fv t = c)))) := by
  intro ts
  induction ts with
  | nil =>
    intro f _
    simp
  | cons t ts ih =>
    intro f h
    obtain ⟨pc, hw, hlt⟩ := h t (List.mem_cons_self _ _)
    have hstep : classify_step fv ((List.range K).map f) t =
        some ((List.range K).map (Function.update f (maxlabelindex pc.2)
          (f (maxlabelindex pc.2) + 1))) := by
      simp only [classify_step, hw, nextratrees.range_map_getElem?, hlt, if_true, nextratrees.range_map_set]
    rw [List.foldlM_cons, hstep]
    simp only [Option.bind_eq_bind, Option.some_bind]
    rw [ih _ (fun t' ht' => h t' (List.mem_cons_of_mem _ ht'))]
    congr 1
    apply List.map_congr_left
    intro c _
    have hv : tree_vote fv t = maxlabelindex pc.2 := by simp only [tree_vote, hw]
    rw [List.countP_cons, hv]
    by_cases hc : maxlabelindex pc.2 = c
    · subst hc
      simp only [Function.update_same, decide_True, if_true]
      omega
    · have hc' : c ≠ maxlabelindex pc.2 := fun e => hc e.symm
      simp only [Function.update_noteq hc', hc, decide_False]
      simp

theorem classify_fold_none (fv : List α) :
    ∀ (ts : List (dectree_t α)) (lc : List Nat),
      (∃ t ∈ ts, dectree_t.walk t fv = none) →
      ts.foldlM (classify_step fv) lc = none := by
  intro ts
  induction ts with
  | nil =>
    rintro lc ⟨t, ht, _⟩
    simp at ht
  | cons t ts ih =>
    rintro lc ⟨t', ht', hw⟩
    rw [List.foldlM_cons]
    cases hs : classify_step fv lc t with
    | none => rfl
    | some lc' =>
      simp only [Option.bind_eq_bind, Option.some_bind]
      rcases List.mem_cons.mp ht' with rfl | hmem
      · simp [classify_step, hw] at hs
      · exact ih lc' ⟨t', hmem, hw⟩

/-- With `K ≥ 1` buckets in every leaf, a forest whose walks are all defined
tallies one vote per tree. -/
theorem labelcounts_eq (forest : forest_t α) (fv : List α) (K : Nat) (hK : 1 ≤ K)
    (hlen : forest.indextolabel.length = K)
    (hleaves : ∀ t ∈ forest.trees, dectree_t.leaves_have t K)
    (hwalk : ∀ t ∈ forest.trees, ∃ pc, dectree_t.walk t fv = some pc) :
    forest.labelcounts fv = some (vote_tally K forest.trees (tree_vote fv)) := by
  unfold forest_t.labelcounts
  rw [hlen, nextratrees.replicate_eq_range_map, classify_fold fv K forest.trees (fun _ => 0)]
  · simp [vote_tally]
  · intro t ht
    obtain ⟨pc, hw⟩ := hwalk t ht
    refine ⟨pc, hw, ?_⟩
    have hr := dectree_t.reaches_of_walk t fv pc hw
    have hl := dectree_t.reaches_leaves_have t fv pc.2 K hr (hleaves t ht)
    have := lowest_max_index_lt pc.2 _ (maxlabelindex_spec pc.2) (by omega)
    omega

end forest_classify
end ndectree

namespace ndectree

section claim_forest_classify
variable {α : Type} [LinearOrder α]

/-- C12: for every forest with `K = |indextolabel| ≥ 1` whose leaves have `K`
buckets and every feature vector, `forest_t::classify` returns `label` exactly
when every tree's walk reaches a leaf, `vote t` is the lowest index at which
that leaf's histogram is maximal, `votes[c]` is the number of trees with
`vote t = c`, `a` is the lowest index at which `votes` is maximal, and
`label = indextolabel[a]`; and it does return a label whenever every
`attrindex` is a valid subscript of the feature vector. -/
theorem forest_classify_spec (forest : forest_t α) (featurevector : List α) (K : Nat)
    (hK : 1 ≤ K) (hlen : forest.indextolabel.length = K)
    (hleaves : ∀ t ∈ forest.trees, dectree_t.leaves_have t K) :
    (∀ label, forest.classify featurevector = some label ↔
      ∃ (vote : dectree_t α → Nat) (a : Nat),
        (∀ t ∈ forest.trees, ∃ cf, dectree_t.reaches t featurevector cf ∧
          lowest_max_index cf (vote t)) ∧
        lowest_max_index (vote_tally K forest.trees vote) a ∧
        forest.indextolabel[a]? = some label) ∧
    ((∀ t ∈ forest.trees, dectree_t.attrs_lt t featurevector.length) →
      ∃ label, forest.classify featurevector = some label) := by
  have hdef : (∀ t ∈ forest.trees, ∃ pc, dectree_t.walk t featurevector = some pc) →
      forest.classify featurevector =
        forest.indextolabel[maxlabelindex
          (vote_tally K forest.trees (tree_vote featurevector))]? := by
    intro hwalk
    unfold forest_t.classify
    rw [labelcounts_eq forest featurevector K hK hlen hleaves hwalk]
  refine ⟨fun label => ⟨?_, ?_⟩, ?_⟩
  · intro h
    by_cases hwalk : ∀ t ∈ forest.trees, ∃ pc, dectree_t.walk t featurevector = some pc
    · rw [hdef hwalk] at h
      refine ⟨tree_vote featurevector, _, ?_, maxlabelindex_spec _, h⟩
      intro t ht
      obtain ⟨pc, hw⟩ := hwalk t ht
      refine ⟨pc.2, dectree_t.reaches_of_walk t _ pc hw, ?_⟩
      simp only [tree_vote, hw]
      exact maxlabelindex_spec pc.2
    · exfalso
      have hex : ∃ t ∈ forest.trees, dectree_t.walk t featurevector = none := by
        by_contra hcon
        apply hwalk
        intro t ht
        cases hw : dectree_t.walk t featurevector with
        | none => exact absurd ⟨t, ht, hw⟩ hcon
        | some pc => exact ⟨pc, rfl⟩
      have hnone := classify_fold_none featurevector forest.trees
        (List.replicate forest.indextolabel.length 0) hex
      simp [forest_t.classify, forest_t.labelcounts, hnone] at h
  · rintro ⟨vote, a, hv, ha, hl⟩
    have hwalk : ∀ t ∈ forest.trees, ∃ pc, dectree_t.walk t featurevector = some pc := by
      intro t ht
      obtain ⟨cf, hr, _⟩ := hv t ht
      obtain ⟨p, hp⟩ := dectree_t.walk_of_reaches t _ cf hr
      exact ⟨_, hp⟩
    have hcongr : vote_tally K forest.trees (tree_vote featurevector) =
        vote_tally K forest.trees vote := by
      apply vote_tally_congr
      intro t ht
      obtain ⟨cf, hr, hm⟩ := hv t ht
      exact tree_vote_of_reaches t _ cf _ hr hm
    rw [hdef hwalk, hcongr,
      lowest_max_index_unique _ _ _ (maxlabelindex_spec _) ha]
    exact hl
  · intro hattrs
    have hwalk : ∀ t ∈ forest.trees, ∃ pc, dectree_t.walk t featurevector = some pc :=
      fun t ht => dectree_t.walk_total t _ (hattrs t ht)
    rw [hdef hwalk]
    have hlt : maxlabelindex (vote_tally K forest.trees (tree_vote featurevector)) <
        forest.indextolabel.length := by
      have := lowest_max_index_lt _ _
        (maxlabelindex_spec (vote_tally K forest.trees (tree_vote featurevector)))
        (by simp [vote_tally]; omega)
      simpa [vote_tally, hlen] using this
    exact ⟨_, List.getElem?_eq_getElem hlt⟩

theorem forest_classify_spec_witness :
    forest_t.classify scenario_votes [5] = some 20 ∧
      ∃ (vote : dectree_t Int → Nat) (a : Nat),
        (∀ t ∈ scenario_votes.trees, ∃ cf, dectree_t.reaches t [5] cf ∧
          lowest_max_index cf (vote t)) ∧
        lowest_max_index (vote_tally 2 scenario_votes.trees vote) a ∧
        scenario_votes.indextolabel[a]? = some 20 :=
  ⟨by decide,
    ((forest_classify_spec scenario_votes [5] 2 (by decide) rfl
      (by simp [scenario_votes, dectree_t.leaves_have])).1 20).mp (by decide)⟩

end claim_forest_classify
end ndectree


/-! The label-to-index map -/

namespace nextratrees
open ndectree

section labeltoindex

theorem lookup_append_single (m : List (Int × Nat)) (l0 : Int) (v : Nat) (l : Int) :
    (m ++ [(l0, v)]).lookup l =
      (m.lookup l).or (if l = l0 then some v else none) := by
  induction m with
  | nil =>
    by_cases h : l = l0
    · subst h
      simp [List.lookup]
    · have : (l == l0) = false := by simpa using h
      simp [List.lookup, this, h]
  | cons p m ih =>
    obtain ⟨k, w⟩ := p
    by_cases hk : l = k
    · subst hk
      simp [List.lookup]
    · have : (l == k) = false := by simpa using hk
      rw [List.cons_append, List.lookup_cons, List.lookup_cons, this, ih]

/-- Invariant of the loop filling `labeltoindex`: a key is mapped to the
position of its first occurrence in `labelvalues`. -/
theorem make_labeltoindex_lookup :
    ∀ (ls : List Int) (st : List Int × List (Int × Nat)),
      (∀ l, st.2.lookup l = if l ∈ st.1 then some (st.1.indexOf l) else none) →
      ∀ l, (ls.foldl make_labeltoindex_step st).2.lookup l =
        if l ∈ st.1 ++ ls then some ((st.1 ++ ls).indexOf l) else none := by
  intro ls
  induction ls with
  | nil =>
    intro st h l
    simpa using h l
  | cons l0 ls ih =>
    intro st h l
    have happ : st.1 ++ l0 :: ls = (st.1 ++ [l0]) ++ ls := by simp
    rw [List.foldl_cons, happ]
    apply ih
    intro l'
    simp only [make_labeltoindex_step]
    by_cases hmem : l0 ∈ st.1
    · have hs : (st.2.lookup l0).isSome = true := by rw [h l0]; simp [hmem]
      simp only [hs, if_true]
      rw [h l']
      by_cases hl' : l' ∈ st.1
      · simp only [hl', if_true, List.mem_append, true_or,
          List.indexOf_append_of_mem hl']
      · have hne : l' ≠ l0 := fun e => hl' (e ▸ hmem)
        simp [hl', hne]
    · have hs : (st.2.lookup l0).isSome = false := by rw [h l0]; simp [hmem]
      simp only [hs, Bool.false_eq_true, if_false]
      rw [lookup_append_single, h l']
      by_cases hl' : l' ∈ st.1
      · simp only [hl', if_true, List.mem_append, true_or, Option.or_some,
          List.indexOf_append_of_mem hl']
      · by_cases he : l' = l0
        · subst he
          simp only [hl', if_false, if_true, Option.none_or, List.mem_append,
            List.mem_singleton, or_true]
          rw [List.indexOf_append_of_not_mem hl']
          simp
        · simp [hl', he]

/-- The subscript `labeltoindex[ l ]` is the position of the first occurrence
of `l` in `labelset` when `l` occurs in it, and `0` otherwise. -/
theorem labeltoindex_get_eq (labelset : List Int) (l : Int) :
    labeltoindex_get (make_labeltoindex labelset).2 l =
      if l ∈ labelset then labelset.indexOf l else 0 := by
  have h := make_labeltoindex_lookup labelset ([], []) (by simp [List.lookup]) l
  unfold labeltoindex_get make_labeltoindex
  rw [h]
  by_cases hl : l ∈ labelset <;> simp [hl]

theorem labelvalues_eq (labelset : List Int) : (make_labeltoindex labelset).1 = labelset := by
  have h := (make_labeltoindex_fold labelset ([], []) (by simp [List.lookup])).1
  simpa [make_labeltoindex] using h

/-- A label of `labelset` is found again at its dense index. -/
theorem labelset_get_labeltoindex (labelset : List Int) (l : Int) (hl : l ∈ labelset) :
    labelset[labeltoindex_get (make_labeltoindex labelset).2 l]? = some l := by
  rw [labeltoindex_get_eq, if_pos hl]
  have hlt : labelset.indexOf l < labelset.length := List.indexOf_lt_length.mpr hl
  rw [List.getElem?_eq_getElem hlt]
  simp

end labeltoindex
end nextratrees

/-! C14: a training set with a single label -/

namespace ndectree

section single_vote
variable {α : Type} [LinearOrder α]

/-- The value of `forest_t::classify` once every walk is defined. -/
theorem classify_of_walks (forest : forest_t α) (fv : List α) (K : Nat) (hK : 1 ≤ K)
    (hlen : forest.indextolabel.length = K)
    (hleaves : ∀ t ∈ forest.trees, dectree_t.leaves_have t K)
    (hwalk : ∀ t ∈ forest.trees, ∃ pc, dectree_t.walk t fv = some pc) :
    forest.classify fv =
      forest.indextolabel[maxlabelindex (vote_tally K forest.trees (tree_vote fv))]? := by
  unfold forest_t.classify
  rw [labelcounts_eq forest fv K hK hlen hleaves hwalk]

/-- A list that is zero away from `c` and positive at `c` has its lowest
maximum at `c`. -/
theorem lowest_max_index_of_single (xs : List Nat) (c : Nat) (hc : c < xs.length)
    (hpos : 0 < xs.getD c 0) (hz : ∀ j, j ≠ c → xs.getD j 0 = 0) :
    lowest_max_index xs c := by
  refine ⟨?_, ?_, Or.inl hc⟩
  · intro j _
    by_cases hj : j = c
    · rw [hj]
    · rw [hz j hj]
      exact Nat.zero_le _
  · intro j hj
    rw [hz j (by omega)]
    exact hpos

theorem maxlabelindex_single (K c n : Nat) (hc : c < K) (hn : 0 < n) :
    maxlabelindex ((List.replicate K 0).set c n) = c := by
  apply lowest_max_index_unique _ _ _ (maxlabelindex_spec _)
  apply lowest_max_index_of_single
  · simpa using hc
  · rw [List.getD_eq_getElem?_getD, List.getElem?_set_eq_of_lt]
    · simpa using hn
    · simpa using hc
  · intro j hj
    rw [List.getD_eq_getElem?_getD, List.getElem?_set_ne (fun e => hj e.symm)]
    by_cases hjK : j < K
    · simp [List.getElem?_replicate, hjK]
    · simp [List.getElem?_replicate, hjK]

/-- A forest of `M ≥ 1` copies of one leaf whose histogram is `n > 0` in
bucket `c` and `0` elsewhere classifies every query as `indextolabel[c]`. -/
theorem classify_replicate_leaf (M K c n : Nat) (indextolabel : List Int) (fv : List α)
    (hM : 1 ≤ M) (hc : c < K) (hn : 0 < n) (hlen : indextolabel.length = K) :
    forest_t.classify
      { trees := List.replicate M (dectree_t.leaf ((List.replicate K 0).set c n)),
        indextolabel := indextolabel } fv = indextolabel[c]? := by
  have hmem : ∀ t ∈ List.replicate M (dectree_t.leaf (α := α) ((List.replicate K 0).set c n)),
      t = dectree_t.leaf ((List.replicate K 0).set c n) :=
    fun t ht => (List.mem_replicate.mp ht).2
  rw [classify_of_walks _ fv K (by omega) hlen]
  · have hv : tree_vote fv (dectree_t.leaf (α := α) ((List.replicate K 0).set c n)) = c := by
      simp only [tree_vote, dectree_t.walk]
      exact maxlabelindex_single K c n hc hn
    have hm : maxlabelindex (vote_tally K
        (List.replicate M (dectree_t.leaf (α := α) ((List.replicate K 0).set c n)))
        (tree_vote fv)) = c := by
      apply lowest_max_index_unique _ _ _ (maxlabelindex_spec _)
      have hget : ∀ j, (vote_tally K
          (List.replicate M (dectree_t.leaf (α := α) ((List.replicate K 0).set c n)))
          (tree_vote fv)).getD j 0 = if j = c ∧ j < K then M else 0 := by
        intro j
        rw [List.getD_eq_getElem?_getD]
        unfold vote_tally
        rw [nextratrees.range_map_getElem?]
        by_cases hj : j < K
        · by_cases hjc : j = c
          · subst hjc
            simp [hj, List.countP_replicate, hv]
          · have hjc' : ¬ c = j := fun e => hjc e.symm
            simp [hj, hjc, hjc', List.countP_replicate, hv]
        · simp [hj]
      apply lowest_max_index_of_single
      · simpa [vote_tally] using hc
      · rw [hget]
        simp only [hc, and_self, if_true]
        omega
      · intro j hj
        rw [hget]
        simp [hj]
    simp only [hm]
  · intro t ht
    rw [hmem t ht]
    simp [dectree_t.leaves_have]
  · intro t ht
    rw [hmem t ht]
    exact ⟨_, rfl⟩

end single_vote
end ndectree

namespace nextratrees
open ndectree

section claim_single_label
variable {α : Type} [LinearOrder α] [Zero α]
variable {R : Type} [NatCast R] [Zero R] [One R] [Add R] [Sub R] [Mul R] [Div R] [Neg R]
  [LT R] [DecidableRel (fun a b : R => a < b)]
variable {G : Type}

/-- The forest built from a non-empty training set whose labels all equal one
value `L` of `labelset`: `numtrees` copies of the leaf holding `N` in the
bucket of `L`. -/
theorem build_single_label (log2 : R → R) (rng : twister_t G α) (fuel : Nat)
    (training : cexampleset α) (numtrees nmin numattr : Nat) (g : G) (L : Int)
    (hrows : ∀ fv ∈ training.featurevectors, fv.length ≤ training.names.length)
    (hne : training.labels ≠ []) (hall : ∀ l ∈ training.labels, l = L)
    (hL : L ∈ training.labelset) :
    build_an_extra_ensemble log2 rng (fuel + 1) training numtrees nmin numattr g =
      some ({ trees := List.replicate numtrees
                (dectree_t.leaf ((List.replicate training.labelset.length 0).set
                  (labeltoindex_get (make_labeltoindex training.labelset).2 L)
                  training.labels.length)),
              indextolabel := training.labelset }, g) := by
  obtain ⟨exset, hmk, _, _, _, hlab, hnum⟩ := make_exset_spec training hrows
  have hlne : training.labelset ≠ [] := List.ne_nil_of_mem hL
  have hlen : exset.labels.length = training.labels.length := by rw [hlab]; simp
  have hc := labeltoindex_get_lt training.labelset L hlne
  have hp : ∀ i ∈ List.range exset.labels.length, exset.labels[i]? =
      some (labeltoindex_get (make_labeltoindex training.labelset).2 L) := by
    intro i hi
    have hi' : i < training.labels.length := by
      rw [hlen] at hi
      exact List.mem_range.mp hi
    rw [hlab, List.getElem?_map, List.getElem?_eq_getElem hi']
    simp only [Option.map_some', Option.some.injEq]
    rw [hall _ (List.getElem_mem hi')]
  have hrne : List.range exset.labels.length ≠ [] := by
    rw [hlen]
    exact range_ne_nil_of_ne_nil _ hne
  have hb : ∀ g, build_an_extra_tree log2 rng (fuel + 1) exset
      (List.range exset.attrnames.length) (List.range exset.labels.length) nmin numattr g =
        some (dectree_t.leaf ((List.replicate training.labelset.length 0).set
          (labeltoindex_get (make_labeltoindex training.labelset).2 L)
          training.labels.length), g) := by
    intro g
    rw [build_pure log2 rng fuel exset _ _ nmin numattr g _ hrne (by rw [hnum]; exact hc) hp]
    simp [hnum, hlen]
  simp only [build_an_extra_ensemble, hmk,
    build_trees_const log2 rng (fuel + 1) exset _ _ nmin numattr _ hb, List.nil_append]

/-- C14: for every training set with `N ≥ 1` examples whose labels are all equal
to one value `L` (a member of `labelset`, rows no longer than the declared
columns), every `numtrees ≥ 1`, `nmin`, `numattr` and generator state,
`build_an_extra_ensemble` returns a forest, leaves the generator untouched, and
the forest classifies every query feature vector as `L`. -/
theorem single_label_forest_classifies (log2 : R → R) (rng : twister_t G α) (fuel : Nat)
    (training : cexampleset α) (numtrees nmin numattr : Nat) (g : G) (L : Int)
    (hrows : ∀ fv ∈ training.featurevectors, fv.length ≤ training.names.length)
    (hne : training.labels ≠ []) (hall : ∀ l ∈ training.labels, l = L)
    (hL : L ∈ training.labelset) (hM : 1 ≤ numtrees) :
    ∃ forest, build_an_extra_ensemble log2 rng (fuel + 1) training numtrees nmin numattr g =
        some (forest, g) ∧
      ∀ query : List α, forest.classify query = some L := by
  refine ⟨_, build_single_label log2 rng fuel training numtrees nmin numattr g L hrows hne hall
    hL, ?_⟩
  intro query
  rw [classify_replicate_leaf numtrees training.labelset.length _ _ training.labelset query hM
    (labeltoindex_get_lt training.labelset L (List.ne_nil_of_mem hL))
    (List.length_pos.mpr hne) rfl]
  exact labelset_get_labeltoindex training.labelset L hL

/-- Witness for C14: the single row `(3.14, 2.71, 7)` of scenario S4 yields `7`
for every query, here with three trees. -/
theorem single_label_forest_classifies_witness :
    ((∀ fv ∈ scenario_S4.featurevectors, fv.length ≤ scenario_S4.names.length) ∧
      scenario_S4.labels ≠ [] ∧ (∀ l ∈ scenario_S4.labels, l = 7) ∧
      (7 : Int) ∈ scenario_S4.labelset ∧ 1 ≤ 3) ∧
    ∃ forest, build_an_extra_ensemble (Real.logb 2) rng_max_rat 1 scenario_S4 3 1 2 () =
        some (forest, ()) ∧
      ∀ query : List Rat, forest.classify query = some 7 :=
  ⟨⟨by simp [scenario_S4], by simp [scenario_S4], by simp [scenario_S4],
      by simp [scenario_S4], by decide⟩,
    single_label_forest_classifies (Real.logb 2) rng_max_rat 0 scenario_S4 3 1 2 () 7
      (by simp [scenario_S4]) (by simp [scenario_S4]) (by simp [scenario_S4])
      (by simp [scenario_S4]) (by decide)⟩

end claim_single_label
end nextratrees

/-! The loop building the trees -/

namespace nextratrees
open ndectree

section columns

theorem filterMap_total {β γ : Type} (f : β → Option γ) :
    ∀ (l : List β), (∀ x ∈ l, ∃ a, f x = some a) →
      (l.filterMap f).length = l.length ∧
        ∀ (i : Nat) (x : β), l[i]? = some x → (l.filterMap f)[i]? = f x := by
  intro l
  induction l with
  | nil =>
    intro _
    exact ⟨rfl, fun i x h => by simp at h⟩
  | cons x0 rest ih =>
    intro h
    obtain ⟨a, ha⟩ := h x0 (List.mem_cons_self _ _)
    obtain ⟨h1, h2⟩ := ih (fun y hy => h y (List.mem_cons_of_mem _ hy))
    rw [List.filterMap_cons, ha]
    refine ⟨by simp [h1], ?_⟩
    intro i x hx
    cases i with
    | zero =>
      simp only [List.getElem?_cons_zero, Option.some.injEq] at hx
      subst hx
      simp [ha]
    | succ i =>
      simp only [List.getElem?_cons_succ] at hx ⊢
      exact h2 i x hx

end columns

section build_trees_unfold
variable {α : Type} [LinearOrder α] [Zero α]
variable {R : Type} [NatCast R] [Zero R] [One R] [Add R] [Sub R] [Mul R] [Div R] [Neg R]
  [LT R] [DecidableRel (fun a b : R => a < b)]
variable {G : Type}

/-- The accumulator of the loop "build decision trees" only collects the
results: the loop started on `ensemble` returns `ensemble` followed by what the
loop started on the empty vector returns. -/
theorem build_trees_acc (log2 : R → R) (rng : twister_t G α) (fuel : Nat)
    (exset : exampleset_t α) (attrindices indices : List Nat) (nmin numattr : Nat) :
    ∀ (k : Nat) (ensemble : List (dectree_t α)) (g : G),
      build_trees log2 rng fuel exset attrindices indices nmin numattr k ensemble g =
        (build_trees log2 rng fuel exset attrindices indices nmin numattr k [] g).map
          (fun p => (ensemble ++ p.1, p.2)) := by
  intro k
  induction k with
  | zero =>
    intro ensemble g
    simp [build_trees]
  | succ k ih =>
    intro ensemble g
    simp only [build_trees]
    cases hb : build_an_extra_tree log2 rng fuel exset attrindices indices nmin numattr g with
    | none => rfl
    | some p =>
      obtain ⟨t, g1⟩ := p
      simp only []
      rw [ih (ensemble ++ [t]) g1, ih ([] ++ [t]) g1]
      cases build_trees log2 rng fuel exset attrindices indices nmin numattr k [] g1 with
      | none => rfl
      | some q => simp

/-- One round of the loop "build decision trees": the first tree is built from
`attrindices` and `indices` at the current generator state, the remaining
`k` trees from the state that build leaves behind. -/
theorem build_trees_succ (log2 : R → R) (rng : twister_t G α) (fuel : Nat)
    (exset : exampleset_t α) (attrindices indices : List Nat) (nmin numattr : Nat)
    (k : Nat) (g : G) :
    build_trees log2 rng fuel exset attrindices indices nmin numattr (k + 1) [] g =
      (build_an_extra_tree log2 rng fuel exset attrindices indices nmin numattr g).bind
        (fun p => (build_trees log2 rng fuel exset attrindices indices nmin numattr k [] p.2).map
          (fun q => (p.1 :: q.1, q.2))) := by
  simp only [build_trees]
  cases hb : build_an_extra_tree log2 rng fuel exset attrindices indices nmin numattr g with
  | none => rfl
  | some p =>
    obtain ⟨t, g1⟩ := p
    simp only [Option.some_bind]
    rw [build_trees_acc log2 rng fuel exset attrindices indices nmin numattr k ([] ++ [t]) g1]
    rfl

/-- Every tree returned by the loop "build decision trees" is the result of
one call of `build_an_extra_tree` on `attrindices` and `indices`, and the loop
returns exactly `k` trees. -/
theorem build_trees_mem (log2 : R → R) (rng : twister_t G α) (fuel : Nat)
    (exset : exampleset_t α) (attrindices indices : List Nat) (nmin numattr : Nat) :
    ∀ (k : Nat) (g : G) (ts : List (dectree_t α)) (g' : G),
      build_trees log2 rng fuel exset attrindices indices nmin numattr k [] g = some (ts, g') →
      ts.length = k ∧ ∀ t ∈ ts, ∃ g0 g1,
        build_an_extra_tree log2 rng fuel exset attrindices indices nmin numattr g0 =
          some (t, g1) := by
  intro k
  induction k with
  | zero =>
    intro g ts g' h
    simp only [build_trees, Option.some.injEq, Prod.mk.injEq] at h
    rw [← h.1]
    exact ⟨rfl, fun t ht => by simp at ht⟩
  | succ k ih =>
    intro g ts g' h
    rw [build_trees_succ] at h
    cases hb : build_an_extra_tree log2 rng fuel exset attrindices indices nmin numattr g with
    | none => simp [hb] at h
    | some p =>
      obtain ⟨t, g1⟩ := p
      simp only [hb, Option.some_bind, Option.map_eq_some'] at h
      obtain ⟨q, hq, he⟩ := h
      obtain ⟨h1, h2⟩ := ih g1 q.1 q.2 hq
      have hts : ts = t :: q.1 := (congrArg Prod.fst he).symm
      rw [hts]
      refine ⟨by simp [h1], ?_⟩
      intro t' ht'
      rcases List.mem_cons.mp ht' with rfl | hmem
      · exact ⟨g, g1, hb⟩
      · exact h2 t' hmem

end build_trees_unfold
end nextratrees

/-! C15, C16: the column-form example set -/

namespace nextratrees
open ndectree

section claim_exset
variable {α : Type} [LinearOrder α] [Zero α]
variable {R : Type} [NatCast R] [Zero R] [One R] [Add R] [Sub R] [Mul R] [Div R] [Neg R]
  [LT R] [DecidableRel (fun a b : R => a < b)]
variable {G : Type}

/-- The forest returned by `build_an_extra_ensemble` in terms of the loop
"build decision trees" on the column-form set. -/
theorem build_an_extra_ensemble_eq (log2 : R → R) (rng : twister_t G α) (fuel : Nat)
    (training : cexampleset α) (exset : exampleset_t α) (numtrees nmin numattr : Nat) (g : G)
    (hmk : make_exset training = some exset) :
    build_an_extra_ensemble log2 rng fuel training numtrees nmin numattr g =
      (build_trees log2 rng fuel exset (List.range exset.attrnames.length)
        (List.range exset.labels.length) nmin numattr numtrees [] g).map
        (fun p => ({ trees := p.1, indextolabel := training.labelset }, p.2)) := by
  simp only [build_an_extra_ensemble, hmk]
  cases build_trees log2 rng fuel exset (List.range exset.attrnames.length)
      (List.range exset.labels.length) nmin numattr numtrees [] g with
  | none => rfl
  | some p => rfl

/-- C15: for every row-form example set (rows no longer than the declared
columns) whose `labelset` is strictly ascending, as the iteration of a
`std::set` is, and contains every entry of `labels`, the column-form set built
by `build_an_extra_ensemble` satisfies for every example `i`:
`labels[i] < numclasses` and `labelvalues[labels[i]]` is the original label of
example `i`; `labelvalues` is `labelset`, strictly ascending, `numclasses` is
its length, and the `indextolabel` of a returned forest equals `labelvalues`. -/
theorem dense_label_invariant (log2 : R → R) (rng : twister_t G α) (fuel : Nat)
    (training : cexampleset α) (numtrees nmin numattr : Nat) (g : G)
    (hrows : ∀ fv ∈ training.featurevectors, fv.length ≤ training.names.length)
    (hlabels : ∀ l ∈ training.labels, l ∈ training.labelset)
    (hsorted : training.labelset.Sorted (fun a b => a < b)) :
    ∃ exset, make_exset training = some exset ∧
      exset.labels.length = training.labels.length ∧
      (∀ (i : Nat) (l : Int), training.labels[i]? = some l →
        ∃ k, exset.labels[i]? = some k ∧ k < exset.numclasses ∧
          exset.labelvalues[k]? = some l) ∧
      exset.labelvalues = training.labelset ∧
      exset.labelvalues.Sorted (fun a b => a < b) ∧
      exset.numclasses = exset.labelvalues.length ∧
      ∀ forest g', build_an_extra_ensemble log2 rng fuel training numtrees nmin numattr g =
        some (forest, g') → forest.indextolabel = exset.labelvalues := by
  cases hc : copy_attrs training with
  | none =>
    obtain ⟨attrs, h1, _⟩ := copy_attrs_spec training hrows
    rw [hc] at h1
    cases h1
  | some attrs =>
    have hmk : make_exset training = some
        { attrnames := training.names
          attrs := attrs
          labelvalues := (make_labeltoindex training.labelset).1
          labels := training.labels.map
            (labeltoindex_get (make_labeltoindex training.labelset).2)
          numclasses := training.labelset.length } := by
      simp only [make_exset, hc]
    refine ⟨_, hmk, by simp, ?_, labelvalues_eq _, ?_, ?_, ?_⟩
    · intro i l hl
      have hmem : l ∈ training.labelset := by
        obtain ⟨hi, he⟩ := List.getElem?_eq_some.mp hl
        exact hlabels l (he ▸ List.getElem_mem hi)
      refine ⟨labeltoindex_get (make_labeltoindex training.labelset).2 l, ?_, ?_, ?_⟩
      · simp only [List.getElem?_map, hl, Option.map_some']
      · exact labeltoindex_get_lt training.labelset l (List.ne_nil_of_mem hmem)
      · simp only [labelvalues_eq]
        exact labelset_get_labeltoindex training.labelset l hmem
    · simp only [labelvalues_eq]
      exact hsorted
    · simp only [labelvalues_eq]
    · intro forest g' hb
      rw [build_an_extra_ensemble_eq log2 rng fuel training _ numtrees nmin numattr g hmk,
        Option.map_eq_some'] at hb
      obtain ⟨p, _, hp⟩ := hb
      have hf : forest = { trees := p.1, indextolabel := training.labelset } :=
        (congrArg Prod.fst hp).symm
      rw [hf]
      simp only [labelvalues_eq]

/-- Witness for C15: scenario S3, labels `[0, 1, 0, 1]` with label set
`[0, 1]`. -/
theorem dense_label_invariant_witness :
    ((∀ fv ∈ scenario_S3.featurevectors, fv.length ≤ scenario_S3.names.length) ∧
      (∀ l ∈ scenario_S3.labels, l ∈ scenario_S3.labelset) ∧
      scenario_S3.labelset.Sorted (fun a b => a < b)) ∧
    ∃ exset, make_exset scenario_S3 = some exset ∧
      exset.labels.length = scenario_S3.labels.length ∧
      (∀ (i : Nat) (l : Int), scenario_S3.labels[i]? = some l →
        ∃ k, exset.labels[i]? = some k ∧ k < exset.numclasses ∧
          exset.labelvalues[k]? = some l) ∧
      exset.labelvalues = scenario_S3.labelset ∧
      exset.labelvalues.Sorted (fun a b => a < b) ∧
      exset.numclasses = exset.labelvalues.length ∧
      ∀ forest g', build_an_extra_ensemble (Real.logb 2) rng_max 1 scenario_S3 2 1 2 () =
        some (forest, g') → forest.indextolabel = exset.labelvalues :=
  ⟨⟨by decide, by decide, by decide⟩,
    dense_label_invariant (Real.logb 2) rng_max 1 scenario_S3 2 1 2 ()
      (by decide) (by decide) (by decide)⟩

/-- C16: for every row-form example set with `F = names.size()` and `N`
examples whose feature vectors all have length `F`, the column-form set built
by `build_an_extra_ensemble` has exactly `F` columns, each of length `N`, with
`attrs[j][i] = featurevectors[i][j]` for all `j < F` and `i < N`; no tree is
built for `numtrees = 0`, and each further tree is the result of
`build_an_extra_tree` on the attribute indices `[0..F)` and the example indices
`[0..N)` at the generator state left by the previous build, so a returned
forest holds `numtrees` such trees. -/
theorem column_form_and_initial_indices (log2 : R → R) (rng : twister_t G α) (fuel : Nat)
    (training : cexampleset α) (numtrees nmin numattr : Nat) (g : G)
    (hF : ∀ fv ∈ training.featurevectors, fv.length = training.names.length)
    (hN : training.labels.length = training.featurevectors.length) :
    ∃ exset, make_exset training = some exset ∧
      exset.attrs.length = training.names.length ∧
      (∀ j : Nat, j < training.names.length →
        ∃ col, exset.attrs[j]? = some col ∧ col.length = training.featurevectors.length ∧
          ∀ i : Nat, i < training.featurevectors.length →
            ∃ fv a, training.featurevectors[i]? = some fv ∧ fv[j]? = some a ∧
              col[i]? = some a) ∧
      build_an_extra_ensemble log2 rng fuel training 0 nmin numattr g =
        some ({ trees := [], indextolabel := training.labelset }, g) ∧
      (∀ (M : Nat) (g0 : G),
        build_an_extra_ensemble log2 rng fuel training (M + 1) nmin numattr g0 =
          (build_an_extra_tree log2 rng fuel exset (List.range training.names.length)
            (List.range training.featurevectors.length) nmin numattr g0).bind
            (fun p => (build_an_extra_ensemble log2 rng fuel training M nmin numattr p.2).map
              (fun q => ({ trees := p.1 :: q.1.trees,
                           indextolabel := q.1.indextolabel }, q.2)))) ∧
      ∀ forest g', build_an_extra_ensemble log2 rng fuel training numtrees nmin numattr g =
          some (forest, g') →
        forest.trees.length = numtrees ∧
          ∀ t ∈ forest.trees, ∃ g0 g1,
            build_an_extra_tree log2 rng fuel exset (List.range training.names.length)
              (List.range training.featurevectors.length) nmin numattr g0 = some (t, g1) := by
  obtain ⟨exset, hmk, hnames, hlen, hcols, hlab, _⟩ := make_exset_spec training
    (fun fv hfv => le_of_eq (hF fv hfv))
  have hlabN : exset.labels.length = training.featurevectors.length := by
    rw [hlab, List.length_map, hN]
  refine ⟨exset, hmk, hlen, ?_, ?_, ?_, ?_⟩
  · intro j hj
    obtain ⟨h1, h2⟩ := filterMap_total (fun (fv : List α) => fv[j]?) training.featurevectors
      (fun fv hfv => by
        have hj' : j < fv.length := by rw [hF fv hfv]; exact hj
        exact ⟨fv[j], List.getElem?_eq_getElem hj'⟩)
    refine ⟨_, hcols j hj, h1, ?_⟩
    intro i hi
    have hmem : training.featurevectors[i] ∈ training.featurevectors := List.getElem_mem hi
    have hjl : j < (training.featurevectors[i]).length := by rw [hF _ hmem]; exact hj
    refine ⟨training.featurevectors[i], (training.featurevectors[i])[j],
      List.getElem?_eq_getElem hi, List.getElem?_eq_getElem hjl, ?_⟩
    rw [h2 i _ (List.getElem?_eq_getElem hi)]
    exact List.getElem?_eq_getElem hjl
  · rw [build_an_extra_ensemble_eq log2 rng fuel training exset 0 nmin numattr g hmk]
    rfl
  · intro M g0
    rw [build_an_extra_ensemble_eq log2 rng fuel training exset (M + 1) nmin numattr g0 hmk,
      build_trees_succ, hnames, hlabN]
    cases hb : build_an_extra_tree log2 rng fuel exset (List.range training.names.length)
        (List.range training.featurevectors.length) nmin numattr g0 with
    | none => rfl
    | some p =>
      simp only [Option.some_bind]
      rw [build_an_extra_ensemble_eq log2 rng fuel training exset M nmin numattr p.2 hmk,
        hnames, hlabN]
      cases build_trees log2 rng fuel exset (List.range training.names.length)
          (List.range training.featurevectors.length) nmin numattr M [] p.2 with
      | none => rfl
      | some q => rfl
  · intro forest g' hb
    rw [build_an_extra_ensemble_eq log2 rng fuel training exset numtrees nmin numattr g hmk,
      Option.map_eq_some', hnames, hlabN] at hb
    obtain ⟨p, hp, he⟩ := hb
    have hf : forest = { trees := p.1, indextolabel := training.labelset } :=
      (congrArg Prod.fst he).symm
    rw [hf]
    exact build_trees_mem log2 rng fuel exset _ _ nmin numattr numtrees g p.1 p.2 hp

/-- Witness for C16: the four rows of scenario S3 give two columns of length
four, and a forest of two trees. -/
theorem column_form_and_initial_indices_witness :
    ((∀ fv ∈ scenario_S3.featurevectors, fv.length = scenario_S3.names.length) ∧
      scenario_S3.labels.length = scenario_S3.featurevectors.length) ∧
    ∃ exset, make_exset scenario_S3 = some exset ∧
      exset.attrs.length = scenario_S3.names.length ∧
      (∀ j : Nat, j < scenario_S3.names.length →
        ∃ col, exset.attrs[j]? = some col ∧
          col.length = scenario_S3.featurevectors.length ∧
          ∀ i : Nat, i < scenario_S3.featurevectors.length →
            ∃ fv a, scenario_S3.featurevectors[i]? = some fv ∧ fv[j]? = some a ∧
              col[i]? = some a) ∧
      ∀ forest g', build_an_extra_ensemble (Real.logb 2) rng_max 1 scenario_S3 2 1 2 () =
          some (forest, g') →
        forest.trees.length = 2 ∧
          ∀ t ∈ forest.trees, ∃ g0 g1,
            build_an_extra_tree (Real.logb 2) rng_max 1 exset
              (List.range scenario_S3.names.length)
              (List.range scenario_S3.featurevectors.length) 1 2 g0 = some (t, g1) := by
  obtain ⟨exset, h1, h2, h3, _, _, h6⟩ :=
    column_form_and_initial_indices (Real.logb 2) rng_max 1 scenario_S3 2 1 2 ()
      (by decide) (by decide)
  exact ⟨⟨by decide, by decide⟩, exset, h1, h2, h3, h6⟩

end claim_exset
end nextratrees

/-! Candidates, stopping rules and the routing of training rows -/

namespace nextratrees
open ndectree

section candidates_converse
variable {α : Type} [LinearOrder α]

/-- The candidate loop keeps the candidates it has, adds every attribute of the
list that is non-constant on `indices`, and adds at most one per attribute. -/
theorem collect_candidates_fold_conv (exampleset : exampleset_t α) (indices : List Nat) :
    ∀ (l : List Nat) (st st' : List (Option α) × List (Option α) × List Nat),
      l.foldlM (collect_candidates_step exampleset indices) st = some st' →
      (∀ ai ∈ st.2.2, ai ∈ st'.2.2) ∧
      (∀ ai ∈ l, is_candidate exampleset indices ai → ai ∈ st'.2.2) ∧
      st'.2.2.length ≤ st.2.2.length + l.length := by
  intro l
  induction l with
  | nil =>
    intro st st' h
    simp only [List.foldlM_nil, Option.pure_def, Option.some.injEq] at h
    subst h
    exact ⟨fun ai h => h, fun ai hai => by simp at hai, by simp⟩
  | cons a rest ih =>
    intro st st' h
    simp only [List.foldlM_cons, Option.bind_eq_bind, collect_candidates_step] at h
    cases hattr : exampleset.attrs[a]? with
    | none => simp [hattr] at h
    | some attr =>
      cases hmm : attr_minmax attr indices with
      | none => simp [hattr, hmm] at h
      | some mm =>
        simp only [hattr, hmm, Option.some_bind] at h
        obtain ⟨e1, e2, e3⟩ := ih _ _ h
        simp only at e1 e3
        refine ⟨?_, ?_, ?_⟩
        · intro ai hai
          apply e1
          by_cases hlt : mm.1 < mm.2
          · simp only [hlt, if_true, List.mem_append]
            exact Or.inl hai
          · simp only [hlt, if_false]
            exact hai
        · intro ai hai hc
          rcases List.mem_cons.mp hai with rfl | hai'
          · obtain ⟨attr', mm', h1, h2, h3⟩ := hc
            rw [hattr] at h1
            cases h1
            rw [hmm] at h2
            cases h2
            apply e1
            simp only [h3, if_true, List.mem_append, List.mem_singleton, or_true]
          · exact e2 ai hai' hc
        · by_cases hlt : mm.1 < mm.2
          · simp only [hlt, if_true, List.length_append, List.length_singleton] at e3
            simp only [List.length_cons]
            omega
          · simp only [hlt, if_false] at e3
            simp only [List.length_cons]
            omega

/-- The candidates are exactly the attributes of `attrindices` that are
non-constant on `indices`, and there are at most `|attrindices|` of them. -/
theorem collect_candidates_conv (exampleset : exampleset_t α) (attrindices indices : List Nat)
    (mins maxs : List (Option α)) (attrcandidates : List Nat)
    (h : collect_candidates exampleset attrindices indices = some (mins, maxs, attrcandidates)) :
    (∀ ai ∈ attrindices, is_candidate exampleset indices ai → ai ∈ attrcandidates) ∧
      attrcandidates.length ≤ attrindices.length := by
  obtain ⟨_, e2, e3⟩ := collect_candidates_fold_conv exampleset indices attrindices _ _ h
  exact ⟨e2, by simpa using e3⟩

/-- An attribute whose cells were written and which is not a candidate takes
one value on `indices`. -/
theorem not_candidate_const (exampleset : exampleset_t α) (indices : List Nat)
    (mins maxs : List (Option α)) (ai : Nat)
    (hcell : minmax_cell_ok exampleset indices mins maxs ai)
    (hnc : ¬ is_candidate exampleset indices ai) :
    ∃ attr v, exampleset.attrs[ai]? = some attr ∧ ∀ i ∈ indices, attr[i]? = some v := by
  obtain ⟨attr, mm, hattr, hmm, _, _⟩ := hcell
  obtain ⟨_, hb, _, _⟩ := attr_minmax_spec attr indices mm hmm
  have hle : mm.2 ≤ mm.1 := not_lt.mp (fun hlt => hnc ⟨attr, mm, hattr, hmm, hlt⟩)
  refine ⟨attr, mm.1, hattr, ?_⟩
  intro i hi
  obtain ⟨a, ha, h1, h2⟩ := hb i hi
  rw [ha, le_antisymm (le_trans h2 hle) h1]

end candidates_converse

section nonzero_count

theorem countP_ne_zero_one :
    ∀ (cf : List Nat) (l l' : Nat), cf.countP (fun c => decide (c ≠ 0)) = 1 →
      1 ≤ cf.getD l 0 → 1 ≤ cf.getD l' 0 → l = l' := by
  intro cf
  induction cf with
  | nil =>
    intro l l' h
    simp at h
  | cons x rest ih =>
    intro l l' h hl hl'
    have hpos : ∀ j, 1 ≤ rest.getD j 0 → 0 < rest.countP (fun c => decide (c ≠ 0)) := by
      intro j hj
      apply List.countP_pos_iff.mpr
      have hjl : j < rest.length := by
        by_contra hcon
        rw [List.getD_eq_default _ _ (by omega)] at hj
        omega
      rw [List.getD_eq_getElem _ _ hjl] at hj
      exact ⟨rest[j], List.getElem_mem _, by simp; omega⟩
    rw [List.countP_cons] at h
    cases l with
    | zero =>
      cases l' with
      | zero => rfl
      | succ l' =>
        simp only [List.getD_cons_zero, List.getD_cons_succ] at hl hl'
        have := hpos l' hl'
        have hx : x ≠ 0 := by omega
        have hx' : decide (x ≠ 0) = true := by simp [hx]
        simp only [hx', if_true] at h
        omega
    | succ l =>
      cases l' with
      | zero =>
        simp only [List.getD_cons_zero, List.getD_cons_succ] at hl hl'
        have := hpos l hl
        have hx : x ≠ 0 := by omega
        have hx' : decide (x ≠ 0) = true := by simp [hx]
        simp only [hx', if_true] at h
        omega
      | succ l' =>
        simp only [List.getD_cons_succ] at hl hl'
        have := hpos l hl
        have h' : rest.countP (fun c => decide (c ≠ 0)) = 1 := by
          by_cases hx : x = 0
          · have hx' : decide (x ≠ 0) = false := by simp [hx]
            simp only [hx', Bool.false_eq_true, if_false] at h
            omega
          · have hx' : decide (x ≠ 0) = true := by simp [hx]
            simp only [hx', if_true] at h
            omega
        rw [ih l l' h' hl hl']

end nonzero_count

section build_cases
variable {α : Type} [LinearOrder α] [Zero α]
variable {R : Type} [NatCast R] [Zero R] [One R] [Add R] [Sub R] [Mul R] [Div R] [Neg R]
  [LT R] [DecidableRel (fun a b : R => a < b)]
variable {G : Type}

/-- What a successful call of `build_an_extra_tree` went through, with the
stopping rule that produced a leaf: the subset is smaller than `nmin`, a single
class is present, or no attribute is a candidate. -/
theorem build_an_extra_tree_cases (log2 : R → R) (rng : twister_t G α) (fuel : Nat)
    (exampleset : exampleset_t α) (attrindices indices : List Nat) (nmin numattr : Nat)
    (g g' : G) (t : dectree_t α)
    (h : build_an_extra_tree log2 rng (fuel + 1) exampleset attrindices indices nmin numattr g =
      some (t, g')) :
    ∃ classfreqs, count_classfreqs exampleset indices = some classfreqs ∧
      ((t = dectree_t.leaf classfreqs ∧ g' = g ∧
          (indices.length < nmin ∨ numclassesnonzero classfreqs = 1 ∨
            ∃ mins maxs, collect_candidates exampleset attrindices indices =
              some (mins, maxs, []))) ∨
        (∃ mins maxs attrcandidates attrs g1 bestattr bestsplit bestscore g2 attr
            leftindices rightindices left g3 right,
          ¬ indices.length < nmin ∧ numclassesnonzero classfreqs ≠ 1 ∧
          collect_candidates exampleset attrindices indices = some (mins, maxs, attrcandidates) ∧
          ¬ attrcandidates.length < 1 ∧
          pick_attrs rng attrcandidates numattr g = some (attrs, g1) ∧
          choose_split log2 rng exampleset indices mins maxs attrs g1 =
            some ((bestattr, bestsplit, bestscore), g2) ∧
          exampleset.attrs[bestattr]? = some attr ∧
          split_indices attr bestsplit indices = some (leftindices, rightindices) ∧
          build_an_extra_tree log2 rng fuel exampleset attrs leftindices nmin numattr g2 =
            some (left, g3) ∧
          build_an_extra_tree log2 rng fuel exampleset attrs rightindices nmin numattr g3 =
            some (right, g') ∧
          t = dectree_t.branch bestattr bestsplit left right)) := by
  rw [build_an_extra_tree] at h
  split at h
  · cases h
  · rename_i classfreqs hcf
    refine ⟨classfreqs, hcf, ?_⟩
    split at h
    · rename_i hsmall
      left; cases h; exact ⟨rfl, rfl, Or.inl hsmall⟩
    · rename_i hnmin
      split at h
      · rename_i hone
        left; cases h; exact ⟨rfl, rfl, Or.inr (Or.inl hone)⟩
      · rename_i hpure
        split at h
        · cases h
        · rename_i mins maxs attrcandidates hcc
          split at h
          · rename_i hnone
            left; cases h
            refine ⟨rfl, rfl, Or.inr (Or.inr ⟨mins, maxs, ?_⟩)⟩
            have : attrcandidates = [] := List.length_eq_zero.mp (by omega)
            rw [hcc, this]
          · rename_i hcand
            split at h
            · cases h
            · rename_i attrs g1 hpick
              split at h
              · cases h
              · rename_i bestattr bestsplit bestscore g2 hchoose
                split at h
                · cases h
                · rename_i attr hattr
                  split at h
                  · cases h
                  · rename_i leftindices rightindices hsplit
                    split at h
                    · cases h
                    · rename_i left g3 hleft
                      split at h
                      · cases h
                      · rename_i right g4 hright
                        cases h
                        right
                        exact ⟨mins, maxs, attrcandidates, attrs, g1, bestattr, bestsplit,
                          bestscore, g2, attr, leftindices, rightindices, left, g3, right,
                          hnmin, hpure, hcc, hcand, hpick, hchoose, hattr, hsplit, hleft,
                          hright, rfl⟩

end build_cases
end nextratrees

namespace nextratrees
open ndectree

section build_classifies
variable {α : Type} [LinearOrder α] [Zero α]
variable {R : Type} [NatCast R] [Zero R] [One R] [Add R] [Sub R] [Mul R] [Div R] [Neg R]
  [LT R] [DecidableRel (fun a b : R => a < b)]
variable {G : Type}

theorem label_histogram_getD {β : Type} (exampleset : exampleset_t β) (indices : List Nat)
    (l : Nat) (hl : l < exampleset.numclasses) :
    (label_histogram exampleset indices).getD l 0 =
      indices.countP (has_label exampleset.labels l) := by
  unfold label_histogram
  rw [List.getD_eq_getElem?_getD, range_map_getElem?, if_pos hl]
  rfl

/-- After a successful candidate loop, two examples of `indices` agree on
every attribute of `attrindices` that is not a candidate. -/
theorem agree_of_not_mem_candidates (exampleset : exampleset_t α)
    (attrindices indices : List Nat) (mins maxs : List (Option α)) (attrcandidates : List Nat)
    (hcc : collect_candidates exampleset attrindices indices =
      some (mins, maxs, attrcandidates))
    (ai : Nat) (hai : ai ∈ attrindices) (hnc : ai ∉ attrcandidates)
    (i i' : Nat) (hi : i ∈ indices) (hi' : i' ∈ indices) :
    (exampleset.featurevector i)[ai]? = (exampleset.featurevector i')[ai]? := by
  obtain ⟨hcells, _⟩ := collect_candidates_spec exampleset attrindices indices mins maxs
    attrcandidates hcc
  obtain ⟨hconv, _⟩ := collect_candidates_conv exampleset attrindices indices mins maxs
    attrcandidates hcc
  obtain ⟨attr, v, hattr, hv⟩ := not_candidate_const exampleset indices mins maxs ai
    (hcells ai hai) (fun hc => hnc (hconv ai hai hc))
  rw [featurevector_getElem? exampleset i ai attr v hattr (hv i hi),
    featurevector_getElem? exampleset i' ai attr v hattr (hv i' hi')]

/-- Every tree built with `nmin = 1` and `numattr ≥ |attrindices|` from a
subset on which examples with equal feature vectors have equal labels, and on
which the attributes outside `attrindices` are constant, routes each example of
the subset to a leaf whose `maxlabelindex` is the example's label index. -/
theorem build_classifies (log2 : R → R) (rng : twister_t G α) (exampleset : exampleset_t α)
    (numattr : Nat)
    (hcons : ∀ i i' l l', exampleset.featurevector i = exampleset.featurevector i' →
      exampleset.labels[i]? = some l → exampleset.labels[i']? = some l' → l = l') :
    ∀ (fuel : Nat) (attrindices indices : List Nat) (g g' : G) (t : dectree_t α),
      build_an_extra_tree log2 rng fuel exampleset attrindices indices 1 numattr g =
        some (t, g') →
      attrindices.length ≤ numattr →
      (∀ ai, ai ∉ attrindices → ∀ i ∈ indices, ∀ i' ∈ indices,
        (exampleset.featurevector i)[ai]? = (exampleset.featurevector i')[ai]?) →
      ∀ i ∈ indices, ∃ path cf l,
        dectree_t.walk t (exampleset.featurevector i) = some (path, cf) ∧
        exampleset.labels[i]? = some l ∧ l < exampleset.numclasses ∧
        maxlabelindex cf = l := by
  intro fuel
  induction fuel with
  | zero =>
    intro attrindices indices g g' t h
    simp [build_an_extra_tree] at h
  | succ fuel ih =>
    intro attrindices indices g g' t h hlen hconst i hi
    obtain ⟨cf, hcf, hcase⟩ := build_an_extra_tree_cases log2 rng fuel exampleset attrindices
      indices 1 numattr g g' t h
    obtain ⟨hlab, hhist⟩ := count_classfreqs_inv exampleset indices cf hcf
    obtain ⟨l, hl, hlK⟩ := hlab i hi
    rcases hcase with ⟨ht, _, hrule⟩ | ⟨mins, maxs, attrcandidates, attrs, g1, bestattr,
      bestsplit, bestscore, g2, attr, leftindices, rightindices, left, g3, right, _, _, hcc,
      _, hpick, _, hattr, hsplit, hleft, hright, ht⟩
    · have hne : 0 < indices.length := List.length_pos_of_mem hi
      have hall : ∀ i' ∈ indices, exampleset.labels[i']? = some l := by
        intro i' hi'
        obtain ⟨l', hl', hlK'⟩ := hlab i' hi'
        rw [hl']
        congr 1
        rcases hrule with hsmall | hone | ⟨mins, maxs, hcc⟩
        · omega
        · rw [numclassesnonzero_eq] at hone
          apply countP_ne_zero_one cf l' l hone
          · rw [hhist, label_histogram_getD exampleset indices l' hlK']
            exact List.countP_pos_iff.mpr ⟨i', hi', by simp [has_label, hl']⟩
          · rw [hhist, label_histogram_getD exampleset indices l hlK]
            exact List.countP_pos_iff.mpr ⟨i, hi, by simp [has_label, hl]⟩
        · apply hcons i' i l' l _ hl' hl
          apply List.ext_getElem?
          intro ai
          by_cases hai : ai ∈ attrindices
          · exact agree_of_not_mem_candidates exampleset attrindices indices mins maxs [] hcc
              ai hai (by simp) i' i hi' hi
          · exact hconst ai hai i' hi' i hi
      refine ⟨[], cf, l, ?_, hl, hlK, ?_⟩
      · rw [ht]
        rfl
      · rw [hhist, label_histogram_pure exampleset indices l hall]
        exact maxlabelindex_single exampleset.numclasses l indices.length hlK hne
    · obtain ⟨hconv, hclen⟩ := collect_candidates_conv exampleset attrindices indices mins maxs
        attrcandidates hcc
      have hattrs : attrs = attrcandidates := by
        unfold pick_attrs at hpick
        rw [if_pos (Or.inr (by omega))] at hpick
        exact (congrArg Prod.fst (Option.some.inj hpick)).symm
      obtain ⟨hin, hL, hR⟩ := split_indices_inv attr bestsplit indices _ hsplit
      simp only at hL hR
      have hil : i < attr.length := hin i hi
      have ha : attr[i]? = some attr[i] := List.getElem?_eq_getElem hil
      have hfv : (exampleset.featurevector i)[bestattr]? = some attr[i] :=
        featurevector_getElem? exampleset i bestattr attr _ hattr ha
      have hconst' : ∀ (sub : List Nat), (∀ j ∈ sub, j ∈ indices) →
          ∀ ai, ai ∉ attrs → ∀ i1 ∈ sub, ∀ i2 ∈ sub,
            (exampleset.featurevector i1)[ai]? = (exampleset.featurevector i2)[ai]? := by
        intro sub hsub ai hai i1 hi1 i2 hi2
        rw [hattrs] at hai
        by_cases hA : ai ∈ attrindices
        · exact agree_of_not_mem_candidates exampleset attrindices indices mins maxs
            attrcandidates hcc ai hA hai i1 i2 (hsub i1 hi1) (hsub i2 hi2)
        · exact hconst ai hA i1 (hsub i1 hi1) i2 (hsub i2 hi2)
      have hlen' : attrs.length ≤ numattr := by rw [hattrs]; omega
      by_cases hlt : attr[i] < bestsplit
      · have himem : i ∈ leftindices := by
          rw [hL]
          exact List.mem_filter.mpr ⟨hi, (on_side_false_iff attr bestsplit _ i ha).mpr hlt⟩
        obtain ⟨path, cf', l', hw, hl', hlK', hm⟩ := ih attrs leftindices g2 g3 left hleft hlen'
          (hconst' leftindices (fun j hj => by
            rw [hL] at hj
            exact (List.mem_filter.mp hj).1)) i himem
        refine ⟨false :: path, cf', l', ?_, hl', hlK', hm⟩
        rw [ht]
        simp only [dectree_t.walk, hfv, hlt, if_true, hw, Option.map_some']
      · have himem : i ∈ rightindices := by
          rw [hR]
          exact List.mem_filter.mpr ⟨hi, (on_side_true_iff attr bestsplit _ i ha).mpr hlt⟩
        obtain ⟨path, cf', l', hw, hl', hlK', hm⟩ := ih attrs rightindices g3 g' right hright
          hlen' (hconst' rightindices (fun j hj => by
            rw [hR] at hj
            exact (List.mem_filter.mp hj).1)) i himem
        refine ⟨true :: path, cf', l', ?_, hl', hlK', hm⟩
        rw [ht]
        simp only [dectree_t.walk, hfv, hlt, if_false, hw, Option.map_some']

end build_classifies
end nextratrees

/-! C13: consistent training rows are classified as their labels -/

namespace ndectree

section unanimous
variable {α : Type} [LinearOrder α]

/-- A non-empty forest all of whose trees vote for the same bucket `c < K`
returns `indextolabel[c]`. -/
theorem classify_unanimous (forest : forest_t α) (fv : List α) (c : Nat)
    (hne : forest.trees ≠ []) (hc : c < forest.indextolabel.length)
    (hvote : ∀ t ∈ forest.trees, ∃ pc, dectree_t.walk t fv = some pc ∧
      maxlabelindex pc.2 = c) :
    forest.classify fv = forest.indextolabel[c]? := by
  have hv : ∀ t ∈ forest.trees, tree_vote fv t = c := by
    intro t ht
    obtain ⟨pc, hw, hm⟩ := hvote t ht
    simp only [tree_vote, hw, hm]
  have hlc : forest.labelcounts fv =
      some (vote_tally forest.indextolabel.length forest.trees (tree_vote fv)) := by
    unfold forest_t.labelcounts
    rw [nextratrees.replicate_eq_range_map,
      classify_fold fv forest.indextolabel.length forest.trees (fun _ => 0)]
    · simp [vote_tally]
    · intro t ht
      obtain ⟨pc, hw, hm⟩ := hvote t ht
      exact ⟨pc, hw, by rw [hm]; exact hc⟩
  have hget : ∀ j, (vote_tally forest.indextolabel.length forest.trees (tree_vote fv)).getD j 0 =
      if j = c then forest.trees.length else 0 := by
    intro j
    rw [List.getD_eq_getElem?_getD]
    unfold vote_tally
    rw [nextratrees.range_map_getElem?]
    by_cases hjc : j = c
    · subst hjc
      simp only [hc, if_true, Option.getD_some]
      rw [List.countP_eq_length]
      intro t ht
      simp [hv t ht]
    · by_cases hj : j < forest.indextolabel.length
      · simp only [hj, if_true, Option.getD_some, hjc, if_false]
        rw [List.countP_eq_zero]
        intro t ht
        have hcj : ¬ c = j := fun e => hjc e.symm
        simp [hv t ht, hcj]
      · simp [hj, hjc]
  have hm : maxlabelindex
      (vote_tally forest.indextolabel.length forest.trees (tree_vote fv)) = c := by
    apply lowest_max_index_unique _ _ _ (maxlabelindex_spec _)
    apply lowest_max_index_of_single
    · simpa [vote_tally] using hc
    · rw [hget]
      simp only [if_true]
      exact List.length_pos.mpr hne
    · intro j hj
      rw [hget]
      simp [hj]
  unfold forest_t.classify
  rw [hlc]
  simp only [hm]

end unanimous
end ndectree

namespace nextratrees
open ndectree

section rows
variable {α : Type} [Zero α]

/-- The feature vector of example `i` read back from the columns is row `i`. -/
theorem featurevector_of_columns (exset : exampleset_t α) (featurevectors : List (List α))
    (F : Nat) (hlen : exset.attrs.length = F)
    (hcols : ∀ j : Nat, j < F →
      exset.attrs[j]? = some (featurevectors.filterMap (fun fv => fv[j]?)))
    (hF : ∀ fv ∈ featurevectors, fv.length = F)
    (i : Nat) (fv : List α) (hi : featurevectors[i]? = some fv) :
    exset.featurevector i = fv := by
  have hfvmem : fv ∈ featurevectors := by
    obtain ⟨h1, h2⟩ := List.getElem?_eq_some.mp hi
    exact h2 ▸ List.getElem_mem h1
  apply List.ext_getElem?
  intro j
  by_cases hj : j < F
  · have hjl : j < fv.length := by rw [hF fv hfvmem]; exact hj
    have hex : ∀ x ∈ featurevectors, ∃ a, (fun (fv : List α) => fv[j]?) x = some a := by
      intro x hx
      have hjx : j < x.length := by rw [hF x hx]; exact hj
      exact ⟨x[j], List.getElem?_eq_getElem hjx⟩
    obtain ⟨_, h2⟩ := filterMap_total (fun (fv : List α) => fv[j]?) featurevectors hex
    have hcol := h2 i fv hi
    simp only at hcol
    rw [List.getElem?_eq_getElem hjl] at hcol ⊢
    exact featurevector_getElem? exset i j _ _ (hcols j hj) hcol
  · have h1 : (exset.featurevector i).length = F := by
      simp [exampleset_t.featurevector, hlen]
    rw [List.getElem?_eq_none (by omega), List.getElem?_eq_none (by rw [hF fv hfvmem]; omega)]

end rows
end nextratrees

namespace nextratrees
open ndectree

section claim_training_rows
variable {α : Type} [LinearOrder α] [Zero α]
variable {R : Type} [NatCast R] [Zero R] [One R] [Add R] [Sub R] [Mul R] [Div R] [Neg R]
  [LT R] [DecidableRel (fun a b : R => a < b)]
variable {G : Type}

/-- C13: for every training set (`N` rows of `F` features, labels in
`labelset`) in which any two examples with identical feature vectors have the
same label, every `M ≥ 1`, `nmin = 1`, `numattr ≥ F`, and every generator for
which `build_an_extra_ensemble` returns a forest: the forest classifies every
training row as its own label, and so does each of its trees individually. -/
theorem training_rows_classified (log2 : R → R) (rng : twister_t G α) (fuel : Nat)
    (training : cexampleset α) (numtrees numattr : Nat) (g g' : G) (forest : forest_t α)
    (hF : ∀ fv ∈ training.featurevectors, fv.length = training.names.length)
    (hN : training.labels.length = training.featurevectors.length)
    (hlabels : ∀ l ∈ training.labels, l ∈ training.labelset)
    (hcons : ∀ (i i' : Nat) (fv : List α) (l l' : Int),
      training.featurevectors[i]? = some fv → training.featurevectors[i']? = some fv →
      training.labels[i]? = some l → training.labels[i']? = some l' → l = l')
    (hM : 1 ≤ numtrees) (hnumattr : training.names.length ≤ numattr)
    (hbuild : build_an_extra_ensemble log2 rng fuel training numtrees 1 numattr g =
      some (forest, g')) :
    ∀ (i : Nat) (fv : List α) (l : Int),
      training.featurevectors[i]? = some fv → training.labels[i]? = some l →
      forest.classify fv = some l ∧
        ∀ t ∈ forest.trees, classify_from_tree t forest.indextolabel fv = some l := by
  obtain ⟨exset, hmk, hnames, hlen, hcols, hlab, hnum⟩ := make_exset_spec training
    (fun fv hfv => le_of_eq (hF fv hfv))
  rw [build_an_extra_ensemble_eq log2 rng fuel training exset numtrees 1 numattr g hmk,
    Option.map_eq_some'] at hbuild
  obtain ⟨p, hp, he⟩ := hbuild
  have hf : forest = { trees := p.1, indextolabel := training.labelset } :=
    (congrArg Prod.fst he).symm
  obtain ⟨hcount, hmem⟩ := build_trees_mem log2 rng fuel exset _ _ 1 numattr numtrees g p.1 p.2
    hp
  have hrow : ∀ (i : Nat) (fv : List α), training.featurevectors[i]? = some fv →
      exset.featurevector i = fv :=
    featurevector_of_columns exset training.featurevectors training.names.length hlen hcols hF
  have hexlab : ∀ (i k : Nat), exset.labels[i]? = some k →
      ∃ l fv, training.labels[i]? = some l ∧ training.featurevectors[i]? = some fv ∧
        k = labeltoindex_get (make_labeltoindex training.labelset).2 l := by
    intro i k hk
    rw [hlab, List.getElem?_map, Option.map_eq_some'] at hk
    obtain ⟨l, hl, hkl⟩ := hk
    have hi : i < training.featurevectors.length := by
      rw [← hN]
      exact (List.getElem?_eq_some.mp hl).1
    exact ⟨l, _, hl, List.getElem?_eq_getElem hi, hkl.symm⟩
  have hcons' : ∀ i i' k k', exset.featurevector i = exset.featurevector i' →
      exset.labels[i]? = some k → exset.labels[i']? = some k' → k = k' := by
    intro i i' k k' hfv hk hk'
    obtain ⟨l, fv, hl, hfvi, ek⟩ := hexlab i k hk
    obtain ⟨l', fv', hl', hfvi', ek'⟩ := hexlab i' k' hk'
    rw [hrow i fv hfvi, hrow i' fv' hfvi'] at hfv
    rw [← hfv] at hfvi'
    rw [ek, ek', hcons i i' fv l l' hfvi hfvi' hl hl']
  intro i fv l hfvi hl
  have hi : i < exset.labels.length := by
    rw [hlab, List.length_map]
    exact (List.getElem?_eq_some.mp hl).1
  have hlmem : l ∈ training.labelset := by
    obtain ⟨h1, h2⟩ := List.getElem?_eq_some.mp hl
    exact hlabels l (h2 ▸ List.getElem_mem h1)
  have hk : exset.labels[i]? =
      some (labeltoindex_get (make_labeltoindex training.labelset).2 l) := by
    rw [hlab, List.getElem?_map, hl]
    rfl
  have htree : ∀ t ∈ p.1, ∃ pc, dectree_t.walk t fv = some pc ∧
      maxlabelindex pc.2 = labeltoindex_get (make_labeltoindex training.labelset).2 l := by
    intro t ht
    obtain ⟨g0, g1, hbt⟩ := hmem t ht
    obtain ⟨path, cf, k, hw, hk', _, hm⟩ := build_classifies log2 rng exset numattr hcons' fuel
      _ _ g0 g1 t hbt (by rw [List.length_range, hnames]; exact hnumattr)
      (by
        intro ai hai i1 _ i2 _
        have hge : exset.attrs.length ≤ ai := by
          rw [hlen, ← hnames]
          exact not_lt.mp (fun h => hai (List.mem_range.mpr h))
        rw [List.getElem?_eq_none (by simpa [exampleset_t.featurevector] using hge),
          List.getElem?_eq_none (by simpa [exampleset_t.featurevector] using hge)])
      i (List.mem_range.mpr hi)
    rw [hrow i fv hfvi] at hw
    rw [hk] at hk'
    exact ⟨(path, cf), hw, by rw [hm]; exact (Option.some.inj hk').symm⟩
  have hget := labelset_get_labeltoindex training.labelset l hlmem
  rw [hf]
  refine ⟨?_, ?_⟩
  · rw [classify_unanimous _ fv (labeltoindex_get (make_labeltoindex training.labelset).2 l)
      (by
        intro hnil
        simp only at hnil
        rw [hnil] at hcount
        simp at hcount
        omega)
      (labeltoindex_get_lt training.labelset l (List.ne_nil_of_mem hlmem)) htree]
    exact hget
  · intro t ht
    obtain ⟨pc, hw, hm⟩ := htree t ht
    simp only [classify_from_tree, hw, hm]
    exact hget

end claim_training_rows
end nextratrees

namespace nextratrees
open ndectree

section witness_training_rows

theorem scenario_S1_rows_consistent :
    ∀ (i i' : Nat) (fv : List Int) (l l' : Int),
      scenario_S1_rows.featurevectors[i]? = some fv →
      scenario_S1_rows.featurevectors[i']? = some fv →
      scenario_S1_rows.labels[i]? = some l → scenario_S1_rows.labels[i']? = some l' →
      l = l' := by
  intro i i' fv l l' h1 h2 h3 h4
  have hi : i < 4 := (List.getElem?_eq_some.mp h1).1
  have hi' : i' < 4 := (List.getElem?_eq_some.mp h2).1
  have hdec : ∀ j < 4, ∀ j' < 4,
      scenario_S1_rows.featurevectors[j]? = scenario_S1_rows.featurevectors[j']? →
        scenario_S1_rows.labels[j]? = scenario_S1_rows.labels[j']? := by decide
  have := hdec i hi i' hi' (by rw [h1, h2])
  rw [h3, h4] at this
  exact Option.some.inj this

/-- A run of `build_an_extra_ensemble` over the reals on scenario S1 with
`M = 8`, `nmin = 1`, `numattr = 2` returns a forest. -/
theorem build_S1_rows_returns :
    ∃ forest, build_an_extra_ensemble (Real.logb 2) rng_max 5 scenario_S1_rows 8 1 2 () =
      some (forest, ()) := by
  have hmk : make_exset scenario_S1_rows = some scenario_S1 := by decide
  obtain ⟨t, g', hb, _⟩ := build_terminates rng_max scenario_S1 1 2 (by decide) (by decide)
    (fun lo hi g hlt => ⟨hlt, le_refl _⟩) 5 (List.range 2) (List.range 4) () (by decide)
    (by decide) (by decide)
  have hb' : ∀ g, build_an_extra_tree (Real.logb 2) rng_max 5 scenario_S1
      (List.range scenario_S1.attrnames.length) (List.range scenario_S1.labels.length) 1 2 g =
        some (t, g) := fun _ => hb
  refine ⟨{ trees := List.replicate 8 t, indextolabel := [0, 1] }, ?_⟩
  rw [build_an_extra_ensemble_eq (Real.logb 2) rng_max 5 scenario_S1_rows scenario_S1 8 1 2 ()
    hmk, build_trees_const (Real.logb 2) rng_max 5 scenario_S1 _ _ 1 2 t hb' 8 [] ()]
  rfl

/-- Witness for C13: the forest of `M = 8` trees built on scenario S1 with
`nmin = 1`, `numattr = 2` classifies the four training rows as their labels. -/
theorem training_rows_classified_witness :
    ((∀ fv ∈ scenario_S1_rows.featurevectors, fv.length = scenario_S1_rows.names.length) ∧
      scenario_S1_rows.labels.length = scenario_S1_rows.featurevectors.length ∧
      (∀ l ∈ scenario_S1_rows.labels, l ∈ scenario_S1_rows.labelset) ∧
      (∀ (i i' : Nat) (fv : List Int) (l l' : Int),
        scenario_S1_rows.featurevectors[i]? = some fv →
        scenario_S1_rows.featurevectors[i']? = some fv →
        scenario_S1_rows.labels[i]? = some l → scenario_S1_rows.labels[i']? = some l' →
        l = l') ∧
      1 ≤ 8 ∧ scenario_S1_rows.names.length ≤ 2) ∧
    ∃ forest, build_an_extra_ensemble (Real.logb 2) rng_max 5 scenario_S1_rows 8 1 2 () =
        some (forest, ()) ∧
      forest.classify [0, 0] = some 0 ∧ forest.classify [0, 1] = some 0 ∧
      forest.classify [1, 0] = some 1 ∧ forest.classify [1, 1] = some 1 := by
  obtain ⟨forest, hb⟩ := build_S1_rows_returns
  have h := training_rows_classified (Real.logb 2) rng_max 5 scenario_S1_rows 8 2 () () forest
    (by decide) (by decide) (by decide) scenario_S1_rows_consistent (by decide) (by decide) hb
  exact ⟨⟨by decide, by decide, by decide, scenario_S1_rows_consistent, by decide, by decide⟩,
    forest, hb,
    (h 0 [0, 0] 0 rfl rfl).1, (h 1 [0, 1] 0 rfl rfl).1, (h 2 [1, 0] 1 rfl rfl).1,
    (h 3 [1, 1] 1 rfl rfl).1⟩

end witness_training_rows
end nextratrees

/-! C17, C18: the train/test splitter -/

namespace nexamples
open nextratrees

section swap_perm

theorem cons_set_perm {β : Type} (x : β) :
    ∀ (xs : List β) (j : Nat) (hj : j < xs.length),
      List.Perm (xs[j] :: xs.set j x) (x :: xs) := by
  intro xs
  induction xs with
  | nil => intro j hj; simp at hj
  | cons y ys ih =>
    intro j hj
    cases j with
    | zero => exact List.Perm.swap _ _ _
    | succ k =>
      simp only [List.length_cons, Nat.add_lt_add_iff_right] at hj
      simp only [List.getElem_cons_succ, List.set_cons_succ]
      exact ((List.Perm.swap _ _ _).trans ((ih k hj).cons y)).trans (List.Perm.swap _ _ _)

/-- Swapping two entries of a list gives a permutation of it. -/
theorem swap_perm {β : Type} :
    ∀ (l : List β) (i j : Nat) (hi : i < l.length) (hj : j < l.length), i ≤ j →
      List.Perm ((l.set i l[j]).set j l[i]) l := by
  intro l
  induction l with
  | nil => intro i j hi; simp at hi
  | cons x xs ih =>
    intro i j hi hj hij
    cases i with
    | zero =>
      cases j with
      | zero => simp
      | succ j' =>
        simp only [List.length_cons, Nat.add_lt_add_iff_right] at hj
        simp only [List.getElem_cons_succ, List.set_cons_zero, List.set_cons_succ,
          List.getElem_cons_zero]
        exact cons_set_perm x xs j' hj
    | succ i' =>
      cases j with
      | zero => omega
      | succ j' =>
        simp only [List.length_cons, Nat.add_lt_add_iff_right] at hi hj
        simp only [List.getElem_cons_succ, List.set_cons_succ]
        exact (ih i' j' hi hj (by omega)).cons x

end swap_perm

section shuffle
variable {α : Type} {G : Type}

/-- One pass of the shuffle loop at a position `i < N` of a vector of length `N`
succeeds, its swap target is below `N`, and it permutes the vector. -/
theorem shuffle_step_perm (rng : twister_t G α) (numexamples : Nat) (st : List Nat × G)
    (i : Nat) (hlen : st.1.length = numexamples) (hi : i < numexamples) :
    i + (rng.urand_sizet st.2).1 % (numexamples - i) < numexamples ∧
      ∃ st', shuffle_step rng numexamples st i = some st' ∧ List.Perm st'.1 st.1 ∧
        st'.2 = (rng.urand_sizet st.2).2 := by
  have hmod : (rng.urand_sizet st.2).1 % (numexamples - i) < numexamples - i :=
    Nat.mod_lt _ (by omega)
  have ht : i + (rng.urand_sizet st.2).1 % (numexamples - i) < st.1.length := by omega
  have hi' : i < st.1.length := by omega
  refine ⟨by omega, ?_⟩
  simp only [shuffle_step, List.getElem?_eq_getElem hi', List.getElem?_eq_getElem ht]
  exact ⟨_, rfl, swap_perm st.1 i _ hi' ht (by omega), rfl⟩

theorem shuffle_fold (rng : twister_t G α) (numexamples : Nat) :
    ∀ (positions : List Nat) (st : List Nat × G), st.1.length = numexamples →
      (∀ i ∈ positions, i < numexamples) →
      ∃ st', positions.foldlM (shuffle_step rng numexamples) st = some st' ∧
        List.Perm st'.1 st.1 := by
  intro positions
  induction positions with
  | nil => intro st _ _; exact ⟨st, rfl, List.Perm.refl _⟩
  | cons i rest ih =>
    intro st hlen h
    obtain ⟨_, st1, hstep, hperm, _⟩ := shuffle_step_perm rng numexamples st i hlen
      (h i (List.mem_cons_self _ _))
    obtain ⟨st', hfold, hperm'⟩ := ih st1 (by rw [hperm.length_eq, hlen])
      (fun j hj => h j (List.mem_cons_of_mem _ hj))
    refine ⟨st', ?_, hperm'.trans hperm⟩
    simp only [List.foldlM_cons, hstep, Option.bind_eq_bind, Option.some_bind]
    exact hfold

/-- The shuffle completes for every generator and returns a permutation of
`[0..N)`. -/
theorem shuffle_indices_perm (rng : twister_t G α) (numexamples : Nat) (g : G) :
    ∃ indices g', shuffle_indices rng numexamples g = some (indices, g') ∧
      List.Perm indices (List.range numexamples) := by
  obtain ⟨st', h1, h2⟩ := shuffle_fold rng numexamples (List.range (numexamples - 1))
    (List.range numexamples, g) (by simp)
    (fun i hi => by have := List.mem_range.mp hi; omega)
  exact ⟨st'.1, st'.2, h1, h2⟩

end shuffle

section take_drop

theorem range_filterMap_getElem? {β : Type} (l : List β) :
    ∀ d : Nat, (List.range d).filterMap (fun i => l[i]?) = l.take d := by
  intro d
  induction d with
  | zero => simp
  | succ d ih =>
    rw [List.range_succ, List.filterMap_append, ih, List.take_succ]
    cases h : l[d]? <;> simp [h]

theorem range'_filterMap_getElem? {β : Type} (l : List β) :
    ∀ (n d : Nat), (List.range' d n).filterMap (fun i => l[i]?) = (l.drop d).take n := by
  intro n
  induction n with
  | zero => intro d; simp
  | succ n ih =>
    intro d
    rw [List.range'_succ, List.filterMap_cons, ih]
    by_cases hd : d < l.length
    · rw [List.getElem?_eq_getElem hd]
      simp only
      rw [List.drop_eq_getElem_cons hd, List.take_succ_cons]
    · rw [List.getElem?_eq_none (by omega)]
      simp only
      rw [List.drop_eq_nil_of_le (by omega), List.drop_eq_nil_of_le (by omega)]
      simp

end take_drop
end nexamples

namespace nexamples
open nextratrees

section fill
variable {α : Type}

theorem fill_fold (exampleset : cexampleset α) (indices : List Nat) :
    ∀ (positions : List Nat) (st : List (List α) × List Int), st.1.length = st.2.length →
      (∀ i ∈ positions, ∃ k, indices[i]? = some k ∧ k < exampleset.featurevectors.length ∧
        k < exampleset.labels.length) →
      ∃ st', positions.foldlM (fill_step exampleset indices) st = some st' ∧
        st'.1.length = st.1.length + positions.length ∧
        st'.2.length = st.2.length + positions.length ∧
        st'.1.zip st'.2 = st.1.zip st.2 ++
          positions.filterMap (fun i => (indices[i]?).bind
            (fun k => (cexampleset_pairs exampleset)[k]?)) := by
  intro positions
  induction positions with
  | nil => intro st _ _; exact ⟨st, rfl, rfl, rfl, by simp⟩
  | cons i rest ih =>
    intro st hlen h
    obtain ⟨k, hk, hk1, hk2⟩ := h i (List.mem_cons_self _ _)
    have hstep : fill_step exampleset indices st i =
        some (st.1 ++ [exampleset.featurevectors[k]], st.2 ++ [exampleset.labels[k]]) := by
      simp only [fill_step, hk, List.getElem?_eq_getElem hk1, List.getElem?_eq_getElem hk2]
    obtain ⟨st', hfold, e1, e2, e3⟩ := ih
      (st.1 ++ [exampleset.featurevectors[k]], st.2 ++ [exampleset.labels[k]])
      (by simp [hlen]) (fun j hj => h j (List.mem_cons_of_mem _ hj))
    simp only [List.length_append, List.length_singleton] at e1 e2
    refine ⟨st', ?_, ?_, ?_, ?_⟩
    · simp only [List.foldlM_cons, hstep, Option.bind_eq_bind, Option.some_bind]
      exact hfold
    · rw [e1]
      simp only [List.length_append, List.length_singleton, List.length_cons]
      omega
    · rw [e2]
      simp only [List.length_append, List.length_singleton, List.length_cons]
      omega
    · have hpair : (cexampleset_pairs exampleset)[k]? =
          some (exampleset.featurevectors[k], exampleset.labels[k]) := by
        have hkz : k < (cexampleset_pairs exampleset).length := by
          simp only [cexampleset_pairs, List.length_zip]
          omega
        rw [List.getElem?_eq_getElem hkz]
        simp [cexampleset_pairs]
      rw [e3, List.zip_append hlen, List.filterMap_cons, hk]
      simp only [Option.some_bind, hpair, List.zip_cons_cons, List.zip_nil_right,
        List.append_assoc, List.singleton_append]

/-- One fill loop over in-range positions returns a subset with one example per
position, in order. -/
theorem fill_subset_spec (exampleset : cexampleset α) (indices positions : List Nat)
    (h : ∀ i ∈ positions, ∃ k, indices[i]? = some k ∧ k < exampleset.featurevectors.length ∧
      k < exampleset.labels.length) :
    ∃ s, fill_subset exampleset indices positions = some s ∧
      s.names = exampleset.names ∧ s.labelset = exampleset.labelset ∧
      s.featurevectors.length = positions.length ∧ s.labels.length = positions.length ∧
      cexampleset_pairs s = (positions.filterMap (fun i => indices[i]?)).filterMap
        (fun k => (cexampleset_pairs exampleset)[k]?) := by
  obtain ⟨st', hfold, e1, e2, e3⟩ := fill_fold exampleset indices positions ([], []) rfl h
  refine ⟨{ names := exampleset.names
            featurevectors := st'.1
            labelname := ""
            labels := st'.2
            labelset := exampleset.labelset }, by simp only [fill_subset, hfold], rfl, rfl,
    by simpa using e1, by simpa using e2, ?_⟩
  simp only [List.zip_nil_left, List.nil_append] at e3
  simp only [cexampleset_pairs] at e3 ⊢
  rw [e3, List.filterMap_filterMap]

end fill

section split_spec
variable {α : Type} {G : Type}
variable {R : Type} [Zero R] [One R] [Mul R] [NatCast R] [LT R]
  [DecidableRel (fun a b : R => a < b)]

/-- For an example set with `N` feature vectors and `N` labels and a divider
`d = (size_t)( p * N ) ≤ N`, `split` returns two subsets: the first holds the
examples at the first `d` shuffled indices, the second those at the remaining
`N - d`, the shuffled indices being a permutation of `[0..N)`. -/
theorem split_spec (to_size_t : R → Nat) (rng : twister_t G α) (exampleset : cexampleset α)
    (proportionfortraining : R) (g : G)
    (hN : exampleset.featurevectors.length = exampleset.labels.length)
    (hd : to_size_t (clamp_proportion proportionfortraining * (exampleset.labels.length : R)) ≤
      exampleset.labels.length) :
    ∃ indices g' s0 s1,
      shuffle_indices rng exampleset.labels.length g = some (indices, g') ∧
      List.Perm indices (List.range exampleset.labels.length) ∧
      split to_size_t rng exampleset proportionfortraining g = some ([s0, s1], g') ∧
      (s0.names = exampleset.names ∧ s0.labelset = exampleset.labelset ∧
        s1.names = exampleset.names ∧ s1.labelset = exampleset.labelset) ∧
      (s0.featurevectors.length =
          to_size_t (clamp_proportion proportionfortraining * (exampleset.labels.length : R)) ∧
        s0.labels.length =
          to_size_t (clamp_proportion proportionfortraining * (exampleset.labels.length : R)) ∧
        s1.featurevectors.length = exampleset.labels.length -
          to_size_t (clamp_proportion proportionfortraining * (exampleset.labels.length : R)) ∧
        s1.labels.length = exampleset.labels.length -
          to_size_t (clamp_proportion proportionfortraining *
            (exampleset.labels.length : R))) ∧
      cexampleset_pairs s0 = (indices.take (to_size_t (clamp_proportion proportionfortraining *
          (exampleset.labels.length : R)))).filterMap
        (fun k => (cexampleset_pairs exampleset)[k]?) ∧
      cexampleset_pairs s1 = (indices.drop (to_size_t (clamp_proportion proportionfortraining *
          (exampleset.labels.length : R)))).filterMap
        (fun k => (cexampleset_pairs exampleset)[k]?) := by
  obtain ⟨indices, g', hsh, hperm⟩ := shuffle_indices_perm rng exampleset.labels.length g
  have hlen : indices.length = exampleset.labels.length := by
    rw [hperm.length_eq, List.length_range]
  have hpos : ∀ i, i < exampleset.labels.length →
      ∃ k, indices[i]? = some k ∧ k < exampleset.featurevectors.length ∧
        k < exampleset.labels.length := by
    intro i hi
    have hi' : i < indices.length := by omega
    have hk : indices[i] ∈ List.range exampleset.labels.length :=
      hperm.subset (List.getElem_mem hi')
    have := List.mem_range.mp hk
    exact ⟨indices[i], List.getElem?_eq_getElem hi', by omega, this⟩
  generalize hdef : to_size_t (clamp_proportion proportionfortraining *
    (exampleset.labels.length : R)) = d at hd ⊢
  obtain ⟨s0, h0, a1, a2, a3, a4, a5⟩ := fill_subset_spec exampleset indices (List.range d)
    (fun i hi => hpos i (by have := List.mem_range.mp hi; omega))
  obtain ⟨s1, h1, b1, b2, b3, b4, b5⟩ := fill_subset_spec exampleset indices
    (List.range' d (exampleset.labels.length - d))
    (fun i hi => hpos i (by have := List.mem_range'_1.mp hi; omega))
  refine ⟨indices, g', s0, s1, hsh, hperm, ?_, ⟨a1, a2, b1, b2⟩,
    ⟨by simpa using a3, by simpa using a4, by simpa using b3, by simpa using b4⟩, ?_, ?_⟩
  · simp only [split, hsh, hdef, h0, h1]
  · rw [a5, range_filterMap_getElem?]
  · rw [b5, range'_filterMap_getElem?, ← hlen]
    congr 1
    apply List.take_of_length_le
    simp

end split_spec
end nexamples

namespace nexamples
open nextratrees

section claim_split
variable {α : Type} {G : Type}

theorem clamp_proportion_bounds {R : Type} [LinearOrderedField R] (p : R) :
    0 ≤ clamp_proportion p ∧ clamp_proportion p ≤ 1 := by
  unfold clamp_proportion
  by_cases h0 : p < 0
  · simp [h0]
  · by_cases h1 : p > 1
    · simp [h0, h1]
    · simp only [h0, h1, if_false]
      exact ⟨not_lt.mp h0, not_lt.mp h1⟩

theorem floor_divider_le {R : Type} [LinearOrderedField R] [FloorSemiring R] (p : R)
    (N : Nat) : ⌊clamp_proportion p * (N : R)⌋₊ ≤ N := by
  apply Nat.floor_le_of_le
  have h := clamp_proportion_bounds p
  have hN : (0 : R) ≤ (N : R) := Nat.cast_nonneg N
  calc clamp_proportion p * (N : R) ≤ 1 * (N : R) := mul_le_mul_of_nonneg_right h.2 hN
    _ = (N : R) := one_mul _

/-- Over exact arithmetic (the `double` an ordered field, the conversion
`(size_t)` the floor), for every example set with `N` feature vectors and `N`
labels, every ratio `p`, every generator and generator state, `split` returns
exactly two subsets, the first with exactly `⌊p' * N⌋` examples and the second
with `N - ⌊p' * N⌋`, where `p'` is `p` clamped into `[0, 1]`. -/
theorem split_sizes_floor {R : Type} [LinearOrderedField R] [FloorSemiring R]
    (rng : twister_t G α) (exampleset : cexampleset α) (proportionfortraining : R) (g : G)
    (hN : exampleset.featurevectors.length = exampleset.labels.length) :
    ∃ s0 s1 g', split (fun x : R => ⌊x⌋₊) rng exampleset proportionfortraining g =
        some ([s0, s1], g') ∧
      (0 ≤ clamp_proportion proportionfortraining ∧
        clamp_proportion proportionfortraining ≤ 1) ∧
      s0.featurevectors.length =
        ⌊clamp_proportion proportionfortraining * (exampleset.labels.length : R)⌋₊ ∧
      s0.labels.length =
        ⌊clamp_proportion proportionfortraining * (exampleset.labels.length : R)⌋₊ ∧
      s1.featurevectors.length = exampleset.labels.length -
        ⌊clamp_proportion proportionfortraining * (exampleset.labels.length : R)⌋₊ ∧
      s1.labels.length = exampleset.labels.length -
        ⌊clamp_proportion proportionfortraining * (exampleset.labels.length : R)⌋₊ := by
  obtain ⟨_, g', s0, s1, _, _, hsplit, _, ⟨h1, h2, h3, h4⟩, _, _⟩ :=
    split_spec (fun x : R => ⌊x⌋₊) rng exampleset proportionfortraining g hN
      (floor_divider_le proportionfortraining exampleset.labels.length)
  exact ⟨s0, s1, g', hsplit, clamp_proportion_bounds proportionfortraining, h1, h2, h3, h4⟩

/-- Over the rationals `N = 10` and `p = 7 / 10` give subsets of 7 and 3
examples. -/
theorem split_sizes_floor_ten :
    scenario_ten.featurevectors.length = scenario_ten.labels.length ∧
    ∃ s0 s1 g', split (fun x : Rat => ⌊x⌋₊) rng_min scenario_ten (7 / 10 : Rat) () =
        some ([s0, s1], g') ∧
      s0.featurevectors.length = 7 ∧ s0.labels.length = 7 ∧
      s1.featurevectors.length = 3 ∧ s1.labels.length = 3 := by
  obtain ⟨s0, s1, g', h, _, h1, h2, h3, h4⟩ :=
    split_sizes_floor rng_min scenario_ten (7 / 10 : Rat) () (by decide)
  have hd : ⌊clamp_proportion (7 / 10 : Rat) * (scenario_ten.labels.length : Rat)⌋₊ = 7 := by
    have h10 : scenario_ten.labels.length = 10 := by decide
    have hc : clamp_proportion (7 / 10 : Rat) = 7 / 10 := by
      unfold clamp_proportion
      norm_num
    rw [h10, hc]
    have : (7 / 10 : Rat) * ((10 : Nat) : Rat) = ((7 : Nat) : Rat) := by norm_num
    rw [this, Nat.floor_natCast]
  have h10 : scenario_ten.labels.length = 10 := by decide
  rw [hd] at h1 h2 h3 h4
  rw [h10] at h3 h4
  exact ⟨by decide, s0, s1, g', h, h1, h2, h3, h4⟩

/-- C18: for every example set with `N` feature vectors and `N` labels, every
generator and generator state, and a divider `d = (size_t)( p * N ) ≤ N`: the
shuffle inside `split` completes, every swap target `i + r mod (N - i)` is
below `N`, the shuffled index vector is a permutation of `[0..N)`, the index
sets of the two returned subsets (its first `d` and its remaining entries) are
disjoint and together cover `[0..N)`, and the `(feature vector, label)` pairs of
the two subsets concatenated are a permutation of the parent's pairs. -/
theorem split_is_partition {R : Type} [Zero R] [One R] [Mul R] [NatCast R] [LT R]
    [DecidableRel (fun a b : R => a < b)] (to_size_t : R → Nat)
    (rng : twister_t G α) (exampleset : cexampleset α) (proportionfortraining : R) (g : G)
    (hN : exampleset.featurevectors.length = exampleset.labels.length)
    (hd : to_size_t (clamp_proportion proportionfortraining * (exampleset.labels.length : R)) ≤
      exampleset.labels.length) :
    ∃ indices g' s0 s1 d,
      d = to_size_t (clamp_proportion proportionfortraining *
        (exampleset.labels.length : R)) ∧
      shuffle_indices rng exampleset.labels.length g = some (indices, g') ∧
      (∀ i r : Nat, i + 1 < exampleset.labels.length →
        i + r % (exampleset.labels.length - i) < exampleset.labels.length) ∧
      List.Perm indices (List.range exampleset.labels.length) ∧
      split to_size_t rng exampleset proportionfortraining g = some ([s0, s1], g') ∧
      cexampleset_pairs s0 =
        (indices.take d).filterMap (fun k => (cexampleset_pairs exampleset)[k]?) ∧
      cexampleset_pairs s1 =
        (indices.drop d).filterMap (fun k => (cexampleset_pairs exampleset)[k]?) ∧
      List.Disjoint (indices.take d) (indices.drop d) ∧
      (∀ k, k < exampleset.labels.length ↔ k ∈ indices.take d ∨ k ∈ indices.drop d) ∧
      List.Perm (cexampleset_pairs s0 ++ cexampleset_pairs s1)
        (cexampleset_pairs exampleset) := by
  obtain ⟨indices, g', s0, s1, hsh, hperm, hsplit, _, _, hp0, hp1⟩ :=
    split_spec to_size_t rng exampleset proportionfortraining g hN hd
  refine ⟨indices, g', s0, s1, _, rfl, hsh, ?_, hperm, hsplit, hp0, hp1, ?_, ?_, ?_⟩
  · intro i r hi
    have := Nat.mod_lt r (show 0 < exampleset.labels.length - i by omega)
    omega
  · exact List.disjoint_take_drop (hperm.nodup_iff.mpr (List.nodup_range _)) (le_refl _)
  · intro k
    rw [← List.mem_append, List.take_append_drop, hperm.mem_iff, List.mem_range]
  · rw [hp0, hp1, ← List.filterMap_append, List.take_append_drop]
    have h := hperm.filterMap (fun k => (cexampleset_pairs exampleset)[k]?)
    rw [range_filterMap_getElem?] at h
    have hlen : (cexampleset_pairs exampleset).length = exampleset.labels.length := by
      simp [cexampleset_pairs, hN]
    rw [List.take_of_length_le (by omega)] at h
    exact h

/-- Witness for C18: the ten examples of `scenario_ten` with `p = 0.7`. -/
theorem split_is_partition_witness :
    (scenario_ten.featurevectors.length = scenario_ten.labels.length ∧
      (fun x : Rat => ⌊x⌋₊) (clamp_proportion (7 / 10 : Rat) *
        (scenario_ten.labels.length : Rat)) ≤ scenario_ten.labels.length) ∧
    ∃ indices g' s0 s1,
      shuffle_indices rng_min scenario_ten.labels.length () = some (indices, g') ∧
      List.Perm indices (List.range scenario_ten.labels.length) ∧
      split (fun x : Rat => ⌊x⌋₊) rng_min scenario_ten (7 / 10 : Rat) () =
        some ([s0, s1], g') ∧
      List.Perm (cexampleset_pairs s0 ++ cexampleset_pairs s1)
        (cexampleset_pairs scenario_ten) := by
  have hd := floor_divider_le (7 / 10 : Rat) scenario_ten.labels.length
  obtain ⟨indices, g', s0, s1, d, _, h1, _, h2, h3, _, _, _, _, h4⟩ :=
    split_is_partition (fun x : Rat => ⌊x⌋₊) rng_min scenario_ten (7 / 10 : Rat) ()
      (by decide) hd
  exact ⟨⟨by decide, hd⟩, indices, g', s0, s1, h1, h2, h3, h4⟩

end claim_split
end nexamples
/-! The sizes of the two subsets of a split -/

namespace nexamples
open nextratrees

section claim_split_sizes
variable {α : Type} {G : Type}

/-- C17, amended: for every example set with `N` feature vectors and `N`
labels, every ratio `p`, every generator and generator state, whatever the
arithmetic of the `double` product and of the conversion `(size_t)`: when the
divider `d = (size_t)( p' * N )`, with `p'` the ratio `p` clamped into
`[0, 1]`, is at most `N`, `split` returns exactly two subsets, the first with
exactly `d` examples and the second with `N - d`. -/
theorem split_sizes_of_divider {R : Type} [Zero R] [One R] [Mul R] [NatCast R] [LT R]
    [DecidableRel (fun a b : R => a < b)] (to_size_t : R → Nat)
    (rng : twister_t G α) (exampleset : cexampleset α) (proportionfortraining : R) (g : G)
    (hN : exampleset.featurevectors.length = exampleset.labels.length)
    (hd : to_size_t (clamp_proportion proportionfortraining * (exampleset.labels.length : R)) ≤
      exampleset.labels.length) :
    ∃ s0 s1 g', split to_size_t rng exampleset proportionfortraining g =
        some ([s0, s1], g') ∧
      s0.featurevectors.length =
        to_size_t (clamp_proportion proportionfortraining * (exampleset.labels.length : R)) ∧
      s0.labels.length =
        to_size_t (clamp_proportion proportionfortraining * (exampleset.labels.length : R)) ∧
      s1.featurevectors.length = exampleset.labels.length -
        to_size_t (clamp_proportion proportionfortraining * (exampleset.labels.length : R)) ∧
      s1.labels.length = exampleset.labels.length -
        to_size_t (clamp_proportion proportionfortraining *
          (exampleset.labels.length : R)) := by
  obtain ⟨_, g', s0, s1, _, _, hsplit, _, ⟨h1, h2, h3, h4⟩, _, _⟩ :=
    split_spec to_size_t rng exampleset proportionfortraining g hN hd
  exact ⟨s0, s1, g', hsplit, h1, h2, h3, h4⟩

end claim_split_sizes

/-- The literal `0.7` is the `double` `6305039478318694 * 2 ^ (-53)`, and no
other mantissa of 53 binary digits is nearer to `7 / 10`. -/
theorem double_seven_tenths :
    double.of_ratio 7 10 = { mantissa := 6305039478318694, exponent := -53 } ∧
    |(double.of_ratio 7 10).value - 7 / 10| ≤ (2 : ℚ) ^ (-54 : Int) := by
  have h : double.of_ratio 7 10 = { mantissa := 6305039478318694, exponent := -53 } := by
    decide
  refine ⟨h, ?_⟩
  rw [h]
  simp only [double.value]
  rw [abs_le]
  norm_num

/-- The dividers that `split` computes in `double` arithmetic for the ratio
`0.7` and 10 or 90 examples. -/
theorem double_dividers :
    double.to_size_t (clamp_proportion (double.of_ratio 7 10) *
        ((scenario_ten.labels.length : Nat) : double)) = 7 ∧
    double.to_size_t (clamp_proportion (double.of_ratio 7 10) *
        ((scenario_ninety.labels.length : Nat) : double)) = 62 :=
  ⟨by decide, by decide⟩

/-- Witness for C17 as amended: in `double` arithmetic `N = 10` and `p = 0.7`
give subsets of 7 and 3 examples. -/
theorem split_sizes_of_divider_witness :
    (scenario_ten.featurevectors.length = scenario_ten.labels.length ∧
      double.to_size_t (clamp_proportion (double.of_ratio 7 10) *
        ((scenario_ten.labels.length : Nat) : double)) ≤ scenario_ten.labels.length) ∧
    ∃ s0 s1 g', split double.to_size_t rng_min scenario_ten (double.of_ratio 7 10) () =
        some ([s0, s1], g') ∧
      s0.featurevectors.length = 7 ∧ s0.labels.length = 7 ∧
      s1.featurevectors.length = 3 ∧ s1.labels.length = 3 := by
  obtain ⟨s0, s1, g', h, h1, h2, h3, h4⟩ :=
    split_sizes_of_divider double.to_size_t rng_min scenario_ten (double.of_ratio 7 10) ()
      (by decide) (by decide)
  rw [double_dividers.1] at h1 h2 h3 h4
  exact ⟨⟨by decide, by decide⟩, s0, s1, g', h, h1, h2, h3, h4⟩

/-- Counterexample to C17: with the ratio `0.7` of the program, a `double`,
and 90 examples `split` returns subsets of 62 and 28 examples, while
`⌊0.7 * 90⌋ = 63`; and with 10 examples it returns subsets of 7 and 3
examples, while the floor of the exact product of the `double` nearest to
`0.7` and `10` is `6`.  The divider is the truncated `double` product, which
is rounded, not the floor of the exact product. -/
theorem split_size_differs_from_floor :
    (∃ s0 s1 g', split double.to_size_t rng_min scenario_ninety (double.of_ratio 7 10) () =
        some ([s0, s1], g') ∧
      s0.featurevectors.length = 62 ∧ s0.labels.length = 62 ∧
      s1.featurevectors.length = 28 ∧ s1.labels.length = 28) ∧
    ⌊(7 / 10 : ℚ) * ((90 : Nat) : ℚ)⌋₊ = 63 ∧
    (∃ s0 s1 g', split double.to_size_t rng_min scenario_ten (double.of_ratio 7 10) () =
        some ([s0, s1], g') ∧
      s0.featurevectors.length = 7 ∧ s0.labels.length = 7 ∧
      s1.featurevectors.length = 3 ∧ s1.labels.length = 3) ∧
    ⌊(double.of_ratio 7 10).value * ((10 : Nat) : ℚ)⌋₊ = 6 := by
  refine ⟨?_, ?_, ?_, ?_⟩
  · obtain ⟨_, g', s0, s1, _, _, hsplit, _, ⟨h1, h2, h3, h4⟩, _, _⟩ :=
      split_spec double.to_size_t rng_min scenario_ninety (double.of_ratio 7 10) ()
        (by decide) (by decide)
    rw [double_dividers.2] at h1 h2 h3 h4
    exact ⟨s0, s1, g', hsplit, h1, h2, h3, h4⟩
  · rw [Nat.floor_eq_iff (by positivity)]
    norm_num
  · obtain ⟨_, g', s0, s1, _, _, hsplit, _, ⟨h1, h2, h3, h4⟩, _, _⟩ :=
      split_spec double.to_size_t rng_min scenario_ten (double.of_ratio 7 10) ()
        (by decide) (by decide)
    rw [double_dividers.1] at h1 h2 h3 h4
    exact ⟨s0, s1, g', hsplit, h1, h2, h3, h4⟩
  · rw [double_seven_tenths.1]
    simp only [double.value]
    rw [Nat.floor_eq_iff (by positivity)]
    norm_num

end nexamples


/-! C19: storing and loading trees -/

namespace ndectree

section roundtrip
variable {α : Type}

theorem extract_str_cons (t : String) (ts : List String) :
    extract_str { tokens := t :: ts, fail := false } = (t, { tokens := ts, fail := false }) :=
  rfl

theorem extract_size_cons (fmt : stream_fmt α) (t : String) (ts : List String) (v : Nat)
    (h : fmt.get_size t = some v) :
    extract_size fmt { tokens := t :: ts, fail := false } =
      (some v, { tokens := ts, fail := false }) := by
  simp only [extract_size, h]
  rfl

theorem extract_attr_cons [Zero α] (fmt : stream_fmt α) (t : String) (ts : List String) (v : α)
    (h : fmt.get_attr t = some v) :
    extract_attr fmt { tokens := t :: ts, fail := false } =
      (some v, { tokens := ts, fail := false }) := by
  simp only [extract_attr, h]
  rfl

theorem read_classfreqs_roundtrip (fmt : stream_fmt α) :
    ∀ (classfreqs : List Nat) (rest : List String),
      (∀ n ∈ classfreqs, fmt.get_size (fmt.put_size n) = some n) →
      dectree_t.read_classfreqs fmt classfreqs.length
          { tokens := classfreqs.map fmt.put_size ++ rest, fail := false } =
        some (classfreqs, { tokens := rest, fail := false }) := by
  intro classfreqs
  induction classfreqs with
  | nil => intro rest _; rfl
  | cons n cf ih =>
    intro rest h
    rw [List.length_cons, List.map_cons, List.cons_append]
    simp only [dectree_t.read_classfreqs,
      extract_size_cons fmt _ _ n (h n (List.mem_cons_self _ _)),
      ih rest (fun m hm => h m (List.mem_cons_of_mem _ hm))]

/-- A leaf with at least one bucket is written as the marker followed by its
buckets. -/
theorem storetostream_leaf (fmt : stream_fmt α) (classfreqs : List Nat)
    (hne : classfreqs ≠ []) :
    dectree_t.storetostream fmt (dectree_t.leaf classfreqs) =
      some (STR_LEAF :: classfreqs.map fmt.put_size) := by
  obtain ⟨back, hb⟩ : ∃ back, classfreqs.getLast? = some back := by
    cases h : classfreqs.getLast? with
    | none => exact absurd (List.getLast?_eq_none_iff.mp h) hne
    | some b => exact ⟨b, rfl⟩
  have hsplit : classfreqs.dropLast ++ [back] = classfreqs :=
    List.dropLast_append_getLast? back hb
  simp only [dectree_t.storetostream, hb]
  congr 2
  conv_rhs => rw [← hsplit]
  simp

variable [Zero α]

/-- Reading back what `storetostream` wrote: the tree is reconstructed with
every split value replaced by the value its printed form parses to, and exactly
the tokens of the tree are consumed. -/
theorem load_store (fmt : stream_fmt α) (K : Nat) (hK : 1 ≤ K) (reread : α → α) :
    ∀ (t : dectree_t α), dectree_t.leaves_have t K →
      (∀ n ∈ dectree_t.sizes t, fmt.get_size (fmt.put_size n) = some n) →
      (∀ s ∈ dectree_t.splitvalues t, fmt.get_attr (fmt.put_attr s) = some (reread s)) →
      ∃ toks, dectree_t.storetostream fmt t = some toks ∧
        ∀ (fuel : Nat) (rest : List String), dectree_t.depth t < fuel →
          dectree_t.loadfromstream fmt K fuel { tokens := toks ++ rest, fail := false } =
            some (some (dectree_t.map_splits reread t), { tokens := rest, fail := false }) := by
  intro t
  induction t with
  | leaf cf =>
    intro hl hs _
    simp only [dectree_t.leaves_have] at hl
    have hne : cf ≠ [] := by
      intro h
      rw [h] at hl
      simp at hl
      omega
    refine ⟨_, storetostream_leaf fmt cf hne, ?_⟩
    intro fuel rest hf
    cases fuel with
    | zero => omega
    | succ fuel =>
      rw [List.cons_append]
      simp only [dectree_t.loadfromstream, extract_str_cons, if_true]
      rw [← hl, read_classfreqs_roundtrip fmt cf rest hs]
      rfl
  | branch ai s l r ihl ihr =>
    intro hl hs ha
    obtain ⟨sl, hsl, hll⟩ := ihl hl.1
      (fun n hn => hs n (by simp [dectree_t.sizes, hn]))
      (fun v hv => ha v (by simp [dectree_t.splitvalues, hv]))
    obtain ⟨sr, hsr, hlr⟩ := ihr hl.2
      (fun n hn => hs n (by simp [dectree_t.sizes, hn]))
      (fun v hv => ha v (by simp [dectree_t.splitvalues, hv]))
    refine ⟨STR_BRANCH :: fmt.put_size ai :: fmt.put_attr s :: (sl ++ sr), ?_, ?_⟩
    · simp only [dectree_t.storetostream, hsl, hsr]
    · intro fuel rest hf
      cases fuel with
      | zero => omega
      | succ fuel =>
        have hd : dectree_t.depth (dectree_t.branch ai s l r) =
            Nat.max (dectree_t.depth l) (dectree_t.depth r) + 1 := rfl
        have h1 : dectree_t.depth l ≤ Nat.max (dectree_t.depth l) (dectree_t.depth r) :=
          Nat.le_max_left _ _
        have h2 : dectree_t.depth r ≤ Nat.max (dectree_t.depth l) (dectree_t.depth r) :=
          Nat.le_max_right _ _
        have hne : ¬ STR_BRANCH = STR_LEAF := by decide
        rw [List.cons_append, List.cons_append, List.cons_append, List.append_assoc]
        simp only [dectree_t.loadfromstream, extract_str_cons, hne, if_false, if_true,
          extract_size_cons fmt _ _ ai (hs ai (by simp [dectree_t.sizes])),
          extract_attr_cons fmt _ _ (reread s) (ha s (by simp [dectree_t.splitvalues])),
          hll fuel (sr ++ rest) (by omega), hlr fuel rest (by omega)]
        rfl

theorem map_splits_id {β : Type} (t : dectree_t β) : dectree_t.map_splits (fun s => s) t = t := by
  induction t with
  | leaf cf => rfl
  | branch ai s l r ihl ihr => simp only [dectree_t.map_splits, ihl, ihr]

/-- Consecutive trees reload in order: reading `|trees|` trees from what
`store_trees` wrote gives the trees with their split values re-read, and the
stream is left where the last tree ended. -/
theorem load_store_trees (fmt : stream_fmt α) (K : Nat) (hK : 1 ≤ K) (reread : α → α) :
    ∀ (trees : List (dectree_t α)),
      (∀ t ∈ trees, dectree_t.leaves_have t K) →
      (∀ t ∈ trees, ∀ n ∈ dectree_t.sizes t, fmt.get_size (fmt.put_size n) = some n) →
      (∀ t ∈ trees, ∀ s ∈ dectree_t.splitvalues t,
        fmt.get_attr (fmt.put_attr s) = some (reread s)) →
      ∃ toks, store_trees fmt trees = some toks ∧
        ∀ (fuel : Nat) (rest : List String), (∀ t ∈ trees, dectree_t.depth t < fuel) →
          load_trees fmt K fuel trees.length { tokens := toks ++ rest, fail := false } =
            some (some (trees.map (dectree_t.map_splits reread)),
              { tokens := rest, fail := false }) := by
  intro trees
  induction trees with
  | nil =>
    intro _ _ _
    exact ⟨[], rfl, fun fuel rest _ => rfl⟩
  | cons t ts ih =>
    intro hl hs ha
    obtain ⟨s, hst, hlt⟩ := load_store fmt K hK reread t (hl t (List.mem_cons_self _ _))
      (hs t (List.mem_cons_self _ _)) (ha t (List.mem_cons_self _ _))
    obtain ⟨toks, hsts, hlts⟩ := ih (fun t' h => hl t' (List.mem_cons_of_mem _ h))
      (fun t' h => hs t' (List.mem_cons_of_mem _ h))
      (fun t' h => ha t' (List.mem_cons_of_mem _ h))
    have hstore : ∀ (out : List String), ts.foldlM (store_trees_step fmt) out =
        some (out ++ toks) := by
      have hgen : ∀ (l : List (dectree_t α)) (out acc : List String),
          l.foldlM (store_trees_step fmt) [] = some acc →
          l.foldlM (store_trees_step fmt) out = some (out ++ acc) := by
        intro l
        induction l using List.reverseRecOn with
        | nil =>
          intro out acc h
          simp only [List.foldlM_nil, Option.pure_def, Option.some.injEq] at h
          subst h
          simp
        | append_singleton l x ihl =>
          intro out acc h
          rw [List.foldlM_append] at h ⊢
          cases hp : l.foldlM (store_trees_step fmt) [] with
          | none => simp [hp] at h
          | some p =>
            rw [ihl out p hp]
            simp only [hp, Option.bind_eq_bind, Option.some_bind, List.foldlM_cons,
              List.foldlM_nil, store_trees_step] at h ⊢
            cases hx : dectree_t.storetostream fmt x with
            | none => simp [hx] at h
            | some sx =>
              simp only [hx, Option.some_bind, Option.pure_def, Option.some.injEq,
                List.nil_append] at h ⊢
              rw [← h, List.append_assoc]
      exact fun out => hgen ts out toks hsts
    refine ⟨s ++ toks, ?_, ?_⟩
    · simp only [store_trees, List.foldlM_cons, store_trees_step, hst, Option.bind_eq_bind,
        Option.some_bind, List.nil_append]
      exact hstore s
    · intro fuel rest hf
      simp only [List.length_cons, load_trees, List.append_assoc,
        hlt fuel (toks ++ rest) (hf t (List.mem_cons_self _ _)),
        hlts fuel rest (fun t' h => hf t' (List.mem_cons_of_mem _ h)), List.map_cons]

end roundtrip
end ndectree

namespace ndectree

section claim_roundtrip
variable {α : Type} [Zero α]

/-- C19: for decision trees all of whose leaves hold exactly `K ≥ 1` buckets,
whose `size_t` values and split values print and parse back to themselves:
`loadfromstream` with `numclasses = K` applied to the output of
`storetostream(t)`, followed by any further tokens, returns `t` and leaves
exactly those further tokens (fuel above the depth of `t` suffices); the
consecutive trees of a forest reload in order; and storing what was loaded
yields the identical stream. -/
theorem store_load_roundtrip (fmt : stream_fmt α) (K : Nat) (trees : List (dectree_t α))
    (hK : 1 ≤ K) (hleaves : ∀ t ∈ trees, dectree_t.leaves_have t K)
    (hsizes : ∀ t ∈ trees, ∀ n ∈ dectree_t.sizes t, fmt.get_size (fmt.put_size n) = some n)
    (hsplits : ∀ t ∈ trees, ∀ s ∈ dectree_t.splitvalues t,
      fmt.get_attr (fmt.put_attr s) = some s) :
    (∀ t ∈ trees, ∃ toks, dectree_t.storetostream fmt t = some toks ∧
      ∀ (fuel : Nat) (rest : List String), dectree_t.depth t < fuel →
        dectree_t.loadfromstream fmt K fuel { tokens := toks ++ rest, fail := false } =
          some (some t, { tokens := rest, fail := false })) ∧
    ∃ toks, store_trees fmt trees = some toks ∧
      (∀ (fuel : Nat) (rest : List String), (∀ t ∈ trees, dectree_t.depth t < fuel) →
        load_trees fmt K fuel trees.length { tokens := toks ++ rest, fail := false } =
          some (some trees, { tokens := rest, fail := false })) ∧
      (∀ (fuel : Nat) (trees' : List (dectree_t α)),
        (∀ t ∈ trees, dectree_t.depth t < fuel) →
        load_trees fmt K fuel trees.length { tokens := toks, fail := false } =
          some (some trees', { tokens := [], fail := false }) →
        store_trees fmt trees' = some toks) := by
  have hmap : trees.map (dectree_t.map_splits (fun s => s)) = trees := by
    rw [List.map_congr_left (fun t _ => map_splits_id t), List.map_id']
  refine ⟨?_, ?_⟩
  · intro t ht
    obtain ⟨toks, h1, h2⟩ := load_store fmt K hK (fun s => s) t (hleaves t ht) (hsizes t ht)
      (hsplits t ht)
    refine ⟨toks, h1, ?_⟩
    intro fuel rest hf
    rw [h2 fuel rest hf, map_splits_id]
  · obtain ⟨toks, h1, h2⟩ := load_store_trees fmt K hK (fun s => s) trees hleaves hsizes hsplits
    refine ⟨toks, h1, ?_, ?_⟩
    · intro fuel rest hf
      rw [h2 fuel rest hf, hmap]
    · intro fuel trees' hf hload
      have := h2 fuel [] hf
      rw [List.append_nil, hload, hmap] at this
      have he : some trees' = some (trees : List (dectree_t α)) :=
        congrArg Prod.fst (Option.some.inj this)
      rw [Option.some.inj he]
      exact h1

/-- Witness for C19: the three trees of `scenario_votes` (two buckets per leaf)
under the decimal formatting. -/
theorem store_load_roundtrip_witness :
    (1 ≤ 2 ∧ (∀ t ∈ scenario_votes.trees, dectree_t.leaves_have t 2) ∧
      (∀ t ∈ scenario_votes.trees, ∀ n ∈ dectree_t.sizes t,
        fmt_decimal.get_size (fmt_decimal.put_size n) = some n) ∧
      (∀ t ∈ scenario_votes.trees, ∀ s ∈ dectree_t.splitvalues t,
        fmt_decimal.get_attr (fmt_decimal.put_attr s) = some s)) ∧
    store_trees fmt_decimal scenario_votes.trees =
      some ["+", "0", "5", "\\", "3", "0", "\\", "1", "1",
        "+", "0", "2", "\\", "1", "0", "\\", "0", "4", "\\", "2", "3"] ∧
    ∃ toks, store_trees fmt_decimal scenario_votes.trees = some toks ∧
      (∀ (fuel : Nat) (rest : List String),
        (∀ t ∈ scenario_votes.trees, dectree_t.depth t < fuel) →
        load_trees fmt_decimal 2 fuel scenario_votes.trees.length
            { tokens := toks ++ rest, fail := false } =
          some (some scenario_votes.trees, { tokens := rest, fail := false })) ∧
      (∀ (fuel : Nat) (trees' : List (dectree_t Int)),
        (∀ t ∈ scenario_votes.trees, dectree_t.depth t < fuel) →
        load_trees fmt_decimal 2 fuel scenario_votes.trees.length
            { tokens := toks, fail := false } =
          some (some trees', { tokens := [], fail := false }) →
        store_trees fmt_decimal trees' = some toks) :=
  ⟨⟨by decide, by simp [scenario_votes, dectree_t.leaves_have], by decide, by decide⟩,
    by decide,
    (store_load_roundtrip fmt_decimal 2 scenario_votes.trees (by decide)
      (by simp [scenario_votes, dectree_t.leaves_have]) (by decide) (by decide)).2⟩

end claim_roundtrip
end ndectree
/-! Tokens and lines of a character stream -/

namespace ndectree

theorem stream_tokens_nil (cur : List Char) :
    stream_tokens [] cur = if cur = [] then [] else [String.mk cur] := by
  rw [stream_tokens]

/-- Characters that are not white space are added to the token being read. -/
theorem stream_tokens_append_token (t : List Char) (h : ∀ c ∈ t, is_space c = false) :
    ∀ (r cur : List Char), stream_tokens (t ++ r) cur = stream_tokens r (cur ++ t) := by
  induction t with
  | nil =>
    intro r cur
    simp
  | cons c t ih =>
    intro r cur
    have hc : is_space c = false := h c (List.mem_cons_self _ _)
    rw [List.cons_append, stream_tokens]
    simp only [hc, Bool.false_eq_true, if_false]
    rw [ih (fun c' hc' => h c' (List.mem_cons_of_mem _ hc'))]
    simp

/-- A white-space character ends the token being read. -/
theorem stream_tokens_space (w : Char) (hw : is_space w = true) (r cur : List Char) :
    stream_tokens (w :: r) cur =
      (if cur = [] then [] else [String.mk cur]) ++ stream_tokens r [] := by
  rw [stream_tokens]
  simp only [hw, if_true]
  split <;> rfl

/-- At a white-space character the tokens before it and the tokens after it
are found separately. -/
theorem stream_tokens_split (w : Char) (hw : is_space w = true) (ys : List Char) :
    ∀ (xs cur : List Char),
      stream_tokens (xs ++ w :: ys) cur = stream_tokens xs cur ++ stream_tokens ys [] := by
  intro xs
  induction xs with
  | nil =>
    intro cur
    rw [List.nil_append, stream_tokens_space w hw, stream_tokens_nil]
  | cons c xs ih =>
    intro cur
    rw [List.cons_append, stream_tokens, stream_tokens]
    by_cases hc : is_space c = true
    · simp only [hc, if_true]
      by_cases hcur : cur = []
      · simp only [hcur, if_true]
        exact ih []
      · simp only [hcur, if_false]
        rw [ih []]
        rfl
    · simp only [hc, if_false]
      exact ih _

/-- A token is read back whole. -/
theorem stream_tokens_token (t : String) (ht : is_token t) :
    stream_tokens t.data [] = [t] := by
  have h := stream_tokens_append_token t.data ht.2 [] []
  rw [List.append_nil, List.nil_append, stream_tokens_nil] at h
  rw [h, if_neg ht.1]

/-- A token followed by white space is read back, and reading goes on after
the white space. -/
theorem stream_tokens_token_space (t : String) (ht : is_token t) (w : Char)
    (hw : is_space w = true) (r : List Char) :
    stream_tokens (t.data ++ w :: r) [] = t :: stream_tokens r [] := by
  rw [stream_tokens_split w hw r, stream_tokens_token t ht]
  rfl

/-- A final white-space character adds no token. -/
theorem stream_tokens_trailing_space (w : Char) (hw : is_space w = true) (xs : List Char) :
    stream_tokens (xs ++ [w]) [] = stream_tokens xs [] := by
  rw [stream_tokens_split w hw [], stream_tokens_nil]
  simp

end ndectree

namespace nutil
open ndectree

theorem getline_first_append (line rest : List Char) (h : '\n' ∉ line) :
    getline_first '\n' (line ++ '\n' :: rest) = (line, rest) := by
  induction line with
  | nil => simp [getline_first]
  | cons c line ih =>
    have hc : c ≠ '\n' := fun e => h (by rw [e]; exact List.mem_cons_self _ _)
    have ih' := ih (fun hm => h (List.mem_cons_of_mem _ hm))
    rw [List.cons_append, getline_first, if_neg hc, ih']

/-- The function `nutil::getline` on a stream that starts with a non-empty
line: the line is returned, without a final carriage return, and the tokens in
it are those of the line. -/
theorem getline_line (line rest : List Char) (h : '\n' ∉ line) (hne : line ≠ []) :
    ∃ s : String, getline (line ++ '\n' :: rest) = some (s, rest) ∧
      stream_tokens s.data [] = stream_tokens line [] := by
  unfold getline
  rw [getline_first_append line rest h]
  simp only
  cases hl : line.getLast? with
  | none =>
    rw [List.getLast?_eq_none_iff] at hl
    exact absurd hl hne
  | some c =>
    simp only
    have hdl : line = line.dropLast ++ [c] := by
      have := List.dropLast_append_getLast? c hl
      exact this.symm
    by_cases hc : c = '\n' ∨ c = '\r'
    · rw [if_pos hc]
      refine ⟨_, rfl, ?_⟩
      have hw : is_space c = true := by
        rcases hc with e | e <;> rw [e] <;> decide
      show stream_tokens line.dropLast [] = stream_tokens line []
      conv => rhs; rw [hdl]
      rw [stream_tokens_trailing_space c hw]
    · rw [if_neg hc]
      exact ⟨_, rfl, rfl⟩

end nutil

/-! The characters written for the trees and for the header lines -/

namespace ndectree

section tree_text
variable {α : Type}

theorem is_token_no_newline (t : String) (ht : is_token t) : '\n' ∉ t.data := by
  intro h
  have := ht.2 _ h
  revert this
  decide

/-- Values written with a blank after each are read back one token each. -/
theorem stream_tokens_flatMap_after {β : Type} (put : β → String) :
    ∀ (l : List β), (∀ x ∈ l, is_token (put x)) → ∀ r : List Char,
      stream_tokens (l.flatMap (fun x => (put x).data ++ [' ']) ++ r) [] =
        l.map put ++ stream_tokens r [] := by
  intro l
  induction l with
  | nil =>
    intro _ r
    rfl
  | cons x l ih =>
    intro h r
    rw [List.flatMap_cons, List.append_assoc, List.append_assoc, List.singleton_append,
      stream_tokens_token_space (put x) (h x (List.mem_cons_self _ _)) ' ' (by decide),
      ih (fun y hy => h y (List.mem_cons_of_mem _ hy)) r]
    rfl

/-- Values written with a blank before each, after a first token, are read
back one token each. -/
theorem stream_tokens_flatMap_before {β : Type} (put : β → String) :
    ∀ (l : List β) (t : String), is_token t → (∀ x ∈ l, is_token (put x)) →
      stream_tokens (t.data ++ l.flatMap (fun x => ' ' :: (put x).data)) [] =
        t :: l.map put := by
  intro l
  induction l with
  | nil =>
    intro t ht _
    rw [List.flatMap_nil, List.append_nil, stream_tokens_token t ht]
    rfl
  | cons x l ih =>
    intro t ht h
    rw [List.flatMap_cons, List.cons_append,
      stream_tokens_token_space t ht ' ' (by decide),
      ih (put x) (h x (List.mem_cons_self _ _)) (fun y hy => h y (List.mem_cons_of_mem _ hy))]
    rfl

/-- The characters `storetostream` writes for a tree hold exactly its tokens,
and end in white space. -/
theorem storetostream_text_tokens (fmt : stream_fmt α) :
    ∀ (t : dectree_t α) (toks : List String),
      (∀ n ∈ dectree_t.sizes t, is_token (fmt.put_size n)) →
      (∀ s ∈ dectree_t.splitvalues t, is_token (fmt.put_attr s)) →
      dectree_t.storetostream fmt t = some toks →
      ∃ cs, dectree_t.storetostream_text fmt t = some cs ∧
        ∀ rest : List Char, stream_tokens (cs ++ rest) [] = toks ++ stream_tokens rest [] := by
  intro t
  induction t with
  | leaf cf =>
    intro toks hs _ hst
    simp only [dectree_t.storetostream] at hst
    simp only [dectree_t.storetostream_text]
    cases hb : cf.getLast? with
    | none => simp [hb] at hst
    | some back =>
      simp only [hb, Option.some.injEq] at hst
      refine ⟨_, rfl, ?_⟩
      intro rest
      have hmem : ∀ n ∈ cf.dropLast, is_token (fmt.put_size n) :=
        fun n hn => hs n (List.dropLast_subset cf hn)
      have hback : is_token (fmt.put_size back) :=
        hs back (List.mem_of_getLast?_eq_some hb)
      rw [← hst, List.append_assoc, List.cons_append,
        stream_tokens_token_space STR_LEAF (by decide) ' ' (by decide),
        List.append_assoc, stream_tokens_flatMap_after fmt.put_size cf.dropLast hmem,
        List.append_assoc, List.singleton_append,
        stream_tokens_token_space (fmt.put_size back) hback '\n' (by decide)]
      simp
  | branch ai s l r ihl ihr =>
    intro toks hs ha hst
    simp only [dectree_t.storetostream] at hst
    cases hl : dectree_t.storetostream fmt l with
    | none => simp [hl] at hst
    | some sl =>
      cases hr : dectree_t.storetostream fmt r with
      | none => simp [hl, hr] at hst
      | some sr =>
        simp only [hl, hr, Option.some.injEq] at hst
        obtain ⟨cl, hcl, htl⟩ := ihl sl
          (fun n hn => hs n (by simp [dectree_t.sizes, hn]))
          (fun v hv => ha v (by simp [dectree_t.splitvalues, hv])) hl
        obtain ⟨cr, hcr, htr⟩ := ihr sr
          (fun n hn => hs n (by simp [dectree_t.sizes, hn]))
          (fun v hv => ha v (by simp [dectree_t.splitvalues, hv])) hr
        simp only [dectree_t.storetostream_text, hcl, hcr]
        refine ⟨_, rfl, ?_⟩
        intro rest
        have h1 : is_token (fmt.put_size ai) := hs ai (by simp [dectree_t.sizes])
        have h2 : is_token (fmt.put_attr s) := ha s (by simp [dectree_t.splitvalues])
        rw [← hst, List.append_assoc, List.cons_append,
          stream_tokens_token_space STR_BRANCH (by decide) ' ' (by decide),
          List.append_assoc, List.cons_append,
          stream_tokens_token_space (fmt.put_size ai) h1 ' ' (by decide),
          List.append_assoc, List.cons_append,
          stream_tokens_token_space (fmt.put_attr s) h2 '\n' (by decide),
          List.append_assoc, htl, htr]
        simp

theorem store_trees_text_acc (fmt : stream_fmt α) :
    ∀ (trees : List (dectree_t α)) (acc : List String) (out : List Char)
      (toks : List String),
      (∀ t ∈ trees, ∀ n ∈ dectree_t.sizes t, is_token (fmt.put_size n)) →
      (∀ t ∈ trees, ∀ s ∈ dectree_t.splitvalues t, is_token (fmt.put_attr s)) →
      trees.foldlM (store_trees_step fmt) acc = some toks →
      ∃ toks' cs, toks = acc ++ toks' ∧
        trees.foldlM (store_trees_text_step fmt) out = some (out ++ cs) ∧
        ∀ rest : List Char, stream_tokens (cs ++ rest) [] = toks' ++ stream_tokens rest [] := by
  intro trees
  induction trees with
  | nil =>
    intro acc out toks _ _ h
    simp only [List.foldlM_nil, Option.pure_def, Option.some.injEq] at h
    exact ⟨[], [], by simp [h], by simp, fun rest => rfl⟩
  | cons t ts ih =>
    intro acc out toks hs ha h
    rw [List.foldlM_cons] at h
    cases hst : dectree_t.storetostream fmt t with
    | none => simp [store_trees_step, hst] at h
    | some s =>
      obtain ⟨cs, hcs, htok⟩ := storetostream_text_tokens fmt t s
        (hs t (List.mem_cons_self _ _)) (ha t (List.mem_cons_self _ _)) hst
      simp only [store_trees_step, hst, Option.bind_eq_bind, Option.some_bind] at h
      obtain ⟨toks', cs', e1, e2, e3⟩ := ih (acc ++ s) (out ++ cs) toks
        (fun t' h' => hs t' (List.mem_cons_of_mem _ h'))
        (fun t' h' => ha t' (List.mem_cons_of_mem _ h')) h
      refine ⟨s ++ toks', cs ++ cs', by rw [e1, List.append_assoc], ?_, ?_⟩
      · rw [List.foldlM_cons]
        simp only [store_trees_text_step, hcs, Option.bind_eq_bind, Option.some_bind]
        rw [e2, List.append_assoc]
      · intro rest
        rw [List.append_assoc, htok, e3, List.append_assoc]

/-- The characters written for the trees of a forest hold exactly the tokens
of the trees. -/
theorem store_trees_text_tokens (fmt : stream_fmt α) (trees : List (dectree_t α))
    (toks : List String)
    (hs : ∀ t ∈ trees, ∀ n ∈ dectree_t.sizes t, is_token (fmt.put_size n))
    (ha : ∀ t ∈ trees, ∀ s ∈ dectree_t.splitvalues t, is_token (fmt.put_attr s))
    (h : store_trees fmt trees = some toks) :
    ∃ cs, store_trees_text fmt trees = some cs ∧ stream_tokens cs [] = toks := by
  obtain ⟨toks', cs, e1, e2, e3⟩ := store_trees_text_acc fmt trees [] [] toks hs ha h
  refine ⟨cs, by simpa [store_trees_text] using e2, ?_⟩
  have := e3 []
  rw [List.append_nil, stream_tokens_nil] at this
  simpa [e1] using this

end tree_text
end ndectree


/-! C20: storing and loading a model -/

namespace nextratrees
open ndectree

section built_trees
variable {α : Type} [LinearOrder α] [Zero α]
variable {R : Type} [NatCast R] [Zero R] [One R] [Add R] [Sub R] [Mul R] [Div R] [Neg R]
  [LT R] [DecidableRel (fun a b : R => a < b)]
variable {G : Type}

/-- Every leaf of a built tree holds `numclasses` buckets. -/
theorem build_leaves_have (log2 : R → R) (rng : twister_t G α) (exampleset : exampleset_t α)
    (nmin numattr : Nat) :
    ∀ (fuel : Nat) (attrindices indices : List Nat) (g g' : G) (t : dectree_t α),
      build_an_extra_tree log2 rng fuel exampleset attrindices indices nmin numattr g =
        some (t, g') →
      dectree_t.leaves_have t exampleset.numclasses := by
  intro fuel
  induction fuel with
  | zero =>
    intro attrindices indices g g' t h
    simp [build_an_extra_tree] at h
  | succ fuel ih =>
    intro attrindices indices g g' t h
    obtain ⟨cf, hcf, hcase⟩ := build_an_extra_tree_inv log2 rng fuel exampleset attrindices
      indices nmin numattr g g' t h
    obtain ⟨_, hhist⟩ := count_classfreqs_inv exampleset indices cf hcf
    rcases hcase with ⟨ht, _⟩ | ⟨_, _, _, attrs, _, _, _, _, g2, _, leftindices, rightindices,
      left, g3, right, _, _, _, _, _, _, _, _, hleft, hright, ht⟩
    · rw [ht, hhist]
      simp [dectree_t.leaves_have, label_histogram]
    · rw [ht]
      exact ⟨ih attrs leftindices g2 g3 left hleft, ih attrs rightindices g3 g' right hright⟩

theorem make_exset_numclasses {β : Type} (training : cexampleset β) (exset : exampleset_t β)
    (h : make_exset training = some exset) :
    exset.numclasses = training.labelset.length := by
  unfold make_exset at h
  cases hc : copy_attrs training with
  | none => simp [hc] at h
  | some attrs =>
    simp only [hc, Option.some.injEq] at h
    rw [← h]

/-- A forest returned by `build_an_extra_ensemble` has `indextolabel = labelset`,
`numtrees` trees, and `|labelset|` buckets in every leaf. -/
theorem build_an_extra_ensemble_shape (log2 : R → R) (rng : twister_t G α) (fuel : Nat)
    (training : cexampleset α) (numtrees nmin numattr : Nat) (g g' : G) (forest : forest_t α)
    (h : build_an_extra_ensemble log2 rng fuel training numtrees nmin numattr g =
      some (forest, g')) :
    forest.indextolabel = training.labelset ∧ forest.trees.length = numtrees ∧
      ∀ t ∈ forest.trees, dectree_t.leaves_have t training.labelset.length := by
  cases hmk : make_exset training with
  | none => simp [build_an_extra_ensemble, hmk] at h
  | some exset =>
    rw [build_an_extra_ensemble_eq log2 rng fuel training exset numtrees nmin numattr g hmk,
      Option.map_eq_some'] at h
    obtain ⟨p, hp, he⟩ := h
    have hf : forest = { trees := p.1, indextolabel := training.labelset } :=
      (congrArg Prod.fst he).symm
    obtain ⟨hcount, hmem⟩ := build_trees_mem log2 rng fuel exset _ _ nmin numattr numtrees g
      p.1 p.2 hp
    rw [hf]
    refine ⟨rfl, hcount, ?_⟩
    intro t ht
    obtain ⟨g0, g1, hb⟩ := hmem t ht
    rw [← make_exset_numclasses training exset hmk]
    exact build_leaves_have log2 rng exset nmin numattr fuel _ _ g0 g1 t hb

end built_trees

section model_roundtrip
variable {α : Type}

theorem read_labels_roundtrip (fmt : stream_fmt α) :
    ∀ (labels : List Int), (∀ l ∈ labels, fmt.get_label (fmt.put_label l) = some l) →
      read_labels fmt (labels.map fmt.put_label) = labels := by
  intro labels
  induction labels with
  | nil => intro _; rfl
  | cons l ls ih =>
    intro h
    simp only [List.map_cons, read_labels, h l (List.mem_cons_self _ _),
      ih (fun l' hl' => h l' (List.mem_cons_of_mem _ hl'))]

/-- Trees that differ only in split values that compare equal are the same. -/
theorem map_splits_eq_self (reread : α → α) (t : dectree_t α)
    (h : ∀ s ∈ dectree_t.splitvalues t, reread s = s) : dectree_t.map_splits reread t = t := by
  induction t with
  | leaf cf => rfl
  | branch ai s l r ihl ihr =>
    simp only [dectree_t.map_splits, h s (by simp [dectree_t.splitvalues]),
      ihl (fun v hv => h v (by simp [dectree_t.splitvalues, hv])),
      ihr (fun v hv => h v (by simp [dectree_t.splitvalues, hv]))]

theorem names_line_no_newline :
    ∀ (names : List String), (∀ n ∈ names, '\n' ∉ n.data) → '\n' ∉ names_line names := by
  intro names
  induction names with
  | nil =>
    intro _ h
    simp [names_line] at h
  | cons name rest ih =>
    intro hn
    cases rest with
    | nil =>
      simp only [names_line]
      exact hn name (List.mem_cons_self _ _)
    | cons name2 rest2 =>
      simp only [names_line]
      intro hmem
      rcases List.mem_append.mp hmem with h1 | h1
      · exact hn name (List.mem_cons_self _ _) h1
      · rcases List.mem_cons.mp h1 with h2 | h2
        · revert h2
          decide
        · exact ih (fun n h => hn n (List.mem_cons_of_mem _ h)) h2

/-- The first line of a model file, `labelname` and the label values, is free
of line ends and holds the label name and the printed label values as its
tokens. -/
theorem label_line_tokens (fmt : stream_fmt α) (labelname : String) (labels : List Int)
    (hname : is_token labelname) (hlabels : ∀ l ∈ labels, is_token (fmt.put_label l)) :
    '\n' ∉ labelname.data ++ labels.flatMap (fun l => ' ' :: (fmt.put_label l).data) ∧
      labelname.data ++ labels.flatMap (fun l => ' ' :: (fmt.put_label l).data) ≠ [] ∧
      stream_tokens
          (labelname.data ++ labels.flatMap (fun l => ' ' :: (fmt.put_label l).data)) [] =
        labelname :: labels.map fmt.put_label := by
  refine ⟨?_, ?_, stream_tokens_flatMap_before fmt.put_label labels labelname hname hlabels⟩
  · intro hmem
    rcases List.mem_append.mp hmem with h1 | h1
    · exact is_token_no_newline labelname hname h1
    · obtain ⟨l, hl, hc⟩ := List.mem_flatMap.mp h1
      rcases List.mem_cons.mp hc with h2 | h2
      · revert h2
        decide
      · exact is_token_no_newline _ (hlabels l hl) h2
  · intro h
    exact hname.1 (List.append_eq_nil.mp h).1

/-- The fourth line of a model file, four printed sizes, is free of line ends
and holds them as its tokens. -/
theorem params_line_tokens (a b c d : String) (ha : is_token a) (hb : is_token b)
    (hc : is_token c) (hd : is_token d) :
    '\n' ∉ a.data ++ ' ' :: (b.data ++ ' ' :: (c.data ++ ' ' :: d.data)) ∧
      a.data ++ ' ' :: (b.data ++ ' ' :: (c.data ++ ' ' :: d.data)) ≠ [] ∧
      stream_tokens (a.data ++ ' ' :: (b.data ++ ' ' :: (c.data ++ ' ' :: d.data))) [] =
        [a, b, c, d] := by
  refine ⟨?_, ?_, ?_⟩
  · have hsp : '\n' ≠ ' ' := by decide
    simp only [List.mem_append, List.mem_cons, not_or]
    exact ⟨is_token_no_newline a ha, hsp, is_token_no_newline b hb, hsp,
      is_token_no_newline c hc, hsp, is_token_no_newline d hd⟩
  · intro h
    exact ha.1 (List.append_eq_nil.mp h).1
  · rw [stream_tokens_token_space a ha ' ' (by decide),
      stream_tokens_token_space b hb ' ' (by decide),
      stream_tokens_token_space c hc ' ' (by decide), stream_tokens_token d hd]

variable [Zero α]

/-- Storing a model and loading it back, for a label name that is one token,
names free of line ends and no empty header line: the forest read has the same
`indextolabel` and the same trees with every split value replaced by the value
its printed form parses to. -/
theorem load_store_model (fmt : stream_fmt α) (training : cexampleset α)
    (exnames : List String) (forest : forest_t α) (nmin numattr optimizationlayers : Nat)
    (reread : α → α)
    (hname : is_token training.labelname) (hK : training.labelset ≠ [])
    (hexnl : ∀ n ∈ exnames, '\n' ∉ n.data) (hex : names_line exnames ≠ [])
    (hnamesnl : ∀ n ∈ training.names, '\n' ∉ n.data)
    (hnames : names_line training.names ≠ [])
    (hitl : forest.indextolabel = training.labelset)
    (hleaves : ∀ t ∈ forest.trees, dectree_t.leaves_have t training.labelset.length)
    (hlabels : ∀ l ∈ training.labelset,
      is_token (fmt.put_label l) ∧ fmt.get_label (fmt.put_label l) = some l)
    (hparams : ∀ n ∈ [forest.trees.length, nmin, numattr, optimizationlayers],
      is_token (fmt.put_size n) ∧ fmt.get_size (fmt.put_size n) = some n)
    (hsizes : ∀ t ∈ forest.trees, ∀ n ∈ dectree_t.sizes t,
      is_token (fmt.put_size n) ∧ fmt.get_size (fmt.put_size n) = some n)
    (hsplits : ∀ t ∈ forest.trees, ∀ s ∈ dectree_t.splitvalues t,
      is_token (fmt.put_attr s) ∧ fmt.get_attr (fmt.put_attr s) = some (reread s)) :
    ∃ file, storemodeltofile fmt training exnames forest nmin numattr optimizationlayers =
        some file ∧
      ∀ fuel, (∀ t ∈ forest.trees, dectree_t.depth t < fuel) →
        ∃ model : model_t α, loadmodelfromfile fmt fuel file = some (some model) ∧
          model.labelname = training.labelname ∧
          model.forest = { trees := forest.trees.map (dectree_t.map_splits reread)
                           indextolabel := forest.indextolabel } ∧
          model.nmin = nmin ∧ model.numattr = numattr ∧
          model.optimizationlayers = optimizationlayers := by
  obtain ⟨toks, hst, hld⟩ := load_store_trees fmt training.labelset.length
    (List.length_pos.mpr hK) reread forest.trees hleaves
    (fun t ht n hn => (hsizes t ht n hn).2) (fun t ht s hs => (hsplits t ht s hs).2)
  obtain ⟨body, hbody, hbtok⟩ := store_trees_text_tokens fmt forest.trees toks
    (fun t ht n hn => (hsizes t ht n hn).1) (fun t ht s hs => (hsplits t ht s hs).1) hst
  obtain ⟨h1nl, h1ne, h1tok⟩ := label_line_tokens fmt training.labelname training.labelset
    hname (fun l hl => (hlabels l hl).1)
  obtain ⟨h4nl, h4ne, h4tok⟩ := params_line_tokens (fmt.put_size forest.trees.length)
    (fmt.put_size nmin) (fmt.put_size numattr) (fmt.put_size optimizationlayers)
    (hparams _ (by simp)).1 (hparams _ (by simp)).1 (hparams _ (by simp)).1
    (hparams _ (by simp)).1
  have h2nl := names_line_no_newline exnames hexnl
  have h3nl := names_line_no_newline training.names hnamesnl
  cases hfile : storemodeltofile fmt training exnames forest nmin numattr optimizationlayers with
  | none => simp [storemodeltofile, hbody] at hfile
  | some file =>
  simp only [storemodeltofile, hbody, Option.some.injEq] at hfile
  refine ⟨file, rfl, ?_⟩
  intro fuel hf
  obtain ⟨s4, hg4, ht4⟩ := nutil.getline_line _ body h4nl h4ne
  obtain ⟨s3, hg3, ht3⟩ := nutil.getline_line (names_line training.names)
    ((fmt.put_size forest.trees.length).data ++ ' ' :: ((fmt.put_size nmin).data ++ ' ' ::
      ((fmt.put_size numattr).data ++ ' ' ::
        ((fmt.put_size optimizationlayers).data ++ '\n' :: body)))) h3nl hnames
  obtain ⟨s2, hg2, ht2⟩ := nutil.getline_line (names_line exnames)
    (names_line training.names ++ '\n' ::
      ((fmt.put_size forest.trees.length).data ++ ' ' :: ((fmt.put_size nmin).data ++ ' ' ::
        ((fmt.put_size numattr).data ++ ' ' ::
          ((fmt.put_size optimizationlayers).data ++ '\n' :: body))))) h2nl hex
  obtain ⟨s1, hg1, ht1⟩ := nutil.getline_line _
    (names_line exnames ++ '\n' :: (names_line training.names ++ '\n' ::
      ((fmt.put_size forest.trees.length).data ++ ' ' :: ((fmt.put_size nmin).data ++ ' ' ::
        ((fmt.put_size numattr).data ++ ' ' ::
          ((fmt.put_size optimizationlayers).data ++ '\n' :: body)))))) h1nl h1ne
  have hg4' : nutil.getline ((fmt.put_size forest.trees.length).data ++ ' ' ::
      ((fmt.put_size nmin).data ++ ' ' :: ((fmt.put_size numattr).data ++ ' ' ::
        ((fmt.put_size optimizationlayers).data ++ '\n' :: body)))) = some (s4, body) := by
    rw [← hg4]
    congr 1
    simp only [List.append_assoc, List.cons_append]
  have hg1' : nutil.getline (training.labelname.data ++
      (training.labelset.flatMap (fun l => ' ' :: (fmt.put_label l).data) ++ '\n' ::
      (names_line exnames ++ '\n' :: (names_line training.names ++ '\n' ::
      ((fmt.put_size forest.trees.length).data ++ ' ' :: ((fmt.put_size nmin).data ++ ' ' ::
        ((fmt.put_size numattr).data ++ ' ' ::
          ((fmt.put_size optimizationlayers).data ++ '\n' :: body)))))))) =
      some (s1, names_line exnames ++ '\n' :: (names_line training.names ++ '\n' ::
      ((fmt.put_size forest.trees.length).data ++ ' ' :: ((fmt.put_size nmin).data ++ ' ' ::
        ((fmt.put_size numattr).data ++ ' ' ::
          ((fmt.put_size optimizationlayers).data ++ '\n' :: body)))))) := by
    rw [← hg1]
    congr 1
    simp only [List.append_assoc]
  have hl := read_labels_roundtrip fmt training.labelset (fun l hl => (hlabels l hl).2)
  have h := hld fuel [] hf
  rw [List.append_nil] at h
  rw [← hbtok] at h
  refine ⟨{ labelname := training.labelname
            exnames := stream_tokens s2.data []
            attrnames := stream_tokens s3.data []
            forest := { trees := forest.trees.map (dectree_t.map_splits reread)
                        indextolabel := training.labelset }
            nmin := nmin
            numattr := numattr
            optimizationlayers := optimizationlayers }, ?_, rfl, by rw [hitl], rfl, rfl, rfl⟩
  rw [← hfile]
  simp only [loadmodelfromfile, hg1', hg2, hg3, hg4', ht4, h4tok, ht1, h1tok,
    List.tail_cons, hl, (hparams forest.trees.length (by simp)).2,
    (hparams nmin (by simp)).2, (hparams numattr (by simp)).2,
    (hparams optimizationlayers (by simp)).2, h, List.head?_cons, Option.getD_some]

end model_roundtrip
end nextratrees

namespace nextratrees
open ndectree

section stump_run
variable {G : Type}

/-- A run of `build_an_extra_tree` over the reals on two examples of different
classes and one attribute, with `nmin = 1`, `numattr = 1`: one branch at the
split value drawn, over two pure leaves. -/
theorem build_stump_run (rng : twister_t G Int) (exampleset : exampleset_t Int) (g : G)
    (mins maxs : List (Option Int)) (mn mx : Int) (attr : List Int)
    (hcf : count_classfreqs exampleset [0, 1] = some [1, 1])
    (hcc : collect_candidates exampleset [0] [0, 1] = some (mins, maxs, [0]))
    (hmn : mins[0]? = some (some mn)) (hmx : maxs[0]? = some (some mx))
    (hattr : exampleset.attrs[0]? = some attr)
    (hrange : ∀ i ∈ [0, 1], i < attr.length ∧
      ∃ l, exampleset.labels[i]? = some l ∧ l < exampleset.numclasses)
    (hsplit : split_indices attr (rng.urand mn mx g).1 [0, 1] = some ([0], [1]))
    (hl : count_classfreqs exampleset [0] = some [1, 0])
    (hr : count_classfreqs exampleset [1] = some [0, 1]) :
    build_an_extra_tree (Real.logb 2) rng 2 exampleset [0] [0, 1] 1 1 g =
      some (dectree_t.branch 0 (rng.urand mn mx g).1 (dectree_t.leaf [1, 0])
        (dectree_t.leaf [0, 1]), (rng.urand mn mx g).2) := by
  have hpick : pick_attrs rng [0] 1 g = some ([0], g) := by
    simp [pick_attrs]
  obtain ⟨r, hchoose⟩ := choose_split_single_real rng exampleset [0, 1] mins maxs 0 g mn mx attr
    hmn hmx hattr hrange
  have hleft : ∀ g1 : G, build_an_extra_tree (Real.logb 2) rng 1 exampleset [0] [0] 1 1 g1 =
      some (dectree_t.leaf [1, 0], g1) := by
    intro g1
    rw [build_an_extra_tree]
    simp only [hl]
    have e1 : ¬ ([0] : List Nat).length < 1 := by decide
    have e2 : numclassesnonzero [1, 0] = 1 := by decide
    simp only [e1, e2, if_false, if_true]
  have hright : ∀ g1 : G, build_an_extra_tree (Real.logb 2) rng 1 exampleset [0] [1] 1 1 g1 =
      some (dectree_t.leaf [0, 1], g1) := by
    intro g1
    rw [build_an_extra_tree]
    simp only [hr]
    have e1 : ¬ ([1] : List Nat).length < 1 := by decide
    have e2 : numclassesnonzero [0, 1] = 1 := by decide
    simp only [e1, e2, if_false, if_true]
  rw [build_an_extra_tree]
  simp only [hcf, hcc, hpick]
  have e1 : ¬ ([0, 1] : List Nat).length < 1 := by decide
  have e2 : ¬ numclassesnonzero [1, 1] = 1 := by decide
  have e3 : ¬ ([0] : List Nat).length < 1 := by decide
  simp only [e1, e2, e3, if_false, hchoose, hattr, hsplit, hleft, hright]

/-- The forest of one tree built on `scenario_gap` when the split value drawn
is `1000001`. -/
theorem build_gap_run :
    build_an_extra_ensemble (Real.logb 2) rng_next 2 scenario_gap 1 1 1 () =
      some (forest_gap, ()) := by
  have hmk : make_exset scenario_gap = some
      { attrnames := ["x1"], attrs := [[1000000, 1000002]], labelvalues := [0, 1],
        labels := [0, 1], numclasses := 2 } := by decide
  rw [build_an_extra_ensemble_eq (Real.logb 2) rng_next 2 scenario_gap _ 1 1 1 () hmk,
    build_trees_succ]
  have hb := build_stump_run rng_next
    { attrnames := ["x1"], attrs := [[1000000, 1000002]], labelvalues := [0, 1],
      labels := [0, 1], numclasses := 2 } () [some 1000000] [some 1000002] 1000000 1000002
    [1000000, 1000002] (by decide) (by decide) (by decide) (by decide) (by decide) (by decide)
    (by decide) (by decide) (by decide)
  have hb' : build_an_extra_tree (Real.logb 2) rng_next 2
      { attrnames := ["x1"], attrs := [[1000000, 1000002]], labelvalues := [0, 1],
        labels := [0, 1], numclasses := 2 } (List.range 1) (List.range 2) 1 1 () =
      some (dectree_t.branch 0 1000001 (dectree_t.leaf [1, 0]) (dectree_t.leaf [0, 1]), ()) :=
    hb
  simp only [List.length_cons, List.length_nil, Nat.zero_add, Nat.reduceAdd]
  rw [hb']
  rfl

/-- The forest of one tree built on `scenario_near` when the split value drawn
is `2`. -/
theorem build_near_run :
    build_an_extra_ensemble (Real.logb 2) rng_next 2 scenario_near 1 1 1 () =
      some (forest_near, ()) := by
  have hmk : make_exset scenario_near = some
      { attrnames := ["x1"], attrs := [[1, 3]], labelvalues := [0, 1],
        labels := [0, 1], numclasses := 2 } := by decide
  rw [build_an_extra_ensemble_eq (Real.logb 2) rng_next 2 scenario_near _ 1 1 1 () hmk,
    build_trees_succ]
  have hb := build_stump_run rng_next
    { attrnames := ["x1"], attrs := [[1, 3]], labelvalues := [0, 1],
      labels := [0, 1], numclasses := 2 } () [some 1] [some 3] 1 3
    [1, 3] (by decide) (by decide) (by decide) (by decide) (by decide) (by decide)
    (by decide) (by decide) (by decide)
  have hb' : build_an_extra_tree (Real.logb 2) rng_next 2
      { attrnames := ["x1"], attrs := [[1, 3]], labelvalues := [0, 1],
        labels := [0, 1], numclasses := 2 } (List.range 1) (List.range 2) 1 1 () =
      some (dectree_t.branch 0 2 (dectree_t.leaf [1, 0]) (dectree_t.leaf [0, 1]), ()) :=
    hb
  simp only [List.length_cons, List.length_nil, Nat.zero_add, Nat.reduceAdd]
  rw [hb']
  rfl

end stump_run
end nextratrees

namespace nextratrees
open ndectree

section claim_model_roundtrip
variable {α : Type} [LinearOrder α] [Zero α]
variable {R : Type} [NatCast R] [Zero R] [One R] [Add R] [Sub R] [Mul R] [Div R] [Neg R]
  [LT R] [DecidableRel (fun a b : R => a < b)]
variable {G : Type}

/-- C20, amended: for every forest `F` produced by `build_an_extra_ensemble`
from a training set with at least one label value and a label name that is one
token (not empty, no white space), stored with feature names and excluded
names that hold no line end and leave neither of their two lines empty, under
a stream formatting that writes each label, `size_t` value and split value as
one token, reads back the labels and the `size_t` values written and reads a
split value `s` back as `reread s`: `storemodeltofile` followed by
`loadmodelfromfile` yields the forest `F'` with the `indextolabel` of `F` and
the trees of `F` in which every split value `s` is replaced by `reread s`;
when every split value of `F` is read back as itself, `F' = F` and
`F'(x) = F(x)` for every feature vector `x`. -/
theorem model_roundtrip_classifies (log2 : R → R) (rng : twister_t G α) (fuel : Nat)
    (training : cexampleset α) (numtrees nmin numattr : Nat) (g g' : G) (forest : forest_t α)
    (fmt : stream_fmt α) (exnames : List String) (optimizationlayers : Nat) (reread : α → α)
    (hbuild : build_an_extra_ensemble log2 rng fuel training numtrees nmin numattr g =
      some (forest, g'))
    (hname : is_token training.labelname) (hK : training.labelset ≠ [])
    (hexnl : ∀ n ∈ exnames, '\n' ∉ n.data) (hex : names_line exnames ≠ [])
    (hnamesnl : ∀ n ∈ training.names, '\n' ∉ n.data)
    (hnames : names_line training.names ≠ [])
    (hlabels : ∀ l ∈ training.labelset,
      is_token (fmt.put_label l) ∧ fmt.get_label (fmt.put_label l) = some l)
    (hparams : ∀ n ∈ [numtrees, nmin, numattr, optimizationlayers],
      is_token (fmt.put_size n) ∧ fmt.get_size (fmt.put_size n) = some n)
    (hsizes : ∀ t ∈ forest.trees, ∀ n ∈ dectree_t.sizes t,
      is_token (fmt.put_size n) ∧ fmt.get_size (fmt.put_size n) = some n)
    (hsplits : ∀ t ∈ forest.trees, ∀ s ∈ dectree_t.splitvalues t,
      is_token (fmt.put_attr s) ∧ fmt.get_attr (fmt.put_attr s) = some (reread s)) :
    ∃ file, storemodeltofile fmt training exnames forest nmin numattr optimizationlayers =
        some file ∧
      ∀ fuel', (∀ t ∈ forest.trees, dectree_t.depth t < fuel') →
        ∃ model, loadmodelfromfile fmt fuel' file = some (some model) ∧
          model.forest = { trees := forest.trees.map (dectree_t.map_splits reread)
                           indextolabel := forest.indextolabel } ∧
          ((∀ t ∈ forest.trees, ∀ s ∈ dectree_t.splitvalues t, reread s = s) →
            model.forest = forest ∧
              ∀ x : List α, model.forest.classify x = forest.classify x) := by
  obtain ⟨hitl, hcount, hleaves⟩ := build_an_extra_ensemble_shape log2 rng fuel training numtrees
    nmin numattr g g' forest hbuild
  obtain ⟨file, hst, hld⟩ := load_store_model fmt training exnames forest nmin numattr
    optimizationlayers reread hname hK hexnl hex hnamesnl hnames hitl hleaves hlabels
    (by rw [hcount]; exact hparams)
    hsizes hsplits
  refine ⟨file, hst, ?_⟩
  intro fuel' hf
  obtain ⟨model, hload, _, hforest, _⟩ := hld fuel' hf
  refine ⟨model, hload, hforest, ?_⟩
  intro hid
  have hmap : forest.trees.map (dectree_t.map_splits reread) = forest.trees := by
    rw [List.map_congr_left (fun t ht => map_splits_eq_self reread t (hid t ht)), List.map_id']
  have hF : model.forest = forest := by
    rw [hforest, hmap]
  exact ⟨hF, fun x => by rw [hF]⟩

/-- Witness for C20 as amended: the forest built on `scenario_near` has the
split value `2`, which the decimal formatting reads back as `2`. -/
theorem model_roundtrip_classifies_witness :
    (build_an_extra_ensemble (Real.logb 2) rng_next 2 scenario_near 1 1 1 () =
        some (forest_near, ()) ∧
      is_token scenario_near.labelname ∧ scenario_near.labelset ≠ [] ∧
      (∀ n ∈ ["id"], '\n' ∉ n.data) ∧ names_line ["id"] ≠ [] ∧
      (∀ n ∈ scenario_near.names, '\n' ∉ n.data) ∧ names_line scenario_near.names ≠ [] ∧
      (∀ l ∈ scenario_near.labelset, is_token (fmt_decimal.put_label l) ∧
        fmt_decimal.get_label (fmt_decimal.put_label l) = some l) ∧
      (∀ n ∈ [1, 1, 1, 1], is_token (fmt_decimal.put_size n) ∧
        fmt_decimal.get_size (fmt_decimal.put_size n) = some n) ∧
      (∀ t ∈ forest_near.trees, ∀ n ∈ dectree_t.sizes t, is_token (fmt_decimal.put_size n) ∧
        fmt_decimal.get_size (fmt_decimal.put_size n) = some n) ∧
      (∀ t ∈ forest_near.trees, ∀ s ∈ dectree_t.splitvalues t,
        is_token (fmt_decimal.put_attr s) ∧
          fmt_decimal.get_attr (fmt_decimal.put_attr s) = some s)) ∧
    ∃ file, storemodeltofile fmt_decimal scenario_near ["id"] forest_near 1 1 1 = some file ∧
      ∀ fuel', (∀ t ∈ forest_near.trees, dectree_t.depth t < fuel') →
        ∃ model, loadmodelfromfile fmt_decimal fuel' file = some (some model) ∧
          model.forest = forest_near ∧
          ∀ x : List Int, model.forest.classify x = forest_near.classify x := by
  obtain ⟨file, h1, h2⟩ := model_roundtrip_classifies (Real.logb 2) rng_next 2 scenario_near
    1 1 1 () () forest_near fmt_decimal ["id"] 1 (fun s => s) build_near_run (by decide)
    (by decide) (by decide) (by decide) (by decide) (by decide) (by decide) (by decide)
    (by decide) (by decide)
  refine ⟨⟨build_near_run, by decide, by decide, by decide, by decide, by decide, by decide,
    by decide, by decide, by decide, by decide⟩, file, h1, ?_⟩
  intro fuel' hf
  obtain ⟨model, h3, _, h5⟩ := h2 fuel' hf
  obtain ⟨h6, h7⟩ := h5 (fun _ _ _ _ => rfl)
  exact ⟨model, h3, h6, h7⟩

/-- Counterexample to C20: `build_an_extra_ensemble` on the rows `(1000000, 0)`
and `(1000002, 1)` with the split value `1000001` drawn returns a forest that
classifies `1000000` as `0`; `storemodeltofile` writes the split value as
`1e+06`, and the forest read by `loadmodelfromfile` classifies `1000000`
as `1`. -/
theorem model_roundtrip_changes_class :
    build_an_extra_ensemble (Real.logb 2) rng_next 2 scenario_gap 1 1 1 () =
      some (forest_gap, ()) ∧
    storemodeltofile fmt_decimal scenario_gap ["id"] forest_gap 1 1 1 = some file_gap ∧
    (loadmodelfromfile fmt_decimal 2 file_gap).map (fun r => r.map (fun model => model.forest)) =
      some (some forest_gap_reread) ∧
    forest_gap.classify [1000000] = some 0 ∧
    forest_gap_reread.classify [1000000] = some 1 :=
  ⟨build_gap_run, by decide, by decide, by decide, by decide⟩

/-- A label name with a blank is written as it is and read back as two
tokens: the label name read is its first word, the second word ends the list
of label values, and the trees are then read for no class at all. -/
theorem labelname_with_blank_is_resplit :
    storemodeltofile fmt_decimal
        { names := ["x1"], featurevectors := [[1], [3]], labelname := "class label",
          labels := [0, 1], labelset := [0, 1] } ["id"] forest_near 1 1 1 =
      some "class label 0 1\nid\nx1\n1 1 1 1\n+ 0 2\n\\ 1 0\n\\ 0 1\n" ∧
    read_labels fmt_decimal (stream_tokens "class label 0 1".data []).tail = [] ∧
    (loadmodelfromfile fmt_decimal 2
        "class label 0 1\nid\nx1\n1 1 1 1\n+ 0 2\n\\ 1 0\n\\ 0 1\n" :
      Option (Option (model_t Int))).isSome = true ∧
    ((loadmodelfromfile fmt_decimal 2
        "class label 0 1\nid\nx1\n1 1 1 1\n+ 0 2\n\\ 1 0\n\\ 0 1\n" :
      Option (Option (model_t Int))).bind (fun r => r)).isSome = false :=
  ⟨by decide, by decide, by decide, by decide⟩

end claim_model_roundtrip
end nextratrees

/-! The sampled attribute list -/

namespace nextratrees
open ndectree

section pick_perm
variable {α : Type} {G : Type}

/-- The swap-pop loop moves attributes from the candidates to the selection:
what is selected together with what is left is a permutation of what there
was. -/
theorem pick_loop_perm (rng : twister_t G α) :
    ∀ (k : Nat) (attrcandidates attrs : List Nat) (g : G), k ≤ attrcandidates.length →
      ∃ attrs' rest g', pick_loop rng k attrcandidates attrs g = some (attrs', g') ∧
        attrs'.length = attrs.length + k ∧
        List.Perm (attrs' ++ rest) (attrs ++ attrcandidates) := by
  intro k
  induction k with
  | zero =>
    intro cands attrs g _
    exact ⟨attrs, cands, g, rfl, rfl, List.Perm.refl _⟩
  | succ k ih =>
    intro cands attrs g hk
    have hlen : cands.length ≠ 0 := by omega
    have htarget : (rng.urand_sizet g).1 % cands.length < cands.length :=
      Nat.mod_lt _ (by omega)
    have hlast : cands.length - 1 < cands.length := by omega
    have hc : cands[(rng.urand_sizet g).1 % cands.length]? =
        some cands[(rng.urand_sizet g).1 % cands.length] := List.getElem?_eq_getElem htarget
    have hne : cands ≠ [] := by
      intro h
      apply hlen
      rw [h]
      rfl
    have hback : cands.getLast? = some cands[cands.length - 1] := by
      rw [List.getLast?_eq_getLast _ hne, List.getLast_eq_getElem]
    simp only [pick_loop, hlen, if_false, hc, hback]
    have hswap : List.Perm
        ((cands.set ((rng.urand_sizet g).1 % cands.length) cands[cands.length - 1]).set
          (cands.length - 1) cands[(rng.urand_sizet g).1 % cands.length]) cands :=
      nexamples.swap_perm cands _ _ htarget hlast (by omega)
    have hsne : (cands.set ((rng.urand_sizet g).1 % cands.length) cands[cands.length - 1]).set
        (cands.length - 1) cands[(rng.urand_sizet g).1 % cands.length] ≠ [] := by
      intro h
      have := congrArg List.length h
      simp only [List.length_set, List.length_nil] at this
      omega
    have hgl : ((cands.set ((rng.urand_sizet g).1 % cands.length) cands[cands.length - 1]).set
        (cands.length - 1) cands[(rng.urand_sizet g).1 % cands.length]).getLast hsne =
        cands[(rng.urand_sizet g).1 % cands.length] := by
      rw [List.getLast_eq_getElem]
      simp
    have hsplit := List.dropLast_append_getLast hsne
    rw [hgl] at hsplit
    obtain ⟨attrs', rest, g', h1, h2, h3⟩ := ih
      (((cands.set ((rng.urand_sizet g).1 % cands.length) cands[cands.length - 1]).set
        (cands.length - 1) cands[(rng.urand_sizet g).1 % cands.length]).dropLast)
      (attrs ++ [cands[(rng.urand_sizet g).1 % cands.length]]) (rng.urand_sizet g).2
      (by simp; omega)
    refine ⟨attrs', rest, g', h1, ?_, ?_⟩
    · rw [h2]
      simp
      omega
    · refine h3.trans ?_
      rw [List.append_assoc]
      refine List.Perm.append_left attrs ?_
      refine (List.perm_append_comm).trans ?_
      rw [hsplit]
      exact hswap

/-- With `numattr ≥ 1` the selection completes with exactly
`min(numattr, |attrcandidates|)` attributes, all of them candidates, and
without repetition when the candidates have none. -/
theorem pick_attrs_sample (rng : twister_t G α) (attrcandidates : List Nat) (numattr : Nat)
    (g : G) (hnum : 1 ≤ numattr) :
    ∃ attrs g', pick_attrs rng attrcandidates numattr g = some (attrs, g') ∧
      attrs.length = min numattr attrcandidates.length ∧
      (∀ a ∈ attrs, a ∈ attrcandidates) ∧
      (attrcandidates.Nodup → attrs.Nodup) := by
  unfold pick_attrs
  by_cases h : attrcandidates.length = 1 ∨ attrcandidates.length ≤ numattr
  · rw [if_pos h]
    refine ⟨attrcandidates, g, rfl, ?_, fun a ha => ha, fun hn => hn⟩
    rcases h with h | h
    · rw [h]
      omega
    · omega
  · rw [if_neg h]
    simp only [not_or, not_le] at h
    obtain ⟨attrs, rest, g', h1, h2, h3⟩ := pick_loop_perm rng numattr attrcandidates [] g
      (by omega)
    simp only [List.nil_append] at h3
    refine ⟨attrs, g', h1, ?_, ?_, ?_⟩
    · rw [h2]
      simp
      omega
    · intro a ha
      exact h3.subset (List.mem_append_left _ ha)
    · intro hn
      exact (List.nodup_append.mp (h3.nodup_iff.mpr hn)).1

end pick_perm

section candidates_sublist
variable {α : Type} [LinearOrder α]

theorem collect_candidates_fold_sublist (exampleset : exampleset_t α) (indices : List Nat) :
    ∀ (l : List Nat) (st st' : List (Option α) × List (Option α) × List Nat),
      l.foldlM (collect_candidates_step exampleset indices) st = some st' →
      ∃ sub, List.Sublist sub l ∧ st'.2.2 = st.2.2 ++ sub := by
  intro l
  induction l with
  | nil =>
    intro st st' h
    simp only [List.foldlM_nil, Option.pure_def, Option.some.injEq] at h
    subst h
    exact ⟨[], List.Sublist.refl _, by simp⟩
  | cons a rest ih =>
    intro st st' h
    simp only [List.foldlM_cons, Option.bind_eq_bind, collect_candidates_step] at h
    cases hattr : exampleset.attrs[a]? with
    | none => simp [hattr] at h
    | some attr =>
      cases hmm : attr_minmax attr indices with
      | none => simp [hattr, hmm] at h
      | some mm =>
        simp only [hattr, hmm, Option.some_bind] at h
        obtain ⟨sub, hs, he⟩ := ih _ _ h
        simp only at he
        by_cases hlt : mm.1 < mm.2
        · simp only [hlt, if_true, List.append_assoc, List.singleton_append] at he
          exact ⟨a :: sub, hs.cons₂ a, he⟩
        · simp only [hlt, if_false] at he
          exact ⟨sub, hs.cons a, he⟩

/-- The candidates are a sublist of `attrindices`: same order, no attribute
twice unless `attrindices` has it twice. -/
theorem collect_candidates_sublist (exampleset : exampleset_t α) (attrindices indices : List Nat)
    (mins maxs : List (Option α)) (attrcandidates : List Nat)
    (h : collect_candidates exampleset attrindices indices = some (mins, maxs, attrcandidates)) :
    List.Sublist attrcandidates attrindices := by
  obtain ⟨sub, hs, he⟩ := collect_candidates_fold_sublist exampleset indices attrindices _ _ h
  simp only [List.nil_append] at he
  rw [he]
  exact hs

end candidates_sublist
end nextratrees

namespace nextratrees
open ndectree

section pick_subset
variable {α : Type} {G : Type}

/-- Whatever `numattr` is, a completed selection holds candidates only. -/
theorem pick_attrs_subset (rng : twister_t G α) (attrcandidates : List Nat) (numattr : Nat)
    (g g1 : G) (attrs : List Nat)
    (h : pick_attrs rng attrcandidates numattr g = some (attrs, g1)) :
    ∀ a ∈ attrs, a ∈ attrcandidates := by
  unfold pick_attrs at h
  by_cases hc : attrcandidates.length = 1 ∨ attrcandidates.length ≤ numattr
  · rw [if_pos hc] at h
    have he : attrcandidates = attrs := congrArg Prod.fst (Option.some.inj h)
    rw [← he]
    exact fun a ha => ha
  · rw [if_neg hc] at h
    simp only [not_or, not_le] at hc
    obtain ⟨attrs', g', h1, _, h3⟩ := pick_loop_spec rng numattr attrcandidates [] g (by omega)
    rw [h1] at h
    have he : attrs' = attrs := congrArg Prod.fst (Option.some.inj h)
    rw [← he]
    intro a ha
    rcases h3 a ha with h' | h'
    · simp at h'
    · exact h'

end pick_subset

section sampled_subset
variable {α : Type} [LinearOrder α]
variable {R : Type} [NatCast R] [Zero R] [One R] [Add R] [Sub R] [Mul R] [Div R] [Neg R]
  [LT R] [DecidableRel (fun a b : R => a < b)]
variable {G : Type}

theorem choose_split_fold_mem (log2 : R → R) (rng : twister_t G α) (exampleset : exampleset_t α)
    (indices : List Nat) (mins maxs : List (Option α)) :
    ∀ (l : List Nat) (st st' : (Nat × α × R) × G),
      l.foldlM (choose_split_step log2 rng exampleset indices mins maxs) st = some st' →
      st'.1.1 = st.1.1 ∨ st'.1.1 ∈ l := by
  intro l
  induction l with
  | nil =>
    intro st st' h
    simp only [List.foldlM_nil, Option.pure_def, Option.some.injEq] at h
    rw [h]
    exact Or.inl rfl
  | cons ai rest ih =>
    intro st st' h
    rw [List.foldlM_cons] at h
    cases hs : choose_split_step log2 rng exampleset indices mins maxs st ai with
    | none => simp [hs] at h
    | some st1 =>
      simp only [hs, Option.bind_eq_bind, Option.some_bind] at h
      have h1 : st1.1.1 = st.1.1 ∨ st1.1.1 = ai := by
        unfold choose_split_step at hs
        split at hs
        · simp only at hs
          split at hs
          · cases hs
          · split at hs
            · simp only [Option.some.injEq] at hs
              rw [← hs]
              exact Or.inr rfl
            · simp only [Option.some.injEq] at hs
              rw [← hs]
              exact Or.inl rfl
        · cases hs
      rcases ih st1 st' h with h2 | h2
      · rcases h1 with h1 | h1
        · exact Or.inl (h2.trans h1)
        · exact Or.inr (by rw [h2, h1]; exact List.mem_cons_self _ _)
      · exact Or.inr (List.mem_cons_of_mem _ h2)

variable [Zero α]

/-- The attribute chosen by the best-split block is one of the selected
attributes, for every arithmetic of the scores. -/
theorem choose_split_mem (log2 : R → R) (rng : twister_t G α) (exampleset : exampleset_t α)
    (indices : List Nat) (mins maxs : List (Option α)) (attrs : List Nat) (g : G)
    (st : (Nat × α × R) × G)
    (h : choose_split log2 rng exampleset indices mins maxs attrs g = some st) :
    st.1.1 ∈ attrs := by
  unfold choose_split at h
  cases attrs with
  | nil => simp at h
  | cons a0 rest =>
    simp only [List.getElem?_cons_zero] at h
    rcases choose_split_fold_mem log2 rng exampleset indices mins maxs _ _ _ h with h1 | h1
    · rw [h1]
      exact List.mem_cons_self _ _
    · exact h1

/-- Every attribute tested in a built tree is an attribute of the list the
call received. -/
theorem build_attrindices_subset (log2 : R → R) (rng : twister_t G α)
    (exampleset : exampleset_t α) (nmin numattr : Nat) :
    ∀ (fuel : Nat) (attrindices indices : List Nat) (g g' : G) (t : dectree_t α),
      build_an_extra_tree log2 rng fuel exampleset attrindices indices nmin numattr g =
        some (t, g') →
      ∀ a ∈ dectree_t.attrindices t, a ∈ attrindices := by
  intro fuel
  induction fuel with
  | zero =>
    intro attrindices indices g g' t h
    simp [build_an_extra_tree] at h
  | succ fuel ih =>
    intro attrindices indices g g' t h
    obtain ⟨cf, _, hcase⟩ := build_an_extra_tree_inv log2 rng fuel exampleset attrindices
      indices nmin numattr g g' t h
    rcases hcase with ⟨ht, _⟩ | ⟨mins, maxs, attrcandidates, attrs, g1, bestattr, bestsplit,
      bestscore, g2, attr, leftindices, rightindices, left, g3, right, _, _, hcc, _, hpick,
      hchoose, _, _, hleft, hright, ht⟩
    · rw [ht]
      intro a ha
      simp [dectree_t.attrindices] at ha
    · have hsub : ∀ a ∈ attrs, a ∈ attrindices := by
        intro a ha
        exact ((collect_candidates_spec exampleset attrindices indices mins maxs
          attrcandidates hcc).2 a (pick_attrs_subset rng attrcandidates numattr g g1 attrs
            hpick a ha)).1
      have hbest : bestattr ∈ attrs :=
        choose_split_mem log2 rng exampleset indices mins maxs attrs g1 _ hchoose
      rw [ht]
      intro a ha
      simp only [dectree_t.attrindices, List.mem_cons, List.mem_append] at ha
      rcases ha with rfl | ha | ha
      · exact hsub _ hbest
      · exact hsub a (ih attrs leftindices g2 g3 left hleft a ha)
      · exact hsub a (ih attrs rightindices g3 g' right hright a ha)

end sampled_subset
end nextratrees

/-! The sampled attributes of a branch and of the tree below it -/

namespace nextratrees
open ndectree

section claim_sampling
variable {α : Type} [LinearOrder α] [Zero α]
variable {R : Type} [NatCast R] [Zero R] [One R] [Add R] [Sub R] [Mul R] [Div R] [Neg R]
  [LT R] [DecidableRel (fun a b : R => a < b)]
variable {G : Type}

/-- C27: for every call of `build_an_extra_tree` with `numattr ≥ 1` and a
duplicate-free attribute list `A` that returns a branch, whatever the generator
draws: the candidate list `A'` holds exactly the attributes of `A` that are
non-constant on `I`, the sampled list `S` has exactly `min(numattr, |A'|)`
entries, pairwise distinct, each a member of `A'`, and both children are built
from `S`, which is duplicate-free again. -/
theorem sampled_attributes (log2 : R → R) (rng : twister_t G α) (fuel : Nat)
    (exampleset : exampleset_t α) (attrindices indices : List Nat) (nmin numattr : Nat)
    (g g' : G) (j : Nat) (s : α) (l r : dectree_t α)
    (hnum : 1 ≤ numattr) (hnodup : attrindices.Nodup)
    (hbuild : build_an_extra_tree log2 rng (fuel + 1) exampleset attrindices indices nmin
      numattr g = some (dectree_t.branch j s l r, g')) :
    ∃ mins maxs attrcandidates attrs g1,
      collect_candidates exampleset attrindices indices = some (mins, maxs, attrcandidates) ∧
      (∀ ai, ai ∈ attrcandidates ↔ ai ∈ attrindices ∧ is_candidate exampleset indices ai) ∧
      pick_attrs rng attrcandidates numattr g = some (attrs, g1) ∧
      attrs.length = min numattr attrcandidates.length ∧
      attrs.Nodup ∧ (∀ a ∈ attrs, a ∈ attrcandidates) ∧
      ∃ leftindices rightindices g2 g3,
        build_an_extra_tree log2 rng fuel exampleset attrs leftindices nmin numattr g2 =
          some (l, g3) ∧
        build_an_extra_tree log2 rng fuel exampleset attrs rightindices nmin numattr g3 =
          some (r, g') := by
  obtain ⟨cf, _, hcase⟩ := build_an_extra_tree_inv log2 rng fuel exampleset attrindices
    indices nmin numattr g g' _ hbuild
  rcases hcase with ⟨ht, _⟩ | ⟨mins, maxs, attrcandidates, attrs, g1, bestattr, bestsplit,
    bestscore, g2, attr, leftindices, rightindices, left, g3, right, _, _, hcc, _, hpick,
    _, _, _, hleft, hright, ht⟩
  · cases ht
  · obtain ⟨attrs', g1', h1, h2, h3, h4⟩ := pick_attrs_sample rng attrcandidates numattr g hnum
    rw [hpick] at h1
    have he : attrs = attrs' := congrArg Prod.fst (Option.some.inj h1)
    have hl : left = l := by
      injection ht with _ _ h5 _
      exact h5.symm
    have hr : right = r := by
      injection ht with _ _ _ h6
      exact h6.symm
    refine ⟨mins, maxs, attrcandidates, attrs, g1, hcc, ?_, hpick, by rw [he]; exact h2,
      by rw [he]; exact h4 ((collect_candidates_sublist exampleset attrindices indices mins maxs
        attrcandidates hcc).nodup hnodup), by rw [he]; exact h3,
      leftindices, rightindices, g2, g3, by rw [← hl]; exact hleft, by rw [← hr]; exact hright⟩
    intro ai
    constructor
    · exact (collect_candidates_spec exampleset attrindices indices mins maxs attrcandidates
        hcc).2 ai
    · rintro ⟨h5, h6⟩
      exact (collect_candidates_conv exampleset attrindices indices mins maxs attrcandidates
        hcc).1 ai h5 h6

/-- Witness for C27: the branch built on scenario S1 with `numattr = 1` from
the attribute list `[0, 1]`. -/
theorem sampled_attributes_witness :
    (1 ≤ 1 ∧ ([0, 1] : List Nat).Nodup ∧
      build_an_extra_tree (Real.logb 2) rng_max 2 scenario_S1 [0, 1] [0, 1, 2, 3] 1 1 () =
        some (dectree_t.branch 0 1 (dectree_t.leaf [2, 0]) (dectree_t.leaf [0, 2]), ())) ∧
    ∃ mins maxs attrcandidates attrs g1,
      collect_candidates scenario_S1 [0, 1] [0, 1, 2, 3] = some (mins, maxs, attrcandidates) ∧
      (∀ ai, ai ∈ attrcandidates ↔
        ai ∈ [0, 1] ∧ is_candidate scenario_S1 [0, 1, 2, 3] ai) ∧
      pick_attrs rng_max attrcandidates 1 () = some (attrs, g1) ∧
      attrs.length = min 1 attrcandidates.length ∧
      attrs.Nodup ∧ (∀ a ∈ attrs, a ∈ attrcandidates) ∧
      ∃ leftindices rightindices g2 g3,
        build_an_extra_tree (Real.logb 2) rng_max 1 scenario_S1 attrs leftindices 1 1 g2 =
          some (dectree_t.leaf [2, 0], g3) ∧
        build_an_extra_tree (Real.logb 2) rng_max 1 scenario_S1 attrs rightindices 1 1 g3 =
          some (dectree_t.leaf [0, 2], ()) :=
  ⟨⟨by decide, by decide, build_S1_run⟩,
    sampled_attributes (Real.logb 2) rng_max 1 scenario_S1 [0, 1] [0, 1, 2, 3] 1 1 () () 0 1
      (dectree_t.leaf [2, 0]) (dectree_t.leaf [0, 2]) (by decide) (by decide) build_S1_run⟩

/-- C29: for every call of `build_an_extra_tree` with `numattr ≥ 1` that
returns a branch: both children are built from the sampled list `S` of the
call, `S` has at most `numattr` entries, and the attribute tested by every
branch node of the returned tree (the root and every node below it) is a member
of `S`; hence the tree tests at most `numattr` distinct attributes, and with
`numattr = 1` every branch node tests the attribute of the root.  Applied to
the call of each ancestor of a node, this places the node's attribute in the
list sampled at every one of its ancestors. -/
theorem branches_test_sampled_attributes (log2 : R → R) (rng : twister_t G α) (fuel : Nat)
    (exampleset : exampleset_t α) (attrindices indices : List Nat) (nmin numattr : Nat)
    (g g' : G) (j : Nat) (s : α) (l r : dectree_t α)
    (hnum : 1 ≤ numattr)
    (hbuild : build_an_extra_tree log2 rng (fuel + 1) exampleset attrindices indices nmin
      numattr g = some (dectree_t.branch j s l r, g')) :
    ∃ mins maxs attrcandidates attrs g1 leftindices rightindices g2 g3,
      collect_candidates exampleset attrindices indices = some (mins, maxs, attrcandidates) ∧
      pick_attrs rng attrcandidates numattr g = some (attrs, g1) ∧
      build_an_extra_tree log2 rng fuel exampleset attrs leftindices nmin numattr g2 =
        some (l, g3) ∧
      build_an_extra_tree log2 rng fuel exampleset attrs rightindices nmin numattr g3 =
        some (r, g') ∧
      attrs.length ≤ numattr ∧
      (∀ a ∈ dectree_t.attrindices (dectree_t.branch j s l r), a ∈ attrs) ∧
      (dectree_t.attrindices (dectree_t.branch j s l r)).dedup.length ≤ numattr ∧
      (numattr = 1 → ∀ a ∈ dectree_t.attrindices (dectree_t.branch j s l r), a = j) := by
  obtain ⟨cf, _, hcase⟩ := build_an_extra_tree_inv log2 rng fuel exampleset attrindices
    indices nmin numattr g g' _ hbuild
  rcases hcase with ⟨ht, _⟩ | ⟨mins, maxs, attrcandidates, attrs, g1, bestattr, bestsplit,
    bestscore, g2, attr, leftindices, rightindices, left, g3, right, _, _, hcc, _, hpick,
    hchoose, _, _, hleft, hright, ht⟩
  · cases ht
  · obtain ⟨attrs', g1', h1, h2, _, _⟩ := pick_attrs_sample rng attrcandidates numattr g hnum
    rw [hpick] at h1
    have he : attrs = attrs' := congrArg Prod.fst (Option.some.inj h1)
    have hlen : attrs.length ≤ numattr := by
      rw [he, h2]
      exact Nat.min_le_left _ _
    have hbest : bestattr ∈ attrs :=
      choose_split_mem log2 rng exampleset indices mins maxs attrs g1 _ hchoose
    have hall : ∀ a ∈ dectree_t.attrindices (dectree_t.branch j s l r), a ∈ attrs := by
      rw [ht]
      intro a ha
      simp only [dectree_t.attrindices, List.mem_cons, List.mem_append] at ha
      rcases ha with rfl | ha | ha
      · exact hbest
      · exact build_attrindices_subset log2 rng exampleset nmin numattr fuel attrs leftindices
          g2 g3 left hleft a ha
      · exact build_attrindices_subset log2 rng exampleset nmin numattr fuel attrs rightindices
          g3 g' right hright a ha
    have hj : j = bestattr := by
      injection ht with h5 _ _ _
    have hl : left = l := by
      injection ht with _ _ h5 _
      exact h5.symm
    have hr : right = r := by
      injection ht with _ _ _ h6
      exact h6.symm
    refine ⟨mins, maxs, attrcandidates, attrs, g1, leftindices, rightindices, g2, g3, hcc, hpick,
      by rw [← hl]; exact hleft, by rw [← hr]; exact hright, hlen, hall, ?_, ?_⟩
    · have hsub : (dectree_t.attrindices (dectree_t.branch j s l r)).dedup ⊆ attrs :=
        fun a ha => hall a (List.mem_dedup.mp ha)
      exact le_trans (List.subperm_of_subset (List.nodup_dedup _) hsub).length_le hlen
    · intro h1 a ha
      have hone : attrs.length = 1 := by
        have := List.length_pos_of_mem hbest
        omega
      obtain ⟨x, hx⟩ := List.length_eq_one.mp hone
      have ha' := hall a ha
      rw [hx] at ha' hbest
      rw [hj, List.mem_singleton.mp ha', List.mem_singleton.mp hbest]

/-- Witness for C29: the tree built on scenario S1 with `numattr = 1` tests
attribute 0 only. -/
theorem branches_test_sampled_attributes_witness :
    (1 ≤ 1 ∧
      build_an_extra_tree (Real.logb 2) rng_max 2 scenario_S1 [0, 1] [0, 1, 2, 3] 1 1 () =
        some (dectree_t.branch 0 1 (dectree_t.leaf [2, 0]) (dectree_t.leaf [0, 2]), ())) ∧
    (dectree_t.attrindices (dectree_t.branch 0 (1 : Int) (dectree_t.leaf [2, 0])
        (dectree_t.leaf [0, 2]))).dedup.length ≤ 1 ∧
    ∀ a ∈ dectree_t.attrindices (dectree_t.branch 0 (1 : Int) (dectree_t.leaf [2, 0])
        (dectree_t.leaf [0, 2])), a = 0 := by
  obtain ⟨_, _, _, _, _, _, _, _, _, _, _, _, _, _, _, h1, h2⟩ :=
    branches_test_sampled_attributes (Real.logb 2) rng_max 1 scenario_S1 [0, 1] [0, 1, 2, 3] 1 1
      () () 0 1 (dectree_t.leaf [2, 0]) (dectree_t.leaf [0, 2]) (by decide) build_S1_run
  exact ⟨⟨by decide, build_S1_run⟩, h1, h2 rfl⟩

end claim_sampling
end nextratrees

/-! The best-split loop as a fold over the drawn triples -/

namespace nextratrees
open ndectree

section first_max

/-- Folding the strictly-greater comparison over a list returns either the
initial triple, when no entry exceeds it, or the first entry attaining the
maximum; the comparison is that of any total preorder. -/
theorem first_max_fold {β : Type} {R : Type} [Preorder R] [IsTotal R (· ≤ ·)]
    [DecidableRel (fun a b : R => a < b)] :
    ∀ (ds : List (Nat × β × R)) (best : Nat × β × R),
      (ds.foldl first_max_step best = best ∧
          ∀ d ∈ ds, d.2.2 ≤ best.2.2) ∨
        ∃ i : Nat, ds[i]? = some (ds.foldl first_max_step best) ∧
          best.2.2 < (ds.foldl first_max_step best).2.2 ∧
          (∀ d ∈ ds, d.2.2 ≤ (ds.foldl first_max_step best).2.2) ∧
          ∀ k : Nat, k < i → ∀ d, ds[k]? = some d →
            d.2.2 < (ds.foldl first_max_step best).2.2 := by
  intro ds
  induction ds with
  | nil =>
    intro best
    exact Or.inl ⟨rfl, fun d hd => by simp at hd⟩
  | cons d rest ih =>
    intro best
    rw [List.foldl_cons]
    by_cases hgt : d.2.2 > best.2.2
    · have hstep : first_max_step best d = d := by simp only [first_max_step, hgt, if_true]
      rw [hstep]
      rcases ih d with ⟨h1, h2⟩ | ⟨i, h1, h2, h3, h4⟩
      · right
        refine ⟨0, by rw [h1]; simp, by rw [h1]; exact hgt, ?_, fun k hk => by omega⟩
        intro x hx
        rw [h1]
        rcases List.mem_cons.mp hx with rfl | hx
        · exact le_refl _
        · exact h2 x hx
      · right
        refine ⟨i + 1, by simpa using h1, lt_trans hgt h2, ?_, ?_⟩
        · intro x hx
          rcases List.mem_cons.mp hx with rfl | hx
          · exact le_of_lt h2
          · exact h3 x hx
        · intro k hk x hx
          cases k with
          | zero =>
            simp only [List.getElem?_cons_zero, Option.some.injEq] at hx
            rw [← hx]
            exact h2
          | succ k =>
            simp only [List.getElem?_cons_succ] at hx
            exact h4 k (by omega) x hx
    · have hstep : first_max_step best d = best := by
        simp only [first_max_step, hgt, if_false]
      rw [hstep]
      have hle : d.2.2 ≤ best.2.2 := by
        rcases total_of (· ≤ ·) d.2.2 best.2.2 with h | h
        · exact h
        · by_contra hn
          exact hgt (lt_of_le_not_le h hn)
      rcases ih best with ⟨h1, h2⟩ | ⟨i, h1, h2, h3, h4⟩
      · left
        refine ⟨h1, ?_⟩
        intro x hx
        rcases List.mem_cons.mp hx with rfl | hx
        · exact hle
        · exact h2 x hx
      · right
        refine ⟨i + 1, by simpa using h1, h2, ?_, ?_⟩
        · intro x hx
          rcases List.mem_cons.mp hx with rfl | hx
          · exact le_of_lt (lt_of_le_of_lt hle h2)
          · exact h3 x hx
        · intro k hk x hx
          cases k with
          | zero =>
            simp only [List.getElem?_cons_zero, Option.some.injEq] at hx
            rw [← hx]
            exact lt_of_le_of_lt hle h2
          | succ k =>
            simp only [List.getElem?_cons_succ] at hx
            exact h4 k (by omega) x hx

end first_max
end nextratrees

namespace nextratrees
open ndectree

section draws_attrs
variable {α : Type} [LinearOrder α]
variable {R : Type} [NatCast R] [Zero R] [One R] [Add R] [Sub R] [Mul R] [Div R] [Neg R]
variable {G : Type}

/-- The draws are made for the attributes of the list, in order. -/
theorem split_draws_attrs (log2 : R → R) (rng : twister_t G α) (exampleset : exampleset_t α)
    (indices : List Nat) (mins maxs : List (Option α)) :
    ∀ (l : List Nat) (g g' : G) (ds : List (Nat × α × R)),
      split_draws log2 rng exampleset indices mins maxs l g = some (ds, g') →
      ds.map (fun d => d.1) = l := by
  intro l
  induction l with
  | nil =>
    intro g g' ds h
    simp only [split_draws, Option.some.injEq, Prod.mk.injEq] at h
    rw [← h.1]
    rfl
  | cons ai rest ih =>
    intro g g' ds h
    simp only [split_draws] at h
    cases hd : draw_one log2 rng exampleset indices mins maxs ai g with
    | none => simp [hd] at h
    | some p =>
      obtain ⟨d, g1⟩ := p
      simp only [hd] at h
      cases hr : split_draws log2 rng exampleset indices mins maxs rest g1 with
      | none => simp [hr] at h
      | some q =>
        obtain ⟨ds', g2⟩ := q
        simp only [hr, Option.some.injEq, Prod.mk.injEq] at h
        rw [← h.1, List.map_cons, ih g1 g2 ds' hr]
        congr 1
        unfold draw_one at hd
        split at hd
        · split at hd
          · cases hd
          · simp only [Option.some.injEq, Prod.mk.injEq] at hd
            rw [← hd.1]
        · cases hd

end draws_attrs

section draws_link
variable {α : Type} [LinearOrder α]
variable {R : Type} [NatCast R] [Zero R] [One R] [Add R] [Sub R] [Mul R] [Div R] [Neg R]
  [LT R] [DecidableRel (fun a b : R => a < b)]
variable {G : Type}

/-- One pass of the best-split loop is the draw followed by the comparison. -/
theorem choose_split_step_eq (log2 : R → R) (rng : twister_t G α) (exampleset : exampleset_t α)
    (indices : List Nat) (mins maxs : List (Option α)) (st : (Nat × α × R) × G) (ai : Nat) :
    choose_split_step log2 rng exampleset indices mins maxs st ai =
      (draw_one log2 rng exampleset indices mins maxs ai st.2).map
        (fun p => (first_max_step st.1 p.1, p.2)) := by
  unfold choose_split_step draw_one
  split
  · rename_i h1 h2 h3
    simp only
    split
    · rename_i h4
      simp only [h1, h2, h3, h4, Option.map_none']
    · rename_i scr h4
      simp only [h1, h2, h3, h4, Option.map_some', first_max_step]
      split <;> rfl
  · rfl

/-- The best-split loop is the fold of the comparison over the triples drawn. -/
theorem choose_split_fold_eq (log2 : R → R) (rng : twister_t G α) (exampleset : exampleset_t α)
    (indices : List Nat) (mins maxs : List (Option α)) :
    ∀ (l : List Nat) (st : (Nat × α × R) × G),
      l.foldlM (choose_split_step log2 rng exampleset indices mins maxs) st =
        (split_draws log2 rng exampleset indices mins maxs l st.2).map
          (fun p => (p.1.foldl first_max_step st.1, p.2)) := by
  intro l
  induction l with
  | nil => intro st; rfl
  | cons ai rest ih =>
    intro st
    rw [List.foldlM_cons, choose_split_step_eq]
    simp only [split_draws]
    cases hd : draw_one log2 rng exampleset indices mins maxs ai st.2 with
    | none => rfl
    | some p =>
      simp only [Option.map_some', Option.bind_eq_bind, Option.some_bind]
      rw [ih]
      simp only
      cases split_draws log2 rng exampleset indices mins maxs rest p.2 with
      | none => rfl
      | some q => rfl

end draws_link
end nextratrees

namespace nextratrees
open ndectree

section draws_real
variable {α : Type} [LinearOrder α]
variable {G : Type}

/-- Over the reals every score computed by the draws is non-negative, hence
above the initial `bestscore = -1.0`. -/
theorem split_draws_nonneg (rng : twister_t G α) (exampleset : exampleset_t α)
    (indices : List Nat) (mins maxs : List (Option α)) :
    ∀ (l : List Nat) (g g' : G) (ds : List (Nat × α × ℝ)),
      (∀ ai ∈ l, ∀ attr, exampleset.attrs[ai]? = some attr →
        ∀ i ∈ indices, i < attr.length ∧
          ∃ lb, exampleset.labels[i]? = some lb ∧ lb < exampleset.numclasses) →
      split_draws (Real.logb 2) rng exampleset indices mins maxs l g = some (ds, g') →
      ∀ d ∈ ds, 0 ≤ d.2.2 := by
  intro l
  induction l with
  | nil =>
    intro g g' ds _ h
    simp only [split_draws, Option.some.injEq, Prod.mk.injEq] at h
    rw [← h.1]
    intro d hd
    cases hd
  | cons ai rest ih =>
    intro g g' ds hr h
    simp only [split_draws] at h
    cases hd : draw_one (Real.logb 2) rng exampleset indices mins maxs ai g with
    | none => simp [hd] at h
    | some p =>
      obtain ⟨d, g1⟩ := p
      simp only [hd] at h
      cases hrest : split_draws (Real.logb 2) rng exampleset indices mins maxs rest g1 with
      | none => simp [hrest] at h
      | some q =>
        obtain ⟨ds', g2⟩ := q
        simp only [hrest, Option.some.injEq, Prod.mk.injEq] at h
        rw [← h.1]
        intro d' hd'
        rcases List.mem_cons.mp hd' with e | hmem
        · rw [e]
          unfold draw_one at hd
          split at hd
          · rename_i mn mx attr h1 h2 h3
            obtain ⟨r, hsc, hr0⟩ := score_real_nonneg attr exampleset.labels
              exampleset.numclasses indices (rng.urand mn mx g).1
              (hr ai (List.mem_cons_self _ _) attr h3)
            simp only [hsc, Option.some.injEq, Prod.mk.injEq] at hd
            rw [← hd.1]
            exact hr0
          · cases hd
        · exact ih g1 g2 ds' (fun a ha => hr a (List.mem_cons_of_mem _ ha)) hrest d' hmem

end draws_real
end nextratrees

/-! The stored split is the first maximum -/

namespace nextratrees
open ndectree

section tie_run

/-- On `scenario_tie` with both attributes sampled and the split value `1`
drawn for each, the two draws have the same score. -/
theorem split_draws_tie :
    ∃ r : ℝ, 0 ≤ r ∧
      split_draws (Real.logb 2) rng_max scenario_tie [0, 1, 2, 3] [some 0, some 0]
          [some 1, some 1] [0, 1] () = some ([(0, 1, r), (1, 1, r)], ()) := by
  obtain ⟨r, hr, hr0⟩ := score_real_nonneg [(0 : Int), 0, 1, 1] scenario_tie.labels
    scenario_tie.numclasses [0, 1, 2, 3] 1 (by decide)
  refine ⟨r, hr0, ?_⟩
  have e0 : scenario_tie.attrs[0]? = some [0, 0, 1, 1] := by decide
  have e1 : scenario_tie.attrs[1]? = some [0, 0, 1, 1] := by decide
  have e5 : (rng_max.urand 0 1 ()) = (1, ()) := rfl
  have m0 : ([some 0, some 0] : List (Option Int))[0]? = some (some 0) := rfl
  have m1 : ([some 0, some 0] : List (Option Int))[1]? = some (some 0) := rfl
  have x0 : ([some 1, some 1] : List (Option Int))[0]? = some (some 1) := rfl
  have x1 : ([some 1, some 1] : List (Option Int))[1]? = some (some 1) := rfl
  simp only [split_draws, draw_one, m0, m1, x0, x1, e0, e1, e5, hr]

/-- A run of `build_an_extra_tree` over the reals on `scenario_tie` with
`nmin = 1`, `numattr = 2`: both attributes are sampled, both score the same,
and the branch is on attribute 0. -/
theorem build_tie_run :
    build_an_extra_tree (Real.logb 2) rng_max 2 scenario_tie [0, 1] [0, 1, 2, 3] 1 2 () =
      some (dectree_t.branch 0 1 (dectree_t.leaf [2, 0]) (dectree_t.leaf [0, 2]), ()) := by
  have hcf : count_classfreqs scenario_tie [0, 1, 2, 3] = some [2, 2] := by decide
  have hcc : collect_candidates scenario_tie [0, 1] [0, 1, 2, 3] =
      some ([some 0, some 0], [some 1, some 1], [0, 1]) := by decide
  have hpick : pick_attrs rng_max [0, 1] 2 () = some ([0, 1], ()) := by decide
  obtain ⟨r, hr0, hdraws⟩ := split_draws_tie
  have hchoose : choose_split (Real.logb 2) rng_max scenario_tie [0, 1, 2, 3] [some 0, some 0]
      [some 1, some 1] [0, 1] () = some ((0, 1, r), ()) := by
    unfold choose_split
    simp only [List.getElem?_cons_zero]
    rw [choose_split_fold_eq]
    simp only [hdraws, Option.map_some', List.foldl_cons, List.foldl_nil, first_max_step]
    have h1 : r > (-1 : ℝ) := by linarith
    have h2 : ¬ r > r := lt_irrefl r
    simp only [h1, h2, if_true, if_false]
  have hsplit : split_indices [(0 : Int), 0, 1, 1] 1 [0, 1, 2, 3] = some ([0, 1], [2, 3]) := by
    decide
  have hl : build_an_extra_tree (Real.logb 2) rng_max 1 scenario_tie [0, 1] [0, 1] 1 2 () =
      some (dectree_t.leaf [2, 0], ()) := by
    have h1 : count_classfreqs scenario_tie [0, 1] = some [2, 0] := by decide
    rw [build_an_extra_tree]
    simp only [h1]
    decide
  have hr' : build_an_extra_tree (Real.logb 2) rng_max 1 scenario_tie [0, 1] [2, 3] 1 2 () =
      some (dectree_t.leaf [0, 2], ()) := by
    have h1 : count_classfreqs scenario_tie [2, 3] = some [0, 2] := by decide
    rw [build_an_extra_tree]
    simp only [h1]
    decide
  rw [build_an_extra_tree]
  simp only [hcf, hcc, hpick]
  have e1 : ¬ ([0, 1, 2, 3] : List Nat).length < 1 := by decide
  have e2 : ¬ numclassesnonzero [2, 2] = 1 := by decide
  have e3 : ¬ ([0, 1] : List Nat).length < 1 := by decide
  have e4 : scenario_tie.attrs[0]? = some [0, 0, 1, 1] := by decide
  simp only [e1, e2, e3, if_false, hchoose, e4, hsplit, hl, hr']

end tie_run

section claim_first_max
variable {α : Type} [LinearOrder α] [Zero α]
variable {R : Type} [Preorder R] [IsTotal R (· ≤ ·)] [DecidableRel (fun a b : R => a < b)]
  [NatCast R] [Zero R] [One R] [Add R] [Sub R] [Mul R] [Div R] [Neg R]
variable {G : Type}

/-- C28: for every branch built by `build_an_extra_tree`, whatever the
arithmetic of the scores (any `log2`, any operations, compared by a total
preorder as the `double` values that are not NaN are): the loop over the
sampled list `S` draws one split value per attribute of `S`, in the order of
`S`, and scores it; the first attribute of `S` is taken provisionally as soon
as its score is above the initial best score `-1`; when some score is above
`-1`, the stored pair `(attrindex, splitvalue)` is the pair of the first draw
whose score equals the maximum score over `S` (every draw scores at most as
much, every earlier draw scores strictly less); and when no score is above
`-1` the stored pair is the initial one, the first attribute of `S` with the
split value `0`. -/
theorem branch_stores_first_maximum (log2 : R → R) (rng : twister_t G α) (fuel : Nat)
    (exampleset : exampleset_t α) (attrindices indices : List Nat) (nmin numattr : Nat)
    (g g' : G) (j : Nat) (s : α) (l r : dectree_t α)
    (hbuild : build_an_extra_tree log2 rng (fuel + 1) exampleset attrindices indices
      nmin numattr g = some (dectree_t.branch j s l r, g')) :
    ∃ mins maxs attrcandidates attrs g1 draws g2,
      collect_candidates exampleset attrindices indices = some (mins, maxs, attrcandidates) ∧
      pick_attrs rng attrcandidates numattr g = some (attrs, g1) ∧
      split_draws log2 rng exampleset indices mins maxs attrs g1 = some (draws, g2) ∧
      draws.map (fun d => d.1) = attrs ∧
      (∃ a0 d0, attrs[0]? = some a0 ∧ draws[0]? = some d0 ∧
        ((-1 : R) < d0.2.2 → first_max_step (a0, (0 : α), (-1 : R)) d0 = d0)) ∧
      ((∃ d ∈ draws, (-1 : R) < d.2.2) →
        ∃ (i : Nat) (bestscore : R), draws[i]? = some (j, s, bestscore) ∧
          (∀ d ∈ draws, d.2.2 ≤ bestscore) ∧
          ∀ k < i, ∀ d, draws[k]? = some d → d.2.2 < bestscore) ∧
      ((∀ d ∈ draws, d.2.2 ≤ (-1 : R)) → attrs[0]? = some j ∧ s = 0) := by
  obtain ⟨classfreqs, hcf, hcase⟩ := build_an_extra_tree_cases log2 rng fuel exampleset
    attrindices indices nmin numattr g g' _ hbuild
  rcases hcase with ⟨hleaf, _⟩ | ⟨mins, maxs, attrcandidates, attrs, g1, bestattr, bestsplit,
    bestscore, g2, attr, leftindices, rightindices, left, g3, right, _, _, hcc, _, hpick,
    hchoose, _, _, _, _, ht⟩
  · cases hleaf
  · injection ht with e1 e2 _ _
    subst e1
    subst e2
    unfold choose_split at hchoose
    cases h0 : attrs[0]? with
    | none => simp [h0] at hchoose
    | some a0 =>
      simp only [h0] at hchoose
      rw [choose_split_fold_eq] at hchoose
      obtain ⟨⟨draws, g2'⟩, hdraws, hres⟩ := Option.map_eq_some'.mp hchoose
      simp only [Prod.mk.injEq] at hres
      obtain ⟨hfold, hg2⟩ := hres
      subst hg2
      have hmap := split_draws_attrs log2 rng exampleset indices mins maxs attrs g1
        g2' draws hdraws
      have hd0 : ∃ d0, draws[0]? = some d0 := by
        cases draws with
        | nil =>
          rw [← hmap] at h0
          simp at h0
        | cons d0 rest => exact ⟨d0, by simp⟩
      obtain ⟨d0, hd0⟩ := hd0
      refine ⟨mins, maxs, attrcandidates, attrs, g1, draws, g2', hcc, hpick, hdraws, hmap,
        ⟨a0, d0, h0, hd0, ?_⟩, ?_, ?_⟩
      · intro hgt
        have hgt' : d0.2.2 > (-1 : R) := hgt
        simp only [first_max_step, hgt', if_true]
      · rintro ⟨d, hd, hgt⟩
        rcases first_max_fold draws (a0, (0 : α), (-1 : R)) with ⟨_, hall⟩ | ⟨i, hi, _, hmax, hearly⟩
        · exact absurd (lt_of_lt_of_le hgt (hall d hd)) (lt_irrefl _)
        · rw [hfold] at hi hmax hearly
          exact ⟨i, bestscore, hi, hmax, hearly⟩
      · intro hall
        rcases first_max_fold draws (a0, (0 : α), (-1 : R)) with ⟨hsame, _⟩ | ⟨i, hi, hgt, _, _⟩
        · rw [hfold] at hsame
          simp only [Prod.mk.injEq] at hsame
          exact ⟨by rw [h0, hsame.1], hsame.2.1⟩
        · have hmem := List.getElem?_mem hi
          exact absurd (lt_of_lt_of_le hgt (hall _ hmem)) (lt_irrefl _)

end claim_first_max

/-- Witness for C28: the branch built on `scenario_tie` with `numattr = 2`.
Both attributes are sampled and score the same; the branch stores attribute 0,
the first of the two. -/
theorem branch_stores_first_maximum_witness :
    build_an_extra_tree (Real.logb 2) rng_max 2 scenario_tie [0, 1] [0, 1, 2, 3] 1 2 () =
        some (dectree_t.branch 0 1 (dectree_t.leaf [2, 0]) (dectree_t.leaf [0, 2]), ()) ∧
    pick_attrs rng_max [0, 1] 2 () = some ([0, 1], ()) ∧
    (∃ r : ℝ, 0 ≤ r ∧
      split_draws (Real.logb 2) rng_max scenario_tie [0, 1, 2, 3] [some 0, some 0]
          [some 1, some 1] [0, 1] () = some ([(0, 1, r), (1, 1, r)], ())) ∧
    ∃ mins maxs attrcandidates attrs g1 draws g2,
      collect_candidates scenario_tie [0, 1] [0, 1, 2, 3] = some (mins, maxs, attrcandidates) ∧
      pick_attrs rng_max attrcandidates 2 () = some (attrs, g1) ∧
      split_draws (Real.logb 2) rng_max scenario_tie [0, 1, 2, 3] mins maxs attrs g1 =
        some (draws, g2) ∧
      draws.map (fun d => d.1) = attrs ∧
      (∃ a0 d0, attrs[0]? = some a0 ∧ draws[0]? = some d0 ∧
        ((-1 : ℝ) < d0.2.2 → first_max_step (a0, (0 : Int), (-1 : ℝ)) d0 = d0)) ∧
      ((∃ d ∈ draws, (-1 : ℝ) < d.2.2) →
        ∃ (i : Nat) (bestscore : ℝ), draws[i]? = some (0, 1, bestscore) ∧
          (∀ d ∈ draws, d.2.2 ≤ bestscore) ∧
          ∀ k < i, ∀ d, draws[k]? = some d → d.2.2 < bestscore) ∧
      ((∀ d ∈ draws, d.2.2 ≤ (-1 : ℝ)) → attrs[0]? = some 0 ∧ (1 : Int) = 0) :=
  ⟨build_tie_run, by decide, split_draws_tie,
    branch_stores_first_maximum (Real.logb 2) rng_max 1 scenario_tie [0, 1] [0, 1, 2, 3] 1 2
      () () 0 1 (dectree_t.leaf [2, 0]) (dectree_t.leaf [0, 2]) build_tie_run⟩

end nextratrees

/-! Malformed trees in a model file -/

namespace nextratrees
open ndectree

/-- C21, evaluated at the failing input: with one class the tokens `\\ x` (a
leaf marker followed by a token that is not a frequency) are not rejected.  The
extraction `in >> freq` fails, writes 0 and sets `failbit`; nothing tests the
stream, so `loadfromstream` returns the leaf `[0]`, not the null pointer, and
`loadmodelfromfile` returns true for the model file with this single tree. -/
theorem malformed_leaf_accepted :
    fmt_decimal.get_size "x" = none ∧
    dectree_t.loadfromstream fmt_decimal 1 1 { tokens := ["\\", "x"], fail := false } =
      some (some (dectree_t.leaf [0]), { tokens := ["x"], fail := true }) ∧
    (loadmodelfromfile fmt_decimal 1 file_malformed).map
        (fun r => r.map (fun model => model.forest)) =
      some (some { trees := [dectree_t.leaf [0]], indextolabel := [7] }) :=
  ⟨by decide, by decide, by decide⟩

end nextratrees

/-! The best record of the optimizer -/

namespace etgrow
open nextratrees

section best_record
variable {R : Type} [LT R] [DecidableRel (fun a b : R => a < b)]

/-- The section guarded by `best_mutex` acts on the accuracy and the three
hyperparameters as the strictly-greater comparison of the best-split loop. -/
theorem dotest_record_step (b : best_t R) (c : completion_t R) :
    ((dotest_record b c).bestnumtrees,
        ((dotest_record b c).bestnmin, (dotest_record b c).bestnumattr),
        (dotest_record b c).bestaccuracy) =
      first_max_step (b.bestnumtrees, (b.bestnmin, b.bestnumattr), b.bestaccuracy)
        (c.numtrees, (c.nmin, c.numattr), c.accuracy) := by
  unfold dotest_record first_max_step
  split <;> rfl

theorem dotest_record_fold (cs : List (completion_t R)) :
    ∀ (b : best_t R),
      ((cs.foldl dotest_record b).bestnumtrees,
          ((cs.foldl dotest_record b).bestnmin, (cs.foldl dotest_record b).bestnumattr),
          (cs.foldl dotest_record b).bestaccuracy) =
        (cs.map (fun c => (c.numtrees, (c.nmin, c.numattr), c.accuracy))).foldl first_max_step
          (b.bestnumtrees, (b.bestnmin, b.bestnumattr), b.bestaccuracy) := by
  induction cs with
  | nil => intro b; rfl
  | cons c rest ih =>
    intro b
    rw [List.foldl_cons, List.map_cons, List.foldl_cons, ih, dotest_record_step]

theorem dotest_record_numcombos (b : best_t R) (c : completion_t R) :
    (dotest_record b c).numcombos = (b.numcombos + 1) % 2 ^ 64 := by
  unfold dotest_record
  split <;> rfl

/-- The counter `numcombos` counts the completions, as long as it does not
wrap. -/
theorem dotest_record_count (cs : List (completion_t R)) :
    ∀ (b : best_t R), b.numcombos + cs.length < 2 ^ 64 →
      (cs.foldl dotest_record b).numcombos = b.numcombos + cs.length := by
  induction cs with
  | nil => intro b _; rfl
  | cons c rest ih =>
    intro b h
    rw [List.length_cons] at h
    have h1 : (dotest_record b c).numcombos = b.numcombos + 1 := by
      rw [dotest_record_numcombos]
      exact Nat.mod_eq_of_lt (by omega)
    rw [List.foldl_cons, ih (dotest_record b c) (by rw [h1]; omega), h1, List.length_cons]
    omega

end best_record

section best_record_member
variable {R : Type} [LinearOrder R] [DecidableRel (fun a b : R => a < b)]

end best_record_member

section claim_best_record
variable {R : Type} [LinearOrderedRing R] [DecidableRel (fun a b : R => a < b)]

/-- C30: for every sequence of task completions with accuracies `≥ 0`,
processed one at a time from `bestaccuracy = -1`, and every `k ≥ 1` up to its
length (below the range of the counter): after the `k`-th completion
`numcombos = k`, and the record holds the accuracy and the triple of one of the
first `k` completions, whose accuracy is the maximum among the first `k` and
which is the earliest to attain it (every earlier completion has a strictly
smaller accuracy). -/
theorem best_record_tracks_first_maximum (cs : List (completion_t R)) (k : Nat)
    (hk : 1 ≤ k) (hkn : k ≤ cs.length) (hk64 : k < 2 ^ 64)
    (hacc : ∀ c ∈ cs, 0 ≤ c.accuracy) :
    (tracker_after cs k).numcombos = k ∧
    ∃ (i : Nat) (c : completion_t R), i < k ∧ cs[i]? = some c ∧
      (tracker_after cs k).bestaccuracy = c.accuracy ∧
      (tracker_after cs k).bestnumtrees = c.numtrees ∧
      (tracker_after cs k).bestnmin = c.nmin ∧
      (tracker_after cs k).bestnumattr = c.numattr ∧
      (∀ m : Nat, m < k → ∀ d, cs[m]? = some d → d.accuracy ≤ c.accuracy) ∧
      (∀ m : Nat, m < i → ∀ d, cs[m]? = some d → d.accuracy < c.accuracy) := by
  have hlen : (cs.take k).length = k := by
    rw [List.length_take]
    omega
  refine ⟨?_, ?_⟩
  · unfold tracker_after
    rw [dotest_record_count (cs.take k) best_init (by rw [hlen]; simpa [best_init] using hk64),
      hlen]
    simp [best_init]
  · have hfold := dotest_record_fold (cs.take k) (best_init : best_t R)
    have htake : ∀ m : Nat, m < k → (cs.take k)[m]? = cs[m]? := by
      intro m hm
      rw [List.getElem?_take]
      simp [hm]
    have hmem : ∀ d ∈ cs.take k, d ∈ cs := fun d hd => List.mem_of_mem_take hd
    rcases first_max_fold ((cs.take k).map (fun c => (c.numtrees, (c.nmin, c.numattr),
        c.accuracy))) ((best_init : best_t R).bestnumtrees,
          ((best_init : best_t R).bestnmin, (best_init : best_t R).bestnumattr),
          (best_init : best_t R).bestaccuracy) with ⟨_, hall⟩ | ⟨i, hi, _, hmax, hearly⟩
    · exfalso
      obtain ⟨c0, hc0⟩ : ∃ c0, (cs.take k)[0]? = some c0 := by
        cases hc : cs.take k with
        | nil =>
          rw [hc] at hlen
          simp at hlen
          omega
        | cons c0 rest => exact ⟨c0, by simp⟩
      have hc0mem : c0 ∈ cs.take k := List.getElem?_mem hc0
      have h1 := hall (c0.numtrees, (c0.nmin, c0.numattr), c0.accuracy)
        (List.mem_map.mpr ⟨c0, hc0mem, rfl⟩)
      have h2 := hacc c0 (hmem c0 hc0mem)
      simp only [best_init] at h1
      exact absurd (le_trans h2 h1) (not_le.mpr neg_one_lt_zero)
    · rw [← hfold] at hi hmax hearly
      rw [List.getElem?_map] at hi
      cases hci : (cs.take k)[i]? with
      | none => simp [hci] at hi
      | some c =>
        rw [hci] at hi
        simp only [Option.map_some', Option.some.injEq, Prod.mk.injEq] at hi
        obtain ⟨e1, ⟨e2, e3⟩, e4⟩ := hi
        have hik : i < k := by
          have := (List.getElem?_eq_some_iff.mp hci).1
          omega
        refine ⟨i, c, hik, by rw [← htake i hik]; exact hci, e4.symm, e1.symm, e2.symm,
          e3.symm, ?_, ?_⟩
        · intro m hm d hd
          rw [← htake m hm] at hd
          have := hmax (d.numtrees, (d.nmin, d.numattr), d.accuracy)
            (List.mem_map.mpr ⟨d, List.getElem?_mem hd, rfl⟩)
          simp only at this
          rw [e4]
          exact this
        · intro m hm d hd
          rw [← htake m (by omega)] at hd
          have := hearly m hm (d.numtrees, (d.nmin, d.numattr), d.accuracy)
            (by rw [List.getElem?_map, hd]; rfl)
          simp only at this
          rw [e4]
          exact this

end claim_best_record

/-- Witness for C30: three completions with accuracies `1/2`, `3/4`, `3/4`;
after the third the record holds the second. -/
theorem best_record_tracks_first_maximum_witness :
    (1 ≤ 3 ∧ 3 ≤ scenario_completions.length ∧ 3 < 2 ^ 64 ∧
      ∀ c ∈ scenario_completions, 0 ≤ c.accuracy) ∧
    (tracker_after scenario_completions 3).numcombos = 3 ∧
    ∃ (i : Nat) (c : completion_t ℚ), i < 3 ∧ scenario_completions[i]? = some c ∧
      (tracker_after scenario_completions 3).bestaccuracy = c.accuracy ∧
      (tracker_after scenario_completions 3).bestnumtrees = c.numtrees ∧
      (tracker_after scenario_completions 3).bestnmin = c.nmin ∧
      (tracker_after scenario_completions 3).bestnumattr = c.numattr ∧
      (∀ m : Nat, m < 3 → ∀ d, scenario_completions[m]? = some d →
        d.accuracy ≤ c.accuracy) ∧
      (∀ m : Nat, m < i → ∀ d, scenario_completions[m]? = some d →
        d.accuracy < c.accuracy) := by
  have hacc : ∀ c ∈ scenario_completions, (0 : ℚ) ≤ c.accuracy := by
    intro c hc
    simp only [scenario_completions, List.mem_cons, List.mem_singleton, List.not_mem_nil,
      or_false] at hc
    rcases hc with h | h | h <;> rw [h] <;> norm_num
  exact ⟨⟨by decide, by decide, by decide, hacc⟩,
    best_record_tracks_first_maximum scenario_completions 3 (by decide) (by decide)
      (by decide) hacc⟩

end etgrow

/-! The triple loop of the optimizer -/

namespace etgrow

section triple_loop

theorem loop_break_free {β : Type} (body : Nat → List β) :
    ∀ (vals : List Nat), loop_break false body vals = vals.flatMap body := by
  intro vals
  induction vals with
  | nil => rfl
  | cons x rest ih =>
    simp only [loop_break, ih, List.flatMap_cons]
    rfl

theorem loop_break_pinned {β : Type} (body : Nat → List β) (x : Nat) (rest : List Nat) :
    loop_break true body (x :: rest) = body x := by
  simp [loop_break]

/-- The innermost loop lists the values of its axis: the pinned value once, or
every value of the loop variable. -/
theorem loop_break_values {γ : Type} (specified : Bool) (pinned : Nat) (vals : List Nat)
    (hne : vals ≠ []) (h : Nat → γ) :
    loop_break specified (fun x => [h (if specified then pinned else x)]) vals =
      (axis_grid specified pinned vals).map h := by
  cases specified with
  | true =>
    cases vals with
    | nil => exact absurd rfl hne
    | cons x rest =>
      rw [loop_break_pinned]
      rfl
  | false =>
    rw [loop_break_free]
    simp only [axis_grid, Bool.false_eq_true, if_false]
    induction vals with
    | nil => rfl
    | cons x rest ih =>
      cases rest with
      | nil => rfl
      | cons y rest' =>
        rw [List.flatMap_cons, ih (List.cons_ne_nil _ _)]
        rfl

/-- An outer loop around a list that does not depend on the loop variable
except through the first component lists the product of the axis with it. -/
theorem loop_break_axis {β γ : Type} (specified : Bool) (pinned : Nat) (f : Nat → Nat)
    (vals : List Nat) (hne : vals ≠ []) (inner : List β) (h : Nat × β → γ) :
    loop_break specified
        (fun x => (inner.map (Prod.mk (if specified then pinned else f x))).map h) vals =
      (List.product (axis_grid specified pinned (vals.map f)) inner).map h := by
  cases specified with
  | true =>
    cases vals with
    | nil => exact absurd rfl hne
    | cons x rest =>
      rw [loop_break_pinned]
      simp [axis_grid, List.product]
  | false =>
    rw [loop_break_free]
    simp only [axis_grid, Bool.false_eq_true, if_false, List.product]
    clear hne
    induction vals with
    | nil => rfl
    | cons x rest ih =>
      rw [List.flatMap_cons, ih, List.map_cons, List.flatMap_cons, List.map_append]

/-- The product of two ascending lists is ascending in the lexicographic
order. -/
theorem product_pairwise_lex {β : Type} (r : β → β → Prop) (l1 : List Nat) (l2 : List β)
    (h1 : l1.Pairwise (fun a b => a < b)) (h2 : l2.Pairwise r) :
    (List.product l1 l2).Pairwise (fun a b => a.1 < b.1 ∨ (a.1 = b.1 ∧ r a.2 b.2)) := by
  unfold List.product
  rw [List.pairwise_flatMap]
  refine ⟨?_, ?_⟩
  · intro a _
    rw [List.pairwise_map]
    exact h2.imp (fun hr => Or.inr ⟨rfl, hr⟩)
  · refine h1.imp ?_
    intro a b hab x hx y hy
    obtain ⟨_, _, ex⟩ := List.mem_map.mp hx
    obtain ⟨_, _, ey⟩ := List.mem_map.mp hy
    left
    rw [← ex, ← ey]
    exact hab

theorem axis_grid_pairwise (specified : Bool) (pinned : Nat) (free : List Nat)
    (h : free.Pairwise (fun a b => a < b)) :
    (axis_grid specified pinned free).Pairwise (fun a b => a < b) := by
  unfold axis_grid
  split
  · exact List.pairwise_singleton _ _
  · exact h

theorem launched_tasks_eq (o : options_t) (F : Nat) (hF : 1 ≤ F) :
    launched_tasks o F = grid_product o F := by
  have hne3 : List.range' 1 F ≠ [] := by
    intro h
    have := congrArg List.length h
    simp at this
    omega
  have hinner : ∀ M2 nmin2 : Nat,
      loop_break o.numattr_specified (fun K => [task_of o M2 nmin2 K]) (List.range' 1 F) =
        ((axis_grid o.numattr_specified o.numattr_def (List.range' 1 F)).map
          (Prod.mk (if o.nmin_specified then o.nmin_def else 1 <<< nmin2))).map
          (Prod.mk (if o.numtrees_specified then o.numtrees_def else 1 <<< M2)) := by
    intro M2 nmin2
    rw [List.map_map]
    exact loop_break_values o.numattr_specified o.numattr_def (List.range' 1 F) hne3
      (Prod.mk (if o.numtrees_specified then o.numtrees_def else 1 <<< M2) ∘
        Prod.mk (if o.nmin_specified then o.nmin_def else 1 <<< nmin2))
  have hmiddle : ∀ M2 : Nat,
      loop_break o.nmin_specified
          (fun nmin2 => loop_break o.numattr_specified (fun K => [task_of o M2 nmin2 K])
            (List.range' 1 F))
          (List.range' nmin_p2_min (nmin_p2_max + 1 - nmin_p2_min)) =
        (List.product (axis_grid o.nmin_specified o.nmin_def [2, 4, 8, 16, 32, 64, 128, 256])
          (axis_grid o.numattr_specified o.numattr_def (List.range' 1 F))).map
          (Prod.mk (if o.numtrees_specified then o.numtrees_def else 1 <<< M2)) := by
    intro M2
    simp only [hinner]
    exact loop_break_axis o.nmin_specified o.nmin_def (fun nmin2 => 1 <<< nmin2)
      (List.range' nmin_p2_min (nmin_p2_max + 1 - nmin_p2_min)) (by decide) _ _
  unfold launched_tasks grid_product
  simp only [hmiddle]
  have := loop_break_axis o.numtrees_specified o.numtrees_def (fun M2 => 1 <<< M2)
    (List.range' numtrees_p2_min (numtrees_p2_max + 1 - numtrees_p2_min)) (by decide)
    (List.product (axis_grid o.nmin_specified o.nmin_def [2, 4, 8, 16, 32, 64, 128, 256])
      (axis_grid o.numattr_specified o.numattr_def (List.range' 1 F)))
    (fun p => p)
  simp only [List.map_id'] at this
  exact this

theorem length_product_eq {β γ : Type} (l1 : List β) (l2 : List γ) :
    (List.product l1 l2).length = l1.length * l2.length :=
  List.length_product l1 l2

theorem grid_product_length (o : options_t) (F : Nat) (hbound : F < 2 ^ 58) :
    (grid_product o F).length = totalcombos o F := by
  unfold grid_product totalcombos axis_grid numtrees_p2_max numtrees_p2_min nmin_p2_max
    nmin_p2_min
  rw [length_product_eq, length_product_eq]
  cases o.numtrees_specified <;> cases o.nmin_specified <;> cases o.numattr_specified <;>
    simp only [Bool.false_eq_true, if_false, if_true, List.length_cons, List.length_nil,
      List.length_range'] <;>
    omega

end triple_loop

/-- C22: for every `F ≥ 1` (below `2^58`, so that the product `totalcombos` of
`size_t` values does not wrap) and every combination of pinned axes, the
sequence of triples for which the triple loop of `main` launches a task is the
Cartesian product, in lexicographic order, of the three grids (`numtrees`
pinned or 8, 16, ..., 1024; `nmin` pinned or 2, 4, ..., 256; `numattr` pinned
or 1, ..., F); it is strictly ascending in the lexicographic order, hence holds
each triple once, and its length is `totalcombos`. -/
theorem launched_tasks_are_grid_product (o : options_t) (F : Nat) (hF : 1 ≤ F)
    (hbound : F < 2 ^ 58) :
    launched_tasks o F = grid_product o F ∧
    (launched_tasks o F).Pairwise
      (fun a b => a.1 < b.1 ∨ (a.1 = b.1 ∧ (a.2.1 < b.2.1 ∨ (a.2.1 = b.2.1 ∧ a.2.2 < b.2.2)))) ∧
    (launched_tasks o F).Nodup ∧
    (launched_tasks o F).length = totalcombos o F := by
  have hlex : (grid_product o F).Pairwise
      (fun a b => a.1 < b.1 ∨ (a.1 = b.1 ∧ (a.2.1 < b.2.1 ∨ (a.2.1 = b.2.1 ∧ a.2.2 < b.2.2)))) :=
    product_pairwise_lex _ _ _
      (axis_grid_pairwise _ _ _ (by decide))
      (product_pairwise_lex _ _ _ (axis_grid_pairwise _ _ _ (by decide))
        (axis_grid_pairwise _ _ _ (List.pairwise_lt_range' 1 F)))
  rw [launched_tasks_eq o F hF]
  refine ⟨rfl, hlex, ?_, grid_product_length o F hbound⟩
  refine hlex.imp ?_
  intro a b hab hne
  rw [hne] at hab
  rcases hab with h | ⟨_, h | ⟨_, h⟩⟩ <;> exact absurd h (lt_irrefl _)

/-- Witness for C22: `numtrees` and `nmin` pinned to their defaults 10 and 4,
three feature columns. -/
theorem launched_tasks_are_grid_product_witness :
    (1 ≤ 3 ∧ 3 < 2 ^ 58) ∧
    launched_tasks { options_init with numtrees_specified := true, nmin_specified := true } 3 =
      [(10, 4, 1), (10, 4, 2), (10, 4, 3)] ∧
    (launched_tasks
      { options_init with numtrees_specified := true, nmin_specified := true } 3).length =
      totalcombos { options_init with numtrees_specified := true, nmin_specified := true } 3 :=
  ⟨⟨by decide, by decide⟩, by decide,
    (launched_tasks_are_grid_product
      { options_init with numtrees_specified := true, nmin_specified := true } 3
      (by decide) (by decide)).2.2.2⟩

end etgrow

/-! The thread bound of the optimizer -/

namespace etgrow

section thread_bound

/-- Every step of the optimizer keeps the counter equal to the number of
running workers, at most `maxproc`, and below `maxproc` while the producer is
admitted. -/
theorem optimizer_next_inv (maxproc : Nat) (hmax : maxproc < 2 ^ 64) (s s' : optimizer_t)
    (e : optimizer_event) (h : optimizer_next maxproc s e = some s')
    (h1 : s.numproc ≤ maxproc) (h2 : s.running = s.numproc)
    (h3 : s.admitted = true → s.numproc < maxproc) :
    s'.numproc ≤ maxproc ∧ s'.running = s'.numproc ∧
      (s'.admitted = true → s'.numproc < maxproc) := by
  cases e with
  | observe =>
    simp only [optimizer_next] at h
    split at h
    · cases h
    · cases h
      exact ⟨h1, h2, fun ha => of_decide_eq_true ha⟩
  | launch =>
    simp only [optimizer_next] at h
    split at h
    · rename_i ha
      cases h
      have hlt := h3 ha
      have hmod : (s.numproc + 1) % 2 ^ 64 = s.numproc + 1 := Nat.mod_eq_of_lt (by omega)
      simp only [hmod]
      exact ⟨by omega, by omega, fun hf => by cases hf⟩
    · cases h
  | finish =>
    rw [optimizer_next] at h
    by_cases hr : 0 < s.running
    · rw [if_pos hr] at h
      have h' := (Option.some.inj h).symm
      rw [h']
      have hmod : (s.numproc + (2 ^ 64 - 1)) % 2 ^ 64 = s.numproc - 1 := by
        have : s.numproc + (2 ^ 64 - 1) = (s.numproc - 1) + 2 ^ 64 := by omega
        rw [this, Nat.add_mod_right]
        exact Nat.mod_eq_of_lt (by omega)
      simp only [hmod]
      exact ⟨by omega, by omega, fun _ => by omega⟩
    · rw [if_neg hr] at h
      cases h

theorem optimizer_fold_inv (maxproc : Nat) (hmax : maxproc < 2 ^ 64) :
    ∀ (events : List optimizer_event) (s s' : optimizer_t),
      events.foldlM (optimizer_next maxproc) s = some s' →
      s.numproc ≤ maxproc → s.running = s.numproc →
      (s.admitted = true → s.numproc < maxproc) →
      s'.numproc ≤ maxproc ∧ s'.running = s'.numproc ∧
        (s'.admitted = true → s'.numproc < maxproc) := by
  intro events
  induction events with
  | nil =>
    intro s s' h h1 h2 h3
    simp only [List.foldlM_nil, Option.pure_def, Option.some.injEq] at h
    rw [← h]
    exact ⟨h1, h2, h3⟩
  | cons e rest ih =>
    intro s s' h h1 h2 h3
    rw [List.foldlM_cons] at h
    cases hn : optimizer_next maxproc s e with
    | none => simp [hn] at h
    | some s1 =>
      simp only [hn, Option.bind_eq_bind, Option.some_bind] at h
      obtain ⟨i1, i2, i3⟩ := optimizer_next_inv maxproc hmax s s1 e hn h1 h2 h3
      exact ih s1 s' h i1 i2 i3

end thread_bound

/-- C24: in every state the optimizer reaches from `numproc = 0` by steps of
its relation (the producer reads `numproc < maxproc` before it increments
`numproc` and creates a thread, each worker decrements `numproc` once, at its
end; `maxproc` is a `size_t`), `numproc ≤ maxproc`, and `numproc` is the number
of workers running: at no time do more than `maxproc` evaluations run. -/
theorem optimizer_thread_bound (maxproc : Nat) (events : List optimizer_event)
    (s : optimizer_t) (hmax : maxproc < 2 ^ 64)
    (hrun : optimizer_run maxproc events = some s) :
    s.numproc ≤ maxproc ∧ s.running = s.numproc ∧ s.running ≤ maxproc := by
  obtain ⟨h1, h2, _⟩ := optimizer_fold_inv maxproc hmax events optimizer_init s hrun
    (Nat.zero_le _) rfl (fun h => by cases h)
  exact ⟨h1, h2, by omega⟩

/-- Witness for C24: two hardware threads; two launches, a refused attempt
(the third `observe` reads `numproc = 2`), one worker finishing, and a further
admission. -/
theorem optimizer_thread_bound_witness :
    (2 < 2 ^ 64 ∧
      optimizer_run 2 [optimizer_event.observe, optimizer_event.launch,
          optimizer_event.observe, optimizer_event.launch, optimizer_event.observe,
          optimizer_event.finish, optimizer_event.observe] =
        some { numproc := 1, admitted := true, running := 1 }) ∧
    (1 ≤ 2 ∧ 1 = 1 ∧ 1 ≤ 2) :=
  ⟨⟨by decide, by decide⟩,
    optimizer_thread_bound 2 [optimizer_event.observe, optimizer_event.launch,
      optimizer_event.observe, optimizer_event.launch, optimizer_event.observe,
      optimizer_event.finish, optimizer_event.observe]
      { numproc := 1, admitted := true, running := 1 } (by decide) (by decide)⟩

end etgrow

/-! The default of `numattr` -/

namespace etgrow

section numattr_default

variable {R : Type} [NatCast R]

end numattr_default

end etgrow

/-! The command line of `etgrow` -/

namespace etgrow

section command_line

/-- A pair is taken by the chain of `processarguments` exactly when it is a
valid pair; taking it sets `trainfile` for `-t`, `modelfile` for `-m`, and
leaves the two alone otherwise. -/
theorem process_pair_spec (stol : String → Option Int) (o : options_t) (arg nextarg : String) :
    (process_pair stol o arg nextarg = none → valid_pair stol arg nextarg = false) ∧
      ∀ o1, process_pair stol o arg nextarg = some o1 →
        valid_pair stol arg nextarg = true ∧
          o1.trainfile = (if arg = "-t" then nextarg else o.trainfile) ∧
          o1.modelfile = (if arg = "-m" then nextarg else o.modelfile) := by
  by_cases he : arg = "-e"
  · subst he
    simp [process_pair, valid_pair]
  by_cases hl : arg = "-l"
  · subst hl
    cases hs : stol nextarg with
    | none => simp [process_pair, valid_pair, hs]
    | some num =>
      by_cases hn : num < 1
      · simp [process_pair, valid_pair, hs, hn]
      · simp only [process_pair, valid_pair, hs, hn]
        simp
        omega
  by_cases hnm : arg = "-nmin"
  · subst hnm
    cases hs : stol nextarg with
    | none => simp [process_pair, valid_pair, hs]
    | some num =>
      by_cases hn : num < 1
      · simp [process_pair, valid_pair, hs, hn]
      · simp only [process_pair, valid_pair, hs, hn]
        simp
        omega
  by_cases hna : arg = "-numattr"
  · subst hna
    cases hs : stol nextarg with
    | none => simp [process_pair, valid_pair, hs]
    | some num =>
      by_cases hn : num < 0
      · simp [process_pair, valid_pair, hs, hn]
      · simp only [process_pair, valid_pair, hs, hn]
        simp
        omega
  by_cases hnt : arg = "-numtrees"
  · subst hnt
    cases hs : stol nextarg with
    | none => simp [process_pair, valid_pair, hs]
    | some num =>
      by_cases hn : num < 1
      · simp [process_pair, valid_pair, hs, hn]
      · simp only [process_pair, valid_pair, hs, hn]
        simp
        omega
  by_cases hm : arg = "-m"
  · subst hm
    simp [process_pair, valid_pair]
  by_cases ht : arg = "-t"
  · subst ht
    simp [process_pair, valid_pair]
  by_cases hy : arg = "-y"
  · subst hy
    simp [process_pair, valid_pair]
  simp [process_pair, valid_pair, he, hl, hnm, hna, hnt, hm, ht, hy]

/-- The loop over the arguments runs to its end exactly when they split into
valid pairs; `trainfile` and `modelfile` then hold the value of the last `-t`
and of the last `-m`, or what they held before. -/
theorem process_loop_spec (stol : String → Option Int) :
    ∀ (n : Nat) (args : List String) (o : options_t), args.length ≤ n →
      (process_loop stol args o).1 = args_ok stol args ∧
        ((process_loop stol args o).1 = true →
          (process_loop stol args o).2.trainfile = (last_value "-t" args).getD o.trainfile ∧
          (process_loop stol args o).2.modelfile = (last_value "-m" args).getD o.modelfile) := by
  intro n
  induction n with
  | zero =>
    intro args o h
    cases args with
    | nil => exact ⟨rfl, fun _ => ⟨rfl, rfl⟩⟩
    | cons a rest => simp at h
  | succ n ih =>
    intro args o h
    cases args with
    | nil => exact ⟨rfl, fun _ => ⟨rfl, rfl⟩⟩
    | cons arg rest =>
      cases rest with
      | nil =>
        refine ⟨rfl, ?_⟩
        intro h1
        simp [process_loop] at h1
      | cons nextarg rest =>
        obtain ⟨hnone, hsome⟩ := process_pair_spec stol o arg nextarg
        cases hp : process_pair stol o arg nextarg with
        | none =>
          simp only [process_loop, hp, args_ok, hnone hp, Bool.false_and]
          exact ⟨trivial, fun h1 => by cases h1⟩
        | some o1 =>
          obtain ⟨hv, ht, hm⟩ := hsome o1 hp
          obtain ⟨i1, i2⟩ := ih rest o1 (by simp only [List.length_cons] at h; omega)
          simp only [process_loop, hp, args_ok, hv, Bool.true_and]
          refine ⟨i1, ?_⟩
          intro h1
          obtain ⟨j1, j2⟩ := i2 h1
          rw [j1, j2, ht, hm]
          simp only [last_value]
          constructor
          · cases last_value "-t" rest with
            | none =>
              by_cases hat : arg = "-t"
              · simp [hat]
              · simp [hat]
            | some v => rfl
          · cases last_value "-m" rest with
            | none =>
              by_cases ham : arg = "-m"
              · simp [ham]
              · simp [ham]
            | some v => rfl

end command_line

/-- C25, amended: started on the initial variables, `processarguments` returns
true exactly when there are at least five arguments, the arguments after the
program name split into flag/value pairs each of which is valid (a flag among
`-e`, `-m`, `-t`, `-y`; or `-l`, `-nmin`, `-numtrees` with a value from which
`stol` reads a number `≥ 1`; or `-numattr` with a value from which `stol` reads
a number `≥ 0`), and the last `-t` and the last `-m` carry non-empty values.
It returns false in every other case: an unrecognised flag, a flag in last
position without its value, a value from which `stol` reads no number or one
out of range, no `-t` or no `-m`. -/
theorem processarguments_accepts_iff (stol : String → Option Int) (argv : List String) :
    (processarguments stol argv options_init).1 = true ↔
      5 ≤ argv.length ∧ args_ok stol argv.tail = true ∧
        (∃ t, last_value "-t" argv.tail = some t ∧ t ≠ "") ∧
        (∃ m, last_value "-m" argv.tail = some m ∧ m ≠ "") := by
  obtain ⟨h1, h2⟩ := process_loop_spec stol argv.tail.length argv.tail options_init (le_refl _)
  unfold processarguments
  by_cases hlen : argv.length < 1 + 2 + 2
  · rw [if_pos hlen]
    constructor
    · intro h
      cases h
    · intro h
      omega
  · rw [if_neg hlen]
    cases hloop : process_loop stol argv.tail options_init with
    | mk b o1 =>
      rw [hloop] at h1 h2
      simp only at h1 h2
      cases b with
      | false =>
        simp only
        constructor
        · intro h
          cases h
        · intro h
          rw [← h1] at h
          cases h.2.1
      | true =>
        obtain ⟨ht, hm⟩ := h2 rfl
        have hE : ∀ s : String, s.isEmpty = false ↔ s ≠ "" := by
          intro s
          rw [Ne, ← String.isEmpty_iff]
          cases s.isEmpty <;> simp
        simp only [Bool.and_eq_true, Bool.not_eq_true', hE, ht, hm, ← h1, true_and]
        have hinit : options_init.trainfile = "" ∧ options_init.modelfile = "" := ⟨rfl, rfl⟩
        rw [hinit.1, hinit.2]
        constructor
        · intro h
          refine ⟨by omega, ?_, ?_⟩
          · cases hl : last_value "-t" argv.tail with
            | none =>
              rw [hl] at h
              exact absurd rfl h.1
            | some t =>
              rw [hl] at h
              exact ⟨t, rfl, h.1⟩
          · cases hl : last_value "-m" argv.tail with
            | none =>
              rw [hl] at h
              exact absurd rfl h.2
            | some m =>
              rw [hl] at h
              exact ⟨m, rfl, h.2⟩
        · intro h
          obtain ⟨_, ⟨t, ht1, ht2⟩, ⟨m, hm1, hm2⟩⟩ := h
          rw [ht1, hm1]
          exact ⟨ht2, hm2⟩

/-- Counterexample to C25: the value `5abc` given for `-l` is not a numeral,
yet `processarguments` returns true on it, with `optimizationlayers = 5`:
`std::stol` reads the leading `5` and ignores the rest. -/
theorem trailing_characters_accepted :
    is_numeral "5abc" = false ∧
    (processarguments std_stol ["etgrow", "-t", "a.csv", "-m", "m", "-l", "5abc"]
      options_init).1 = true ∧
    (processarguments std_stol ["etgrow", "-t", "a.csv", "-m", "m", "-l", "5abc"]
      options_init).2.optimizationlayers = 5 ∧
    (processarguments std_stol ["etgrow", "-t", "a.csv", "-m", "m", "-l", "5abc"]
      options_init).2.dooptimize = true :=
  ⟨by decide, by decide, by decide, by decide⟩

end etgrow

/-! The CSV reader with an excluded last column -/

namespace nexamples
open nextratrees

/-- C26, evaluated at the failing input: the header `a,b,c`, the row `1,2,3`,
no label column name, and column `c` excluded.  `loadfromfile` returns true
with `islabeled` true; the last column is made the label column although it is
the excluded one, the name taken off `names` is `b`, the last feature name.
The result has one name but feature vectors of two entries, and `labelname` is
`b` while the labels were read from column `c`. -/
theorem excluded_last_column_is_read_as_label :
    (loadfromfile std_stoi stof_integer csv_three_columns "" true ["c"]).map
        (fun r => r.map (fun x => (x.exampleset, x.columnmap, x.exnames, x.islabeled))) =
      some (some
        ({ names := ["a"], featurevectors := [[1, 2]], labelname := "b", labels := [3],
           labelset := [3] },
          [coltype.FEATURE, coltype.FEATURE, coltype.LABEL], ["c"], true)) ∧
    (nutil.getline_tokens ',' "a,b,c".data [])[2]? = some "c" :=
  ⟨by decide, by decide⟩

end nexamples
/-! The shuffle is a bijection between offset sequences and arrangements -/

namespace nexamples
open nextratrees

section shuffle_offsets

/-- One pass of the shuffle with the replayed offset `t` below `N - i`: the
entries at `i` and `i + t` are exchanged. -/
theorem shuffle_step_replay (N : Nat) (l : List Nat) (t : Nat) (ts : List Nat) (i : Nat)
    (a b : Nat) (ha : l[i]? = some a) (hb : l[i + t]? = some b) (ht : t < N - i) :
    shuffle_step rng_replay N (l, t :: ts) i = some ((l.set i b).set (i + t) a, ts) := by
  have hmod : t % (N - i) = t := Nat.mod_eq_of_lt ht
  simp only [shuffle_step, rng_replay, List.headD_cons, List.tail_cons, hmod, ha, hb]

/-- After the exchange the entry at `i` is the one that was at `i + t`. -/
theorem swapped_at (l : List Nat) (i t a b : Nat) (ha : l[i]? = some a)
    (hb : l[i + t]? = some b) : ((l.set i b).set (i + t) a)[i]? = some b := by
  have hi : i < l.length := (List.getElem?_eq_some_iff.mp ha).1
  by_cases h0 : t = 0
  · subst h0
    rw [Nat.add_zero] at hb ⊢
    rw [ha] at hb
    rw [List.getElem?_set_self (by rw [List.length_set]; exact hi)]
    exact hb
  · rw [List.getElem?_set_ne (by omega), List.getElem?_set_self hi]

/-- The exchange leaves the entries before `i` alone. -/
theorem swapped_below (l : List Nat) (i t a b j : Nat) (hj : j < i) :
    ((l.set i b).set (i + t) a)[j]? = l[j]? := by
  rw [List.getElem?_set_ne (by omega), List.getElem?_set_ne (by omega)]

variable {α : Type} {G : Type}

/-- A pass at position `i` changes no entry before `i`. -/
theorem shuffle_step_below (rng : twister_t G α) (N : Nat) (st st' : List Nat × G) (i j : Nat)
    (h : shuffle_step rng N st i = some st') (hj : j < i) : st'.1[j]? = st.1[j]? := by
  unfold shuffle_step at h
  split at h
  · simp only [Option.some.injEq] at h
    rw [← h]
    exact swapped_below _ _ _ _ _ _ hj
  · cases h

/-- The passes at the positions `i, i + 1, ...` change no entry before `i`. -/
theorem shuffle_fold_below (rng : twister_t G α) (N : Nat) :
    ∀ (k i : Nat) (st st' : List Nat × G),
      (List.range' i k).foldlM (shuffle_step rng N) st = some st' →
      ∀ j < i, st'.1[j]? = st.1[j]? := by
  intro k
  induction k with
  | zero =>
    intro i st st' h j _
    simp only [List.range'_zero, List.foldlM_nil, Option.pure_def, Option.some.injEq] at h
    rw [h]
  | succ k ih =>
    intro i st st' h j hj
    rw [List.range'_succ, List.foldlM_cons] at h
    cases hs : shuffle_step rng N st i with
    | none => simp [hs] at h
    | some st1 =>
      simp only [hs, Option.bind_eq_bind, Option.some_bind] at h
      rw [ih (i + 1) st1 st' h j (by omega), shuffle_step_below rng N st st1 i j hs hj]

end shuffle_offsets
end nexamples

/-! Every arrangement has exactly one offset sequence -/

namespace nexamples
open nextratrees

section shuffle_bijection

theorem mem_offset_sequences_succ (N k i : Nat) (ts : List Nat) :
    ts ∈ offset_sequences_from N (k + 1) i ↔
      ∃ t r, t < N - i ∧ r ∈ offset_sequences_from N k (i + 1) ∧ ts = t :: r := by
  simp only [offset_sequences_from, List.mem_flatMap, List.mem_range, List.mem_map]
  constructor
  · rintro ⟨t, ht, r, hr, e⟩
    exact ⟨t, r, ht, hr, e.symm⟩
  · rintro ⟨t, r, ht, hr, e⟩
    exact ⟨t, ht, r, hr, e.symm⟩

/-- Two arrangements of the same entries that agree before the last position
are equal. -/
theorem eq_of_perm_of_agree (l p : List Nat) (i : Nat) (hlen : l.length = i + 1)
    (hperm : List.Perm p l) (hagree : ∀ j : Nat, j < i → p[j]? = l[j]?) : p = l := by
  have hplen : p.length = i + 1 := by rw [hperm.length_eq, hlen]
  have htake : p.take i = l.take i := by
    apply List.ext_getElem?
    intro n
    rw [List.getElem?_take, List.getElem?_take]
    split
    · rename_i hn
      exact hagree n hn
    · rfl
  have hp : p = p.take i ++ p.drop i := (List.take_append_drop i p).symm
  have hl : l = l.take i ++ l.drop i := (List.take_append_drop i l).symm
  have hdrop : List.Perm (p.drop i) (l.drop i) := by
    have h1 : List.Perm (p.take i ++ p.drop i) (l.take i ++ l.drop i) := by
      rw [List.take_append_drop, List.take_append_drop]
      exact hperm
    rw [htake] at h1
    exact (List.perm_append_left_iff _).mp h1
  have hpd : ∃ x, p.drop i = [x] := by
    have : (p.drop i).length = 1 := by rw [List.length_drop]; omega
    exact List.length_eq_one.mp this
  have hld : ∃ y, l.drop i = [y] := by
    have : (l.drop i).length = 1 := by rw [List.length_drop]; omega
    exact List.length_eq_one.mp this
  obtain ⟨x, hx⟩ := hpd
  obtain ⟨y, hy⟩ := hld
  rw [hx, hy] at hdrop
  have hxy := List.perm_singleton.mp hdrop
  calc p = p.take i ++ p.drop i := hp
    _ = l.take i ++ l.drop i := by rw [htake, hx, hy, hxy]
    _ = l := List.take_append_drop i l

/-- Every arrangement of the entries that agrees with the vector before
position `i` is reached by some offset sequence for the passes from `i` on. -/
theorem shuffle_reaches (N : Nat) :
    ∀ (k i : Nat) (l p : List Nat), l.length = N → i + k + 1 = N → l.Nodup →
      List.Perm p l → (∀ j : Nat, j < i → p[j]? = l[j]?) →
      ∃ ts ∈ offset_sequences_from N k i,
        (List.range' i k).foldlM (shuffle_step rng_replay N) (l, ts) = some (p, []) := by
  intro k
  induction k with
  | zero =>
    intro i l p hlen hik _ hperm hagree
    have he := eq_of_perm_of_agree l p i (by omega) hperm hagree
    refine ⟨[], by simp [offset_sequences_from], ?_⟩
    rw [he]
    rfl
  | succ k ih =>
    intro i l p hlen hik hnd hperm hagree
    have hplen : p.length = N := by rw [hperm.length_eq, hlen]
    have hpnd : p.Nodup := (hperm.nodup_iff).mpr hnd
    have hip : i < p.length := by omega
    obtain ⟨x, hx⟩ : ∃ x, p[i]? = some x := ⟨p[i], List.getElem?_eq_getElem hip⟩
    have hxl : x ∈ l := hperm.subset (List.getElem?_mem hx)
    obtain ⟨j, hj⟩ := List.mem_iff_getElem?.mp hxl
    have hjlen : j < l.length := (List.getElem?_eq_some_iff.mp hj).1
    have hji : i ≤ j := by
      by_contra hcon
      have h1 : p[j]? = p[i]? := by rw [hagree j (by omega), hj, hx]
      have := List.getElem?_inj (by omega) hpnd h1
      omega
    obtain ⟨t, rfl⟩ : ∃ t, j = i + t := ⟨j - i, by omega⟩
    have hil : i < l.length := by omega
    obtain ⟨a, ha⟩ : ∃ a, l[i]? = some a := ⟨l[i], List.getElem?_eq_getElem hil⟩
    have hswap : List.Perm ((l.set i x).set (i + t) a) l := by
      have hi' : i < l.length := by omega
      have e1 : l[i + t] = x := (List.getElem?_eq_some_iff.mp hj).2
      have e2 : l[i] = a := (List.getElem?_eq_some_iff.mp ha).2
      have := swap_perm l i (i + t) hi' hjlen (by omega)
      rw [e1, e2] at this
      exact this
    obtain ⟨r, hr, hrun⟩ := ih (i + 1) ((l.set i x).set (i + t) a) p
      (by rw [List.length_set, List.length_set]; exact hlen) (by omega)
      ((hswap.nodup_iff).mpr hnd) (hperm.trans hswap.symm)
      (by
        intro j' hj'
        by_cases hlt : j' < i
        · rw [swapped_below _ _ _ _ _ _ hlt]
          exact hagree j' hlt
        · have : j' = i := by omega
          rw [this, swapped_at l i t a x ha hj]
          exact hx)
    refine ⟨t :: r, (mem_offset_sequences_succ N k i _).mpr ⟨t, r, by omega, hr, rfl⟩, ?_⟩
    rw [List.range'_succ, List.foldlM_cons, shuffle_step_replay N l t r i a x ha hj (by omega)]
    exact hrun

/-- Two offset sequences for the passes from `i` on that end in the same
arrangement are equal. -/
theorem shuffle_offsets_unique (N : Nat) :
    ∀ (k i : Nat) (l : List Nat) (ts ts' : List Nat) (st st' : List Nat × List Nat),
      l.length = N → i + k + 1 = N → l.Nodup →
      ts ∈ offset_sequences_from N k i → ts' ∈ offset_sequences_from N k i →
      (List.range' i k).foldlM (shuffle_step rng_replay N) (l, ts) = some st →
      (List.range' i k).foldlM (shuffle_step rng_replay N) (l, ts') = some st' →
      st.1 = st'.1 → ts = ts' := by
  intro k
  induction k with
  | zero =>
    intro i l ts ts' st st' _ _ _ h1 h2 _ _ _
    simp only [offset_sequences_from, List.mem_singleton] at h1 h2
    rw [h1, h2]
  | succ k ih =>
    intro i l ts ts' st st' hlen hik hnd h1 h2 hr1 hr2 heq
    obtain ⟨t, r, ht, hr, e⟩ := (mem_offset_sequences_succ N k i ts).mp h1
    obtain ⟨t', r', ht', hr', e'⟩ := (mem_offset_sequences_succ N k i ts').mp h2
    subst e
    subst e'
    have hil : i < l.length := by omega
    have hitl : i + t < l.length := by omega
    have hitl' : i + t' < l.length := by omega
    obtain ⟨a, ha⟩ : ∃ a, l[i]? = some a := ⟨l[i], List.getElem?_eq_getElem hil⟩
    obtain ⟨b, hb⟩ : ∃ b, l[i + t]? = some b := ⟨l[i + t], List.getElem?_eq_getElem hitl⟩
    obtain ⟨b', hb'⟩ : ∃ b', l[i + t']? = some b' :=
      ⟨l[i + t'], List.getElem?_eq_getElem hitl'⟩
    rw [List.range'_succ, List.foldlM_cons,
      shuffle_step_replay N l t r i a b ha hb ht] at hr1
    rw [List.range'_succ, List.foldlM_cons,
      shuffle_step_replay N l t' r' i a b' ha hb' ht'] at hr2
    simp only [Option.bind_eq_bind, Option.some_bind] at hr1 hr2
    have f1 := shuffle_fold_below rng_replay N k (i + 1) _ st hr1 i (by omega)
    have f2 := shuffle_fold_below rng_replay N k (i + 1) _ st' hr2 i (by omega)
    simp only at f1 f2
    rw [swapped_at l i t a b ha hb] at f1
    rw [swapped_at l i t' a b' ha hb'] at f2
    rw [heq, f2] at f1
    have hbb : b' = b := Option.some.inj f1
    subst hbb
    have htt : i + t = i + t' := List.getElem?_inj (by omega) hnd (by rw [hb, hb'])
    have htt' : t = t' := by omega
    subst htt'
    have hswap : List.Perm ((l.set i b').set (i + t) a) l := by
      have hi' : i < l.length := by omega
      have hj' : i + t < l.length := by omega
      have e1 : l[i + t] = b' := (List.getElem?_eq_some_iff.mp hb).2
      have e2 : l[i] = a := (List.getElem?_eq_some_iff.mp ha).2
      have := swap_perm l i (i + t) hi' hj' (by omega)
      rw [e1, e2] at this
      exact this
    have := ih (i + 1) ((l.set i b').set (i + t) a) r r' st st'
      (by rw [List.length_set, List.length_set]; exact hlen) (by omega)
      ((hswap.nodup_iff).mpr hnd) hr hr' hr1 hr2 heq
    rw [this]

end shuffle_bijection
end nexamples

/-! The shuffle loop of split has no bias among arrangements -/

namespace nexamples
open nextratrees

section shuffle_count

theorem offset_sequences_nodup (N : Nat) :
    ∀ (k i : Nat), (offset_sequences_from N k i).Nodup := by
  intro k
  induction k with
  | zero => intro i; simp [offset_sequences_from]
  | succ k ih =>
    intro i
    simp only [offset_sequences_from]
    rw [List.nodup_flatMap]
    refine ⟨fun t _ => (ih (i + 1)).map List.cons_injective, ?_⟩
    refine (List.nodup_range (N - i)).imp ?_
    intro t t' hne ts h1 h2
    obtain ⟨r, _, e1⟩ := List.mem_map.mp h1
    obtain ⟨r', _, e2⟩ := List.mem_map.mp h2
    rw [← e2] at e1
    exact hne (List.cons.inj e1).1

/-- A duplicate-free list in which exactly one entry has a property counts one
entry with it. -/
theorem countP_eq_one {β : Type} (q : β → Bool) (l : List β) (x : β) (hnd : l.Nodup)
    (hx : x ∈ l) (hqx : q x = true) (huniq : ∀ y ∈ l, q y = true → y = x) :
    l.countP q = 1 := by
  rw [List.countP_eq_length_filter]
  have hmem : x ∈ l.filter q := List.mem_filter.mpr ⟨hx, hqx⟩
  have hall : ∀ y ∈ l.filter q, y = x := fun y hy =>
    huniq y (List.mem_filter.mp hy).1 (List.mem_filter.mp hy).2
  have hfnd : (l.filter q).Nodup := hnd.filter q
  cases hf : l.filter q with
  | nil =>
    rw [hf] at hmem
    cases hmem
  | cons y ys =>
    rw [hf] at hall hfnd
    cases ys with
    | nil => rfl
    | cons z zs =>
      exfalso
      have hy := hall y (List.mem_cons_self _ _)
      have hz := hall z (List.mem_cons_of_mem _ (List.mem_cons_self _ _))
      have := (List.nodup_cons.mp hfnd).1
      rw [hy, ← hz] at this
      exact this (List.mem_cons_self _ _)

/-- Every arrangement of `[0..N)` is the result of exactly one offset
sequence of the shuffle. -/
theorem produced_by_eq_one (N : Nat) (p : List Nat) (hp : List.Perm p (List.range N)) :
    produced_by N p = 1 := by
  cases N with
  | zero =>
    have : p = [] := List.perm_nil.mp (by simpa using hp)
    rw [this]
    decide
  | succ n =>
    obtain ⟨ts0, hmem0, hrun0⟩ := shuffle_reaches (n + 1) n 0 (List.range (n + 1)) p
      (List.length_range _) (by omega) (List.nodup_range _) hp (fun j hj => by omega)
    have hq0 : shuffle_of_offsets (n + 1) ts0 = some p := by
      unfold shuffle_of_offsets shuffle_indices
      rw [List.range_eq_range' (n + 1 - 1)]
      simp only [Nat.add_sub_cancel] 
      rw [hrun0]
      rfl
    unfold produced_by offset_sequences
    simp only [Nat.add_sub_cancel]
    refine countP_eq_one _ _ ts0 (offset_sequences_nodup (n + 1) n 0) hmem0
      (by simp only [hq0, decide_True]) ?_
    intro ts hts hq
    have hq' : shuffle_of_offsets (n + 1) ts = some p := of_decide_eq_true hq
    unfold shuffle_of_offsets shuffle_indices at hq'
    rw [List.range_eq_range' (n + 1 - 1)] at hq'
    simp only [Nat.add_sub_cancel] at hq'
    obtain ⟨st, hst, hst1⟩ := Option.map_eq_some'.mp hq'
    exact shuffle_offsets_unique (n + 1) n 0 (List.range (n + 1)) ts ts0 st (p, [])
      (List.length_range _) (by omega) (List.nodup_range _) hts hmem0 hst hrun0 hst1

end shuffle_count

/-- C31, amended: the shuffle loop that stops at `i < N - 1` is not biased over
its offsets.  For every `N`, every arrangement `p` of `[0..N)` is the result of
exactly one offset sequence `(t_0, ..., t_(N-2))` with `t_i` in `[0, N - i)`,
and every such offset sequence results in an arrangement of `[0..N)`. -/
theorem shuffle_offsets_bijective (N : Nat) (p : List Nat)
    (hp : List.Perm p (List.range N)) :
    produced_by N p = 1 ∧
      ∀ ts ∈ offset_sequences N, ∃ q, shuffle_of_offsets N ts = some q ∧
        List.Perm q (List.range N) := by
  refine ⟨produced_by_eq_one N p hp, ?_⟩
  intro ts _
  obtain ⟨indices, g', h1, h2⟩ := shuffle_indices_perm rng_replay N ts
  exact ⟨indices, by simp only [shuffle_of_offsets, h1, Option.map_some'], h2⟩

/-- Witness for C31 as amended: the arrangement `[2, 0, 1]` of three indices
is the result of one of the six offset sequences. -/
theorem shuffle_offsets_bijective_witness :
    List.Perm [2, 0, 1] (List.range 3) ∧ produced_by 3 [2, 0, 1] = 1 ∧
      (offset_sequences 3).length = 6 :=
  ⟨by decide, (shuffle_offsets_bijective 3 [2, 0, 1] (by decide)).1, by decide⟩

/-- Counterexample to C31: there is no `N ≥ 2` for which two arrangements of
`[0..N)` are the results of different numbers of offset sequences. -/
theorem shuffle_has_no_bias :
    ¬ ∃ N : Nat, 2 ≤ N ∧ ∃ p q : List Nat, List.Perm p (List.range N) ∧
      List.Perm q (List.range N) ∧ produced_by N p ≠ produced_by N q := by
  rintro ⟨N, _, p, q, hp, hq, hne⟩
  exact hne (by rw [produced_by_eq_one N p hp, produced_by_eq_one N q hq])

end nexamples

/-! The line reader on an empty line -/

namespace nextratrees
open ndectree

/-- C32, evaluated at the failing input: on a stream whose next line is empty
`nutil::getline` evaluates `line.back()` of an empty string, which is
undefined, whereas a line that ends in `'\r'` is returned without it.
`storemodeltofile` writes such an empty line (the second, for the excluded
feature names) whenever no column was excluded, and `loadmodelfromfile` reads
that line with `nutil::getline`. -/
theorem getline_of_empty_line_undefined :
    nutil.getline "\nx1\n".data = none ∧
    nutil.getline "id\r\nx1\n".data = some ("id", "x1\n".data) ∧
    storemodeltofile fmt_decimal scenario_near [] forest_near 1 1 1 =
      some "y 0 1\n\nx1\n1 1 1 1\n+ 0 2\n\\ 1 0\n\\ 0 1\n" ∧
    ((storemodeltofile fmt_decimal scenario_near [] forest_near 1 1 1).bind
        (fun file => loadmodelfromfile fmt_decimal 2 file)).isSome = false :=
  ⟨by decide, by decide, by decide, by decide⟩

end nextratrees

/-! A `numattr` above the number of attributes -/

namespace nextratrees
open ndectree

section pick_all
variable {α : Type} {G : Type}

/-- With `numattr` at least the number of candidates, all candidates are
selected and the generator is not used. -/
theorem pick_attrs_all (rng : twister_t G α) (attrcandidates : List Nat) (numattr : Nat) (g : G)
    (h : attrcandidates.length ≤ numattr) :
    pick_attrs rng attrcandidates numattr g = some (attrcandidates, g) := by
  unfold pick_attrs
  rw [if_pos (Or.inr h)]

end pick_all

section numattr_large
variable {α : Type} [LinearOrder α] [Zero α]
variable {R : Type} [NatCast R] [Zero R] [One R] [Add R] [Sub R] [Mul R] [Div R] [Neg R]
  [LT R] [DecidableRel (fun a b : R => a < b)]
variable {G : Type}

/-- Two values of `numattr` that are both at least the length of the attribute
list give the same run of `build_an_extra_tree`. -/
theorem build_numattr_irrelevant (log2 : R → R) (rng : twister_t G α)
    (exampleset : exampleset_t α) (nmin n1 n2 : Nat) :
    ∀ (fuel : Nat) (attrindices indices : List Nat) (g : G),
      attrindices.length ≤ n1 → attrindices.length ≤ n2 →
      build_an_extra_tree log2 rng fuel exampleset attrindices indices nmin n1 g =
        build_an_extra_tree log2 rng fuel exampleset attrindices indices nmin n2 g := by
  intro fuel
  induction fuel with
  | zero => intro _ _ _ _ _; rfl
  | succ fuel ih =>
    intro attrindices indices g h1 h2
    conv_lhs => rw [build_an_extra_tree]
    conv_rhs => rw [build_an_extra_tree]
    cases hcf : count_classfreqs exampleset indices with
    | none => rfl
    | some classfreqs =>
      simp only
      by_cases e1 : indices.length < nmin
      · simp only [e1, if_true]
      · simp only [e1, if_false]
        by_cases e2 : numclassesnonzero classfreqs = 1
        · simp only [e2, if_true]
        · simp only [e2, if_false]
          cases hcc : collect_candidates exampleset attrindices indices with
          | none => rfl
          | some r =>
            obtain ⟨mins, maxs, attrcandidates⟩ := r
            simp only
            by_cases e3 : attrcandidates.length < 1
            · simp only [e3, if_true]
            · simp only [e3, if_false]
              have hsub := (collect_candidates_sublist exampleset attrindices indices mins maxs
                attrcandidates hcc).length_le
              rw [pick_attrs_all rng attrcandidates n1 g (by omega),
                pick_attrs_all rng attrcandidates n2 g (by omega)]
              have ihc : ∀ (I : List Nat) (g0 : G),
                  build_an_extra_tree log2 rng fuel exampleset attrcandidates I nmin n1 g0 =
                    build_an_extra_tree log2 rng fuel exampleset attrcandidates I nmin n2 g0 :=
                fun I g0 => ih attrcandidates I g0 (by omega) (by omega)
              simp only [ihc]

/-- C33: for every example set with `F` attribute columns, every
duplicate-free attribute list `A` within `[0..F)`, every index subset, `nmin`,
generator and generator state, and every `numattr ≥ max(F, 1)`:
`build_an_extra_tree` with `numattr` returns the same tree and leaves the same
generator state as with `numattr = max(F, 1)` (for every recursion bound; in
particular one run returns a tree exactly when the other does). -/
theorem numattr_above_attribute_count (log2 : R → R) (rng : twister_t G α) (fuel : Nat)
    (exampleset : exampleset_t α) (attrindices indices : List Nat) (nmin numattr : Nat) (g : G)
    (hnodup : attrindices.Nodup) (hlt : ∀ a ∈ attrindices, a < exampleset.attrs.length)
    (hnum : max exampleset.attrs.length 1 ≤ numattr) :
    build_an_extra_tree log2 rng fuel exampleset attrindices indices nmin numattr g =
      build_an_extra_tree log2 rng fuel exampleset attrindices indices nmin
        (max exampleset.attrs.length 1) g := by
  have hlen : attrindices.length ≤ exampleset.attrs.length := by
    have hsub : attrindices ⊆ List.range exampleset.attrs.length :=
      fun a ha => List.mem_range.mpr (hlt a ha)
    have := (List.subperm_of_subset hnodup hsub).length_le
    rwa [List.length_range] at this
  exact build_numattr_irrelevant log2 rng exampleset nmin numattr
    (max exampleset.attrs.length 1) fuel attrindices indices g
    (le_trans hlen (le_trans (le_max_left _ _) hnum)) (le_trans hlen (le_max_left _ _))

end numattr_large


/-- The run on `scenario_stump` with `numattr = 1` when the split value drawn
is `2`. -/
theorem build_scenario_stump_run :
    build_an_extra_tree (Real.logb 2) rng_next 2 scenario_stump [0] [0, 1] 1 1 () =
      some (dectree_t.branch 0 2 (dectree_t.leaf [1, 0]) (dectree_t.leaf [0, 1]), ()) :=
  build_stump_run rng_next scenario_stump () [some 1] [some 3] 1 3 [1, 3] (by decide)
    (by decide) (by decide) (by decide) (by decide) (by decide) (by decide) (by decide)
    (by decide)

/-- Witness for C33: one attribute column and `numattr = 3`; the run is the
run with `numattr = 1` and returns a stump. -/
theorem numattr_above_attribute_count_witness :
    (([0] : List Nat).Nodup ∧ (∀ a ∈ ([0] : List Nat), a < scenario_stump.attrs.length) ∧
      max scenario_stump.attrs.length 1 ≤ 3) ∧
    build_an_extra_tree (Real.logb 2) rng_next 2 scenario_stump [0] [0, 1] 1 3 () =
      some (dectree_t.branch 0 2 (dectree_t.leaf [1, 0]) (dectree_t.leaf [0, 1]), ()) :=
  ⟨⟨by decide, by decide, by decide⟩,
    (numattr_above_attribute_count (Real.logb 2) rng_next 2 scenario_stump [0] [0, 1] 1 3 ()
      (by decide) (by decide) (by decide)).trans build_scenario_stump_run⟩

end nextratrees

/-! The forest classifier on a single tree -/

namespace nextratrees
open ndectree

section single_tree
variable {α : Type} [LinearOrder α]

/-- On a forest of one tree `forest_t::classify` computes what
`classify_from_tree` computes, undefined cases included. -/
theorem classify_single_tree (t : dectree_t α) (indextolabel : List Int) (x : List α) :
    forest_t.classify { trees := [t], indextolabel := indextolabel } x =
      classify_from_tree t indextolabel x := by
  unfold forest_t.classify forest_t.labelcounts classify_from_tree
  simp only [List.foldlM_cons, List.foldlM_nil, classify_step]
  cases hw : dectree_t.walk t x with
  | none => rfl
  | some pc =>
    simp only [Option.bind_eq_bind]
    by_cases hm : maxlabelindex pc.2 < indextolabel.length
    · have h0 : (List.replicate indextolabel.length 0)[maxlabelindex pc.2]? = some 0 := by
        rw [List.getElem?_replicate]
        simp [hm]
      simp only [h0, Option.some_bind, Option.pure_def, Nat.zero_add]
      rw [maxlabelindex_single indextolabel.length (maxlabelindex pc.2) 1 hm (by decide)]
    · have h0 : (List.replicate indextolabel.length 0)[maxlabelindex pc.2]? = none := by
        rw [List.getElem?_replicate]
        simp [hm]
      simp only [h0, Option.none_bind]
      rw [List.getElem?_eq_none (by omega)]

/-- C34: for every tree `t` whose leaves hold at most `|indextolabel|` buckets,
every index-to-label table and every feature vector `x`: `forest_t::classify`
of the forest of the single tree `t` with that table gives the same result as
`classify_from_tree(t, indextolabel, x)`, and when the walk of `x` ends at a
leaf with at least one bucket that result is a label of the table. -/
theorem forest_classifier_replaces_classify_from_tree (t : dectree_t α)
    (indextolabel : List Int) (x : List α)
    (hleaves : ∀ path cf, dectree_t.leaf_at t path = some cf →
      cf.length ≤ indextolabel.length) :
    forest_t.classify { trees := [t], indextolabel := indextolabel } x =
        classify_from_tree t indextolabel x ∧
      ∀ path cf, dectree_t.walk t x = some (path, cf) → cf ≠ [] →
        ∃ label, label ∈ indextolabel ∧ classify_from_tree t indextolabel x = some label ∧
          forest_t.classify { trees := [t], indextolabel := indextolabel } x = some label := by
  have heq := classify_single_tree t indextolabel x
  refine ⟨heq, ?_⟩
  intro path cf hw hne
  have hlen := hleaves path cf (walk_leaf_at t x (path, cf) hw)
  have hm : maxlabelindex cf < cf.length :=
    lowest_max_index_lt cf _ (maxlabelindex_spec cf) (List.length_pos.mpr hne)
  have hlt : maxlabelindex cf < indextolabel.length := by omega
  refine ⟨indextolabel[maxlabelindex cf], List.getElem_mem _, ?_, ?_⟩
  · simp only [classify_from_tree, hw, List.getElem?_eq_getElem hlt]
  · rw [heq]
    simp only [classify_from_tree, hw, List.getElem?_eq_getElem hlt]

end single_tree

/-- Witness for C34: the first stump of `scenario_votes` with the table
`[10, 20]` and the feature vector `[7]`. -/
theorem forest_classifier_replaces_classify_from_tree_witness :
    (∀ path cf, dectree_t.leaf_at
        (dectree_t.branch 0 (5 : Int) (dectree_t.leaf [3, 0]) (dectree_t.leaf [1, 1])) path =
          some cf → cf.length ≤ ([10, 20] : List Int).length) ∧
    forest_t.classify
        { trees := [dectree_t.branch 0 (5 : Int) (dectree_t.leaf [3, 0])
            (dectree_t.leaf [1, 1])],
          indextolabel := [10, 20] } [7] =
      classify_from_tree
        (dectree_t.branch 0 (5 : Int) (dectree_t.leaf [3, 0]) (dectree_t.leaf [1, 1]))
        [10, 20] [7] ∧
    classify_from_tree
        (dectree_t.branch 0 (5 : Int) (dectree_t.leaf [3, 0]) (dectree_t.leaf [1, 1]))
        [10, 20] [7] = some 10 := by
  have hleaves : ∀ path cf, dectree_t.leaf_at
      (dectree_t.branch 0 (5 : Int) (dectree_t.leaf [3, 0]) (dectree_t.leaf [1, 1])) path =
        some cf → cf.length ≤ ([10, 20] : List Int).length := by
    intro path cf h
    rcases path with _ | ⟨b, _ | ⟨b', rest⟩⟩
    · simp [dectree_t.leaf_at] at h
    · cases b <;> simp [dectree_t.leaf_at] at h <;> rw [← h] <;> decide
    · cases b <;> simp [dectree_t.leaf_at] at h
  exact ⟨hleaves,
    (forest_classifier_replaces_classify_from_tree _ [10, 20] [7] hleaves).1, by decide⟩

end nextratrees

/-! The two index subsets of a branch -/

namespace nextratrees
open ndectree

section split_sides
variable {α : Type} [LinearOrder α]

/-- The two sides of a split of `indices` on a column that is defined on them:
disjoint sublists that together hold the entries of `indices`. -/
theorem sides_partition (attr : List α) (s : α) (indices : List Nat)
    (hin : ∀ i ∈ indices, i < attr.length) :
    List.Disjoint (indices.filter (on_side attr s false))
        (indices.filter (on_side attr s true)) ∧
      List.Sublist (indices.filter (on_side attr s false)) indices ∧
      List.Sublist (indices.filter (on_side attr s true)) indices ∧
      List.Perm (indices.filter (on_side attr s false) ++ indices.filter (on_side attr s true))
        indices := by
  have hnot : ∀ i ∈ indices, on_side attr s true i = !on_side attr s false i := by
    intro i hi
    have hlt := hin i hi
    simp only [on_side, List.getElem?_eq_getElem hlt]
    cases decide (attr[i] ≥ s) <;> rfl
  refine ⟨?_, List.filter_sublist _, List.filter_sublist _, ?_⟩
  · rw [List.disjoint_left]
    intro i h1 h2
    have e1 := (List.mem_filter.mp h1).2
    have e2 := (List.mem_filter.mp h2).2
    rw [hnot i (List.mem_filter.mp h1).1, e1] at e2
    cases e2
  · rw [List.filter_congr hnot]
    exact List.filter_append_perm _ _

/-- A split value equal to the minimum of the column over `indices` sends
every entry to the right side. -/
theorem sides_at_min (attr : List α) (indices : List Nat) (mm : α × α)
    (hmm : attr_minmax attr indices = some mm) :
    indices.filter (on_side attr mm.1 false) = [] ∧
      indices.filter (on_side attr mm.1 true) = indices := by
  obtain ⟨_, hb, _, _⟩ := attr_minmax_spec attr indices mm hmm
  constructor
  · rw [List.filter_eq_nil_iff]
    intro i hi
    obtain ⟨a, ha, hlo, _⟩ := hb i hi
    rw [on_side_false_iff attr mm.1 a i ha]
    exact not_lt.mpr hlo
  · rw [List.filter_eq_self]
    intro i hi
    obtain ⟨a, ha, hlo, _⟩ := hb i hi
    rw [on_side_true_iff attr mm.1 a i ha]
    exact not_lt.mpr hlo

end split_sides

section claim_sides
variable {α : Type} [LinearOrder α] [Zero α]
variable {R : Type} [NatCast R] [Zero R] [One R] [Add R] [Sub R] [Mul R] [Div R] [Neg R]
  [LT R] [DecidableRel (fun a b : R => a < b)]
variable {G : Type}

/-- C35: for every branch built by `build_an_extra_tree`, with the chosen
attribute `j`, the split value `s`, and `min`, `max` of column `j` over `I`:
the children are built on the index lists `I_L`, `I_R` of the split; if
`min < s ≤ max` both are non-empty and shorter than `I`; if `s = min` then
`I_L` is empty and `I_R = I`; in all cases `I_L` and `I_R` are disjoint, keep
the order of `I` (they are sublists of it), and together hold exactly the
entries of `I`. -/
theorem branch_sides (log2 : R → R) (rng : twister_t G α) (fuel : Nat)
    (exampleset : exampleset_t α) (attrindices indices : List Nat) (nmin numattr : Nat)
    (g g' : G) (j : Nat) (s : α) (l r : dectree_t α)
    (hbuild : build_an_extra_tree log2 rng (fuel + 1) exampleset attrindices indices nmin
      numattr g = some (dectree_t.branch j s l r, g')) :
    ∃ attr mm attrs leftindices rightindices g2 g3,
      exampleset.attrs[j]? = some attr ∧ attr_minmax attr indices = some mm ∧
      split_indices attr s indices = some (leftindices, rightindices) ∧
      build_an_extra_tree log2 rng fuel exampleset attrs leftindices nmin numattr g2 =
        some (l, g3) ∧
      build_an_extra_tree log2 rng fuel exampleset attrs rightindices nmin numattr g3 =
        some (r, g') ∧
      (mm.1 < s → s ≤ mm.2 →
        leftindices ≠ [] ∧ rightindices ≠ [] ∧ leftindices.length < indices.length ∧
          rightindices.length < indices.length) ∧
      (s = mm.1 → leftindices = [] ∧ rightindices = indices) ∧
      List.Disjoint leftindices rightindices ∧
      List.Sublist leftindices indices ∧ List.Sublist rightindices indices ∧
      List.Perm (leftindices ++ rightindices) indices := by
  obtain ⟨classfreqs, _, hcase⟩ := build_an_extra_tree_cases log2 rng fuel exampleset
    attrindices indices nmin numattr g g' _ hbuild
  rcases hcase with ⟨hleaf, _⟩ | ⟨mins, maxs, attrcandidates, attrs, g1, bestattr, bestsplit,
    bestscore, g2, attr, leftindices, rightindices, left, g3, right, _, _, hcc, _, hpick,
    hchoose, hattr, hsplit, hleft, hright, ht⟩
  · cases hleaf
  · injection ht with e1 e2 e3 e4
    subst e1
    subst e2
    subst e3
    subst e4
    obtain ⟨hcells, hcands⟩ :=
      collect_candidates_spec exampleset attrindices indices mins maxs attrcandidates hcc
    have hj : j ∈ attrs := choose_split_mem log2 rng exampleset indices mins maxs attrs g1 _
      hchoose
    have hjA : j ∈ attrindices :=
      (hcands j (pick_attrs_subset rng attrcandidates numattr g g1 attrs hpick j hj)).1
    obtain ⟨attr', mm, hattr', hmm, _, _⟩ := hcells j hjA
    rw [hattr] at hattr'
    have he : attr = attr' := Option.some.inj hattr'
    subst he
    obtain ⟨hin, hL, hR⟩ := split_indices_inv attr s indices _ hsplit
    simp only at hL hR
    obtain ⟨hdis, hsubL, hsubR, hperm⟩ := sides_partition attr s indices hin
    refine ⟨attr, mm, attrs, leftindices, rightindices, g2, g3, hattr, hmm, hsplit, hleft,
      hright, ?_, ?_, by rw [hL, hR]; exact hdis, by rw [hL]; exact hsubL,
      by rw [hR]; exact hsubR, by rw [hL, hR]; exact hperm⟩
    · intro hlo hhi
      obtain ⟨h1, h2, h3⟩ := both_sides_nonempty attr indices mm s hmm hlo hhi
      rw [← hL] at h1 h3
      rw [← hR] at h2 h3
      exact ⟨List.length_pos.mp h1, List.length_pos.mp h2, by omega, by omega⟩
    · intro hs
      rw [hL, hR, hs]
      exact sides_at_min attr indices mm hmm

/-- Witness for C35: the branch built on scenario S1 with the split value 1
drawn for attribute 0 (minimum 0, maximum 1). -/
theorem branch_sides_witness :
    build_an_extra_tree (Real.logb 2) rng_max 2 scenario_S1 [0, 1] [0, 1, 2, 3] 1 1 () =
        some (dectree_t.branch 0 1 (dectree_t.leaf [2, 0]) (dectree_t.leaf [0, 2]), ()) ∧
    attr_minmax [(0 : Int), 0, 1, 1] [0, 1, 2, 3] = some (0, 1) ∧
    split_indices [(0 : Int), 0, 1, 1] 1 [0, 1, 2, 3] = some ([0, 1], [2, 3]) ∧
    ∃ attr mm attrs leftindices rightindices g2 g3,
      scenario_S1.attrs[0]? = some attr ∧ attr_minmax attr [0, 1, 2, 3] = some mm ∧
      split_indices attr 1 [0, 1, 2, 3] = some (leftindices, rightindices) ∧
      build_an_extra_tree (Real.logb 2) rng_max 1 scenario_S1 attrs leftindices 1 1 g2 =
        some (dectree_t.leaf [2, 0], g3) ∧
      build_an_extra_tree (Real.logb 2) rng_max 1 scenario_S1 attrs rightindices 1 1 g3 =
        some (dectree_t.leaf [0, 2], ()) ∧
      (mm.1 < 1 → 1 ≤ mm.2 →
        leftindices ≠ [] ∧ rightindices ≠ [] ∧
          leftindices.length < ([0, 1, 2, 3] : List Nat).length ∧
          rightindices.length < ([0, 1, 2, 3] : List Nat).length) ∧
      ((1 : Int) = mm.1 → leftindices = [] ∧ rightindices = [0, 1, 2, 3]) ∧
      List.Disjoint leftindices rightindices ∧
      List.Sublist leftindices [0, 1, 2, 3] ∧ List.Sublist rightindices [0, 1, 2, 3] ∧
      List.Perm (leftindices ++ rightindices) [0, 1, 2, 3] :=
  ⟨build_S1_run, by decide, by decide,
    branch_sides (Real.logb 2) rng_max 1 scenario_S1 [0, 1] [0, 1, 2, 3] 1 1 () () 0 1
      (dectree_t.leaf [2, 0]) (dectree_t.leaf [0, 2]) build_S1_run⟩

end claim_sides
end nextratrees

/-! No undefined access in the tree builder -/

namespace nextratrees
open ndectree

section build_safety
variable {α : Type} [LinearOrder α]
variable {R : Type} [NatCast R] [Zero R] [One R] [Add R] [Sub R] [Mul R] [Div R] [Neg R]
  [LT R] [DecidableRel (fun a b : R => a < b)]
variable {G : Type}

/-- One pass of the best-split loop is defined at an attribute whose `mins` and
`maxs` cells were written and whose column and labels are defined on
`indices`. -/
theorem choose_split_step_some (log2 : R → R) (rng : twister_t G α)
    (exampleset : exampleset_t α) (indices : List Nat) (mins maxs : List (Option α))
    (st : (Nat × α × R) × G) (ai : Nat)
    (h : ∃ mn mx attr, mins[ai]? = some (some mn) ∧ maxs[ai]? = some (some mx) ∧
      exampleset.attrs[ai]? = some attr ∧ ∀ i ∈ indices, i < attr.length ∧
        ∃ lb, exampleset.labels[i]? = some lb ∧ lb < exampleset.numclasses) :
    ∃ st', choose_split_step log2 rng exampleset indices mins maxs st ai = some st' := by
  obtain ⟨mn, mx, attr, hmn, hmx, hattr, hrange⟩ := h
  have hs := score_eq_of_counts log2 attr exampleset.labels exampleset.numclasses indices
    (rng.urand mn mx st.2).1 hrange
  simp only [choose_split_step, hmn, hmx, hattr, hs]
  split
  · exact ⟨_, rfl⟩
  · exact ⟨_, rfl⟩

/-- The best-split loop is defined over attributes whose cells were written. -/
theorem choose_split_fold_some (log2 : R → R) (rng : twister_t G α)
    (exampleset : exampleset_t α) (indices : List Nat) (mins maxs : List (Option α)) :
    ∀ (l : List Nat) (st : (Nat × α × R) × G),
      (∀ ai ∈ l, ∃ mn mx attr, mins[ai]? = some (some mn) ∧ maxs[ai]? = some (some mx) ∧
        exampleset.attrs[ai]? = some attr ∧ ∀ i ∈ indices, i < attr.length ∧
          ∃ lb, exampleset.labels[i]? = some lb ∧ lb < exampleset.numclasses) →
      ∃ st', l.foldlM (choose_split_step log2 rng exampleset indices mins maxs) st =
        some st' := by
  intro l
  induction l with
  | nil =>
    intro st _
    exact ⟨st, rfl⟩
  | cons ai rest ih =>
    intro st h
    obtain ⟨st1, hstep⟩ := choose_split_step_some log2 rng exampleset indices mins maxs st ai
      (h ai (List.mem_cons_self _ _))
    obtain ⟨st', hfold⟩ := ih st1 (fun a ha => h a (List.mem_cons_of_mem _ ha))
    refine ⟨st', ?_⟩
    simp only [List.foldlM_cons, hstep, Option.bind_eq_bind, Option.some_bind]
    exact hfold

variable [Zero α]

/-- The best-split block is defined when the sampled list is non-empty and the
cells of its attributes were written. -/
theorem choose_split_some (log2 : R → R) (rng : twister_t G α)
    (exampleset : exampleset_t α) (indices : List Nat) (mins maxs : List (Option α))
    (attrs : List Nat) (g : G) (hne : attrs ≠ [])
    (h : ∀ ai ∈ attrs, ∃ mn mx attr, mins[ai]? = some (some mn) ∧
      maxs[ai]? = some (some mx) ∧ exampleset.attrs[ai]? = some attr ∧
      ∀ i ∈ indices, i < attr.length ∧
        ∃ lb, exampleset.labels[i]? = some lb ∧ lb < exampleset.numclasses) :
    ∃ st, choose_split log2 rng exampleset indices mins maxs attrs g = some st := by
  unfold choose_split
  cases attrs with
  | nil => exact absurd rfl hne
  | cons a0 rest =>
    simp only [List.getElem?_cons_zero]
    exact choose_split_fold_some log2 rng exampleset indices mins maxs _ _ h

/-- With `nmin ≥ 1` and `numattr ≥ 1` a call of the builder on indices with
labels below `numclasses` and attributes whose columns are defined on the
indices never ends in an undefined operation. -/
theorem build_outcome_defined (log2 : R → R) (rng : twister_t G α)
    (exampleset : exampleset_t α) (nmin numattr : Nat) (hnmin : 1 ≤ nmin)
    (hnumattr : 1 ≤ numattr) :
    ∀ (fuel : Nat) (attrindices indices : List Nat) (g : G),
      (∀ i ∈ indices, ∃ l, exampleset.labels[i]? = some l ∧ l < exampleset.numclasses) →
      (∀ ai ∈ attrindices,
        ∃ attr, exampleset.attrs[ai]? = some attr ∧ ∀ i ∈ indices, i < attr.length) →
      build_outcome log2 rng fuel exampleset attrindices indices nmin numattr g ≠
        outcome_t.undefined := by
  intro fuel
  induction fuel with
  | zero =>
    intro _ _ _ _ _
    rw [build_outcome]
    exact fun h => outcome_t.noConfusion h
  | succ fuel ih =>
    intro attrindices indices g hlab hattr
    rw [build_outcome]
    simp only [count_classfreqs_eq exampleset indices hlab]
    by_cases h1 : indices.length < nmin
    · simp only [h1, if_true]
      exact fun h => outcome_t.noConfusion h
    · simp only [h1, if_false]
      by_cases h2 : numclassesnonzero (label_histogram exampleset indices) = 1
      · simp only [h2, if_true]
        exact fun h => outcome_t.noConfusion h
      · simp only [h2, if_false]
        have hne : indices ≠ [] := by
          intro h
          apply h1
          rw [h]
          exact hnmin
        obtain ⟨⟨mins, maxs, attrcandidates⟩, hcc⟩ :=
          collect_candidates_some exampleset attrindices indices hne hattr
        obtain ⟨hcells, hcands⟩ :=
          collect_candidates_spec exampleset attrindices indices mins maxs attrcandidates hcc
        simp only [hcc]
        by_cases h3 : attrcandidates.length < 1
        · simp only [h3, if_true]
          exact fun h => outcome_t.noConfusion h
        · simp only [h3, if_false]
          have hcne : attrcandidates ≠ [] := by
            intro h
            apply h3
            rw [h]
            exact Nat.zero_lt_one
          obtain ⟨attrs, g1, hpick, hane, hsub⟩ :=
            pick_attrs_spec rng attrcandidates numattr g hnumattr hcne
          simp only [hpick]
          have hattrs : ∀ ai ∈ attrs, ∃ mn mx attr, mins[ai]? = some (some mn) ∧
              maxs[ai]? = some (some mx) ∧ exampleset.attrs[ai]? = some attr ∧
              ∀ i ∈ indices, i < attr.length ∧
                ∃ lb, exampleset.labels[i]? = some lb ∧ lb < exampleset.numclasses := by
            intro ai hai
            have hmem := (hcands ai (hsub ai hai)).1
            obtain ⟨attr, mm, e1, _, e3, e4⟩ := hcells ai hmem
            obtain ⟨attr', e1', hin⟩ := hattr ai hmem
            rw [e1] at e1'
            cases e1'
            exact ⟨mm.1, mm.2, attr, e3, e4, e1, fun i hi => ⟨hin i hi, hlab i hi⟩⟩
          obtain ⟨st, hchoose⟩ :=
            choose_split_some log2 rng exampleset indices mins maxs attrs g1 hane hattrs
          have hba := choose_split_mem log2 rng exampleset indices mins maxs attrs g1 st hchoose
          obtain ⟨⟨bestattr, bestsplit, bestscore⟩, g2⟩ := st
          simp only at hba
          simp only [hchoose]
          obtain ⟨attr, e1, hin⟩ := hattr bestattr (hcands bestattr (hsub bestattr hba)).1
          simp only [e1, split_indices_eq attr bestsplit indices hin]
          have hchild : ∀ (sub : List Nat), (∀ i ∈ sub, i ∈ indices) →
              (∀ i ∈ sub, ∃ l, exampleset.labels[i]? = some l ∧ l < exampleset.numclasses) ∧
              (∀ ai ∈ attrs, ∃ attr, exampleset.attrs[ai]? = some attr ∧
                ∀ i ∈ sub, i < attr.length) := by
            intro sub hsubset
            refine ⟨fun i hi => hlab i (hsubset i hi), ?_⟩
            intro ai hai
            obtain ⟨_, _, attr, _, _, e, hin'⟩ := hattrs ai hai
            exact ⟨attr, e, fun i hi => (hin' i (hsubset i hi)).1⟩
          obtain ⟨hlabL, hattrL⟩ := hchild (indices.filter (on_side attr bestsplit false))
            (fun i hi => (List.mem_filter.mp hi).1)
          obtain ⟨hlabR, hattrR⟩ := hchild (indices.filter (on_side attr bestsplit true))
            (fun i hi => (List.mem_filter.mp hi).1)
          cases hleft : build_an_extra_tree log2 rng fuel exampleset attrs
              (indices.filter (on_side attr bestsplit false)) nmin numattr g2 with
          | none =>
            simp only []
            exact ih attrs _ g2 hlabL hattrL
          | some r =>
            obtain ⟨t, g3⟩ := r
            simp only []
            exact ih attrs _ g3 hlabR hattrR

/-- The builder returns a tree exactly when its outcome is `returned`. -/
theorem build_outcome_returned (log2 : R → R) (rng : twister_t G α)
    (exampleset : exampleset_t α) (nmin numattr : Nat) :
    ∀ (fuel : Nat) (attrindices indices : List Nat) (g : G),
      (build_an_extra_tree log2 rng fuel exampleset attrindices indices nmin numattr
          g).isSome = true ↔
        build_outcome log2 rng fuel exampleset attrindices indices nmin numattr g =
          outcome_t.returned := by
  intro fuel
  induction fuel with
  | zero =>
    intro _ _ _
    rw [build_outcome, build_an_extra_tree]
    simp
  | succ fuel ih =>
    intro attrindices indices g
    rw [build_outcome, build_an_extra_tree]
    cases count_classfreqs exampleset indices with
    | none => simp
    | some cf =>
      simp only []
      by_cases h1 : indices.length < nmin
      · simp [h1]
      · simp only [h1, if_false]
        by_cases h2 : numclassesnonzero cf = 1
        · simp [h2]
        · simp only [h2, if_false]
          cases collect_candidates exampleset attrindices indices with
          | none => simp
          | some r =>
            obtain ⟨mins, maxs, attrcandidates⟩ := r
            simp only []
            by_cases h3 : attrcandidates.length < 1
            · simp [h3]
            · simp only [h3, if_false]
              cases pick_attrs rng attrcandidates numattr g with
              | none => simp
              | some r1 =>
                obtain ⟨attrs, g1⟩ := r1
                simp only []
                cases choose_split log2 rng exampleset indices mins maxs attrs g1 with
                | none => simp
                | some st =>
                  obtain ⟨⟨bestattr, bestsplit, bestscore⟩, g2⟩ := st
                  simp only []
                  cases exampleset.attrs[bestattr]? with
                  | none => simp
                  | some attr =>
                    simp only []
                    cases split_indices attr bestsplit indices with
                    | none => simp
                    | some lr =>
                      obtain ⟨leftindices, rightindices⟩ := lr
                      simp only []
                      have ihl := ih attrs leftindices g2
                      cases hleft : build_an_extra_tree log2 rng fuel exampleset attrs
                          leftindices nmin numattr g2 with
                      | none =>
                        rw [hleft] at ihl
                        simp only []
                        constructor
                        · intro h
                          simp at h
                        · intro h
                          have := ihl.mpr h
                          simp at this
                      | some r2 =>
                        obtain ⟨left, g3⟩ := r2
                        simp only []
                        have ihr := ih attrs rightindices g3
                        cases hright : build_an_extra_tree log2 rng fuel exampleset attrs
                            rightindices nmin numattr g3 with
                        | none =>
                          rw [hright] at ihr
                          simp only []
                          constructor
                          · intro h
                            simp at h
                          · intro h
                            have := ihr.mpr h
                            simp at this
                        | some r3 =>
                          obtain ⟨right, g4⟩ := r3
                          rw [hright] at ihr
                          simp only []
                          constructor
                          · intro _
                            exact ihr.mp rfl
                          · intro _
                            rfl

end build_safety

end nextratrees

/-! The accesses of the tree builder stay in range -/

namespace nextratrees
open ndectree

section build_in_range
variable {α : Type} [LinearOrder α] [Zero α]
variable {R : Type} [NatCast R] [Zero R] [One R] [Add R] [Sub R] [Mul R] [Div R] [Neg R]
  [LT R] [DecidableRel (fun a b : R => a < b)]
variable {G : Type}

/-- Claim C36: for a column-form example set whose columns all have the length
`N` of the label column and whose label indices are all below `numclasses`,
attribute indices `A` below `F`, example indices `I` below `N`, `nmin ≥ 1` and
`numattr ≥ 1`, a call of `build_an_extra_tree` reaches no undefined access,
whatever the recursion bound and the generator: `indices[0]`, `attrs[0]` and
the cells of `mins` and `maxs` are read only where they exist, and the call
fails to return a tree only when the recursion bound of the embedding is used
up. -/
theorem build_accesses_in_range (log2 : R → R) (rng : twister_t G α) (fuel : Nat)
    (exampleset : exampleset_t α) (attrindices indices : List Nat) (nmin numattr : Nat) (g : G)
    (hcols : ∀ col ∈ exampleset.attrs, col.length = exampleset.labels.length)
    (hlabels : ∀ l ∈ exampleset.labels, l < exampleset.numclasses)
    (hattrs : ∀ a ∈ attrindices, a < exampleset.attrs.length)
    (hindices : ∀ i ∈ indices, i < exampleset.labels.length)
    (hnmin : 1 ≤ nmin) (hnumattr : 1 ≤ numattr) :
    build_outcome log2 rng fuel exampleset attrindices indices nmin numattr g ≠
        outcome_t.undefined ∧
      (build_an_extra_tree log2 rng fuel exampleset attrindices indices nmin numattr g = none →
        build_outcome log2 rng fuel exampleset attrindices indices nmin numattr g =
          outcome_t.out_of_fuel) := by
  have hlab : ∀ i ∈ indices,
      ∃ l, exampleset.labels[i]? = some l ∧ l < exampleset.numclasses := by
    intro i hi
    have hlt := hindices i hi
    exact ⟨exampleset.labels[i], List.getElem?_eq_getElem hlt,
      hlabels _ (List.getElem_mem hlt)⟩
  have hattr : ∀ ai ∈ attrindices,
      ∃ attr, exampleset.attrs[ai]? = some attr ∧ ∀ i ∈ indices, i < attr.length := by
    intro ai hai
    have hlt := hattrs ai hai
    refine ⟨exampleset.attrs[ai], List.getElem?_eq_getElem hlt, ?_⟩
    intro i hi
    rw [hcols _ (List.getElem_mem hlt)]
    exact hindices i hi
  have hdef := build_outcome_defined log2 rng exampleset nmin numattr hnmin hnumattr fuel
    attrindices indices g hlab hattr
  refine ⟨hdef, ?_⟩
  intro hnone
  have hret := build_outcome_returned log2 rng exampleset nmin numattr fuel attrindices indices g
  rw [hnone] at hret
  cases hout : build_outcome log2 rng fuel exampleset attrindices indices nmin numattr g with
  | returned =>
    have := hret.mpr hout
    simp at this
  | out_of_fuel => rfl
  | undefined => exact absurd hout hdef

end build_in_range

/-- On scenario S1 with `nmin = 1` and `numattr = 1` the call reaches no
undefined access; with `nmin = 0` and no indices the minimum of a column is
read at `indices[0]`, and with `numattr = 0` and two non-constant attributes
`attrs[0]` is read from an empty sample. -/
theorem build_accesses_in_range_witness :
    (∀ col ∈ scenario_S1.attrs, col.length = scenario_S1.labels.length) ∧
      (∀ l ∈ scenario_S1.labels, l < scenario_S1.numclasses) ∧
      (build_outcome (Real.logb 2) rng_max 2 scenario_S1 [0, 1] [0, 1, 2, 3] 1 1 () ≠
          outcome_t.undefined ∧
        (build_an_extra_tree (Real.logb 2) rng_max 2 scenario_S1 [0, 1] [0, 1, 2, 3] 1 1 () =
            none →
          build_outcome (Real.logb 2) rng_max 2 scenario_S1 [0, 1] [0, 1, 2, 3] 1 1 () =
            outcome_t.out_of_fuel)) ∧
      build_outcome (Real.logb 2) rng_max 1 scenario_S1 [0, 1] [] 0 1 () =
        outcome_t.undefined ∧
      build_outcome (Real.logb 2) rng_max 1 scenario_S1 [0, 1] [0, 1, 2, 3] 1 0 () =
        outcome_t.undefined := by
  refine ⟨by decide, by decide,
    build_accesses_in_range (Real.logb 2) rng_max 2 scenario_S1 [0, 1] [0, 1, 2, 3] 1 1 ()
      (by decide) (by decide) (by decide) (by decide) (by decide) (by decide), ?_, ?_⟩
  · have hcf : count_classfreqs scenario_S1 [] = some [0, 0] := by decide
    have hn : numclassesnonzero [0, 0] = 0 := by decide
    have hcc : collect_candidates scenario_S1 [0, 1] [] = none := by decide
    rw [build_outcome]
    simp only [hcf, hn, hcc]
    decide
  · have hcf : count_classfreqs scenario_S1 [0, 1, 2, 3] = some [2, 2] := by decide
    have hn : numclassesnonzero [2, 2] = 2 := by decide
    have hcc : collect_candidates scenario_S1 [0, 1] [0, 1, 2, 3] =
        some ([some 0, some 0], [some 1, some 1], [0, 1]) := by decide
    have hpick : pick_attrs rng_max [0, 1] 0 () = some ([], ()) := by decide
    have hchoose : choose_split (Real.logb 2) rng_max scenario_S1 [0, 1, 2, 3]
        [some 0, some 0] [some 1, some 1] [] () = none := rfl
    rw [build_outcome]
    simp only [hcf, hn, hcc, hpick, hchoose]
    decide

end nextratrees

/-! Classification with a trained forest stays in range -/

namespace nextratrees
open ndectree

section trained_forest
variable {α : Type} [LinearOrder α] [Zero α]
variable {R : Type} [NatCast R] [Zero R] [One R] [Add R] [Sub R] [Mul R] [Div R] [Neg R]
  [LT R] [DecidableRel (fun a b : R => a < b)]
variable {G : Type}

/-- A tree whose tested attributes are all below `F` has every `attrindex`
below `F`. -/
theorem attrs_lt_of_attrindices {β : Type} (F : Nat) :
    ∀ t : dectree_t β, (∀ a ∈ dectree_t.attrindices t, a < F) → dectree_t.attrs_lt t F := by
  intro t
  induction t with
  | leaf cf =>
    intro _
    exact True.intro
  | branch ai s l r ihl ihr =>
    intro h
    simp only [dectree_t.attrindices, List.mem_cons, List.mem_append] at h
    exact ⟨h ai (Or.inl rfl), ihl (fun a ha => h a (Or.inr (Or.inl ha))),
      ihr (fun a ha => h a (Or.inr (Or.inr ha)))⟩

theorem make_exset_attrnames {β : Type} (training : cexampleset β) (exset : exampleset_t β)
    (h : make_exset training = some exset) :
    exset.attrnames = training.names := by
  unfold make_exset at h
  cases hc : copy_attrs training with
  | none => simp [hc] at h
  | some attrs =>
    simp only [hc, Option.some.injEq] at h
    rw [← h]

/-- Every tree of a forest returned by `build_an_extra_ensemble` tests only
attributes below the number of declared features. -/
theorem build_an_extra_ensemble_attrs_lt (log2 : R → R) (rng : twister_t G α) (fuel : Nat)
    (training : cexampleset α) (numtrees nmin numattr : Nat) (g g' : G) (forest : forest_t α)
    (h : build_an_extra_ensemble log2 rng fuel training numtrees nmin numattr g =
      some (forest, g')) :
    ∀ t ∈ forest.trees, dectree_t.attrs_lt t training.names.length := by
  cases hmk : make_exset training with
  | none => simp [build_an_extra_ensemble, hmk] at h
  | some exset =>
    rw [build_an_extra_ensemble_eq log2 rng fuel training exset numtrees nmin numattr g hmk,
      Option.map_eq_some'] at h
    obtain ⟨p, hp, he⟩ := h
    have hf : forest = { trees := p.1, indextolabel := training.labelset } :=
      (congrArg Prod.fst he).symm
    obtain ⟨_, hmem⟩ := build_trees_mem log2 rng fuel exset _ _ nmin numattr numtrees g
      p.1 p.2 hp
    rw [hf]
    intro t ht
    obtain ⟨g0, g1, hb⟩ := hmem t ht
    apply attrs_lt_of_attrindices
    intro a ha
    have := build_attrindices_subset log2 rng exset nmin numattr fuel _ _ g0 g1 t hb a ha
    rw [make_exset_attrnames training exset hmk] at this
    exact List.mem_range.mp this

/-- Claim C37: for a forest returned by `build_an_extra_ensemble` from a
training set with `N ≥ 1` examples whose labels all occur in the labelset of
`K` labels, and a query vector of length `F`, `forest_t::classify` reaches no
out-of-range access: every `attrindex` is below `F`, every leaf histogram has
exactly `K` buckets, every tree's walk ends at a leaf whose vote index is
below `K`, the tally is defined, and the result is a member of the training
labelset. -/
theorem classify_of_trained_forest_in_range (log2 : R → R) (rng : twister_t G α) (fuel : Nat)
    (training : cexampleset α) (numtrees nmin numattr : Nat) (g g' : G) (forest : forest_t α)
    (x : List α)
    (hbuild : build_an_extra_ensemble log2 rng fuel training numtrees nmin numattr g =
      some (forest, g'))
    (hN : 1 ≤ training.labels.length)
    (hlabelset : ∀ l ∈ training.labels, l ∈ training.labelset)
    (hx : x.length = training.names.length) :
    (∀ t ∈ forest.trees, dectree_t.attrs_lt t training.names.length ∧
        dectree_t.leaves_have t training.labelset.length ∧
        ∃ pc, dectree_t.walk t x = some pc ∧ maxlabelindex pc.2 < training.labelset.length) ∧
      (∃ labelcounts, forest.labelcounts x = some labelcounts ∧
        maxlabelindex labelcounts < forest.indextolabel.length) ∧
      ∃ label, forest.classify x = some label ∧ label ∈ training.labelset := by
  obtain ⟨hidx, _, hleaves⟩ := build_an_extra_ensemble_shape log2 rng fuel training numtrees
    nmin numattr g g' forest hbuild
  have hattrs := build_an_extra_ensemble_attrs_lt log2 rng fuel training numtrees nmin numattr
    g g' forest hbuild
  have hK : 1 ≤ training.labelset.length := by
    cases hl : training.labels with
    | nil =>
      rw [hl] at hN
      simp at hN
    | cons l rest =>
      have hmem := hlabelset l (by rw [hl]; exact List.mem_cons_self _ _)
      exact List.length_pos_of_mem hmem
  have hlen : forest.indextolabel.length = training.labelset.length := by rw [hidx]
  have hwalk : ∀ t ∈ forest.trees, ∃ pc, dectree_t.walk t x = some pc := by
    intro t ht
    have := hattrs t ht
    rw [← hx] at this
    exact dectree_t.walk_total t x this
  have hlc := labelcounts_eq forest x training.labelset.length hK hlen hleaves hwalk
  have htally : maxlabelindex (vote_tally training.labelset.length forest.trees (tree_vote x)) <
      training.labelset.length := by
    have := lowest_max_index_lt _ _
      (maxlabelindex_spec (vote_tally training.labelset.length forest.trees (tree_vote x)))
      (by simp only [vote_tally, List.length_map, List.length_range]; exact hK)
    simpa only [vote_tally, List.length_map, List.length_range] using this
  refine ⟨?_, ⟨_, hlc, by rw [hlen]; exact htally⟩, ?_⟩
  · intro t ht
    refine ⟨hattrs t ht, hleaves t ht, ?_⟩
    obtain ⟨pc, hw⟩ := hwalk t ht
    refine ⟨pc, hw, ?_⟩
    have hr := dectree_t.reaches_of_walk t x pc hw
    have hl := dectree_t.reaches_leaves_have t x pc.2 _ hr (hleaves t ht)
    have := lowest_max_index_lt pc.2 _ (maxlabelindex_spec pc.2) (by omega)
    omega
  · have hc := classify_of_walks forest x training.labelset.length hK hlen hleaves hwalk
    have hlt : maxlabelindex (vote_tally training.labelset.length forest.trees (tree_vote x)) <
        forest.indextolabel.length := by rw [hlen]; exact htally
    refine ⟨forest.indextolabel[maxlabelindex
      (vote_tally training.labelset.length forest.trees (tree_vote x))], ?_, ?_⟩
    · rw [hc]
      exact List.getElem?_eq_getElem hlt
    · have hmem : ∀ (l : List Int), l = training.labelset → ∀ (m : Nat) (h : m < l.length),
          l[m] ∈ training.labelset := by
        intro l hl m h
        rw [← hl]
        exact List.getElem_mem h
      exact hmem forest.indextolabel hidx _ hlt

end trained_forest

/-- The forest built on two training rows `(1, 0)` and `(3, 1)` classifies the
query `(5)` without an out-of-range access, as label `1`. -/
theorem classify_of_trained_forest_in_range_witness :
    ((∀ t ∈ forest_near.trees, dectree_t.attrs_lt t scenario_near.names.length ∧
        dectree_t.leaves_have t scenario_near.labelset.length ∧
        ∃ pc, dectree_t.walk t [5] = some pc ∧
          maxlabelindex pc.2 < scenario_near.labelset.length) ∧
      (∃ labelcounts, forest_near.labelcounts [5] = some labelcounts ∧
        maxlabelindex labelcounts < forest_near.indextolabel.length) ∧
      ∃ label, forest_near.classify [5] = some label ∧ label ∈ scenario_near.labelset) ∧
      forest_near.classify [5] = some 1 :=
  ⟨classify_of_trained_forest_in_range (Real.logb 2) rng_next 2 scenario_near 1 1 1 () ()
    forest_near [5] build_near_run (by decide) (by decide) (by decide), by decide⟩

end nextratrees

